import Mathlib

/-!
# Verification of the nonlocal finite-element core

Shallow embedding of

* `libraries/mesh/mesh_2d/cuthill_mckee.hpp` (connectivity graph in CSR form and the
  Cuthill–McKee numbering), namespace `CuthillMcKee`;
* `src/static_analysis.cpp` (triplet assembly of the stiffness matrix of the mechanical
  problem and the boundary conditions of its right-hand side), namespace
  `statics_with_nonloc`;
* `libraries/json_parser/general_config_data.hpp` (the model part of the configuration),
  namespace `config`;
* `libraries/solvers/solver_1d/thermal/heat_equation_solution_1d.hpp` (the flux of a
  one-dimensional heat equation solution), namespace `thermal`;
* `include/metamath/finite_element/element_2d_strategy/qubic_serendipity.hpp` (the basis
  of the cubic serendipity element), namespace `finite_element`;
* `include/mesh/save_results.hpp` (the export of a mesh in the VTK format), namespace
  `mesh_2d`;
* `libraries/solvers/solver_2d/mechanical/temperature_condition_2d.hpp` (the thermal load
  of the mechanical problem), namespace `mechanical`.

Conventions of the embedding.

* `std::vector<T>` is `List T`; a read `v[i]` is `v.getD i d` and a write `v[i] = x` is
  `v.set i x`.  Reads and writes outside the bounds are undefined in the source; the
  theorems carry the well-formedness hypotheses that keep every access in bounds.
* Index types (`size_t`, the template parameter `I`) are `Nat`; the entries of the
  permutation, which start at `I{-1}`, are `Int`.
* `double` is an arbitrary linearly ordered field `F` (exact arithmetic); concrete
  evaluations take `F = ℚ`, and integrals are taken over `F = ℝ`.
-/

set_option autoImplicit false

namespace CuthillMcKee

/-! ## Data model -/

/-- The struct `node_graph<I>`: a graph in compressed-sparse-row form.  The neighbours of
`node` are `indices[shifts[node]], …, indices[shifts[node+1]-1]`. -/
structure node_graph where
  shifts : List Nat
  indices : List Nat
deriving DecidableEq

/-- The number of nodes, `graph.shifts.size() - 1`. -/
def node_graph.nodes_count (graph : node_graph) : Nat :=
  graph.shifts.length - 1

/-- The member `node_graph::neighbours_count`: `shifts[node + 1] - shifts[node]`. -/
def node_graph.neighbours_count (graph : node_graph) (node : Nat) : Nat :=
  graph.shifts.getD (node + 1) 0 - graph.shifts.getD node 0

/-- The neighbours of `node` in storage order: the values `graph.indices[shift]` read by the
loop `for (shift = shifts[node]; shift < shifts[node+1]; ++shift)`. -/
def node_graph.row (graph : node_graph) (node : Nat) : List Nat :=
  (List.range' (graph.shifts.getD node 0)
      (graph.shifts.getD (node + 1) 0 - graph.shifts.getD node 0)).map
    (fun shift => graph.indices.getD shift 0)

/-! ## `node_with_minimum_neighbours` -/

/-- The body of the loop of `node_with_minimum_neighbours`; the accumulator is the pair
`(curr_node, min_neighbours_count)`. -/
def min_neighbours_step (graph : node_graph) (acc : Nat × Nat) (node : Nat) : Nat × Nat :=
  if graph.neighbours_count node < acc.2 then (node, graph.neighbours_count node) else acc

/-- The function `node_with_minimum_neighbours`.  `imax` is
`std::numeric_limits<I>::max()`, the only way the index type `I` enters. -/
def node_with_minimum_neighbours (imax : Nat) (graph : node_graph) : Nat :=
  ((List.range (graph.shifts.length - 1)).foldl (min_neighbours_step graph) (0, imax)).1

/-! ## `calculate_permutation` -/

/-- `std::multimap<I, I>::emplace`: the pair is inserted keeping the keys ascending, behind
the pairs with an equal key. -/
def multimap_emplace : List (Nat × Nat) → Nat × Nat → List (Nat × Nat)
  | [], kv => [kv]
  | e :: rest, kv =>
    if kv.1 < e.1 then kv :: e :: rest else e :: multimap_emplace rest kv

/-- `std::unordered_set<I>::emplace`: nothing happens when the value is already present.
The list records the values in order of insertion. -/
def unordered_set_emplace (s : List Nat) (x : Nat) : List Nat :=
  if x ∈ s then s else s ++ [x]

/-- The inner loop over `shift` of `calculate_permutation`: the multimap `neighbours` of the
not yet numbered neighbours of `node`, keyed by their neighbour count. -/
def collect_neighbours (graph : node_graph) (permutation : List Int) (node : Nat) :
    List (Nat × Nat) :=
  (List.range' (graph.shifts.getD node 0)
      (graph.shifts.getD (node + 1) 0 - graph.shifts.getD node 0)).foldl
    (fun neighbours shift =>
      if permutation.getD (graph.indices.getD shift 0) 0 = -1 then
        multimap_emplace neighbours
          (graph.neighbours_count (graph.indices.getD shift 0), graph.indices.getD shift 0)
      else neighbours)
    []

/-- The variables that the body of the `while` loop of `calculate_permutation` updates. -/
structure cm_state where
  permutation : List Int
  curr_index : Nat
  next_layer : List Nat
deriving DecidableEq

/-- The body of `for (const auto [_, neighbour] : neighbours)`:
`next_layer.emplace(neighbour); permutation[neighbour] = curr_index++;`. -/
def assign_index (st : cm_state) (neighbour : Nat) : cm_state :=
  { permutation := st.permutation.set neighbour (st.curr_index : Int)
    curr_index := st.curr_index + 1
    next_layer := unordered_set_emplace st.next_layer neighbour }

/-- The body of `for (const I node : curr_layer)`: collect the unnumbered neighbours of
`node` in the multimap, then number them in the order of the multimap. -/
def visit_node (graph : node_graph) (st : cm_state) (node : Nat) : cm_state :=
  ((collect_neighbours graph st.permutation node).map Prod.snd).foldl assign_index st

/-- The `while (curr_index < permutation.size())` loop of `calculate_permutation`.

The order in which a `std::unordered_set` is traversed is not fixed by the language:
`layer_order step s` is the order in which the set with insertion sequence `s` is traversed
in iteration number `step`.  A `while` loop need not terminate: `fuel` bounds the number of
evaluations of the loop condition and `none` means that the bound was reached. -/
def calculate_permutation_loop (layer_order : Nat → List Nat → List Nat)
    (graph : node_graph) : Nat → Nat → List Int → Nat → List Nat → Option (List Int)
  | 0, _, _, _, _ => none
  | fuel + 1, step, permutation, curr_index, curr_layer =>
    if curr_index < permutation.length then
      let st := (layer_order step curr_layer).foldl (visit_node graph)
        { permutation := permutation, curr_index := curr_index, next_layer := [] }
      calculate_permutation_loop layer_order graph fuel (step + 1)
        st.permutation st.curr_index st.next_layer
    else some permutation

/-- The function `calculate_permutation`. -/
def calculate_permutation (layer_order : Nat → List Nat → List Nat) (graph : node_graph)
    (init_node : Nat) (fuel : Nat) : Option (List Int) :=
  calculate_permutation_loop layer_order graph fuel 0
    ((List.replicate (graph.shifts.length - 1) (-1 : Int)).set init_node 0) 1 [init_node]

/-! ## `init_graph` -/

/-- The enumeration `theory_t` (declared in `nonlocal_constants.hpp`). -/
inductive theory_t where
  | LOCAL
  | NONLOCAL
deriving DecidableEq

/-- Modelled from the spec: the class `mesh_proxy` is declared in `mesh_proxy.hpp`, which is
not part of the sources at hand.  The structure holds what `init_vector` and `init_graph`
read from it: the number of nodes, the element-to-node incidence (`elements[e]` is the
ordered list of the node numbers of element `e`), the per-node element incidence
`nodes_elements_map`, the neighbourhood table `neighbors` and the range of nodes
`first_node() .. last_node()` that this process owns. -/
structure mesh_proxy where
  nodes_count : Nat
  elements : List (List Nat)
  nodes_elements_map : Nat → List Nat
  neighbors : Nat → List Nat
  first_node : Nat
  last_node : Nat

/-- The call `mesh.mesh().nodes_count(e)`: the number of nodes of element `e`. -/
def mesh_proxy.element_nodes_count (mesh : mesh_proxy) (e : Nat) : Nat :=
  (mesh.elements.getD e []).length

/-- The call `mesh.mesh().node_number(e, j)`: the global number of local node `j` of `e`. -/
def mesh_proxy.node_number (mesh : mesh_proxy) (e j : Nat) : Nat :=
  (mesh.elements.getD e []).getD j 0

/-- The member `initializer_base::check_neighbour`; returns the result and the new
`_is_include`. -/
def initializer_base.check_neighbour (is_include : List Bool) (node neighbour : Nat) :
    Bool × List Bool :=
  let result := decide (node ≠ neighbour) && !(is_include.getD neighbour false)
  (result, if result then is_include.set neighbour true else is_include)

/-- The member `initializer_base::reset_include`. -/
def initializer_base.reset_include (is_include : List Bool) : List Bool :=
  List.replicate is_include.length false

/-- The state of a `shifts_initializer<I>`: its bitset and the vector it refers to. -/
structure shifts_initializer where
  is_include : List Bool
  shifts : List Nat
deriving DecidableEq

/-- The member `shifts_initializer::add`. -/
def shifts_initializer.add (s : shifts_initializer) (node neighbour : Nat) :
    shifts_initializer :=
  let r := initializer_base.check_neighbour s.is_include node neighbour
  if r.1 then
    { is_include := r.2, shifts := s.shifts.set (node + 1) (s.shifts.getD (node + 1) 0 + 1) }
  else { s with is_include := r.2 }

/-- The member `reset_include` that `shifts_initializer` inherits. -/
def shifts_initializer.reset_include (s : shifts_initializer) : shifts_initializer :=
  { s with is_include := initializer_base.reset_include s.is_include }

/-- The state of an `indices_initializer<I>`: its bitset, the vector `_indices` it writes
and `_node_shift`.  The vector `_shifts` is read only and is passed to `add`. -/
structure indices_initializer where
  is_include : List Bool
  indices : List Nat
  node_shift : Nat
deriving DecidableEq

/-- The member `indices_initializer::add`. -/
def indices_initializer.add (shifts : List Nat) (s : indices_initializer)
    (node neighbour : Nat) : indices_initializer :=
  let r := initializer_base.check_neighbour s.is_include node neighbour
  if r.1 then
    { is_include := r.2
      indices := s.indices.set (shifts.getD node 0 + s.node_shift) neighbour
      node_shift := s.node_shift + 1 }
  else { s with is_include := r.2 }

/-- The member `indices_initializer::reset_include`. -/
def indices_initializer.reset_include (s : indices_initializer) : indices_initializer :=
  { s with is_include := initializer_base.reset_include s.is_include, node_shift := 0 }

/-- The function `prepare_shifts`: the running sum, in place. -/
def prepare_shifts (shifts : List Nat) : List Nat :=
  (List.range' 1 (shifts.length - 1)).foldl
    (fun s i => s.set i (s.getD i 0 + s.getD (i - 1) 0)) shifts

/-- The function template `init_vector<Theory>`; the initializer is given by its two
members `reset_include` and `add`.  Every iteration of the loop over `node` starts with
`reset_include` and uses no other state of the (thread private) initializer, so the
iterations are run in ascending order. -/
def init_vector {σ : Type} (theory : theory_t) (mesh : mesh_proxy) (reset : σ → σ)
    (add : σ → Nat → Nat → σ) (initializer : σ) : σ :=
  (List.range' mesh.first_node (mesh.last_node - mesh.first_node)).foldl
    (fun st node =>
      (mesh.nodes_elements_map node).foldl
        (fun st eL =>
          match theory with
          | theory_t.LOCAL =>
            (List.range (mesh.element_nodes_count eL)).foldl
              (fun st jL => add st node (mesh.node_number eL jL)) st
          | theory_t.NONLOCAL =>
            (mesh.neighbors eL).foldl
              (fun st eNL =>
                (List.range (mesh.element_nodes_count eNL)).foldl
                  (fun st jNL => add st node (mesh.node_number eNL jNL)) st)
              st)
        (reset st))
    initializer

/-- The function `init_graph`. -/
def init_graph (mesh : mesh_proxy) (is_nonlocal : Bool) : node_graph :=
  let theory := if is_nonlocal then theory_t.NONLOCAL else theory_t.LOCAL
  let shifts0 := List.replicate (mesh.nodes_count + 1) 0
  let counted := init_vector theory mesh shifts_initializer.reset_include
    shifts_initializer.add
    { is_include := List.replicate (shifts0.length - 1) false, shifts := shifts0 }
  let shifts := prepare_shifts counted.shifts
  let filled := init_vector theory mesh indices_initializer.reset_include
    (indices_initializer.add shifts)
    { is_include := List.replicate (shifts.length - 1) false
      indices := List.replicate (shifts.getLastD 0) 0
      node_shift := 0 }
  { shifts := shifts, indices := filled.indices }

/-- The function `cuthill_mckee`. -/
def cuthill_mckee (layer_order : Nat → List Nat → List Nat) (imax : Nat) (mesh : mesh_proxy)
    (is_nonlocal : Bool) (fuel : Nat) : Option (List Int) :=
  calculate_permutation layer_order (init_graph mesh is_nonlocal)
    (node_with_minimum_neighbours imax (init_graph mesh is_nonlocal)) fuel

/-! ## Predicates and examples used in the statements -/

def node_graph.well_formed (graph : node_graph) : Prop :=
  graph.shifts ≠ [] ∧ graph.shifts.Sorted (· ≤ ·) ∧
    graph.shifts.getLastD 0 ≤ graph.indices.length ∧
    ∀ x ∈ graph.indices, x < graph.shifts.length - 1

inductive node_graph.reachable (graph : node_graph) (start : Nat) : Nat → Prop
  | refl : node_graph.reachable graph start start
  | step {u v : Nat} : node_graph.reachable graph start u → v ∈ graph.row u →
      node_graph.reachable graph start v

/-- The directed edges `(u, v)`, `v` a neighbour of `u`, of the graph. -/
def node_graph.edges (graph : node_graph) : List (Nat × Nat) :=
  (List.range graph.nodes_count).flatMap (fun u => (graph.row u).map (fun v => (u, v)))

/-- The bandwidth of the graph under a numbering of its nodes: the largest
`|numbering u - numbering v|` over the edges `(u, v)`. -/
def node_graph.bandwidth (graph : node_graph) (numbering : Nat → Int) : Nat :=
  (graph.edges.map (fun e => (numbering e.1 - numbering e.2).natAbs)).foldl max 0

/-- Every edge is stored in both directions. -/
def node_graph.symmetric (graph : node_graph) : Prop :=
  ∀ u v, u < graph.nodes_count → v ∈ graph.row u → u ∈ graph.row v

/-- Every node is reachable from every node. -/
def node_graph.connected (graph : node_graph) : Prop :=
  ∀ u v, u < graph.nodes_count → v < graph.nodes_count → graph.reachable u v

/-- A mesh of two quadrilaterals `0 1 2 3` and `5 6 7 8` joined by the triangle `3 4 5`. -/
def quad_triangle_quad_mesh : mesh_proxy :=
  { nodes_count := 9
    elements := [[0, 1, 2, 3], [3, 4, 5], [5, 6, 7, 8]]
    nodes_elements_map := fun v =>
      (List.range 3).filter
        (fun e => decide (v ∈ [[0, 1, 2, 3], [3, 4, 5], [5, 6, 7, 8]].getD e []))
    neighbors := fun e => [e]
    first_node := 0
    last_node := 9 }

/-- The node graph of `quad_triangle_quad_mesh` in the local theory. -/
def quad_triangle_quad_graph : node_graph :=
  { shifts := [0, 3, 6, 9, 14, 16, 21, 24, 27, 30]
    indices := [1, 2, 3, 0, 2, 3, 0, 1, 3, 0, 1, 2, 4, 5, 3, 5, 3, 4, 6, 7, 8, 5, 7, 8, 5, 6,
      8, 5, 6, 7] }

/-- The triangle graph on the nodes 0, 1, 2. -/
def triangle_graph : node_graph :=
  { shifts := [0, 2, 4, 6], indices := [1, 2, 0, 2, 0, 1] }

/-- The graph of two triangles without a common node: 0, 1, 2 and 3, 4, 5. -/
def two_triangles_graph : node_graph :=
  { shifts := [0, 2, 4, 6, 8, 10, 12], indices := [1, 2, 0, 2, 0, 1, 4, 5, 3, 5, 3, 4] }

/-- How the state after some steps of the traversal relates to the state before them. -/
structure cm_rel (st st' : cm_state) : Prop where
  len : st'.permutation.length = st.permutation.length
  idx : st.curr_index ≤ st'.curr_index
  keep : ∀ v, st.permutation.getD v 0 ≠ -1 →
    st'.permutation.getD v 0 = st.permutation.getD v 0
  cnt : st.curr_index + st.permutation.count (-1) ≤
    st'.curr_index + st'.permutation.count (-1)
  fresh : ∀ v, st.permutation.getD v 0 = -1 → st'.permutation.getD v 0 ≠ -1 →
    v ∈ st'.next_layer
  next : ∀ x, x ∈ st.next_layer → x ∈ st'.next_layer
  same : st'.curr_index = st.curr_index → st'.permutation = st.permutation

/-- Every index below `curr_index` has been given to some node. -/
def numbered (st : cm_state) : Prop :=
  ∀ i, i < st.curr_index → (i : Int) ∈ st.permutation

/-- The invariant of the `while` loop of `calculate_permutation`. -/
structure cm_inv (graph : node_graph) (init_node : Nat) (permutation : List Int)
    (curr_index : Nat) (curr_layer : List Nat) : Prop where
  len : permutation.length = graph.shifts.length - 1
  cnt : graph.shifts.length - 1 ≤ curr_index + permutation.count (-1)
  init : permutation.getD init_node 0 = 0
  closed : ∀ u, permutation.getD u 0 ≠ -1 → u ∉ curr_layer →
    ∀ w ∈ graph.row u, permutation.getD w 0 ≠ -1

/-! ## Closed forms of the two passes of `init_graph` -/

/-- The neighbours handed to `add` for `node` in the local theory, in call order: the nodes
of the elements of `nodes_elements_map(node)`. -/
def mesh_proxy.candidates (mesh : mesh_proxy) (node : Nat) : List Nat :=
  (mesh.nodes_elements_map node).flatMap (fun eL => mesh.elements.getD eL [])

/-- The neighbours that `check_neighbour` accepts when it is called for `node` on the
members of a list in turn, starting from the bitset `is_include`. -/
def accepted (node : Nat) : List Bool → List Nat → List Nat
  | _, [] => []
  | is_include, x :: xs =>
    if (initializer_base.check_neighbour is_include node x).1 then
      x :: accepted node (initializer_base.check_neighbour is_include node x).2 xs
    else accepted node (initializer_base.check_neighbour is_include node x).2 xs

/-- The bitset after the calls of `check_neighbour` for `node` on the members of a list. -/
def included (node : Nat) (is_include : List Bool) (l : List Nat) : List Bool :=
  l.foldl (fun inc x => (initializer_base.check_neighbour inc node x).2) is_include

/-- The writes `indices[pos] = l[0]; indices[pos + 1] = l[1]; …`. -/
def write_at (indices : List Nat) : Nat → List Nat → List Nat
  | _, [] => indices
  | pos, x :: xs => write_at (indices.set pos x) (pos + 1) xs

/-- The row that the two passes of `init_graph` produce for `node` in the local theory. -/
def mesh_proxy.row_of (mesh : mesh_proxy) (node : Nat) : List Nat :=
  accepted node (List.replicate mesh.nodes_count false) (mesh.candidates node)

/-- The length of the row of `node`; the nodes outside `first_node() .. last_node()` are not
processed and have an empty row. -/
def mesh_proxy.row_count (mesh : mesh_proxy) (node : Nat) : Nat :=
  if mesh.first_node ≤ node ∧ node < mesh.last_node then (mesh.row_of node).length else 0

/-- The sum of the row lengths of the nodes before `node`. -/
def mesh_proxy.row_offset (mesh : mesh_proxy) (node : Nat) : Nat :=
  ((List.range node).map mesh.row_count).sum

/-- Two nodes lie on a common element. -/
def mesh_proxy.share_element (mesh : mesh_proxy) (u v : Nat) : Prop :=
  ∃ e, e ∈ mesh.elements ∧ u ∈ e ∧ v ∈ e

instance (mesh : mesh_proxy) (u v : Nat) : Decidable (mesh.share_element u v) := by
  unfold mesh_proxy.share_element
  infer_instance

/-! ## Breadth-first layers -/

/-- There is a walk of `k` edges from `start` to the node: `walk graph start k v`. -/
inductive node_graph.walk (graph : node_graph) (start : Nat) : Nat → Nat → Prop
  | zero : node_graph.walk graph start 0 start
  | step {k u v : Nat} : node_graph.walk graph start k u → v ∈ graph.row u →
      node_graph.walk graph start (k + 1) v

/-- The breadth-first distance from `start` to `v` is `d`: there is a walk of `d` edges
from `start` to `v` and no shorter one. -/
def node_graph.distance (graph : node_graph) (start v d : Nat) : Prop :=
  graph.walk start d v ∧ ∀ k, k < d → ¬ graph.walk start k v

/-- The invariant of the `while` loop of `calculate_permutation` that describes the layers:
at the head of iteration `t` the set `curr_layer` holds the nodes at distance `t` from the
start node, the numbered nodes are those at distance at most `t`, their numbers are below
`curr_index`, and a node nearer to the start node has the smaller number. -/
structure layer_inv (graph : node_graph) (init_node t : Nat) (permutation : List Int)
    (curr_index : Nat) (curr_layer : List Nat) : Prop where
  len : permutation.length = graph.shifts.length - 1
  layer : ∀ v, v ∈ curr_layer ↔ graph.distance init_node v t
  done : ∀ v, v < permutation.length →
    (permutation.getD v 0 ≠ -1 ↔ ∃ d, d ≤ t ∧ graph.distance init_node v d)
  bound : ∀ v, v < permutation.length → permutation.getD v 0 ≠ -1 →
    permutation.getD v 0 < (curr_index : Int)
  order : ∀ u v du dv, graph.distance init_node u du → graph.distance init_node v dv →
    du < dv → dv ≤ t → permutation.getD u 0 < permutation.getD v 0

/-- The end nodes of the walks of `k` edges from `start`, with repetitions. -/
def node_graph.walk_ends (graph : node_graph) (start : Nat) : Nat → List Nat
  | 0 => [start]
  | k + 1 => (node_graph.walk_ends graph start k).flatMap graph.row

/-- An `indices_initializer` together with the record of the writes
`_indices[_shifts[node] + _node_shift] = neighbour` that its member `add` has made: the
pairs `(node, position)` in the order of the writes. -/
structure write_log where
  initializer : indices_initializer
  writes : List (Nat × Nat)

/-- The member `indices_initializer::add`, with the record of the write. -/
def write_log.add (shifts : List Nat) (s : write_log) (node neighbour : Nat) : write_log :=
  { initializer := indices_initializer.add shifts s.initializer node neighbour
    writes :=
      if (initializer_base.check_neighbour s.initializer.is_include node neighbour).1 then
        s.writes ++ [(node, shifts.getD node 0 + s.initializer.node_shift)]
      else s.writes }

/-- The member `indices_initializer::reset_include`; the record is kept. -/
def write_log.reset_include (s : write_log) : write_log :=
  { s with initializer := s.initializer.reset_include }

/-- The invariant of the `while` loop of `calculate_permutation` that ties the numbered
nodes to the start node: every index below `curr_index` has been given, and the numbered
nodes and the nodes of `curr_layer` are reachable from the start node. -/
structure reach_inv (graph : node_graph) (init_node : Nat) (permutation : List Int)
    (curr_index : Nat) (curr_layer : List Nat) : Prop where
  len : permutation.length = graph.shifts.length - 1
  num : numbered { permutation := permutation, curr_index := curr_index, next_layer := [] }
  reach : ∀ v, v < permutation.length → permutation.getD v 0 ≠ -1 →
    graph.reachable init_node v
  layer : ∀ x, x ∈ curr_layer → graph.reachable init_node x

/-- A graph on three nodes whose rows repeat a neighbour: the rows of nodes 0 and 1 are
`[1, 1]` and `[0, 0]`, node 2 has no neighbour. -/
def repeated_row_graph : node_graph :=
  { shifts := [0, 2, 4, 4], indices := [1, 1, 0, 0] }

/-- A path 0 - 1 - 2 whose rows repeat a neighbour: the rows of the nodes 0, 1 and 2 are
`[1, 1]`, `[0, 0, 2]` and `[1]`.  Every node is reachable from node 0. -/
def repeated_path_graph : node_graph :=
  { shifts := [0, 2, 5, 6], indices := [1, 1, 0, 0, 2, 1] }

/-- The mesh of one triangle `0 1 2` of which a process owns the nodes 0 and 1 only:
`first_node() = 0` and `last_node() = 2`. -/
def partial_range_mesh : mesh_proxy :=
  { nodes_count := 3
    elements := [[0, 1, 2]]
    nodes_elements_map := fun v => if v < 3 then [0] else []
    neighbors := fun e => [e]
    first_node := 0
    last_node := 2 }

end CuthillMcKee

namespace statics_with_nonloc

/-! ## Data model -/

/-- The enumeration `node_info::component`. -/
inductive component where
  | X
  | Y
deriving DecidableEq

/-- The integer value of a `component`: `X` is 0 and `Y` is 1. -/
def component.toNat : component → Nat
  | component.X => 0
  | component.Y => 1

/-- The struct `node_info`: a bit-field of 31 bits for the number and 1 bit for the
component.  Values are built with `node_info.make`, which keeps `number` below `2^31`. -/
structure node_info where
  number : Nat
  comp : component
deriving DecidableEq

/-- The constructor `node_info(uint64_t number, component comp = X)`: the number is cut to
the 31 bits of the field. -/
def node_info.make (number : Nat) (comp : component := component.X) : node_info :=
  { number := number % 2 ^ 31, comp := comp }

/-- The conversion `operator Eigen::SparseMatrix<double>::StorageIndex()`: the number. -/
def node_info.index (n : node_info) : Nat := n.number

/-- The 32-bit word that `reinterpret_cast<const uint32_t*>` reads from a `node_info`:
the number in the low 31 bits and the component in the top bit. -/
def node_info.bits (n : node_info) : Nat := n.number + 2 ^ 31 * n.comp.toNat

/-- The `operator<(node_info, node_info)`, the order of `std::set<node_info>`. -/
def node_info.lt (left right : node_info) : Bool := decide (left.bits < right.bits)

/-- The `operator!=(node_info, node_info)`. -/
def node_info.ne (left right : node_info) : Bool := decide (left.bits ≠ right.bits)

/-- The enumeration `boundary_type` with the two values that `static_analysis.cpp` names. -/
inductive boundary_type where
  | TRANSLATION
  | FORCE
deriving DecidableEq

/-- One entry of `bounds_cond`, the tuple
`(boundary_type, function, boundary_type, function)`: kind and function of the condition on
the X component, then those of the Y component. -/
structure bound_cond (F : Type) where
  type_x : boundary_type
  func_x : F → F → F
  type_y : boundary_type
  func_y : F → F → F

/-- Modelled from the spec: the class `finite_element::element_2d_integrate_base` is declared
in `finite_element_routine.hpp`, which is not part of the sources at hand.  The structure
holds the tables of section 4.1 that the integrators read: the number of nodes, the number
of quadrature nodes, the weight of a quadrature node and the two reference derivatives
`qNxi(i, q)`, `qNeta(i, q)` of basis function `i` at quadrature node `q`. -/
structure element_2d_integrate_base (F : Type) where
  nodes_count : Nat
  qnodes_count : Nat
  weight : Nat → F
  qNxi : Nat → Nat → F
  qNeta : Nat → Nat → F

/-- Modelled from the spec: the class `mesh_2d` is declared in a header that is not part of
the sources at hand.  The structure holds what `static_analysis.cpp` reads from it: the
number of nodes, the element-to-node incidence (`elements[el]` is the ordered list of the
node numbers of element `el`), the kind `element_type(el)` of an element and the reference
element `element_2d(type)` of a kind, the neighbourhood table `neighbor(el)`, the boundary
groups (`boundary b` lists the edges of group `b`, each edge the list of its node numbers)
and the coordinates `coord(node, k)`. -/
structure mesh_2d (F : Type) where
  nodes_count : Nat
  elements : List (List Nat)
  element_type : Nat → Nat
  element_2d : Nat → element_2d_integrate_base F
  neighbor : Nat → List Nat
  boundary : Nat → List (List Nat)
  coord : Nat → Nat → F

/-- The call `mesh.elements_count()`. -/
def mesh_2d.elements_count {F : Type} (mesh : mesh_2d F) : Nat := mesh.elements.length

/-- The call `mesh.node_number(el, i)`. -/
def mesh_2d.node_number {F : Type} (mesh : mesh_2d F) (el i : Nat) : Nat :=
  (mesh.elements.getD el []).getD i 0

/-- The nodes that the iteration `mesh.boundary(b).cbegin() … cend()` visits. -/
def mesh_2d.boundary_nodes {F : Type} (mesh : mesh_2d F) (b : Nat) : List Nat :=
  (mesh.boundary b).flatten

/-- The struct `parameters<Type>`: Poisson's ratio and Young's modulus. -/
structure parameters (F : Type) where
  nu : F
  E : F

/-- Modelled from the spec: the tables that `quadrature_shifts_init`,
`approx_all_jacobi_matrices` and `approx_all_quad_nodes_coords` (defined in a header that is
not part of the sources at hand) compute from the mesh: the first quadrature row of every
element, the Jacobi matrix `(J00, J01, J10, J11)` and the physical coordinate of every
quadrature node. -/
structure quadrature_tables (F : Type) where
  shifts_quad : List Nat
  all_jacobi_matrices : Nat → Nat → F
  all_quad_coords : Nat → Nat → F

/-- The class `Eigen::Triplet<double, node_info>`. -/
structure Triplet (F : Type) where
  row : node_info
  col : node_info
  value : F

/-- The default constructor `Triplet()`: row 0, column 0, value 0. -/
def Triplet.default {F : Type} [Zero F] : Triplet F :=
  { row := node_info.make 0, col := node_info.make 0, value := 0 }

/-! ## The integrators -/

/-- The function `integrate_loc`.  `i` and `j` carry the local node number and the
component; the loop over `q` advances `shift` together with `q`. -/
def integrate_loc {F : Type} [Field F] (e : element_2d_integrate_base F) (i j : node_info)
    (jacobi_matrices : Nat → Nat → F) (shift : Nat) (coeff : Fin 3 → F) : F :=
  match i.comp, j.comp with
  | component.X, component.X =>
    (List.range e.qnodes_count).foldl
      (fun integral q => integral +
        (coeff 0 * (e.qNxi i.index q * jacobi_matrices (shift + q) 3 -
                    e.qNeta i.index q * jacobi_matrices (shift + q) 2) *
                   (e.qNxi j.index q * jacobi_matrices (shift + q) 3 -
                    e.qNeta j.index q * jacobi_matrices (shift + q) 2) +
         coeff 2 * (-e.qNxi i.index q * jacobi_matrices (shift + q) 1 +
                    e.qNeta i.index q * jacobi_matrices (shift + q) 0) *
                   (-e.qNxi j.index q * jacobi_matrices (shift + q) 1 +
                    e.qNeta j.index q * jacobi_matrices (shift + q) 0)) /
        (jacobi_matrices (shift + q) 0 * jacobi_matrices (shift + q) 3 -
         jacobi_matrices (shift + q) 1 * jacobi_matrices (shift + q) 2) * e.weight q) 0
  | component.X, component.Y =>
    (List.range e.qnodes_count).foldl
      (fun integral q => integral +
        (coeff 1 * (-e.qNxi i.index q * jacobi_matrices (shift + q) 1 +
                    e.qNeta i.index q * jacobi_matrices (shift + q) 0) *
                   (e.qNxi j.index q * jacobi_matrices (shift + q) 3 -
                    e.qNeta j.index q * jacobi_matrices (shift + q) 2) +
         coeff 2 * (e.qNxi i.index q * jacobi_matrices (shift + q) 3 -
                    e.qNeta i.index q * jacobi_matrices (shift + q) 2) *
                   (-e.qNxi j.index q * jacobi_matrices (shift + q) 1 +
                    e.qNeta j.index q * jacobi_matrices (shift + q) 0)) /
        (jacobi_matrices (shift + q) 0 * jacobi_matrices (shift + q) 3 -
         jacobi_matrices (shift + q) 1 * jacobi_matrices (shift + q) 2) * e.weight q) 0
  | component.Y, component.X =>
    (List.range e.qnodes_count).foldl
      (fun integral q => integral +
        (coeff 1 * (e.qNxi i.index q * jacobi_matrices (shift + q) 3 -
                    e.qNeta i.index q * jacobi_matrices (shift + q) 2) *
                   (-e.qNxi j.index q * jacobi_matrices (shift + q) 1 +
                    e.qNeta j.index q * jacobi_matrices (shift + q) 0) +
         coeff 2 * (-e.qNxi i.index q * jacobi_matrices (shift + q) 1 +
                    e.qNeta i.index q * jacobi_matrices (shift + q) 0) *
                   (e.qNxi j.index q * jacobi_matrices (shift + q) 3 -
                    e.qNeta j.index q * jacobi_matrices (shift + q) 2)) /
        (jacobi_matrices (shift + q) 0 * jacobi_matrices (shift + q) 3 -
         jacobi_matrices (shift + q) 1 * jacobi_matrices (shift + q) 2) * e.weight q) 0
  | component.Y, component.Y =>
    (List.range e.qnodes_count).foldl
      (fun integral q => integral +
        (coeff 0 * (-e.qNxi i.index q * jacobi_matrices (shift + q) 1 +
                    e.qNeta i.index q * jacobi_matrices (shift + q) 0) *
                   (-e.qNxi j.index q * jacobi_matrices (shift + q) 1 +
                    e.qNeta j.index q * jacobi_matrices (shift + q) 0) +
         coeff 2 * (e.qNxi i.index q * jacobi_matrices (shift + q) 3 -
                    e.qNeta i.index q * jacobi_matrices (shift + q) 2) *
                   (e.qNxi j.index q * jacobi_matrices (shift + q) 3 -
                    e.qNeta j.index q * jacobi_matrices (shift + q) 2)) /
        (jacobi_matrices (shift + q) 0 * jacobi_matrices (shift + q) 3 -
         jacobi_matrices (shift + q) 1 * jacobi_matrices (shift + q) 2) * e.weight q) 0

/-- The value `finit` of the inner loop of `integrate_nonloc`: the weight of the quadrature
node `qNL` times the influence function between the two quadrature points. -/
def finit {F : Type} [Field F] (eNL : element_2d_integrate_base F) (coords : Nat → Nat → F)
    (influence_fun : F → F → F → F → F) (shiftL shiftNL qNL : Nat) : F :=
  eNL.weight qNL * influence_fun (coords shiftL 0) (coords (shiftNL + qNL) 0)
    (coords shiftL 1) (coords (shiftNL + qNL) 1)

/-- The function `integrate_nonloc`.  The inner loop over `qNL` computes the pair
`(int_with_weight_x, int_with_weight_y)` for the row `shiftL + qL` of the outer loop. -/
def integrate_nonloc {F : Type} [Field F] (eL eNL : element_2d_integrate_base F)
    (iL jNL : node_info) (shiftL shiftNL : Nat) (coords jacobi_matrices : Nat → Nat → F)
    (influence_fun : F → F → F → F → F) (coeff : Fin 3 → F) : F :=
  match iL.comp, jNL.comp with
  | component.X, component.X =>
    (List.range eL.qnodes_count).foldl
      (fun integral qL =>
        let w := (List.range eNL.qnodes_count).foldl
          (fun (w : F × F) qNL =>
            (w.1 + finit eNL coords influence_fun (shiftL + qL) shiftNL qNL *
              (eNL.qNxi jNL.index qNL * jacobi_matrices (shiftNL + qNL) 3 -
               eNL.qNeta jNL.index qNL * jacobi_matrices (shiftNL + qNL) 2),
             w.2 + finit eNL coords influence_fun (shiftL + qL) shiftNL qNL *
              (-eNL.qNxi jNL.index qNL * jacobi_matrices (shiftNL + qNL) 1 +
               eNL.qNeta jNL.index qNL * jacobi_matrices (shiftNL + qNL) 0)))
          (0, 0)
        integral + eL.weight qL *
          (coeff 0 * w.1 * (eL.qNxi iL.index qL * jacobi_matrices (shiftL + qL) 3 -
                            eL.qNeta iL.index qL * jacobi_matrices (shiftL + qL) 2) +
           coeff 2 * w.2 * (-eL.qNxi iL.index qL * jacobi_matrices (shiftL + qL) 1 +
                            eL.qNeta iL.index qL * jacobi_matrices (shiftL + qL) 0))) 0
  | component.X, component.Y =>
    (List.range eL.qnodes_count).foldl
      (fun integral qL =>
        let w := (List.range eNL.qnodes_count).foldl
          (fun (w : F × F) qNL =>
            (w.1 + finit eNL coords influence_fun (shiftL + qL) shiftNL qNL *
              (eNL.qNxi jNL.index qNL * jacobi_matrices (shiftNL + qNL) 1 -
               eNL.qNeta jNL.index qNL * jacobi_matrices (shiftNL + qNL) 0),
             w.2 + finit eNL coords influence_fun (shiftL + qL) shiftNL qNL *
              (-eNL.qNxi jNL.index qNL * jacobi_matrices (shiftNL + qNL) 3 +
               eNL.qNeta jNL.index qNL * jacobi_matrices (shiftNL + qNL) 2)))
          (0, 0)
        integral + eL.weight qL *
          (coeff 1 * w.1 * (eL.qNxi iL.index qL * jacobi_matrices (shiftL + qL) 3 -
                            eL.qNeta iL.index qL * jacobi_matrices (shiftL + qL) 2) +
           coeff 2 * w.2 * (-eL.qNxi iL.index qL * jacobi_matrices (shiftL + qL) 1 +
                            eL.qNeta iL.index qL * jacobi_matrices (shiftL + qL) 0))) 0
  | component.Y, component.X =>
    (List.range eL.qnodes_count).foldl
      (fun integral qL =>
        let w := (List.range eNL.qnodes_count).foldl
          (fun (w : F × F) qNL =>
            (w.1 + finit eNL coords influence_fun (shiftL + qL) shiftNL qNL *
              (eNL.qNxi jNL.index qNL * jacobi_matrices (shiftNL + qNL) 3 -
               eNL.qNeta jNL.index qNL * jacobi_matrices (shiftNL + qNL) 2),
             w.2 + finit eNL coords influence_fun (shiftL + qL) shiftNL qNL *
              (-eNL.qNxi jNL.index qNL * jacobi_matrices (shiftNL + qNL) 1 +
               eNL.qNeta jNL.index qNL * jacobi_matrices (shiftNL + qNL) 0)))
          (0, 0)
        integral + eL.weight qL *
          (coeff 1 * w.1 * (eL.qNxi iL.index qL * jacobi_matrices (shiftL + qL) 1 -
                            eL.qNeta iL.index qL * jacobi_matrices (shiftL + qL) 0) +
           coeff 2 * w.2 * (-eL.qNxi iL.index qL * jacobi_matrices (shiftL + qL) 3 +
                            eL.qNeta iL.index qL * jacobi_matrices (shiftL + qL) 2))) 0
  | component.Y, component.Y =>
    (List.range eL.qnodes_count).foldl
      (fun integral qL =>
        let w := (List.range eNL.qnodes_count).foldl
          (fun (w : F × F) qNL =>
            (w.1 + finit eNL coords influence_fun (shiftL + qL) shiftNL qNL *
              (eNL.qNxi jNL.index qNL * jacobi_matrices (shiftNL + qNL) 1 -
               eNL.qNeta jNL.index qNL * jacobi_matrices (shiftNL + qNL) 0),
             w.2 + finit eNL coords influence_fun (shiftL + qL) shiftNL qNL *
              (-eNL.qNxi jNL.index qNL * jacobi_matrices (shiftNL + qNL) 3 +
               eNL.qNeta jNL.index qNL * jacobi_matrices (shiftNL + qNL) 2)))
          (0, 0)
        integral + eL.weight qL *
          (coeff 0 * w.1 * (eL.qNxi iL.index qL * jacobi_matrices (shiftL + qL) 1 -
                            eL.qNeta iL.index qL * jacobi_matrices (shiftL + qL) 0) +
           coeff 2 * w.2 * (-eL.qNxi iL.index qL * jacobi_matrices (shiftL + qL) 3 +
                            eL.qNeta iL.index qL * jacobi_matrices (shiftL + qL) 2))) 0

/-! ## The set of kinematic nodes -/

/-- The member `std::set<node_info>::insert`: the set is kept as the list of its members in
ascending order of `operator<`; a value that is already present is not inserted. -/
def set_insert : List node_info → node_info → List node_info
  | [], x => [x]
  | y :: rest, x =>
    if x.lt y then x :: y :: rest
    else if y.lt x then y :: set_insert rest x
    else y :: rest

/-- The test `std::get<0>(bounds_cond[b]) == boundary_type::TRANSLATION`. -/
def translation_x {F : Type} (bounds_cond : List (bound_cond F)) (b : Nat) : Bool :=
  match bounds_cond[b]? with
  | some c => decide (c.type_x = boundary_type.TRANSLATION)
  | none => false

/-- The test `std::get<2>(bounds_cond[b]) == boundary_type::TRANSLATION`. -/
def translation_y {F : Type} (bounds_cond : List (bound_cond F)) (b : Nat) : Bool :=
  match bounds_cond[b]? with
  | some c => decide (c.type_y = boundary_type.TRANSLATION)
  | none => false

/-- The function `kinematic_nodes_set`. -/
def kinematic_nodes_set {F : Type} (mesh : mesh_2d F) (bounds_cond : List (bound_cond F)) :
    List node_info :=
  (List.range bounds_cond.length).foldl
    (fun kinematic_nodes b =>
      let after_x :=
        if translation_x bounds_cond b then
          (mesh.boundary_nodes b).foldl
            (fun s node => set_insert s (node_info.make node component.X)) kinematic_nodes
        else kinematic_nodes
      if translation_y bounds_cond b then
        (mesh.boundary_nodes b).foldl
          (fun s node => set_insert s (node_info.make node component.Y)) after_x
      else after_x)
    []

/-! ## The traversals of the mesh -/

/-- Modelled from the spec: `mesh_run_loc` is defined in a header that is not part of the
sources at hand.  Following section 4.6 ("for each element `e` and each basis pair
`(i, j)`", in element-index order), the rule is called with `(i, j, el)` for every element
`el` and every pair of local nodes `i`, `j` of it.  This is the list of the calls. -/
def mesh_run_loc_calls {F : Type} (mesh : mesh_2d F) (el : Nat) : List (Nat × Nat) :=
  (List.range (mesh.elements.getD el []).length).flatMap
    (fun i => (List.range (mesh.elements.getD el []).length).map (fun j => (i, j)))

/-- Modelled from the spec: `mesh_run_loc` (see `mesh_run_loc_calls`), as the fold of a
rule over the elements and, within an element, over the pairs of local nodes. -/
def mesh_run_loc {F σ : Type} (mesh : mesh_2d F) (rule : σ → Nat → Nat → Nat → σ)
    (init : σ) : σ :=
  (List.range mesh.elements_count).foldl
    (fun st el => (mesh_run_loc_calls mesh el).foldl (fun st c => rule st c.1 c.2 el) st) init

/-- Modelled from the spec: `mesh_run_nonloc` is defined in a header that is not part of the
sources at hand.  Following section 4.6 ("for each element `eL` and each
`eNL ∈ neighbors(eL)`, and each basis pair `(iL, jNL)`"), the rule is called with
`(iL, jNL, elL, elNL)`.  This is the list of the calls `(iL, jNL, elNL)` for `elL`. -/
def mesh_run_nonloc_calls {F : Type} (mesh : mesh_2d F) (elL : Nat) :
    List (Nat × Nat × Nat) :=
  (mesh.neighbor elL).flatMap
    (fun elNL => (List.range (mesh.elements.getD elL []).length).flatMap
      (fun iL => (List.range (mesh.elements.getD elNL []).length).map
        (fun jNL => (iL, jNL, elNL))))

/-- Modelled from the spec: `mesh_run_nonloc` (see `mesh_run_nonloc_calls`). -/
def mesh_run_nonloc {F σ : Type} (mesh : mesh_2d F) (rule : σ → Nat → Nat → Nat → Nat → σ)
    (init : σ) : σ :=
  (List.range mesh.elements_count).foldl
    (fun st elL =>
      (mesh_run_nonloc_calls mesh elL).foldl (fun st c => rule st c.1 c.2.1 elL c.2.2) st)
    init

/-! ## `mesh_analysis` -/

/-- The two vectors that a counting rule of `mesh_analysis` increments. -/
structure count_state where
  shifts : List Nat
  shifts_bound : List Nat
deriving DecidableEq

/-- The lambda `counter_loc` of `mesh_analysis`; the state holds `shifts_loc` and
`shifts_bound_loc`. -/
def counter_loc {F : Type} (mesh : mesh_2d F) (kinematic_nodes : List node_info)
    (st : count_state) (node_i node_j : node_info) (el : Nat) : count_state :=
  let glob_i := node_info.make (mesh.node_number el node_i.number) node_i.comp
  let glob_j := node_info.make (mesh.node_number el node_j.number) node_j.comp
  if 2 * glob_i.number + glob_i.comp.toNat ≥ 2 * glob_j.number + glob_j.comp.toNat then
    if glob_i ∉ kinematic_nodes ∧ glob_j ∉ kinematic_nodes then
      { st with shifts := st.shifts.set (el + 1) (st.shifts.getD (el + 1) 0 + 1) }
    else if glob_i.ne glob_j then
      { st with shifts_bound :=
          st.shifts_bound.set (el + 1) (st.shifts_bound.getD (el + 1) 0 + 1) }
    else st
  else st

/-- The lambda `counter_nonloc` of `mesh_analysis`; the state holds `shifts_nonloc` and
`shifts_bound_nonloc`. -/
def counter_nonloc {F : Type} (mesh : mesh_2d F) (kinematic_nodes : List node_info)
    (st : count_state) (node_iL node_jNL : node_info) (elL elNL : Nat) : count_state :=
  let glob_iL := node_info.make (mesh.node_number elL node_iL.number) node_iL.comp
  let glob_jNL := node_info.make (mesh.node_number elNL node_jNL.number) node_jNL.comp
  if 2 * glob_iL.number + glob_iL.comp.toNat ≥ 2 * glob_jNL.number + glob_jNL.comp.toNat then
    if glob_iL ∉ kinematic_nodes ∧ glob_jNL ∉ kinematic_nodes then
      { st with shifts := st.shifts.set (elL + 1) (st.shifts.getD (elL + 1) 0 + 1) }
    else if glob_iL.ne glob_jNL then
      { st with shifts_bound :=
          st.shifts_bound.set (elL + 1) (st.shifts_bound.getD (elL + 1) 0 + 1) }
    else st
  else st

/-- The loop `for (i = 1; i < shifts.size(); ++i) shifts[i] += shifts[i-1];` of
`mesh_analysis`.  The source runs it on two vectors in the same iteration; the two running
sums do not depend on each other. -/
def running_sum (shifts : List Nat) : List Nat :=
  (List.range' 1 (shifts.length - 1)).foldl
    (fun s i => s.set i (s.getD i 0 + s.getD (i - 1) 0)) shifts

/-- The four vectors that `mesh_analysis` returns. -/
structure analysis where
  shifts_loc : List Nat
  shifts_bound_loc : List Nat
  shifts_nonloc : List Nat
  shifts_bound_nonloc : List Nat
deriving DecidableEq

/-- The function `mesh_analysis`. -/
def mesh_analysis {F : Type} (mesh : mesh_2d F) (kinematic_nodes : List node_info)
    (nonlocal : Bool) : analysis :=
  let counted_loc := mesh_run_loc mesh
    (fun st i j el =>
      let st1 := counter_loc mesh kinematic_nodes st
        (node_info.make i component.X) (node_info.make j component.X) el
      let st2 := counter_loc mesh kinematic_nodes st1
        (node_info.make i component.X) (node_info.make j component.Y) el
      let st3 := counter_loc mesh kinematic_nodes st2
        (node_info.make i component.Y) (node_info.make j component.X) el
      counter_loc mesh kinematic_nodes st3
        (node_info.make i component.Y) (node_info.make j component.Y) el)
    { shifts := List.replicate (mesh.elements_count + 1) 0
      shifts_bound := List.replicate (mesh.elements_count + 1) 0 }
  let shifts_loc := running_sum (counted_loc.shifts.set 0 kinematic_nodes.length)
  let shifts_bound_loc := running_sum counted_loc.shifts_bound
  if nonlocal then
    let counted_nonloc := mesh_run_nonloc mesh
      (fun st iL jNL elL elNL =>
        let st1 := counter_nonloc mesh kinematic_nodes st
          (node_info.make iL component.X) (node_info.make jNL component.X) elL elNL
        let st2 := counter_nonloc mesh kinematic_nodes st1
          (node_info.make iL component.X) (node_info.make jNL component.Y) elL elNL
        let st3 := counter_nonloc mesh kinematic_nodes st2
          (node_info.make iL component.Y) (node_info.make jNL component.X) elL elNL
        counter_nonloc mesh kinematic_nodes st3
          (node_info.make iL component.Y) (node_info.make jNL component.Y) elL elNL)
      { shifts := List.replicate (mesh.elements_count + 1) 0
        shifts_bound := List.replicate (mesh.elements_count + 1) 0 }
    { shifts_loc := shifts_loc
      shifts_bound_loc := shifts_bound_loc
      shifts_nonloc := running_sum (counted_nonloc.shifts.set 0 (shifts_loc.getLastD 0))
      shifts_bound_nonloc :=
        running_sum (counted_nonloc.shifts_bound.set 0 (shifts_bound_loc.getLastD 0)) }
  else
    { shifts_loc := shifts_loc
      shifts_bound_loc := shifts_bound_loc
      shifts_nonloc := []
      shifts_bound_nonloc := [] }

/-! ## `triplets_fill` -/

/-- The constant `MAX_LOCAL_WEIGHT = 0.999` of `triplets_fill`. -/
def MAX_LOCAL_WEIGHT {F : Type} [Field F] : F := 999 / 1000

/-- The variables that the filling rules of `triplets_fill` update: the two triplet vectors
and the pair of shift vectors that serves as write cursors (`shifts_loc`,
`shifts_bound_loc` for `filler_loc` and `shifts_nonloc`, `shifts_bound_nonloc` for
`filler_nonloc`). -/
structure fill_state (F : Type) where
  triplets : List (Triplet F)
  triplets_bound : List (Triplet F)
  shifts : List Nat
  shifts_bound : List Nat

/-- The lambda `filler_loc` of `triplets_fill`. -/
def filler_loc {F : Type} [Field F] (mesh : mesh_2d F) (kinematic_nodes : List node_info)
    (quad : quadrature_tables F) (p1 : F) (coeffs : Fin 3 → F) (st : fill_state F)
    (node_i node_j : node_info) (el : Nat) : fill_state F :=
  let glob_i := node_info.make (mesh.node_number el node_i.number) node_i.comp
  let glob_j := node_info.make (mesh.node_number el node_j.number) node_j.comp
  let row := node_info.make (2 * glob_i.number + glob_i.comp.toNat)
  let col := node_info.make (2 * glob_j.number + glob_j.comp.toNat)
  if row.index ≥ col.index then
    let integral := p1 * integrate_loc (mesh.element_2d (mesh.element_type el)) node_i node_j
      quad.all_jacobi_matrices (quad.shifts_quad.getD el 0) coeffs
    if glob_i ∉ kinematic_nodes ∧ glob_j ∉ kinematic_nodes then
      { st with
        triplets := st.triplets.set (st.shifts.getD el 0)
          { row := row, col := col, value := integral }
        shifts := st.shifts.set el (st.shifts.getD el 0 + 1) }
    else if glob_i.ne glob_j then
      { st with
        triplets_bound := st.triplets_bound.set (st.shifts_bound.getD el 0)
          (if glob_j ∉ kinematic_nodes then { row := col, col := row, value := integral }
           else { row := row, col := col, value := integral })
        shifts_bound := st.shifts_bound.set el (st.shifts_bound.getD el 0 + 1) }
    else st
  else st

/-- The lambda `filler_nonloc` of `triplets_fill`; `p2` is `1 - p1`. -/
def filler_nonloc {F : Type} [Field F] (mesh : mesh_2d F) (kinematic_nodes : List node_info)
    (quad : quadrature_tables F) (influence_fun : F → F → F → F → F) (p2 : F)
    (coeffs : Fin 3 → F) (st : fill_state F) (node_iL node_jNL : node_info)
    (elL elNL : Nat) : fill_state F :=
  let glob_iL := node_info.make (mesh.node_number elL node_iL.number) node_iL.comp
  let glob_jNL := node_info.make (mesh.node_number elNL node_jNL.number) node_jNL.comp
  let row := node_info.make (2 * glob_iL.number + glob_iL.comp.toNat)
  let col := node_info.make (2 * glob_jNL.number + glob_jNL.comp.toNat)
  if row.index ≥ col.index then
    let integral := p2 * integrate_nonloc (mesh.element_2d (mesh.element_type elL))
      (mesh.element_2d (mesh.element_type elNL)) node_iL node_jNL
      (quad.shifts_quad.getD elL 0) (quad.shifts_quad.getD elNL 0)
      quad.all_quad_coords quad.all_jacobi_matrices influence_fun coeffs
    if glob_iL ∉ kinematic_nodes ∧ glob_jNL ∉ kinematic_nodes then
      { st with
        triplets := st.triplets.set (st.shifts.getD elL 0)
          { row := row, col := col, value := integral }
        shifts := st.shifts.set elL (st.shifts.getD elL 0 + 1) }
    else if glob_iL.ne glob_jNL then
      { st with
        triplets_bound := st.triplets_bound.set (st.shifts_bound.getD elL 0)
          (if glob_jNL ∉ kinematic_nodes then { row := col, col := row, value := integral }
           else { row := row, col := col, value := integral })
        shifts_bound := st.shifts_bound.set elL (st.shifts_bound.getD elL 0 + 1) }
    else st
  else st

/-- The loop of `triplets_fill` over the kinematic nodes: the `i`-th member of the set
puts the entry `(index, index, 1)` with `index = 2 * number + comp` in slot `i`. -/
def identity_prefix {F : Type} [Field F] (kinematic_nodes : List node_info)
    (triplets : List (Triplet F)) : List (Triplet F) :=
  (kinematic_nodes.foldl
    (fun (acc : List (Triplet F) × Nat) it =>
      (acc.1.set acc.2
        { row := node_info.make ((2 * it.number + it.comp.toNat) % 2 ^ 32) it.comp
          col := node_info.make ((2 * it.number + it.comp.toNat) % 2 ^ 32) it.comp
          value := 1 },
       acc.2 + 1))
    (triplets, 0)).1

/-- The array `coeffs` of `triplets_fill`. -/
def coeffs {F : Type} [Field F] (params : parameters F) : Fin 3 → F :=
  ![params.E / (1 - params.nu * params.nu),
    params.nu * params.E / (1 - params.nu * params.nu),
    1 / 2 * params.E / (1 + params.nu)]

/-- The function `triplets_fill`; the result is the pair `(triplets, triplets_bound)`. -/
def triplets_fill {F : Type} [LinearOrderedField F] (mesh : mesh_2d F)
    (params : parameters F) (bounds_cond : List (bound_cond F)) (p1 : F)
    (influence_fun : F → F → F → F → F) (quad : quadrature_tables F) :
    List (Triplet F) × List (Triplet F) :=
  let nonlocal : Bool := decide (p1 < MAX_LOCAL_WEIGHT)
  let kinematic_nodes := kinematic_nodes_set mesh bounds_cond
  let a := mesh_analysis mesh kinematic_nodes nonlocal
  let triplets := List.replicate
    (if nonlocal then a.shifts_nonloc.getLastD 0 else a.shifts_loc.getLastD 0)
    (Triplet.default : Triplet F)
  let triplets_bound := List.replicate
    (if nonlocal then a.shifts_bound_nonloc.getLastD 0 else a.shifts_bound_loc.getLastD 0)
    (Triplet.default : Triplet F)
  let filled_loc := mesh_run_loc mesh
    (fun st i j el =>
      let st1 := filler_loc mesh kinematic_nodes quad p1 (coeffs params) st
        (node_info.make i component.X) (node_info.make j component.X) el
      let st2 := filler_loc mesh kinematic_nodes quad p1 (coeffs params) st1
        (node_info.make i component.X) (node_info.make j component.Y) el
      let st3 := filler_loc mesh kinematic_nodes quad p1 (coeffs params) st2
        (node_info.make i component.Y) (node_info.make j component.X) el
      filler_loc mesh kinematic_nodes quad p1 (coeffs params) st3
        (node_info.make i component.Y) (node_info.make j component.Y) el)
    { triplets := identity_prefix kinematic_nodes triplets
      triplets_bound := triplets_bound
      shifts := a.shifts_loc
      shifts_bound := a.shifts_bound_loc }
  if nonlocal then
    let filled_nonloc := mesh_run_nonloc mesh
      (fun st iL jNL elL elNL =>
        let st1 := filler_nonloc mesh kinematic_nodes quad influence_fun (1 - p1)
          (coeffs params) st
          (node_info.make iL component.X) (node_info.make jNL component.X) elL elNL
        let st2 := filler_nonloc mesh kinematic_nodes quad influence_fun (1 - p1)
          (coeffs params) st1
          (node_info.make iL component.X) (node_info.make jNL component.Y) elL elNL
        let st3 := filler_nonloc mesh kinematic_nodes quad influence_fun (1 - p1)
          (coeffs params) st2
          (node_info.make iL component.Y) (node_info.make jNL component.X) elL elNL
        filler_nonloc mesh kinematic_nodes quad influence_fun (1 - p1) (coeffs params) st3
          (node_info.make iL component.Y) (node_info.make jNL component.Y) elL elNL)
      { triplets := filled_loc.triplets
        triplets_bound := filled_loc.triplets_bound
        shifts := a.shifts_nonloc
        shifts_bound := a.shifts_bound_nonloc }
    (filled_nonloc.triplets, filled_nonloc.triplets_bound)
  else (filled_loc.triplets, filled_loc.triplets_bound)

/-! ## Closed forms used in the statements -/

/-- The index of the degree of freedom of a (node, component) pair: `2 * number + comp`. -/
def node_info.dof (n : node_info) : Nat := 2 * n.number + n.comp.toNat

/-- The free-block triplet, if any, that a filling rule produces for the local node
`node_i` of element `el` and the local node `node_j` of element `el'` when the value of the
integral is `v`: the pair has `row >= col` and neither node is kinematic. -/
def free_triplet {F : Type} (mesh : mesh_2d F) (kinematic_nodes : List node_info)
    (node_i node_j : node_info) (el el' : Nat) (v : F) : Option (Triplet F) :=
  let glob_i := node_info.make (mesh.node_number el node_i.number) node_i.comp
  let glob_j := node_info.make (mesh.node_number el' node_j.number) node_j.comp
  let row := node_info.make (2 * glob_i.number + glob_i.comp.toNat)
  let col := node_info.make (2 * glob_j.number + glob_j.comp.toNat)
  if row.index ≥ col.index ∧ glob_i ∉ kinematic_nodes ∧ glob_j ∉ kinematic_nodes then
    some { row := row, col := col, value := v }
  else none

/-- The boundary-block triplet, if any, that a filling rule produces for the pair: the
pair has `row >= col`, one of the nodes is kinematic and the two differ. -/
def bound_triplet {F : Type} (mesh : mesh_2d F) (kinematic_nodes : List node_info)
    (node_i node_j : node_info) (el el' : Nat) (v : F) : Option (Triplet F) :=
  let glob_i := node_info.make (mesh.node_number el node_i.number) node_i.comp
  let glob_j := node_info.make (mesh.node_number el' node_j.number) node_j.comp
  let row := node_info.make (2 * glob_i.number + glob_i.comp.toNat)
  let col := node_info.make (2 * glob_j.number + glob_j.comp.toNat)
  if row.index ≥ col.index ∧ ¬ (glob_i ∉ kinematic_nodes ∧ glob_j ∉ kinematic_nodes) ∧
      glob_i.ne glob_j = true then
    some (if glob_j ∉ kinematic_nodes then { row := col, col := row, value := v }
      else { row := row, col := col, value := v })
  else none

/-- The write `v[cursor[el]++] = t` of a filling rule, when there is a triplet to write. -/
def push {α : Type} (arr : List α) (cursor : List Nat) (el : Nat) :
    Option α → List α × List Nat
  | some t => (arr.set (cursor.getD el 0) t, cursor.set el (cursor.getD el 0 + 1))
  | none => (arr, cursor)

/-- The writes `arr[pos] = l[0]; arr[pos + 1] = l[1]; …`. -/
def write_seg {α : Type} (arr : List α) : Nat → List α → List α
  | _, [] => arr
  | pos, x :: xs => write_seg (arr.set pos x) (pos + 1) xs

/-- The cursors of the elements of a list point, one after the other, behind a prefix of
length `a`: the cursor of the first element is `a`, that of the next is `a` plus the number
`len` of entries of the first, and so on. -/
def offsets_ok (cursor : List Nat) (len : Nat → Nat) : Nat → List Nat → Prop
  | _, [] => True
  | a, e :: rest => e < cursor.length ∧ cursor.getD e 0 = a ∧ offsets_ok cursor len (a + len e) rest

/-- The calls `(node_i, node_j)` of `filler_loc` (and of `counter_loc`) for element `el`, in
order: the four component pairs XX, XY, YX, YY for every pair of local nodes. -/
def loc_pairs {F : Type} (mesh : mesh_2d F) (el : Nat) : List (node_info × node_info) :=
  (mesh_run_loc_calls mesh el).flatMap
    (fun c =>
      [(node_info.make c.1 component.X, node_info.make c.2 component.X),
       (node_info.make c.1 component.X, node_info.make c.2 component.Y),
       (node_info.make c.1 component.Y, node_info.make c.2 component.X),
       (node_info.make c.1 component.Y, node_info.make c.2 component.Y)])

/-- The calls `(node_iL, node_jNL, elNL)` of `filler_nonloc` (and of `counter_nonloc`) for
element `elL`, in order. -/
def nonloc_pairs {F : Type} (mesh : mesh_2d F) (elL : Nat) :
    List (node_info × node_info × Nat) :=
  (mesh_run_nonloc_calls mesh elL).flatMap
    (fun c =>
      [(node_info.make c.1 component.X, node_info.make c.2.1 component.X, c.2.2),
       (node_info.make c.1 component.X, node_info.make c.2.1 component.Y, c.2.2),
       (node_info.make c.1 component.Y, node_info.make c.2.1 component.X, c.2.2),
       (node_info.make c.1 component.Y, node_info.make c.2.1 component.Y, c.2.2)])

/-- The value of `integrate_loc` for a call of `filler_loc`. -/
def loc_value {F : Type} [Field F] (mesh : mesh_2d F) (quad : quadrature_tables F)
    (coeffs : Fin 3 → F) (el : Nat) (p : node_info × node_info) : F :=
  integrate_loc (mesh.element_2d (mesh.element_type el)) p.1 p.2
    quad.all_jacobi_matrices (quad.shifts_quad.getD el 0) coeffs

/-- The value of `integrate_nonloc` for a call of `filler_nonloc`. -/
def nonloc_value {F : Type} [Field F] (mesh : mesh_2d F) (quad : quadrature_tables F)
    (influence_fun : F → F → F → F → F) (coeffs : Fin 3 → F) (elL : Nat)
    (p : node_info × node_info × Nat) : F :=
  integrate_nonloc (mesh.element_2d (mesh.element_type elL))
    (mesh.element_2d (mesh.element_type p.2.2)) p.1 p.2.1
    (quad.shifts_quad.getD elL 0) (quad.shifts_quad.getD p.2.2 0)
    quad.all_quad_coords quad.all_jacobi_matrices influence_fun coeffs

/-- The free-block triplets of the local pass for element `el`, in order, the value of
each being `weight` times `integrate_loc` of its pair. -/
def loc_free {F : Type} [Field F] (mesh : mesh_2d F) (kinematic_nodes : List node_info)
    (quad : quadrature_tables F) (coeffs : Fin 3 → F) (weight : F) (el : Nat) :
    List (Triplet F) :=
  (loc_pairs mesh el).filterMap
    (fun p => free_triplet mesh kinematic_nodes p.1 p.2 el el
      (weight * loc_value mesh quad coeffs el p))

/-- The boundary-block triplets of the local pass for element `el`, in order. -/
def loc_bound {F : Type} [Field F] (mesh : mesh_2d F) (kinematic_nodes : List node_info)
    (quad : quadrature_tables F) (coeffs : Fin 3 → F) (weight : F) (el : Nat) :
    List (Triplet F) :=
  (loc_pairs mesh el).filterMap
    (fun p => bound_triplet mesh kinematic_nodes p.1 p.2 el el
      (weight * loc_value mesh quad coeffs el p))

/-- The free-block triplets of the nonlocal pass for element `elL`, in order, the value of
each being `weight` times `integrate_nonloc` of its pair. -/
def nonloc_free {F : Type} [Field F] (mesh : mesh_2d F) (kinematic_nodes : List node_info)
    (quad : quadrature_tables F) (influence_fun : F → F → F → F → F) (coeffs : Fin 3 → F)
    (weight : F) (elL : Nat) : List (Triplet F) :=
  (nonloc_pairs mesh elL).filterMap
    (fun p => free_triplet mesh kinematic_nodes p.1 p.2.1 elL p.2.2
      (weight * nonloc_value mesh quad influence_fun coeffs elL p))

/-- The boundary-block triplets of the nonlocal pass for element `elL`, in order. -/
def nonloc_bound {F : Type} [Field F] (mesh : mesh_2d F) (kinematic_nodes : List node_info)
    (quad : quadrature_tables F) (influence_fun : F → F → F → F → F) (coeffs : Fin 3 → F)
    (weight : F) (elL : Nat) : List (Triplet F) :=
  (nonloc_pairs mesh elL).filterMap
    (fun p => bound_triplet mesh kinematic_nodes p.1 p.2.1 elL p.2.2
      (weight * nonloc_value mesh quad influence_fun coeffs elL p))

/-- The entry that the loop over the kinematic nodes writes for a kinematic node. -/
def identity_triplet {F : Type} [Field F] (it : node_info) : Triplet F :=
  { row := node_info.make ((2 * it.number + it.comp.toNat) % 2 ^ 32) it.comp
    col := node_info.make ((2 * it.number + it.comp.toNat) % 2 ^ 32) it.comp
    value := 1 }

/-- The node numbers of the mesh fit the index arithmetic: `2 * n + 1` does not exceed the
31 bits of `node_info::number` (and of the signed `StorageIndex`). -/
def mesh_2d.small_numbers {F : Type} (mesh : mesh_2d F) : Prop :=
  ∀ e, e ∈ mesh.elements → ∀ x, x ∈ e → x < 2 ^ 30

/-- The shift vector that `mesh_analysis` computes from the per-element counts `cf`: the
counts are put at the positions `1, …, K`, `base` at position 0, and the running sum is
taken. -/
def count_shifts (K base : Nat) (cf : Nat → Nat) : List Nat :=
  running_sum (((List.range K).foldl
    (fun sh v => sh.set (v + 1) (sh.getD (v + 1) 0 + cf v))
    (List.replicate (K + 1) 0)).set 0 base)

/-! ## Degrees of freedom -/

/-- The initialiser `{mesh.node_number(el, node.number), node.comp}` of `glob_i`, `glob_j`
in the rules of `mesh_analysis` and `triplets_fill`: the global (node, component) pair of
a local one. -/
def glob {F : Type} (mesh : mesh_2d F) (el : Nat) (node : node_info) : node_info :=
  node_info.make (mesh.node_number el node.number) node.comp

/-- The expression `row = 2 * glob.number + glob.comp` of the filling rules: the
`node_info` built from the index of the degree of freedom. -/
def dof_info (g : node_info) : node_info := node_info.make (2 * g.number + g.comp.toNat)

/-- The degree of freedom `d` belongs to the Dirichlet set of `kinematic_nodes`: it is the
index `2 * number + comp` of a member. -/
def dirichlet (kinematic_nodes : List node_info) (d : Nat) : Prop :=
  ∃ k, k ∈ kinematic_nodes ∧ k.dof = d

instance (kinematic_nodes : List node_info) (d : Nat) :
    Decidable (dirichlet kinematic_nodes d) := by
  unfold dirichlet
  infer_instance

/-- The sum of the values of the triplets of a list at the position `(r, c)`: the entry
that `setFromTriplets` gives the matrix there. -/
def entry_sum {F : Type} [Field F] (l : List (Triplet F)) (r c : Nat) : F :=
  ((l.filter (fun t => decide (t.row.index = r ∧ t.col.index = c))).map Triplet.value).sum

/-! ## The example mesh -/

/-- The linear triangle: the basis functions `1 - ξ - η`, `ξ`, `η` and one quadrature node
of weight `1/2`. -/
def triangle_element : element_2d_integrate_base ℚ :=
  { nodes_count := 3
    qnodes_count := 1
    weight := fun _ => 1 / 2
    qNxi := fun i _ => if i = 0 then -1 else if i = 1 then 1 else 0
    qNeta := fun i _ => if i = 0 then -1 else if i = 2 then 1 else 0 }

/-- The unit square with the nodes 0 (0,0), 1 (1,0), 2 (1,1), 3 (0,1), cut into the
triangles (0,1,2) and (0,2,3).  Boundary group 0 is the edge from node 0 to node 1; each
element has both elements in its neighbourhood. -/
def plate_mesh : mesh_2d ℚ :=
  { nodes_count := 4
    elements := [[0, 1, 2], [0, 2, 3]]
    element_type := fun _ => 0
    element_2d := fun _ => triangle_element
    neighbor := fun _ => [0, 1]
    boundary := fun b => if b = 0 then [[0, 1]] else []
    coord := fun n k =>
      if k = 0 then (if n = 1 ∨ n = 2 then 1 else 0) else (if n = 2 ∨ n = 3 then 1 else 0) }

/-- The quadrature tables of `plate_mesh`: one quadrature row per element, the Jacobi
matrices of the two triangles and their centroids. -/
def plate_quad : quadrature_tables ℚ :=
  { shifts_quad := [0, 1]
    all_jacobi_matrices := fun q k =>
      if q = 0 then (if k = 2 then 0 else 1) else (if k = 1 then 0 else 1)
    all_quad_coords := fun q k =>
      if (q = 0 ∧ k = 0) ∨ (q = 1 ∧ k = 1) then 2 / 3 else 1 / 3 }

/-- The edge of boundary group 0 of `plate_mesh` is held in the X direction and free of
load in the Y direction. -/
def plate_bounds : List (bound_cond ℚ) :=
  [{ type_x := boundary_type.TRANSLATION
     func_x := fun _ _ => 0
     type_y := boundary_type.FORCE
     func_y := fun _ _ => 0 }]

/-- The material of the examples: Poisson's ratio `1/4` and Young's modulus `1`. -/
def plate_params : parameters ℚ :=
  { nu := 1 / 4
    E := 1 }

/-! ## Positions and entries of the triplets -/

/-- The position `(row, col)` of the free-block triplet of a pair, if the pair gives one
(see `free_triplet`). -/
def free_pos {F : Type} (mesh : mesh_2d F) (kinematic_nodes : List node_info)
    (node_i node_j : node_info) (el el' : Nat) : Option (node_info × node_info) :=
  if (dof_info (glob mesh el node_i)).index ≥ (dof_info (glob mesh el' node_j)).index ∧
      glob mesh el node_i ∉ kinematic_nodes ∧ glob mesh el' node_j ∉ kinematic_nodes then
    some (dof_info (glob mesh el node_i), dof_info (glob mesh el' node_j))
  else none

/-- The position `(row, col)` of the boundary-block triplet of a pair, if the pair gives
one (see `bound_triplet`). -/
def bound_pos {F : Type} (mesh : mesh_2d F) (kinematic_nodes : List node_info)
    (node_i node_j : node_info) (el el' : Nat) : Option (node_info × node_info) :=
  if (dof_info (glob mesh el node_i)).index ≥ (dof_info (glob mesh el' node_j)).index ∧
      ¬ (glob mesh el node_i ∉ kinematic_nodes ∧ glob mesh el' node_j ∉ kinematic_nodes) ∧
      (glob mesh el node_i).ne (glob mesh el' node_j) = true then
    some (if glob mesh el' node_j ∉ kinematic_nodes then
        (dof_info (glob mesh el' node_j), dof_info (glob mesh el node_i))
      else (dof_info (glob mesh el node_i), dof_info (glob mesh el' node_j)))
  else none

/-- The test that a position is the entry `(r, c)` of the matrix. -/
def at_pos (o : Option (node_info × node_info)) (r c : Nat) : Bool :=
  match o with
  | some rc => decide (rc.1.index = r ∧ rc.2.index = c)
  | none => false

/-- The nodes of the boundary groups that carry a condition fit the index arithmetic
(see `mesh_2d.small_numbers`). -/
def mesh_2d.small_boundary {F : Type} (mesh : mesh_2d F) (groups : Nat) : Prop :=
  ∀ b, b < groups → ∀ x, x ∈ mesh.boundary_nodes b → x < 2 ^ 30

instance {F : Type} (mesh : mesh_2d F) : Decidable mesh.small_numbers := by
  unfold mesh_2d.small_numbers
  infer_instance

instance {F : Type} (mesh : mesh_2d F) (groups : Nat) :
    Decidable (mesh.small_boundary groups) := by
  unfold mesh_2d.small_boundary
  infer_instance

/-- The influence function of the examples: the constant 1. -/
def constant_influence : ℚ → ℚ → ℚ → ℚ → ℚ := fun _ _ _ _ => 1

/-- A state of the filling rules on `plate_mesh`: four free-block slots, two
boundary-block slots, and the cursors of the two elements. -/
def plate_state : fill_state ℚ :=
  { triplets := List.replicate 4 Triplet.default
    triplets_bound := List.replicate 2 Triplet.default
    shifts := [2, 3, 4]
    shifts_bound := [0, 1, 2] }

/-- The (node, component) pairs of an element in the order `(0, X), (0, Y), (1, X), …`. -/
def element_dofs {F : Type} (e : element_2d_integrate_base F) : List node_info :=
  (List.range e.nodes_count).flatMap
    (fun i => [node_info.make i component.X, node_info.make i component.Y])

/-- The quadratic form of the local element matrix
`A[(i,a),(j,b)] = integrate_loc(e, (i,a), (j,b))` at the vector `v`. -/
def local_form {F : Type} [Field F] (e : element_2d_integrate_base F)
    (jacobi_matrices : Nat → Nat → F) (shift : Nat) (coeff : Fin 3 → F)
    (v : node_info → F) : F :=
  ((element_dofs e).map
    (fun p => ((element_dofs e).map
      (fun q => v p * integrate_loc e p q jacobi_matrices shift coeff * v q)).sum)).sum

/-- A material with Poisson's ratio `1/2` and Young's modulus `1`. -/
def rubber_params : parameters ℚ :=
  { nu := 1 / 2
    E := 1 }

/-- The nodal vector with the X component of local node 2 and the Y component of local
node 0 equal to 1 and all other components 0. -/
def shear_vector : node_info → ℚ :=
  fun p =>
    if p = node_info.make 2 component.X then 1
    else if p = node_info.make 0 component.Y then 1
    else 0

/-! ## `boundary_condition` -/

/-- The class `Eigen::SparseMatrix<double>` in its column-major storage, as far as
`translation` reads it: `column k` lists the stored entries `(row, value)` of column `k` in
the order in which `InnerIterator(K, k)` visits them. -/
structure SparseMatrix (F : Type) where
  column : Nat → List (Nat × F)

/-- Modelled from the spec: the class `finite_element::element_1d_integrate_base` is
declared in `finite_element_routine.hpp`, which is not part of the sources at hand.  The
structure holds what `integrate_force_bound` reads from an edge element: the number of
quadrature nodes, their weights and the values `qN(i, q)` of the basis functions. -/
structure element_1d_integrate_base (F : Type) where
  qnodes_count : Nat
  weight : Nat → F
  qN : Nat → Nat → F

/-- Modelled from the spec: what `boundary_condition` obtains for the edge `el` of the
boundary group `b` from parts that are not in the sources at hand: the edge element
`mesh.element_1d(mesh.elements_on_bound_types(b)[el])` and the matrices that
`approx_jacobi_matrices_bound` and `approx_quad_nodes_coord_bound` fill for it. -/
structure boundary_tables (F : Type) where
  element_1d : Nat → Nat → element_1d_integrate_base F
  jacobi_matrices : Nat → Nat → Nat → Nat → F
  coords : Nat → Nat → Nat → Nat → F

/-- The function `integrate_force_bound`; `sqrt` stands for `std::sqrt`. -/
def integrate_force_bound {F : Type} [Field F] (sqrt : F → F)
    (be : element_1d_integrate_base F) (i : Nat) (coords jacobi_matrices : Nat → Nat → F)
    (func : F → F → F) : F :=
  (List.range be.qnodes_count).foldl
    (fun integral q => integral +
      func (coords q 0) (coords q 1) * be.weight q * be.qN i q *
        sqrt (jacobi_matrices q 0 * jacobi_matrices q 0 +
          jacobi_matrices q 1 * jacobi_matrices q 1)) 0

/-- The function `kinematic_nodes_vectors`: a node of a boundary group with a `TRANSLATION`
condition is appended to the list of the group unless one of the lists already has it. -/
def kinematic_nodes_vectors {F : Type} (mesh : mesh_2d F) (bounds_cond : List (bound_cond F)) :
    List (List Nat) :=
  (List.range bounds_cond.length).foldl
    (fun kinematic_nodes b =>
      if translation_x bounds_cond b || translation_y bounds_cond b then
        (mesh.boundary_nodes b).foldl
          (fun kinematic_nodes node =>
            if kinematic_nodes.all (fun l => !l.contains node) then
              kinematic_nodes.set b (kinematic_nodes.getD b [] ++ [node])
            else kinematic_nodes)
          kinematic_nodes
      else kinematic_nodes)
    (List.replicate bounds_cond.length [])

/-- The function `translation`: `node >> 1` is `node / 2`. -/
def translation {F : Type} [Field F] (mesh : mesh_2d F) (K_bound : SparseMatrix F)
    (f : List F) (boundaryFun : F → F → F) (node : Nat) : List F :=
  let temp := boundaryFun (mesh.coord (node / 2) 0) (mesh.coord (node / 2) 1)
  (K_bound.column node).foldl
    (fun f it => f.set it.1 (f.getD it.1 0 - temp * it.2)) f

/-- The test `std::get<0>(bounds_cond[b]) == boundary_type::FORCE`. -/
def force_x {F : Type} (bounds_cond : List (bound_cond F)) (b : Nat) : Bool :=
  match bounds_cond[b]? with
  | some c => decide (c.type_x = boundary_type.FORCE)
  | none => false

/-- The test `std::get<2>(bounds_cond[b]) == boundary_type::FORCE`. -/
def force_y {F : Type} (bounds_cond : List (bound_cond F)) (b : Nat) : Bool :=
  match bounds_cond[b]? with
  | some c => decide (c.type_y = boundary_type.FORCE)
  | none => false

/-- The function `std::get<1>(bounds_cond[b])`. -/
def func_x {F : Type} [Field F] (bounds_cond : List (bound_cond F)) (b : Nat) : F → F → F :=
  match bounds_cond[b]? with
  | some c => c.func_x
  | none => fun _ _ => 0

/-- The function `std::get<3>(bounds_cond[b])`. -/
def func_y {F : Type} [Field F] (bounds_cond : List (bound_cond F)) (b : Nat) : F → F → F :=
  match bounds_cond[b]? with
  | some c => c.func_y
  | none => fun _ _ => 0

/-- One of the two loops over the edges of the boundary group `b` in the first part of
`boundary_condition`: `f[mesh.boundary(b)(el, i)] += tau * integrate_force_bound(…)` for
every local node `i` of every edge `el`. -/
def force_loop {F : Type} [Field F] (sqrt : F → F) (mesh : mesh_2d F)
    (tables : boundary_tables F) (tau : F) (b : Nat) (func : F → F → F) (f : List F) :
    List F :=
  (List.range (mesh.boundary b).length).foldl
    (fun f el =>
      (List.range ((mesh.boundary b).getD el []).length).foldl
        (fun f i =>
          f.set (((mesh.boundary b).getD el []).getD i 0)
            (f.getD (((mesh.boundary b).getD el []).getD i 0) 0 +
              tau * integrate_force_bound sqrt (tables.element_1d b el) i
                (tables.coords b el) (tables.jacobi_matrices b el) func))
        f)
    f

/-- The first loop over `b` of `boundary_condition`: the `FORCE` conditions. -/
def force_pass {F : Type} [Field F] (sqrt : F → F) (mesh : mesh_2d F)
    (tables : boundary_tables F) (bounds_cond : List (bound_cond F)) (tau : F)
    (f : List F) : List F :=
  (List.range bounds_cond.length).foldl
    (fun f b =>
      let after_x :=
        if force_x bounds_cond b then
          force_loop sqrt mesh tables tau b (func_x bounds_cond b) f
        else f
      if force_y bounds_cond b then
        force_loop sqrt mesh tables tau b (func_y bounds_cond b) after_x
      else after_x)
    f

/-- The second loop over `b` of `boundary_condition`: the calls of `translation`.  The
nodes are `uint32_t`, so `2 * node` and `2 * node + 1` are taken modulo `2^32`. -/
def translation_pass {F : Type} [Field F] (mesh : mesh_2d F)
    (temperature_nodes : List (List Nat)) (bounds_cond : List (bound_cond F))
    (K_bound : SparseMatrix F) (f : List F) : List F :=
  (List.range temperature_nodes.length).foldl
    (fun f b =>
      let after_x :=
        if translation_x bounds_cond b then
          (temperature_nodes.getD b []).foldl
            (fun f node =>
              translation mesh K_bound f (func_x bounds_cond b) ((2 * node) % 2 ^ 32)) f
        else f
      if translation_y bounds_cond b then
        (temperature_nodes.getD b []).foldl
          (fun f node =>
            translation mesh K_bound f (func_y bounds_cond b) ((2 * node + 1) % 2 ^ 32))
          after_x
      else after_x)
    f

/-- The third loop over `b` of `boundary_condition`: the prescribed values are written
into `f`. -/
def pin_pass {F : Type} [Field F] (mesh : mesh_2d F) (temperature_nodes : List (List Nat))
    (bounds_cond : List (bound_cond F)) (f : List F) : List F :=
  (List.range temperature_nodes.length).foldl
    (fun f b =>
      let after_x :=
        if translation_x bounds_cond b then
          (temperature_nodes.getD b []).foldl
            (fun f node =>
              f.set ((2 * node) % 2 ^ 32)
                (func_x bounds_cond b (mesh.coord node 0) (mesh.coord node 1))) f
        else f
      if translation_y bounds_cond b then
        (temperature_nodes.getD b []).foldl
          (fun f node =>
            f.set ((2 * node + 1) % 2 ^ 32)
              (func_y bounds_cond b (mesh.coord node 0) (mesh.coord node 1))) after_x
      else after_x)
    f

/-- The function `boundary_condition`; the result is the vector `f` after the call. -/
def boundary_condition {F : Type} [Field F] (sqrt : F → F) (mesh : mesh_2d F)
    (tables : boundary_tables F) (temperature_nodes : List (List Nat))
    (bounds_cond : List (bound_cond F)) (tau : F) (K_bound : SparseMatrix F)
    (f : List F) : List F :=
  pin_pass mesh temperature_nodes bounds_cond
    (translation_pass mesh temperature_nodes bounds_cond K_bound
      (force_pass sqrt mesh tables bounds_cond tau f))

/-- The writes `f[index] = value` of the third loop of `boundary_condition`, in order. -/
def pin_writes {F : Type} [Field F] (mesh : mesh_2d F) (temperature_nodes : List (List Nat))
    (bounds_cond : List (bound_cond F)) : List (Nat × F) :=
  (List.range temperature_nodes.length).flatMap
    (fun b =>
      (if translation_x bounds_cond b then
        (temperature_nodes.getD b []).map
          (fun node => ((2 * node) % 2 ^ 32,
            func_x bounds_cond b (mesh.coord node 0) (mesh.coord node 1)))
      else []) ++
      (if translation_y bounds_cond b then
        (temperature_nodes.getD b []).map
          (fun node => ((2 * node + 1) % 2 ^ 32,
            func_y bounds_cond b (mesh.coord node 0) (mesh.coord node 1)))
      else []))

/-! ## Examples for `boundary_condition` -/

/-- The mesh `plate_mesh` with two boundary groups: group 0 is the edge from node 0 to
node 1 and group 1 the edge from node 1 to node 2, so node 1 belongs to both. -/
def corner_mesh : mesh_2d ℚ :=
  { plate_mesh with
    boundary := fun b => if b = 0 then [[0, 1]] else if b = 1 then [[1, 2]] else [] }

/-- The conditions of `corner_mesh`: group 0 is held in the X direction (value 0) and free
of load in the Y direction; group 1 is free of load in the X direction and has the
displacement `5 * (1 - y)` prescribed in the Y direction, which is 5 at node 1 and 0 at
node 2. -/
def corner_bounds : List (bound_cond ℚ) :=
  [{ type_x := boundary_type.TRANSLATION
     func_x := fun _ _ => 0
     type_y := boundary_type.FORCE
     func_y := fun _ _ => 0 },
   { type_x := boundary_type.FORCE
     func_x := fun _ _ => 0
     type_y := boundary_type.TRANSLATION
     func_y := fun _ y => 5 * (1 - y) }]

/-- The mesh `plate_mesh` with the edge from node 2 to node 3 as its boundary group 0. -/
def traction_mesh : mesh_2d ℚ :=
  { plate_mesh with boundary := fun b => if b = 0 then [[2, 3]] else [] }

/-- The conditions of `traction_mesh`: the load 1 in the X direction and the load 2 in the
Y direction on group 0. -/
def traction_bounds : List (bound_cond ℚ) :=
  [{ type_x := boundary_type.FORCE
     func_x := fun _ _ => 1
     type_y := boundary_type.FORCE
     func_y := fun _ _ => 2 }]

/-- A boundary block with two stored entries in column 0 (rows 1 and 3) and one in
column 2 (row 3). -/
def plate_K_bound : SparseMatrix ℚ :=
  { column := fun k =>
      if k = 0 then [(1, 1 / 2), (3, -1 / 3)] else if k = 2 then [(3, 1 / 5)] else [] }

/-- Edge data for the examples: a two-node edge element with one quadrature node of weight
1 at which both basis functions are `1/2`, the tangent `(1, 0)` and the point `(0, 0)`. -/
def plate_tables : boundary_tables ℚ :=
  { element_1d := fun _ _ =>
      { qnodes_count := 1
        weight := fun _ => 1
        qN := fun _ _ => 1 / 2 }
    jacobi_matrices := fun _ _ _ k => if k = 0 then 1 else 0
    coords := fun _ _ _ _ => 0 }

/-- A stand-in for `std::sqrt` on the values 0 and 1, the only ones that occur with
`plate_tables`. -/
def unit_sqrt : ℚ → ℚ := fun x => x

/-- Conditions for `plate_mesh`: the edge of group 0 has the displacement `x + y + 3`
prescribed in the X direction and carries the load 2 in the Y direction. -/
def pinned_bounds : List (bound_cond ℚ) :=
  [{ type_x := boundary_type.TRANSLATION
     func_x := fun x y => x + y + 3
     type_y := boundary_type.FORCE
     func_y := fun _ _ => 2 }]

/-- Two boundaries that prescribe different displacements in the X direction, 1 and 2. -/
def double_pin_bounds : List (bound_cond ℚ) :=
  [{ type_x := boundary_type.TRANSLATION
     func_x := fun _ _ => 1
     type_y := boundary_type.FORCE
     func_y := fun _ _ => 0 },
   { type_x := boundary_type.TRANSLATION
     func_x := fun _ _ => 2
     type_y := boundary_type.FORCE
     func_y := fun _ _ => 0 }]

/-! ## The bilinear forms of the specification -/

/-- The determinant `J00 * J11 - J01 * J10` of the Jacobi matrix stored in the row `row` of
`jacobi_matrices`. -/
def jacobian {F : Type} [Field F] (jacobi_matrices : Nat → Nat → F) (row : Nat) : F :=
  jacobi_matrices row 0 * jacobi_matrices row 3 - jacobi_matrices row 1 * jacobi_matrices row 2

/-- The physical gradient `gx_k = (Nxi_k * J11 - Neta_k * J10) / det` of the specification,
for the basis function `k` at the quadrature node `q` of an element whose quadrature rows
start at `shift`. -/
def gradient_x {F : Type} [Field F] (e : element_2d_integrate_base F)
    (jacobi_matrices : Nat → Nat → F) (shift k q : Nat) : F :=
  (e.qNxi k q * jacobi_matrices (shift + q) 3 - e.qNeta k q * jacobi_matrices (shift + q) 2) /
    jacobian jacobi_matrices (shift + q)

/-- The physical gradient `gy_k = (-Nxi_k * J01 + Neta_k * J00) / det` of the
specification. -/
def gradient_y {F : Type} [Field F] (e : element_2d_integrate_base F)
    (jacobi_matrices : Nat → Nat → F) (shift k q : Nat) : F :=
  (-e.qNxi k q * jacobi_matrices (shift + q) 1 + e.qNeta k q * jacobi_matrices (shift + q) 0) /
    jacobian jacobi_matrices (shift + q)

/-- The strain-displacement matrix `B_k = [[gx, 0], [0, gy], [gy, gx]]` of the
specification. -/
def strain_displacement {F : Type} [Field F] (gx gy : F) : Matrix (Fin 3) (Fin 2) F :=
  !![gx, 0; 0, gy; gy, gx]

/-- The matrix `C = [[c0, c1, 0], [c1, c0, 0], [0, 0, c2]]` of the specification. -/
def elasticity {F : Type} [Field F] (coeff : Fin 3 → F) : Matrix (Fin 3) (Fin 3) F :=
  !![coeff 0, coeff 1, 0; coeff 1, coeff 0, 0; 0, 0, coeff 2]

/-- The row or column of a 2 × 2 block that belongs to a component. -/
def component.toFin : component → Fin 2
  | component.X => 0
  | component.Y => 1

/-- The entry `(B_i^T C B_j)[a, b]` of the specification, for the gradients `(gxi, gyi)` of
the first and `(gxj, gyj)` of the second basis function. -/
def strain_entry {F : Type} [Field F] (coeff : Fin 3 → F) (a b : component)
    (gxi gyi gxj gyj : F) : F :=
  ((strain_displacement gxi gyi).transpose * elasticity coeff * strain_displacement gxj gyj)
    a.toFin b.toFin

/-- The local element integral of the specification:
`sum over q of w_q * det_q * (B_i^T C B_j)[a, b]`. -/
def integrate_loc_spec {F : Type} [Field F] (e : element_2d_integrate_base F) (i j : node_info)
    (jacobi_matrices : Nat → Nat → F) (shift : Nat) (coeff : Fin 3 → F) : F :=
  ∑ q in Finset.range e.qnodes_count,
    e.weight q * jacobian jacobi_matrices (shift + q) *
      strain_entry coeff i.comp j.comp
        (gradient_x e jacobi_matrices shift i.index q)
        (gradient_y e jacobi_matrices shift i.index q)
        (gradient_x e jacobi_matrices shift j.index q)
        (gradient_y e jacobi_matrices shift j.index q)

/-- The nonlocal element-pair integral of the specification: the double sum over `qL` and
`qNL` of `w_qL * det(eL, qL) * w_qNL * det(eNL, qNL) * influence(x(eL, qL), x(eNL, qNL)) *
(B_iL(eL, qL)^T C B_jNL(eNL, qNL))[a, b]`. -/
def integrate_nonloc_spec {F : Type} [Field F] (eL eNL : element_2d_integrate_base F)
    (iL jNL : node_info) (shiftL shiftNL : Nat) (coords jacobi_matrices : Nat → Nat → F)
    (influence_fun : F → F → F → F → F) (coeff : Fin 3 → F) : F :=
  ∑ qL in Finset.range eL.qnodes_count, ∑ qNL in Finset.range eNL.qnodes_count,
    eL.weight qL * jacobian jacobi_matrices (shiftL + qL) *
      eNL.weight qNL * jacobian jacobi_matrices (shiftNL + qNL) *
      influence_fun (coords (shiftL + qL) 0) (coords (shiftNL + qNL) 0)
        (coords (shiftL + qL) 1) (coords (shiftNL + qNL) 1) *
      strain_entry coeff iL.comp jNL.comp
        (gradient_x eL jacobi_matrices shiftL iL.index qL)
        (gradient_y eL jacobi_matrices shiftL iL.index qL)
        (gradient_x eNL jacobi_matrices shiftNL jNL.index qNL)
        (gradient_y eNL jacobi_matrices shiftNL jNL.index qNL)

/-! ## The writes of `triplets_fill` -/

end statics_with_nonloc

namespace config

/-! ## `general_config_data.hpp` -/

/-- The class `Json::Value` of the JSON library as the tree of its values: null, boolean,
signed and unsigned integer, real, string, array and object (the members in the order of
their keys). -/
inductive Json (F : Type) where
  | nullValue
  | booleanValue (b : Bool)
  | intValue (n : Int)
  | uintValue (n : Nat)
  | realValue (x : F)
  | stringValue (s : String)
  | arrayValue (items : List (Json F))
  | objectValue (members : List (String × Json F))

/-- The exceptions that the constructors of the configuration throw: `std::domain_error`,
the `Json::LogicError` of a failed conversion, and the error of `check_required_fields`;
each carries its message. -/
inductive config_error where
  | domain_error (what : String)
  | logic_error (what : String)
  | required_field (what : String)
deriving DecidableEq

/-- The call `value.is<T>()` for a floating-point `T`, that is `isDouble()`: the value is
an integer or a real number. -/
def Json.is_floating {F : Type} : Json F → Bool
  | Json.intValue _ => true
  | Json.uintValue _ => true
  | Json.realValue _ => true
  | _ => false

/-- The call `value.as<T>()` for a floating-point `T`, that is `asDouble()`: numbers are
converted, null is 0, a boolean is 0 or 1, and any other value throws. -/
def Json.as_floating {F : Type} [Field F] : Json F → Except config_error F
  | Json.intValue n => Except.ok (n : F)
  | Json.uintValue n => Except.ok (n : F)
  | Json.realValue x => Except.ok x
  | Json.nullValue => Except.ok 0
  | Json.booleanValue b => Except.ok (if b then 1 else 0)
  | _ => Except.error (config_error.logic_error "Value is not convertible to double.")

/-- The call `value.isArray()`. -/
def Json.isArray {F : Type} : Json F → Bool
  | Json.arrayValue _ => true
  | _ => false

/-- The call `value.size()`: the number of items of an array or of members of an object,
and 0 for every other value. -/
def Json.size {F : Type} : Json F → Nat
  | Json.arrayValue items => items.length
  | Json.objectValue members => members.length
  | _ => 0

/-- The call `value[i]` on a constant value: the item `i` of an array, and null where
there is none. -/
def Json.item {F : Type} (value : Json F) (i : Nat) : Json F :=
  match value with
  | Json.arrayValue items => items.getD i Json.nullValue
  | _ => Json.nullValue

/-- The call `value.isMember(key)`. -/
def Json.isMember {F : Type} (value : Json F) (key : String) : Bool :=
  match value with
  | Json.objectValue members => (members.lookup key).isSome
  | _ => false

/-- The call `value[key]` on a constant value: the member `key` of an object, and null
where there is none. -/
def Json.member {F : Type} (value : Json F) (key : String) : Json F :=
  match value with
  | Json.objectValue members => (members.lookup key).getD Json.nullValue
  | _ => Json.nullValue

/-- Modelled from the spec: `check_required_fields` is declared in `config_utils.hpp`,
which is not part of the sources at hand.  Following section 6 ("missing required field …
fail-fast … with a message naming the field"), the call fails with the first required
field that the value does not have. -/
def check_required_fields {F : Type} (value : Json F) (required : List String) :
    Except config_error Unit :=
  match required.find? (fun field => !value.isMember field) with
  | some field => Except.error (config_error.required_field field)
  | none => Except.ok ()

/-- The loop `for i : result[i] = arr[i].as<T>()` of `read_radius` over a list of indices;
the first conversion that throws ends it. -/
def read_items {F : Type} [Field F] (arr : Json F) : List Nat → Except config_error (List F)
  | [] => Except.ok []
  | i :: rest =>
    match (arr.item i).as_floating with
    | Except.error e => Except.error e
    | Except.ok x =>
      match read_items arr rest with
      | Except.error e => Except.error e
      | Except.ok xs => Except.ok (x :: xs)

/-- The function `model_data::read_radius`.  The result is the list of the `Dimension`
components of the `std::array`; for `Dimension = 1` the source returns its only component
as a scalar, which is the list of one entry here. -/
def read_radius {F : Type} [Field F] (Dimension : Nat) (arr : Json F) (field : String) :
    Except config_error (List F) :=
  if arr.is_floating then
    match arr.as_floating with
    | Except.error e => Except.error e
    | Except.ok r => Except.ok (List.replicate Dimension r)
  else if arr.isArray && arr.size == Dimension then
    read_items arr (List.range Dimension)
  else
    Except.error (config_error.domain_error
      ("Field \"" ++ field ++ "\" must be an array with length " ++ toString Dimension))

/-- The class `model_data<T, Dimension>`. -/
structure model_data (F : Type) where
  local_weight : F
  nonlocal_radius : List F
  search_radius : List F

/-- The constructor `model_data(const Json::Value& model)`. -/
def model_data.make {F : Type} [Field F] (Dimension : Nat) (model : Json F) :
    Except config_error (model_data F) :=
  match check_required_fields model ["local_weight", "nonlocal_radius"] with
  | Except.error e => Except.error e
  | Except.ok _ =>
    match (model.member "local_weight").as_floating with
    | Except.error e => Except.error e
    | Except.ok local_weight =>
      match read_radius Dimension (model.member "nonlocal_radius") "nonlocal_radius" with
      | Except.error e => Except.error e
      | Except.ok nonlocal_radius =>
        if !model.isMember "search_radius" then
          Except.ok
            { local_weight := local_weight
              nonlocal_radius := nonlocal_radius
              search_radius := nonlocal_radius }
        else
          match read_radius Dimension (model.member "search_radius") "search_radius" with
          | Except.error e => Except.error e
          | Except.ok search_radius =>
            Except.ok
              { local_weight := local_weight
                nonlocal_radius := nonlocal_radius
                search_radius := search_radius }

/-- A model object without the member `search_radius`. -/
def model_without_search : Json ℚ :=
  Json.objectValue
    [("local_weight", Json.realValue (1 / 2)),
     ("nonlocal_radius", Json.arrayValue [Json.realValue (1 / 10), Json.uintValue 2])]

/-- A model object with the member `search_radius`. -/
def model_with_search : Json ℚ :=
  Json.objectValue
    [("local_weight", Json.realValue (1 / 2)),
     ("nonlocal_radius", Json.realValue (1 / 10)),
     ("search_radius", Json.realValue (1 / 5))]

/-- A model object whose member `local_weight` is 2. -/
def model_weight_two : Json ℚ :=
  Json.objectValue
    [("local_weight", Json.realValue 2),
     ("nonlocal_radius", Json.realValue (1 / 10))]

end config

namespace thermal

/-! ## `heat_equation_solution_1d.hpp`

The class `heat_equation_solution_1d` over an exact field `F` in place of the floating-point
type `T`.  The member function `calc_flux` changes the object, so it is a function from the
object before the call to the pair of the outcome (the returned vector or the exception) and
the object after the call. -/

/-- The enumeration `coefficients_t` with the enumerators that `calc_flux` names. -/
inductive coefficients_t where
  | CONSTANTS
  | SPACE_DEPENDENT
  | SOLUTION_DEPENDENT
  deriving DecidableEq

/-- The enumeration `theory_t`. -/
inductive theory_t where
  | LOCAL
  | NONLOCAL
  deriving DecidableEq

/-- The exception that `calc_flux` throws. -/
inductive exception where
  | domain_error
  deriving DecidableEq

/-- Modelled from the spec: the function `theory_type` is defined in a header that is not
part of the sources at hand.  A local weight below the sentinel 0.999 selects the nonlocal
theory. -/
def theory_type {F : Type} [LinearOrderedField F] (local_weight : F) : theory_t :=
  if local_weight < 999 / 1000 then theory_t.NONLOCAL else theory_t.LOCAL

/-- Modelled from the spec: the function `nonlocal_weight` is defined in a header that is not
part of the sources at hand.  The weight of the nonlocal part is `1 - p1`. -/
def nonlocal_weight {F : Type} [LinearOrderedField F] (local_weight : F) : F :=
  1 - local_weight

/-- The model of a segment as `calc_flux` reads it: the local weight and the influence
function of two coordinates. -/
structure model_parameters (F : Type) where
  local_weight : F
  influence : F → F → F

/-- The physical parameter of a segment as `calc_flux` reads it: the kind of the
coefficients and the constant conductivity. -/
structure parameter_1d (F : Type) where
  type : coefficients_t
  conductivity : F

/-- Modelled from the spec: the class `mesh_1d` is declared in a header that is not part of
the sources at hand.  The structure holds what `calc_flux` reads from it: the number of
quadrature nodes and the quadrature weights of the element, the number of segments, the
first element `elements(segment).front()` and the bound `*elements(segment).end()` of the
range of elements of a segment, the neighbours of an element, the coordinate of a
quadrature node of an element and the Jacobian factor of a segment. -/
structure mesh_1d (F : Type) where
  qnodes_count : Nat
  weight : Nat → F
  segments_count : Nat
  segment_front : Nat → Nat
  segment_end : Nat → Nat
  neighbours : Nat → List Nat
  qnode_coord : Nat → Nat → F
  jacobian : Nat → F

/-- The range `mesh().elements(segment)`. -/
def mesh_1d.elements {F : Type} (mesh : mesh_1d F) (segment : Nat) : List Nat :=
  List.range' (mesh.segment_front segment)
    (mesh.segment_end segment - mesh.segment_front segment)

/-- The call `mesh().elements_count(segment)`. -/
def mesh_1d.elements_count {F : Type} (mesh : mesh_1d F) (segment : Nat) : Nat :=
  mesh.segment_end segment - mesh.segment_front segment

/-- The class `heat_equation_solution_1d`: the mesh and the models of the base class
`solution_1d` and the members `_temperature`, `_parameters` and `_flux`. -/
structure heat_equation_solution_1d (F : Type) where
  mesh : mesh_1d F
  model : Nat → model_parameters F
  _temperature : List F
  _parameters : Nat → parameter_1d F
  _flux : Option (List F)

/-- The member function `temperature`. -/
def heat_equation_solution_1d.temperature {F : Type} (sol : heat_equation_solution_1d F) :
    List F :=
  sol._temperature

/-- The member function `flux`: the stored vector; the result is `none` where the source
dereferences an empty `std::optional`. -/
def heat_equation_solution_1d.flux {F : Type} (sol : heat_equation_solution_1d F) :
    Option (List F) :=
  sol._flux

/-- The member function `parameter`. -/
def heat_equation_solution_1d.parameter {F : Type} (sol : heat_equation_solution_1d F)
    (segment : Nat) : parameter_1d F :=
  sol._parameters segment

/-- The member function `is_flux_calculated`. -/
def heat_equation_solution_1d.is_flux_calculated {F : Type}
    (sol : heat_equation_solution_1d F) : Bool :=
  sol._flux.isSome

/-- The statement `gradient_nonlocal[qshiftL + qL] -= el.weight(qNL) * influence_weight *
gradient[qshiftNL + qNL]` of `calc_flux`. -/
def nonlocal_update {F : Type} [LinearOrderedField F] (sol : heat_equation_solution_1d F)
    (segment : Nat) (gradient : List F) (eL eNL qL : Nat) (gradient_nonlocal : List F)
    (qNL : Nat) : List F :=
  gradient_nonlocal.set ((eL - sol.mesh.segment_front segment) * sol.mesh.qnodes_count + qL)
    (gradient_nonlocal.getD
        ((eL - sol.mesh.segment_front segment) * sol.mesh.qnodes_count + qL) 0 -
      sol.mesh.weight qNL *
        (sol.model segment).influence (sol.mesh.qnode_coord eL qL)
          (sol.mesh.qnode_coord eNL qNL) *
        gradient.getD (eNL * sol.mesh.qnodes_count + qNL) 0)

/-- The vector `gradient_nonlocal` of a segment of the nonlocal theory: the four nested
loops over `eL`, `eNL`, `qL` and `qNL`, followed by the multiplication with
`nonlocal_weight(local_weight) * conductivity * jacobian(segment)`. -/
def gradient_nonlocal {F : Type} [LinearOrderedField F] (sol : heat_equation_solution_1d F)
    (segment : Nat) (gradient : List F) : List F :=
  ((sol.mesh.elements segment).foldl
    (fun gn eL => (sol.mesh.neighbours eL).foldl
      (fun gn eNL => (List.range sol.mesh.qnodes_count).foldl
        (fun gn qL => (List.range sol.mesh.qnodes_count).foldl
          (nonlocal_update sol segment gradient eL eNL qL) gn) gn) gn)
    (List.replicate (sol.mesh.elements_count segment * sol.mesh.qnodes_count) 0)).map
    (fun x => x * (nonlocal_weight (sol.model segment).local_weight *
      (sol.parameter segment).conductivity * sol.mesh.jacobian segment))

/-- The body of the loop `for (segment : mesh().segments())` of `calc_flux`: the exception
for a conductivity that is not constant, the vector `gradient_nonlocal` and the loop over
the quadrature rows of the segment, which rewrites `gradient` in place. -/
def segment_step {F : Type} [LinearOrderedField F] (sol : heat_equation_solution_1d F)
    (gradient : List F) (segment : Nat) : Except exception (List F) :=
  if (sol.parameter segment).type = coefficients_t.SPACE_DEPENDENT ∨
      (sol.parameter segment).type = coefficients_t.SOLUTION_DEPENDENT then
    Except.error exception.domain_error
  else
    let theory := theory_type (sol.model segment).local_weight
    let gn := if theory = theory_t.NONLOCAL then gradient_nonlocal sol segment gradient else []
    let qshiftNL := sol.mesh.qnodes_count * sol.mesh.segment_front segment
    Except.ok ((List.range' qshiftNL
        (sol.mesh.qnodes_count * sol.mesh.segment_end segment - qshiftNL)).foldl
      (fun gradient qshiftL =>
        let scaled := gradient.set qshiftL (gradient.getD qshiftL 0 *
          (-(sol.model segment).local_weight * (sol.parameter segment).conductivity))
        if theory = theory_t.NONLOCAL then
          scaled.set qshiftL (scaled.getD qshiftL 0 + gn.getD (qshiftL - qshiftNL) 0)
        else scaled) gradient)

/-- The loop over the segments of `calc_flux`, started from the vector `gradient`: the
quadrature-node vector that `calc_flux` hands to `from_qnodes_to_nodes`, or the
exception. -/
def flux_in_qnodes {F : Type} [LinearOrderedField F] (sol : heat_equation_solution_1d F)
    (gradient : List F) : Except exception (List F) :=
  (List.range sol.mesh.segments_count).foldlM (segment_step sol) gradient

/-- The member function `calc_flux`.  The functions `gradient_in_qnodes` and
`from_qnodes_to_nodes` of `mesh_1d_utils.hpp`, which is not part of the sources at hand, are
parameters.  The result is the pair of the outcome and the object after the call; the
member `_flux` is assigned only after the loop over the segments has ended. -/
def calc_flux {F : Type} [LinearOrderedField F]
    (gradient_in_qnodes from_qnodes_to_nodes : mesh_1d F → List F → List F)
    (sol : heat_equation_solution_1d F) :
    Except exception (List F) × heat_equation_solution_1d F :=
  match flux_in_qnodes sol (gradient_in_qnodes sol.mesh sol.temperature) with
  | Except.error e => (Except.error e, sol)
  | Except.ok gradient =>
    (Except.ok (from_qnodes_to_nodes sol.mesh gradient),
      { sol with _flux := some (from_qnodes_to_nodes sol.mesh gradient) })

/-- The value of the temperature gradient `g(e, q)` at the quadrature node `q` of the
element `e` in a vector of quadrature-node values. -/
def qnode_value {F : Type} [LinearOrderedField F] (mesh : mesh_1d F) (g : List F)
    (e q : Nat) : F :=
  g.getD (e * mesh.qnodes_count + q) 0

/-- The quadrature-node flux of the specification at the quadrature node `qL` of the
element `eL` of a segment: `-p1 * k * g(eL, qL)` for a segment of the local theory, and
`-p1 * k * g(eL, qL) - (1 - p1) * k * J * sum over eNL in neighbours(eL) and qNL of
w(qNL) * influence(x(eL, qL), x(eNL, qNL)) * g(eNL, qNL)` for a segment of the nonlocal
theory. -/
def flux_spec {F : Type} [LinearOrderedField F] (sol : heat_equation_solution_1d F)
    (g : List F) (segment eL qL : Nat) : F :=
  match theory_type (sol.model segment).local_weight with
  | theory_t.LOCAL =>
    -(sol.model segment).local_weight * (sol.parameter segment).conductivity *
      qnode_value sol.mesh g eL qL
  | theory_t.NONLOCAL =>
    -(sol.model segment).local_weight * (sol.parameter segment).conductivity *
        qnode_value sol.mesh g eL qL -
      (1 - (sol.model segment).local_weight) * (sol.parameter segment).conductivity *
        sol.mesh.jacobian segment *
        ((sol.mesh.neighbours eL).map (fun eNL =>
          ∑ qNL in Finset.range sol.mesh.qnodes_count,
            sol.mesh.weight qNL *
              (sol.model segment).influence (sol.mesh.qnode_coord eL qL)
                (sol.mesh.qnode_coord eNL qNL) *
              qnode_value sol.mesh g eNL qNL)).sum

/-! ## Example solutions -/

/-- A rod of two elements with one quadrature node of weight 1 each.  Element 0 is the
segment 0 and element 1 the segment 1; the neighbourhood of element 1 holds both elements,
the neighbourhood of element 0 holds element 0. -/
def rod_mesh : mesh_1d ℚ :=
  { qnodes_count := 1
    weight := fun _ => 1
    segments_count := 2
    segment_front := fun segment => segment
    segment_end := fun segment => segment + 1
    neighbours := fun e => if e = 1 then [0, 1] else [0]
    qnode_coord := fun e _ => (e : ℚ) + 1 / 2
    jacobian := fun _ => 1 }

/-- A solution on `rod_mesh`: segment 0 is of the local theory (`p1 = 1`) with
conductivity 2, segment 1 of the nonlocal theory (`p1 = 1/2`) with conductivity 1 and the
constant influence function 1; the flux has not been calculated. -/
def rod_solution : heat_equation_solution_1d ℚ :=
  { mesh := rod_mesh
    model := fun segment =>
      { local_weight := if segment = 0 then 1 else 1 / 2
        influence := fun _ _ => 1 }
    _temperature := [0, 1, 2]
    _parameters := fun segment =>
      { type := coefficients_t.CONSTANTS
        conductivity := if segment = 0 then 2 else 1 }
    _flux := none }

/-- The solution `rod_solution` with a conductivity of segment 1 that depends on the
coordinate. -/
def rod_solution_space_dependent : heat_equation_solution_1d ℚ :=
  { rod_solution with
    _parameters := fun segment =>
      { type := if segment = 1 then coefficients_t.SPACE_DEPENDENT
          else coefficients_t.CONSTANTS
        conductivity := 1 } }

end thermal

namespace finite_element

/-! ## `qubic_serendipity.hpp`

The basis of the cubic serendipity element is a tuple of expressions of the library
`symdiff` in the variables `xi = variable<0>`, `eta = variable<1>` and `p = variable<2>`;
`N`, `Nxi` and `Neta` are the functions of `std::array<T, 3>` that `to_function` makes of
the expressions and of their derivatives.  The decimal constants of the source are binary
fractions and are written as such: `0.28125 = 9/32`, `0.5625 = 9/16`, `0.03125 = 1/32`,
`0.84375 = 27/32` and `0.140625 = 9/64`. -/

/-- Modelled from the spec: the expression templates of the library `symdiff` are not part
of the sources at hand.  An expression is a constant, a variable `variable<k>`, or the
negation, sum, difference or product of expressions: the operations that the basis of
`qubic_serendipity` uses. -/
inductive expression (F : Type) where
  | constant (c : F)
  | var (k : Nat)
  | neg (a : expression F)
  | add (a b : expression F)
  | sub (a b : expression F)
  | mul (a b : expression F)

instance {F : Type} : Neg (expression F) := ⟨expression.neg⟩

instance {F : Type} : Add (expression F) := ⟨expression.add⟩

instance {F : Type} : Sub (expression F) := ⟨expression.sub⟩

instance {F : Type} : Mul (expression F) := ⟨expression.mul⟩

/-- Modelled from the spec: the call `e(x)` of an expression of `symdiff` on the values
`x` of the variables, which is what `symdiff::to_function<T, 3>` wraps. -/
def expression.eval {F : Type} [Field F] : expression F → List F → F
  | expression.constant c, _ => c
  | expression.var k, x => x.getD k 0
  | expression.neg a, x => - a.eval x
  | expression.add a b, x => a.eval x + b.eval x
  | expression.sub a b, x => a.eval x - b.eval x
  | expression.mul a b, x => a.eval x * b.eval x

/-- Modelled from the spec: `symdiff::derivative<variable<k>>`, the partial derivative of
an expression with respect to the variable `k` by the rules of differentiation. -/
def expression.derivative {F : Type} [Field F] (k : Nat) : expression F → expression F
  | expression.constant _ => expression.constant 0
  | expression.var j => if j = k then expression.constant 1 else expression.constant 0
  | expression.neg a => expression.neg (a.derivative k)
  | expression.add a b => expression.add (a.derivative k) (b.derivative k)
  | expression.sub a b => expression.sub (a.derivative k) (b.derivative k)
  | expression.mul a b =>
    expression.add (expression.mul (a.derivative k) b) (expression.mul a (b.derivative k))

/-- A constant of type `T` inside an expression. -/
def c {F : Type} (x : F) : expression F := expression.constant x

/-- The variable `xi` of `geometry_2d`, `symdiff::variable<0>`. -/
def xi {F : Type} : expression F := expression.var 0

/-- The variable `eta` of `geometry_2d`, `symdiff::variable<1>`. -/
def eta {F : Type} : expression F := expression.var 1

/-- The variable `p` of `qubic_serendipity`, `symdiff::variable<2>`. -/
def p {F : Type} : expression F := expression.var 2

/-- The default value `-0.5` of the member `_p`. -/
def default_parameter {F : Type} [Field F] : F := -(1 / 2)

/-- The array `qubic_serendipity::nodes`. -/
def nodes {F : Type} [Field F] : List (F × F) :=
  [(-1, -1), (-(1 / 3), -1), (1 / 3, -1), (1, -1), (1, -(1 / 3)), (1, 1 / 3), (1, 1),
   (1 / 3, 1), (-(1 / 3), 1), (-1, 1), (-1, 1 / 3), (-1, -(1 / 3))]

/-- The tuple `qubic_serendipity::basis`. -/
def basis {F : Type} [Field F] : List (expression F) :=
  [ (c 1 - xi) * (c 1 - eta) *
      (c (9 / 32) * (xi * xi + eta * eta + (c 2 * p + c 1) * (xi * eta + xi + eta)) +
        c (9 / 16) * p - c (1 / 32)),
    -(c 1 - xi * xi) * (c 1 - eta) *
      (c (27 / 32) * xi + (c (9 / 32) * p + c (9 / 64)) * eta + c (9 / 32) * p - c (9 / 64)),
    (c 1 - xi * xi) * (c 1 - eta) *
      (c (27 / 32) * xi - (c (9 / 32) * p + c (9 / 64)) * eta - c (9 / 32) * p + c (9 / 64)),
    (c 1 + xi) * (c 1 - eta) *
      (c (9 / 32) * (xi * xi + eta * eta - (c 2 * p + c 1) * (xi * eta + xi - eta)) +
        c (9 / 16) * p - c (1 / 32)),
    -(c 1 + xi) * (c 1 - eta * eta) *
      (c (27 / 32) * eta - (c (9 / 32) * p + c (9 / 64)) * xi + c (9 / 32) * p - c (9 / 64)),
    (c 1 + xi) * (c 1 - eta * eta) *
      (c (27 / 32) * eta + (c (9 / 32) * p + c (9 / 64)) * xi - c (9 / 32) * p + c (9 / 64)),
    (c 1 + xi) * (c 1 + eta) *
      (c (9 / 32) * (xi * xi + eta * eta + (c 2 * p + c 1) * (xi * eta - xi - eta)) +
        c (9 / 16) * p - c (1 / 32)),
    (c 1 - xi * xi) * (c 1 + eta) *
      (c (27 / 32) * xi + (c (9 / 32) * p + c (9 / 64)) * eta - c (9 / 32) * p + c (9 / 64)),
    -(c 1 - xi * xi) * (c 1 + eta) *
      (c (27 / 32) * xi - (c (9 / 32) * p + c (9 / 64)) * eta + c (9 / 32) * p - c (9 / 64)),
    (c 1 - xi) * (c 1 + eta) *
      (c (9 / 32) * (xi * xi + eta * eta - (c 2 * p + c 1) * (xi * eta - xi + eta)) +
        c (9 / 16) * p - c (1 / 32)),
    (c 1 - xi) * (c 1 - eta * eta) *
      (c (27 / 32) * eta - (c (9 / 32) * p + c (9 / 64)) * xi - c (9 / 32) * p + c (9 / 64)),
    -(c 1 - xi) * (c 1 - eta * eta) *
      (c (27 / 32) * eta + (c (9 / 32) * p + c (9 / 64)) * xi + c (9 / 32) * p - c (9 / 64)) ]

/-- The array `qubic_serendipity::N`: `to_function` of the basis. -/
def N {F : Type} [Field F] (i : Nat) (x : List F) : F :=
  (basis.getD i (c 0)).eval x

/-- The array `qubic_serendipity::Nxi`: `to_function` of the derivative of the basis with
respect to `xi`. -/
def Nxi {F : Type} [Field F] (i : Nat) (x : List F) : F :=
  ((basis.getD i (c 0)).derivative 0).eval x

/-- The array `qubic_serendipity::Neta`: `to_function` of the derivative of the basis with
respect to `eta`. -/
def Neta {F : Type} [Field F] (i : Nat) (x : List F) : F :=
  ((basis.getD i (c 0)).derivative 1).eval x

/-- The classical cubic serendipity function of node `i`, by the place of the node
`(xi_i, eta_i)` of the reference square: a corner, a side `eta = ±1` or a side
`xi = ±1`. -/
def classical_basis {F : Type} [Field F] [DecidableEq F] (i : Nat) (xi eta : F) : F :=
  let xi_i := (nodes.getD i (0, 0)).1
  let eta_i := (nodes.getD i (0, 0)).2
  if xi_i * xi_i = 1 ∧ eta_i * eta_i = 1 then
    1 / 32 * (1 + xi_i * xi) * (1 + eta_i * eta) * (9 * (xi ^ 2 + eta ^ 2) - 10)
  else if eta_i * eta_i = 1 then
    9 / 32 * (1 - xi ^ 2) * (1 + eta_i * eta) * (1 + 9 * xi_i * xi)
  else
    9 / 32 * (1 - eta ^ 2) * (1 + xi_i * xi) * (1 + 9 * eta_i * eta)

/-- The values at 0, ±1 and ±2 fix the coefficients of a polynomial of degree at most
three; the function is that polynomial. -/
def is_cubic (f : ℝ → ℝ) : Prop :=
  ∀ x, f x = f 0 +
    ((f 1 - f (-1)) / 2 - (f 2 - 2 * f 1 + 2 * f (-1) - f (-2)) / 12) * x +
    ((f 1 + f (-1)) / 2 - f 0) * x ^ 2 +
    (f 2 - 2 * f 1 + 2 * f (-1) - f (-2)) / 12 * x ^ 3

end finite_element

namespace mesh_2d

/-! ## `save_results.hpp`

The member function `mesh_2d::save_as_vtk` writes to a `std::ofstream`.  The stream is the
list of the items that have been written to it with `operator<<`; the function maps the
stream before the call to the pair of the outcome (normal return or the exception) and the
stream after the call. -/

/-- Modelled from the spec: the enumeration `element_2d_t` is declared in `mesh_2d.hpp`,
which is not part of the sources at hand.  The enumerators are the element kinds of
section 6 of the specification. -/
inductive element_2d_t where
  | TRIANGLE
  | QUADRATIC_TRIANGLE
  | BILINEAR
  | QUADRATIC_SERENDIPITY
  | QUADRATIC_LAGRANGE
  | CUBIC_SERENDIPITY
deriving DecidableEq

/-- Modelled from the spec: the call `element_2d(type)->nodes_count()`; the numbers of
nodes of the element kinds are those of section 6 of the specification. -/
def element_2d_t.nodes_count : element_2d_t → Nat
  | element_2d_t.TRIANGLE => 3
  | element_2d_t.QUADRATIC_TRIANGLE => 6
  | element_2d_t.BILINEAR => 4
  | element_2d_t.QUADRATIC_SERENDIPITY => 8
  | element_2d_t.QUADRATIC_LAGRANGE => 9
  | element_2d_t.CUBIC_SERENDIPITY => 12

/-- Modelled from the spec: the enumeration `vtk_element_number` is declared in
`mesh_2d.hpp`, which is not part of the sources at hand.  By section 6 the numbers are the
cell types of the VTK specification: triangle 5, quadratic triangle 22, quad 9, quadratic
quad 23 and biquadratic quad 28. -/
inductive vtk_element_number where
  | TRIANGLE
  | QUADRATIC_TRIANGLE
  | BILINEAR
  | QUADRATIC_SERENDIPITY
  | QUADRATIC_LAGRANGE
deriving DecidableEq

/-- The conversion `uintmax_t(number)` of a `vtk_element_number`. -/
def vtk_element_number.toNat : vtk_element_number → Nat
  | vtk_element_number.TRIANGLE => 5
  | vtk_element_number.QUADRATIC_TRIANGLE => 22
  | vtk_element_number.BILINEAR => 9
  | vtk_element_number.QUADRATIC_SERENDIPITY => 23
  | vtk_element_number.QUADRATIC_LAGRANGE => 28

/-- Modelled from the spec: the class `mesh_2d` is declared in `mesh_2d.hpp`, which is not
part of the sources at hand.  The structure holds what `save_as_vtk` reads: the coordinates
of the nodes, and for every element its kind and the ordered list `_elements[el]` of its
node numbers. -/
structure mesh (F : Type) where
  nodes : List (F × F)
  elements_types : List element_2d_t
  elements : List (List Nat)

/-- The call `nodes_count()`. -/
def mesh.nodes_count {F : Type} (m : mesh F) : Nat := m.nodes.length

/-- The call `node(i)`. -/
def mesh.node {F : Type} [Field F] (m : mesh F) (i : Nat) : F × F := m.nodes.getD i (0, 0)

/-- The call `elements_count()`. -/
def mesh.elements_count {F : Type} (m : mesh F) : Nat := m.elements.length

/-- The call `element_2d_type(el)`. -/
def mesh.element_2d_type {F : Type} (m : mesh F) (el : Nat) : element_2d_t :=
  m.elements_types.getD el element_2d_t.TRIANGLE

/-- What `operator<<` has put into the stream: a string or a character, an unsigned
integer, or a value of the floating-point type. -/
inductive item (F : Type) where
  | text (s : String)
  | number (n : Nat)
  | real (x : F)
deriving DecidableEq

/-- The exception that `save_as_vtk` throws, with its message. -/
inductive exception where
  | domain_error (what : String)
deriving DecidableEq

/-- The member `write_element<Ind, I...>`. -/
def write_element {F : Type} (Ind : Nat) (I : List Nat) (mesh_file : List (item F))
    (element : List Nat) : List (item F) :=
  I.foldl (fun file i => file ++ [item.text " ", item.number (element.getD i 0)])
    (mesh_file ++ [item.number (element.getD Ind 0)])

/-- The four header lines that `save_as_vtk` writes first. -/
def write_header {F : Type} (mesh_file : List (item F)) : List (item F) :=
  mesh_file ++
    [item.text "# vtk DataFile Version 4.2", item.text "\n", item.text "Data", item.text "\n",
     item.text "ASCII", item.text "\n", item.text "DATASET UNSTRUCTURED_GRID", item.text "\n"]

/-- The section `POINTS` of `save_as_vtk`: its head line and the loop over the nodes.
`data_type` is the string `"float"` or `"double"` that the floating-point type selects. -/
def write_points {F : Type} [Field F] (data_type : String) (m : mesh F)
    (mesh_file : List (item F)) : List (item F) :=
  (List.range m.nodes_count).foldl
    (fun file i =>
      file ++ [item.real (m.node i).1, item.text " ", item.real (m.node i).2, item.text " 0",
        item.text "\n"])
    (mesh_file ++
      [item.text "POINTS ", item.number m.nodes_count, item.text " ", item.text data_type,
       item.text "\n"])

/-- The loop of `save_as_vtk` that sums `list_size`. -/
def list_size {F : Type} (m : mesh F) : Nat :=
  (List.range m.elements_count).foldl
    (fun size el => size + ((m.element_2d_type el).nodes_count + 1)) 0

/-- The body of the loop of the section `CELLS`. -/
def write_cell {F : Type} (m : mesh F) (mesh_file : List (item F)) (el : Nat) :
    Except exception Unit × List (item F) :=
  let file := mesh_file ++ [item.number (m.element_2d_type el).nodes_count, item.text " "]
  match m.element_2d_type el with
  | element_2d_t.TRIANGLE =>
    (Except.ok (), write_element 0 [1, 2] file (m.elements.getD el []) ++ [item.text "\n"])
  | element_2d_t.QUADRATIC_TRIANGLE =>
    (Except.ok (),
      write_element 0 [1, 2, 3, 4, 5] file (m.elements.getD el []) ++ [item.text "\n"])
  | element_2d_t.BILINEAR =>
    (Except.ok (), write_element 0 [1, 2, 3] file (m.elements.getD el []) ++ [item.text "\n"])
  | element_2d_t.QUADRATIC_SERENDIPITY =>
    (Except.ok (),
      write_element 0 [2, 4, 6, 1, 3, 5, 7] file (m.elements.getD el []) ++ [item.text "\n"])
  | element_2d_t.QUADRATIC_LAGRANGE =>
    (Except.ok (),
      write_element 0 [2, 4, 6, 1, 3, 5, 7, 8] file (m.elements.getD el []) ++
        [item.text "\n"])
  | _ => (Except.error (exception.domain_error "Unknown element."), file)

/-- The body of the loop of the section `CELL_TYPES`. -/
def write_cell_type {F : Type} (m : mesh F) (mesh_file : List (item F)) (el : Nat) :
    Except exception Unit × List (item F) :=
  match m.element_2d_type el with
  | element_2d_t.TRIANGLE =>
    (Except.ok (),
      mesh_file ++ [item.number vtk_element_number.TRIANGLE.toNat, item.text "\n"])
  | element_2d_t.QUADRATIC_TRIANGLE =>
    (Except.ok (),
      mesh_file ++ [item.number vtk_element_number.QUADRATIC_TRIANGLE.toNat, item.text "\n"])
  | element_2d_t.BILINEAR =>
    (Except.ok (),
      mesh_file ++ [item.number vtk_element_number.BILINEAR.toNat, item.text "\n"])
  | element_2d_t.QUADRATIC_SERENDIPITY =>
    (Except.ok (),
      mesh_file ++
        [item.number vtk_element_number.QUADRATIC_SERENDIPITY.toNat, item.text "\n"])
  | element_2d_t.QUADRATIC_LAGRANGE =>
    (Except.ok (),
      mesh_file ++ [item.number vtk_element_number.QUADRATIC_LAGRANGE.toNat, item.text "\n"])
  | _ => (Except.error (exception.domain_error "Unknown element."), mesh_file)

/-- A loop `for (el = …; …; ++el)` whose body may throw: the exception ends the loop and
leaves the stream as it is at the throw. -/
def for_elements {F : Type}
    (body : List (item F) → Nat → Except exception Unit × List (item F)) :
    List Nat → List (item F) → Except exception Unit × List (item F)
  | [], mesh_file => (Except.ok (), mesh_file)
  | el :: rest, mesh_file =>
    match body mesh_file el with
    | (Except.error e, file) => (Except.error e, file)
    | (Except.ok _, file) => for_elements body rest file

/-- The member function `mesh_2d::save_as_vtk`. -/
def save_as_vtk {F : Type} [Field F] (data_type : String) (m : mesh F)
    (mesh_file : List (item F)) : Except exception Unit × List (item F) :=
  let points := write_points data_type m (write_header mesh_file)
  let cells_head := points ++
    [item.text "CELLS ", item.number m.elements_count, item.text " ",
     item.number (list_size m), item.text "\n"]
  match for_elements (write_cell m) (List.range m.elements_count) cells_head with
  | (Except.error e, file) => (Except.error e, file)
  | (Except.ok _, file) =>
    for_elements (write_cell_type m) (List.range m.elements_count)
      (file ++ [item.text "CELL_TYPES ", item.number m.elements_count, item.text "\n"])

/-- The element kinds that `save_as_vtk` writes. -/
def vtk_kinds : List element_2d_t :=
  [element_2d_t.TRIANGLE, element_2d_t.QUADRATIC_TRIANGLE, element_2d_t.BILINEAR,
   element_2d_t.QUADRATIC_SERENDIPITY, element_2d_t.QUADRATIC_LAGRANGE]

/-- A mesh of one triangle and one bilinear element. -/
def triangle_quad_mesh : mesh ℚ :=
  { nodes := [(0, 0), (1, 0), (1, 1), (0, 1), (2, 0)]
    elements_types := [element_2d_t.BILINEAR, element_2d_t.TRIANGLE]
    elements := [[0, 1, 2, 3], [1, 4, 2]] }

/-- A mesh of one triangle and one cubic serendipity element of twelve nodes. -/
def triangle_cubic_mesh : mesh ℚ :=
  { nodes :=
      [(0, 0), (1, 0), (2, 0), (3, 0), (3, 1), (3, 2), (3, 3), (2, 3), (1, 3), (0, 3), (0, 2),
       (0, 1), (4, 0)]
    elements_types := [element_2d_t.TRIANGLE, element_2d_t.CUBIC_SERENDIPITY]
    elements := [[3, 12, 4], [0, 1, 2, 3, 4, 5, 6, 7, 8, 9, 10, 11]] }

end mesh_2d

namespace mechanical

/-! ## `temperature_condition_2d.hpp`

The function `temperature_condition` adds the thermal load to the right-hand side `f`.  The
vector `f` of Eigen is a list, `std::array<T, 2>` is a pair, and the sum of arrays and the
product of a number and an array are those of `metamath::functions`. -/

/-- Modelled from the spec: the enumeration of the two plane problems (plane stress and
plane strain, section 4.6) is declared in a header that is not part of the sources at
hand. -/
inductive plane_t where
  | STRESS
  | STRAIN
deriving DecidableEq

/-- Modelled from the spec: the nonlocal model of a material group (section 3): the local
weight `p1` and the influence function of two points. -/
structure model_parameters (F : Type) where
  local_weight : F
  influence : F × F → F × F → F

/-- Modelled from the spec: the physical parameters of a material group of the mechanical
problem (section 3) as `temperature_condition` reads them: the thermal expansion and the
member functions `E(plane)` and `nu(plane)`. -/
structure physical_parameters (F : Type) where
  thermal_expansion : F
  E : plane_t → F
  nu : plane_t → F

/-- The parameters of a material group: `physical` and `model`. -/
structure material (F : Type) where
  physical : physical_parameters F
  model : model_parameters F

/-- Modelled from the spec: the class `mechanical_parameters_2d` is declared in a header
that is not part of the sources at hand.  `materials` is the map from the group names to
the materials, read with `at`; every group of the mesh is taken to have an entry. -/
structure mechanical_parameters_2d (F : Type) where
  materials : String → material F
  delta_temperature : List F
  plane : plane_t

/-- Modelled from the spec: the class `mesh::mesh_2d` of the solver is declared in
`mesh_2d.hpp`, which is not part of the sources at hand.  The structure holds the calls
that `temperature_condition` makes: the range `process_nodes()`, the elements of a node,
the local number of a node in an element, the groups of the container, the neighbours of an
element, the quadrature shift, the number of quadrature nodes and the weights of the element
of `e`, the derivatives of the basis functions, the coordinates of the quadrature nodes (by
shift, `quad_coord`, and by element and quadrature node, `quad_coord_of`), the range
`quad_shifts_count(e)` of the shifts of an element, the Jacobi matrices of the quadrature
nodes, and the function `nodes_to_qnodes` of `mesh_2d_utils.hpp`. -/
structure mesh_2d (F : Type) where
  process_nodes_front : Nat
  process_nodes_end : Nat
  elements : Nat → List Nat
  global_to_local : Nat → Nat → Nat
  groups_2d : List String
  group_elements : String → List Nat
  group : Nat → String
  neighbours : Nat → List Nat
  quad_shift : Nat → Nat
  qnodes_count : Nat → Nat
  weight : Nat → Nat → F
  derivatives : Nat → Nat → Nat → F × F
  quad_coord : Nat → F × F
  quad_coord_of : Nat → Nat → F × F
  quad_shifts_count : Nat → List Nat
  jacobi_matrix : Nat → F × F × F × F
  nodes_to_qnodes : List F → List F

/-- Modelled from the spec: the function `mesh::jacobian` of a Jacobi matrix, the absolute
value of its determinant (section 3). -/
def jacobian {F : Type} [LinearOrderedField F] (J : F × F × F × F) : F :=
  |J.1 * J.2.2.2 - J.2.1 * J.2.2.1|

/-- The components `X = 0` and `Y = 1`. -/
def X : Nat := 0

/-- The components `X = 0` and `Y = 1`. -/
def Y : Nat := 1

/-- The static member `approximate_delta_temperature_in_qnodes`. -/
def approximate_delta_temperature_in_qnodes {F : Type} [Field F] (mesh : mesh_2d F)
    (parameters : mechanical_parameters_2d F) : List F :=
  mesh.groups_2d.foldl
    (fun temperature_in_qnodes group =>
      let parameter := (parameters.materials group).physical
      let factor := parameter.thermal_expansion * parameter.E parameters.plane /
        (1 - parameter.nu parameters.plane)
      (mesh.group_elements group).foldl
        (fun temperature_in_qnodes e =>
          (mesh.quad_shifts_count e).foldl
            (fun temperature_in_qnodes qshift =>
              temperature_in_qnodes.set qshift (temperature_in_qnodes.getD qshift 0 * factor))
            temperature_in_qnodes)
        temperature_in_qnodes)
    (mesh.nodes_to_qnodes parameters.delta_temperature)

/-- The class `_temperature_condition`. -/
structure temperature_integrator (F : Type) where
  temperature_in_qnodes : List F
  parameters : mechanical_parameters_2d F
  mesh : mesh_2d F

/-- The constructor of `_temperature_condition`. -/
def temperature_integrator.make {F : Type} [Field F] (mesh : mesh_2d F)
    (parameters : mechanical_parameters_2d F) : temperature_integrator F :=
  { temperature_in_qnodes := approximate_delta_temperature_in_qnodes mesh parameters
    parameters := parameters
    mesh := mesh }

/-- The member `operator()(e, i)` of `_temperature_condition`; the state of the loop is the
pair of `integral` and `qshift`. -/
def temperature_integrator.apply_loc {F : Type} [Field F] (s : temperature_integrator F)
    (e i : Nat) : F × F :=
  ((List.range (s.mesh.qnodes_count e)).foldl
    (fun (st : (F × F) × Nat) q =>
      (st.1 + (s.mesh.weight e q * s.temperature_in_qnodes.getD st.2 0) •
        s.mesh.derivatives e i q, st.2 + 1))
    ((0, 0), s.mesh.quad_shift e)).1

/-- The member `operator()(eL, eNL, iL, influence)` of `_temperature_condition`. -/
def temperature_integrator.apply_nonloc {F : Type} [LinearOrderedField F]
    (s : temperature_integrator F) (eL eNL iL : Nat) (influence : F × F → F × F → F) :
    F × F :=
  (List.range (s.mesh.qnodes_count eL)).foldl
    (fun integral qL =>
      let qcoordL := s.mesh.quad_coord_of eL qL
      let inner := ((List.range (s.mesh.qnodes_count eNL)).foldl
        (fun (st : F × Nat) qNL =>
          let weight := s.mesh.weight eNL qNL * influence qcoordL (s.mesh.quad_coord st.2) *
            jacobian (s.mesh.jacobi_matrix st.2)
          (st.1 + weight * s.temperature_in_qnodes.getD st.2 0, st.2 + 1))
        (0, s.mesh.quad_shift eNL)).1
      integral + (s.mesh.weight eL qL * inner) • s.mesh.derivatives eL iL qL)
    (0, 0)

/-- The loop `for (const I eL : mesh.elements(node))` of `temperature_condition`: the value
of `integral` after it. -/
def node_integral {F : Type} [LinearOrderedField F] (integrator : temperature_integrator F)
    (mesh : mesh_2d F) (parameters : mechanical_parameters_2d F) (node : Nat) : F × F :=
  (mesh.elements node).foldl
    (fun integral eL =>
      let iL := mesh.global_to_local eL node
      let parameter := parameters.materials (mesh.group eL)
      let integral :=
        if thermal.theory_type parameter.model.local_weight = thermal.theory_t.NONLOCAL then
          (mesh.neighbours eL).foldl
            (fun integral eNL =>
              integral + thermal.nonlocal_weight parameter.model.local_weight •
                integrator.apply_nonloc eL eNL iL parameter.model.influence)
            integral
        else integral
      integral + parameter.model.local_weight • integrator.apply_loc eL iL)
    (0, 0)

/-- The function `temperature_condition`.  Every iteration of the loop over `node` writes
the two entries of its node only, so the iterations are run in ascending order. -/
def temperature_condition {F : Type} [LinearOrderedField F] (f : List F) (mesh : mesh_2d F)
    (parameters : mechanical_parameters_2d F) : List F :=
  let integrator := temperature_integrator.make mesh parameters
  (List.range' mesh.process_nodes_front
      (mesh.process_nodes_end - mesh.process_nodes_front)).foldl
    (fun f node =>
      let integral := node_integral integrator mesh parameters node
      let f := f.set (2 * node + X) (f.getD (2 * node + X) 0 + integral.1)
      f.set (2 * node + Y) (f.getD (2 * node + Y) 0 + integral.2))
    f

/-- The sum that the specification gives for the node `n`: over the elements `eL` of the
node, `p1 * I_loc(eL, iL)` plus, in the nonlocal theory, `nonlocal_weight(p1)` times the sum
of `I_nl(eL, eNL, iL)` over the neighbours `eNL` of `eL`. -/
def temperature_sum {F : Type} [LinearOrderedField F] (mesh : mesh_2d F)
    (parameters : mechanical_parameters_2d F) (n : Nat) : F × F :=
  ((mesh.elements n).map
    (fun eL =>
      (parameters.materials (mesh.group eL)).model.local_weight •
        (temperature_integrator.make mesh parameters).apply_loc eL (mesh.global_to_local eL n) +
      (if thermal.theory_type (parameters.materials (mesh.group eL)).model.local_weight =
          thermal.theory_t.NONLOCAL then
        thermal.nonlocal_weight (parameters.materials (mesh.group eL)).model.local_weight •
          ((mesh.neighbours eL).map
            (fun eNL =>
              (temperature_integrator.make mesh parameters).apply_nonloc eL eNL
                (mesh.global_to_local eL n)
                (parameters.materials (mesh.group eL)).model.influence)).sum
      else 0))).sum

/-- A mesh of two triangles `0 1 2` and `1 3 2` with one quadrature node each; the first
triangle is of the group `steel` and the second of the group `rubber`. -/
def two_triangles_mesh : mesh_2d ℚ :=
  { process_nodes_front := 0
    process_nodes_end := 4
    elements := fun node => [[0], [0, 1], [0, 1], [1]].getD node []
    global_to_local := fun e node =>
      (([[0, 1, 2], [1, 3, 2]].getD e []).indexOf node)
    groups_2d := ["steel", "rubber"]
    group_elements := fun group => if group = "steel" then [0] else [1]
    group := fun e => if e = 0 then "steel" else "rubber"
    neighbours := fun _ => [0, 1]
    quad_shift := fun e => e
    qnodes_count := fun _ => 1
    weight := fun _ _ => 1 / 2
    derivatives := fun e i _ =>
      ([[(-1, -1), (1, 0), (0, 1)], [(0, -1), (1, 1), (-1, 0)]].getD e []).getD i (0, 0)
    quad_coord := fun qshift => [(1 / 3, 1 / 3), (2 / 3, 2 / 3)].getD qshift (0, 0)
    quad_coord_of := fun e _ => [(1 / 3, 1 / 3), (2 / 3, 2 / 3)].getD e (0, 0)
    quad_shifts_count := fun e => [e]
    jacobi_matrix := fun _ => (1, 0, 0, 1)
    nodes_to_qnodes := fun x =>
      [(x.getD 0 0 + x.getD 1 0 + x.getD 2 0) / 3, (x.getD 1 0 + x.getD 3 0 + x.getD 2 0) / 3] }

/-- Parameters for `two_triangles_mesh`: the group `steel` is local, the group `rubber` has
the local weight `1/2` and the influence function 1. -/
def two_triangles_parameters : mechanical_parameters_2d ℚ :=
  { materials := fun group =>
      { physical := { thermal_expansion := 1, E := fun _ => 1, nu := fun _ => 1 / 2 }
        model :=
          { local_weight := if group = "steel" then 1 else 1 / 2
            influence := fun _ _ => 1 } }
    delta_temperature := [3, 3, 3, 3]
    plane := plane_t.STRESS }

end mechanical

/-! # Theorems -/

namespace CuthillMcKee

theorem getD_set_eq {α : Type} (l : List α) (i : Nat) (x d : α) (h : i < l.length) :
    (l.set i x).getD i d = x := by
  simp [List.getD_eq_getElem?_getD, List.getElem?_set, h]

theorem getD_set_ne {α : Type} (l : List α) (i j : Nat) (x d : α) (h : i ≠ j) :
    (l.set i x).getD j d = l.getD j d := by
  simp [List.getD_eq_getElem?_getD, List.getElem?_set, h]

theorem mem_iff_getD {α : Type} (l : List α) (a d : α) :
    a ∈ l ↔ ∃ j, j < l.length ∧ l.getD j d = a := by
  constructor
  · intro h
    obtain ⟨j, hj, rfl⟩ := List.mem_iff_getElem.mp h
    exact ⟨j, hj, by simp [List.getD_eq_getElem?_getD, hj]⟩
  · rintro ⟨j, hj, rfl⟩
    simp [List.getD_eq_getElem?_getD, hj]

theorem count_le_count_set_succ {α : Type} [DecidableEq α] (l : List α) (i : Nat) (x a : α) :
    l.count a ≤ (l.set i x).count a + 1 := by
  induction l generalizing i with
  | nil => simp
  | cons b t ih =>
    cases i with
    | zero =>
      simp only [List.set_cons_zero, List.count_cons]
      split <;> split <;> omega
    | succ k =>
      simp only [List.set_cons_succ, List.count_cons]
      have := ih k
      split <;> omega

theorem multimap_emplace_perm (m : List (Nat × Nat)) (kv : Nat × Nat) :
    (multimap_emplace m kv).Perm (kv :: m) := by
  induction m with
  | nil => simp [multimap_emplace]
  | cons e rest ih =>
    unfold multimap_emplace
    split
    · exact List.Perm.refl _
    · exact (List.Perm.cons e ih).trans (List.Perm.swap kv e rest)

theorem collect_fold_perm (graph : node_graph) (permutation : List Int) (ss : List Nat)
    (m : List (Nat × Nat)) :
    ((ss.foldl (fun neighbours shift =>
      if permutation.getD (graph.indices.getD shift 0) 0 = -1 then
        multimap_emplace neighbours
          (graph.neighbours_count (graph.indices.getD shift 0), graph.indices.getD shift 0)
      else neighbours) m).map Prod.snd).Perm
      (((ss.map (fun shift => graph.indices.getD shift 0)).filter
        (fun w => decide (permutation.getD w 0 = -1))).reverse ++ m.map Prod.snd) := by
  induction ss generalizing m with
  | nil => simp
  | cons s t ih =>
    simp only [List.foldl_cons, List.map_cons]
    by_cases h : permutation.getD (graph.indices.getD s 0) 0 = -1
    · rw [if_pos h]
      refine (ih _).trans ?_
      rw [List.filter_cons_of_pos (by simpa using h), List.reverse_cons, List.append_assoc]
      refine List.Perm.append_left _ ?_
      exact ((multimap_emplace_perm m _).map Prod.snd)
    · rw [if_neg h]
      refine (ih _).trans ?_
      rw [List.filter_cons_of_neg (by simpa using h)]

theorem collect_neighbours_perm (graph : node_graph) (permutation : List Int) (node : Nat) :
    ((collect_neighbours graph permutation node).map Prod.snd).Perm
      ((graph.row node).filter (fun w => decide (permutation.getD w 0 = -1))) := by
  unfold collect_neighbours node_graph.row
  refine (collect_fold_perm graph permutation _ []).trans ?_
  simp only [List.map_nil, List.append_nil]
  exact List.reverse_perm _

theorem mem_unordered_set_emplace (s : List Nat) (x y : Nat) :
    y ∈ unordered_set_emplace s x ↔ y ∈ s ∨ y = x := by
  unfold unordered_set_emplace
  split
  · constructor
    · intro h; exact Or.inl h
    · rintro (h | rfl)
      · exact h
      · assumption
  · simp

/-- What numbering the nodes of a list does to the state. -/
theorem assign_fold (l : List Nat) (st : cm_state) :
    (l.foldl assign_index st).permutation.length = st.permutation.length ∧
    (l.foldl assign_index st).curr_index = st.curr_index + l.length ∧
    (∀ v, v ∉ l → (l.foldl assign_index st).permutation.getD v 0 = st.permutation.getD v 0) ∧
    (∀ v, v ∈ l → v < st.permutation.length →
      (l.foldl assign_index st).permutation.getD v 0 ≠ -1) ∧
    (∀ v, v ∈ l → v < st.permutation.length →
      (st.curr_index : Int) ≤ (l.foldl assign_index st).permutation.getD v 0) ∧
    st.curr_index + st.permutation.count (-1) ≤
      (l.foldl assign_index st).curr_index + (l.foldl assign_index st).permutation.count (-1) ∧
    (∀ x, x ∈ (l.foldl assign_index st).next_layer ↔ x ∈ st.next_layer ∨ x ∈ l) := by
  induction l generalizing st with
  | nil => simp
  | cons a t ih =>
    obtain ⟨h1, h2, h3, h4, h5, h6, h7⟩ := ih (assign_index st a)
    simp only [List.foldl_cons]
    have hlen : (assign_index st a).permutation.length = st.permutation.length := by
      simp [assign_index]
    refine ⟨by rw [h1, hlen], ?_, ?_, ?_, ?_, ?_, ?_⟩
    · rw [h2]; simp [assign_index]; omega
    · intro v hv
      have hva : v ≠ a := fun h => hv (h ▸ List.mem_cons_self _ _)
      have hvt : v ∉ t := fun h => hv (List.mem_cons_of_mem _ h)
      rw [h3 v hvt]
      simp only [assign_index]
      exact getD_set_ne _ _ _ _ _ (Ne.symm hva)
    · intro v hv hlt
      have hci : ((assign_index st a).curr_index : Int) = (st.curr_index : Int) + 1 := by
        simp [assign_index]
      by_cases hvt : v ∈ t
      · have := h5 v hvt (by rw [hlen]; exact hlt)
        omega
      · rw [h3 v hvt]
        have hva : v = a := by
          rcases List.mem_cons.mp hv with h | h
          · exact h
          · exact absurd h hvt
        subst hva
        simp only [assign_index]
        rw [getD_set_eq _ _ _ _ hlt]
        omega
    · intro v hv hlt
      have hci : ((assign_index st a).curr_index : Int) = (st.curr_index : Int) + 1 := by
        simp [assign_index]
      by_cases hvt : v ∈ t
      · have := h5 v hvt (by rw [hlen]; exact hlt)
        omega
      · rw [h3 v hvt]
        have hva : v = a := by
          rcases List.mem_cons.mp hv with h | h
          · exact h
          · exact absurd h hvt
        subst hva
        simp only [assign_index]
        rw [getD_set_eq _ _ _ _ hlt]
    · have hc := count_le_count_set_succ st.permutation a (st.curr_index : Int) (-1)
      have : (assign_index st a).curr_index = st.curr_index + 1 := rfl
      have hp : (assign_index st a).permutation = st.permutation.set a (st.curr_index : Int) := rfl
      rw [this, hp] at h6
      omega
    · intro x
      rw [h7 x]
      simp only [assign_index, mem_unordered_set_emplace, List.mem_cons]
      tauto

theorem cm_rel_refl (st : cm_state) : cm_rel st st :=
  ⟨rfl, le_rfl, fun _ _ => rfl, le_rfl, fun _ h h' => absurd h h', fun _ h => h, fun _ => rfl⟩

theorem cm_rel_trans {a b c : cm_state} (h₁ : cm_rel a b) (h₂ : cm_rel b c) : cm_rel a c where
  len := h₂.len.trans h₁.len
  idx := h₁.idx.trans h₂.idx
  keep := fun v hv => by
    have hb := h₁.keep v hv
    rw [h₂.keep v (by rw [hb]; exact hv), hb]
  cnt := h₁.cnt.trans h₂.cnt
  fresh := fun v hv hc => by
    by_cases hb : b.permutation.getD v 0 = -1
    · exact h₂.fresh v hb hc
    · exact h₂.next v (h₁.fresh v hv hb)
  next := fun x hx => h₂.next x (h₁.next x hx)
  same := fun h => by
    have hi₁ := h₁.idx
    have hi₂ := h₂.idx
    rw [h₂.same (by omega), h₁.same (by omega)]

theorem mem_collect_neighbours (graph : node_graph) (permutation : List Int) (node x : Nat) :
    x ∈ (collect_neighbours graph permutation node).map Prod.snd ↔
      x ∈ graph.row node ∧ permutation.getD x 0 = -1 := by
  rw [(collect_neighbours_perm graph permutation node).mem_iff, List.mem_filter]
  simp

theorem visit_node_rel (graph : node_graph) (st : cm_state) (node : Nat) :
    cm_rel st (visit_node graph st node) := by
  obtain ⟨h1, h2, h3, h4, -, h6, h7⟩ :=
    assign_fold ((collect_neighbours graph st.permutation node).map Prod.snd) st
  have hmem := mem_collect_neighbours graph st.permutation node
  refine ⟨h1, ?_, ?_, h6, ?_, ?_, ?_⟩
  · unfold visit_node; omega
  · intro v hv
    exact h3 v (fun hin => hv ((hmem v).mp hin).2)
  · intro v hv hv'
    by_contra hnot
    have hvl : v ∉ (collect_neighbours graph st.permutation node).map Prod.snd :=
      fun hin => hnot ((h7 v).mpr (Or.inr hin))
    exact hv' ((h3 v hvl).trans hv)
  · intro x hx
    exact (h7 x).mpr (Or.inl hx)
  · intro h
    have h0 : ((collect_neighbours graph st.permutation node).map Prod.snd) = [] := by
      apply List.eq_nil_of_length_eq_zero
      unfold visit_node at h
      omega
    unfold visit_node
    rw [h0]
    rfl

theorem visit_node_row (graph : node_graph) (st : cm_state) (node : Nat)
    (hrow : ∀ w ∈ graph.row node, w < st.permutation.length) :
    ∀ w ∈ graph.row node, (visit_node graph st node).permutation.getD w 0 ≠ -1 := by
  intro w hw
  obtain ⟨-, -, h3, h4, -, -, -⟩ :=
    assign_fold ((collect_neighbours graph st.permutation node).map Prod.snd) st
  by_cases hv : st.permutation.getD w 0 = -1
  · exact h4 w ((mem_collect_neighbours graph st.permutation node w).mpr ⟨hw, hv⟩) (hrow w hw)
  · have := (visit_node_rel graph st node).keep w hv
    rw [this]
    exact hv

theorem visit_fold_rel (graph : node_graph) (n : Nat) (hrow : ∀ u, ∀ w ∈ graph.row u, w < n)
    (l : List Nat) (st : cm_state) (hlen : st.permutation.length = n) :
    cm_rel st (l.foldl (visit_node graph) st) ∧
      ∀ u ∈ l, ∀ w ∈ graph.row u, (l.foldl (visit_node graph) st).permutation.getD w 0 ≠ -1 := by
  induction l generalizing st with
  | nil => exact ⟨cm_rel_refl st, fun u hu => absurd hu (List.not_mem_nil u)⟩
  | cons a t ih =>
    have hstep := visit_node_rel graph st a
    obtain ⟨hrel, hvis⟩ := ih (visit_node graph st a) (hstep.len.trans hlen)
    simp only [List.foldl_cons]
    refine ⟨cm_rel_trans hstep hrel, ?_⟩
    intro u hu w hw
    rcases List.mem_cons.mp hu with rfl | hut
    · have h1 := visit_node_row graph st u (fun w hw => hlen ▸ hrow u w hw) w hw
      rw [hrel.keep w h1]
      exact h1
    · exact hvis u hut w hw

theorem assign_fold_numbered (l : List Nat) (st : cm_state) (hnd : l.Nodup)
    (hl : ∀ x ∈ l, x < st.permutation.length ∧ st.permutation.getD x 0 = -1)
    (hst : numbered st) : numbered (l.foldl assign_index st) := by
  induction l generalizing st with
  | nil => exact hst
  | cons a t ih =>
    simp only [List.foldl_cons]
    have hnd' := List.nodup_cons.mp hnd
    have ha := hl a (List.mem_cons_self _ _)
    apply ih _ hnd'.2
    · intro x hx
      have hxa : a ≠ x := fun h => hnd'.1 (h ▸ hx)
      have := hl x (List.mem_cons_of_mem _ hx)
      simp only [assign_index, List.length_set]
      exact ⟨this.1, by rw [getD_set_ne _ _ _ _ _ hxa]; exact this.2⟩
    · intro i hi
      simp only [assign_index] at hi ⊢
      rw [mem_iff_getD _ _ 0]
      by_cases hlt : i < st.curr_index
      · obtain ⟨j, hj, hji⟩ := (mem_iff_getD _ _ 0).mp (hst i hlt)
        refine ⟨j, by simpa using hj, ?_⟩
        have hja : a ≠ j := by
          rintro rfl
          rw [ha.2] at hji
          omega
        rw [getD_set_ne _ _ _ _ _ hja]
        exact hji
      · have hie : i = st.curr_index := by omega
        subst hie
        exact ⟨a, by simpa using ha.1, getD_set_eq _ _ _ _ ha.1⟩

theorem visit_fold_numbered (graph : node_graph) (n : Nat)
    (hrow : ∀ u, ∀ w ∈ graph.row u, w < n) (hnd : ∀ u, (graph.row u).Nodup)
    (l : List Nat) (st : cm_state) (hlen : st.permutation.length = n) (hst : numbered st) :
    numbered (l.foldl (visit_node graph) st) := by
  induction l generalizing st with
  | nil => exact hst
  | cons a t ih =>
    simp only [List.foldl_cons]
    have hstep := visit_node_rel graph st a
    apply ih _ (hstep.len.trans hlen)
    unfold visit_node
    apply assign_fold_numbered _ _ _ _ hst
    · exact (collect_neighbours_perm graph st.permutation a).nodup_iff.mpr
        ((hnd a).filter _)
    · intro x hx
      have := (mem_collect_neighbours graph st.permutation a x).mp hx
      exact ⟨hlen ▸ hrow a x this.1, this.2⟩

theorem getD_le_getLastD_of_sorted (l : List Nat) (hs : l.Sorted (· ≤ ·)) (i : Nat)
    (hi : i < l.length) : l.getD i 0 ≤ l.getLastD 0 := by
  have hne : l ≠ [] := by
    rintro rfl
    simp at hi
  have h1 : l.getLastD 0 = l.getLast hne := by
    cases l with
    | nil => exact absurd rfl hne
    | cons a t => rfl
  rw [h1, List.getLast_eq_getElem, List.getD_eq_getElem _ _ hi]
  rcases Nat.lt_or_ge i (l.length - 1) with h | h
  · have := List.pairwise_iff_getElem.mp hs i (l.length - 1) hi (by omega) h
    exact this
  · have : i = l.length - 1 := by omega
    subst this
    exact le_rfl

theorem well_formed_row_lt {graph : node_graph} (hwf : graph.well_formed)
    (u w : Nat) (hw : w ∈ graph.row u) : w < graph.shifts.length - 1 := by
  obtain ⟨-, hs, hlast, hidx⟩ := hwf
  unfold node_graph.row at hw
  obtain ⟨s, hsr, rfl⟩ := List.mem_map.mp hw
  rw [List.mem_range'_1] at hsr
  have hlt : u + 1 < graph.shifts.length := by
    by_contra hge
    have : graph.shifts.getD (u + 1) 0 = 0 := by
      simp [List.getD_eq_getElem?_getD, List.getElem?_eq_none (Nat.le_of_not_lt hge)]
    omega
  have hb := getD_le_getLastD_of_sorted graph.shifts hs (u + 1) hlt
  have hsl : s < graph.indices.length := by omega
  apply hidx
  rw [List.getD_eq_getElem _ _ hsl]
  exact List.getElem_mem hsl

theorem exists_frontier (graph : node_graph) (init_node : Nat) (permutation : List Int)
    (hinit : permutation.getD init_node 0 ≠ -1) (v : Nat)
    (hreach : graph.reachable init_node v) (hv : permutation.getD v 0 = -1) :
    ∃ u w, w ∈ graph.row u ∧ permutation.getD u 0 ≠ -1 ∧ permutation.getD w 0 = -1 := by
  induction hreach with
  | refl => exact absurd hv hinit
  | @step u v _ hrow ih =>
    by_cases hu : permutation.getD u 0 = -1
    · exact ih hu
    · exact ⟨u, v, hrow, hu, hv⟩

theorem cm_inv_progress {graph : node_graph} {init_node : Nat} {permutation : List Int}
    {curr_index : Nat} {curr_layer : List Nat}
    (hinv : cm_inv graph init_node permutation curr_index curr_layer)
    (hwf : graph.well_formed)
    (hreach : ∀ v, v < graph.shifts.length - 1 → graph.reachable init_node v)
    (hlt : curr_index < permutation.length) (l : List Nat) (hl : ∀ x, x ∈ curr_layer → x ∈ l) :
    curr_index < (l.foldl (visit_node graph)
      { permutation := permutation, curr_index := curr_index, next_layer := [] }).curr_index := by
  obtain ⟨hrel, hvis⟩ := visit_fold_rel graph _ (well_formed_row_lt hwf) l
    { permutation := permutation, curr_index := curr_index, next_layer := [] } hinv.len
  by_contra hnot
  have hsame := hrel.same (le_antisymm (not_lt.mp hnot) hrel.idx)
  have hcnt := hinv.cnt
  rw [← hinv.len] at hcnt
  have hpos : 0 < permutation.count (-1) := by omega
  obtain ⟨v, hvlt, hv⟩ := (mem_iff_getD permutation (-1) 0).mp (List.count_pos_iff.mp hpos)
  have hi : permutation.getD init_node 0 ≠ -1 := by rw [hinv.init]; decide
  obtain ⟨u, w, hw, hu, hwu⟩ := exists_frontier graph init_node permutation hi v
    (hreach v (hinv.len ▸ hvlt)) hv
  have hucur : u ∈ curr_layer := by
    by_contra hnc
    exact hinv.closed u hu hnc w hw hwu
  have := hvis u (hl u hucur) w hw
  rw [hsame] at this
  exact this hwu

theorem cm_inv_step {graph : node_graph} {init_node : Nat} {permutation : List Int}
    {curr_index : Nat} {curr_layer : List Nat}
    (hinv : cm_inv graph init_node permutation curr_index curr_layer)
    (hwf : graph.well_formed) (l : List Nat) (hl : ∀ x, x ∈ curr_layer → x ∈ l) :
    cm_inv graph init_node
      (l.foldl (visit_node graph)
        { permutation := permutation, curr_index := curr_index, next_layer := [] }).permutation
      (l.foldl (visit_node graph)
        { permutation := permutation, curr_index := curr_index, next_layer := [] }).curr_index
      (l.foldl (visit_node graph)
        { permutation := permutation, curr_index := curr_index, next_layer := [] }).next_layer := by
  obtain ⟨hrel, hvis⟩ := visit_fold_rel graph _ (well_formed_row_lt hwf) l
    { permutation := permutation, curr_index := curr_index, next_layer := [] } hinv.len
  refine ⟨hrel.len.trans hinv.len, hinv.cnt.trans hrel.cnt, ?_, ?_⟩
  · have hi : permutation.getD init_node 0 ≠ -1 := by rw [hinv.init]; decide
    rw [hrel.keep init_node hi]
    exact hinv.init
  · intro u hu hun w hw
    by_cases hold : permutation.getD u 0 = -1
    · exact absurd (hrel.fresh u hold hu) hun
    · by_cases hucur : u ∈ curr_layer
      · exact hvis u (hl u hucur) w hw
      · have h1 := hinv.closed u hold hucur w hw
        rw [hrel.keep w h1]
        exact h1

theorem calculate_permutation_loop_some (layer_order : Nat → List Nat → List Nat)
    (graph : node_graph) (init_node : Nat)
    (horder : ∀ k s, (layer_order k s).Perm s) (hwf : graph.well_formed)
    (hreach : ∀ v, v < graph.shifts.length - 1 → graph.reachable init_node v)
    (fuel step : Nat) (permutation : List Int) (curr_index : Nat) (curr_layer : List Nat)
    (hinv : cm_inv graph init_node permutation curr_index curr_layer)
    (hfuel : graph.shifts.length - 1 - curr_index < fuel) :
    ∃ p, calculate_permutation_loop layer_order graph fuel step permutation curr_index
        curr_layer = some p ∧
      p.length = graph.shifts.length - 1 ∧ p.getD init_node 0 = 0 := by
  induction fuel generalizing step permutation curr_index curr_layer with
  | zero => omega
  | succ fuel ih =>
    unfold calculate_permutation_loop
    by_cases hlt : curr_index < permutation.length
    · rw [if_pos hlt]
      have hl : ∀ x, x ∈ curr_layer → x ∈ layer_order step curr_layer :=
        fun x hx => (horder step curr_layer).mem_iff.mpr hx
      have hprog := cm_inv_progress hinv hwf hreach hlt _ hl
      have hlen := hinv.len
      exact ih _ _ _ _ (cm_inv_step hinv hwf _ hl) (by omega)
    · rw [if_neg hlt]
      exact ⟨permutation, rfl, hinv.len, hinv.init⟩

theorem calculate_permutation_loop_numbered (layer_order : Nat → List Nat → List Nat)
    (graph : node_graph) (hwf : graph.well_formed) (hnd : ∀ u, (graph.row u).Nodup)
    (fuel step : Nat) (permutation : List Int) (curr_index : Nat) (curr_layer : List Nat)
    (hlen : permutation.length = graph.shifts.length - 1)
    (hnum : numbered { permutation := permutation, curr_index := curr_index, next_layer := [] })
    (p : List Int)
    (hp : calculate_permutation_loop layer_order graph fuel step permutation curr_index
      curr_layer = some p) :
    ∀ i, i < graph.shifts.length - 1 → (i : Int) ∈ p := by
  induction fuel generalizing step permutation curr_index curr_layer with
  | zero => simp [calculate_permutation_loop] at hp
  | succ fuel ih =>
    unfold calculate_permutation_loop at hp
    by_cases hlt : curr_index < permutation.length
    · rw [if_pos hlt] at hp
      have hrel := (visit_fold_rel graph _ (well_formed_row_lt hwf) (layer_order step curr_layer)
        { permutation := permutation, curr_index := curr_index, next_layer := [] } hlen).1
      have hnum' := visit_fold_numbered graph _ (well_formed_row_lt hwf) hnd (layer_order step curr_layer)
        { permutation := permutation, curr_index := curr_index, next_layer := [] } hlen hnum
      exact ih _ _ _ _ (hrel.len.trans hlen) hnum' hp
    · rw [if_neg hlt] at hp
      cases hp
      intro i hi
      exact hnum i (by simp only; omega)

theorem cm_inv_initial (graph : node_graph) (init_node : Nat)
    (hinit : init_node < graph.shifts.length - 1) :
    cm_inv graph init_node
      ((List.replicate (graph.shifts.length - 1) (-1 : Int)).set init_node 0) 1 [init_node] := by
  refine ⟨by simp, ?_, ?_, ?_⟩
  · have := count_le_count_set_succ (List.replicate (graph.shifts.length - 1) (-1 : Int))
      init_node 0 (-1)
    rw [List.count_replicate_self] at this
    omega
  · exact getD_set_eq _ _ _ _ (by simpa using hinit)
  · intro u hu hun w hw
    exfalso
    apply hu
    have hne : init_node ≠ u := fun h => hun (h ▸ List.mem_singleton_self _)
    rw [getD_set_ne _ _ _ _ _ hne]
    by_cases hul : u < graph.shifts.length - 1
    · simp [List.getD_eq_getElem?_getD, hul]
    · exfalso
      -- a node outside the graph has an empty row
      unfold node_graph.row at hw
      obtain ⟨s, hsr, -⟩ := List.mem_map.mp hw
      rw [List.mem_range'_1] at hsr
      have : graph.shifts.getD (u + 1) 0 = 0 := by
        simp [List.getD_eq_getElem?_getD, List.getElem?_eq_none (by omega : graph.shifts.length ≤ u + 1)]
      omega

theorem node_with_minimum_neighbours_fold (imax : Nat) (graph : node_graph) (k : Nat) :
    (∀ v, v < k → ((List.range k).foldl
        (min_neighbours_step graph) (0, imax)).2 ≤ graph.neighbours_count v) ∧
    (((List.range k).foldl
        (min_neighbours_step graph) (0, imax)) = (0, imax) ∨
      (((List.range k).foldl
        (min_neighbours_step graph) (0, imax)).1 < k ∧
       graph.neighbours_count ((List.range k).foldl
        (min_neighbours_step graph) (0, imax)).1 = ((List.range k).foldl
        (min_neighbours_step graph) (0, imax)).2 ∧
       ∀ v, v < ((List.range k).foldl
        (min_neighbours_step graph) (0, imax)).1 → ((List.range k).foldl
        (min_neighbours_step graph) (0, imax)).2 < graph.neighbours_count v)) := by
  induction k with
  | zero => simp
  | succ k ih =>
    rw [List.range_succ, List.foldl_append]
    simp only [List.foldl_cons, List.foldl_nil]
    generalize (List.range k).foldl
        (min_neighbours_step graph) (0, imax) = acc at ih ⊢
    obtain ⟨h1, h2⟩ := ih
    unfold min_neighbours_step
    by_cases hlt : graph.neighbours_count k < acc.2
    · rw [if_pos hlt]
      refine ⟨?_, Or.inr ⟨Nat.lt_succ_self k, rfl, ?_⟩⟩
      · intro v hv
        rcases Nat.lt_succ_iff_lt_or_eq.mp hv with h | rfl
        · exact le_of_lt (lt_of_lt_of_le hlt (h1 v h))
        · exact le_rfl
      · intro v hv
        exact lt_of_lt_of_le hlt (h1 v hv)
    · rw [if_neg hlt]
      refine ⟨?_, ?_⟩
      · intro v hv
        rcases Nat.lt_succ_iff_lt_or_eq.mp hv with h | rfl
        · exact h1 v h
        · exact not_lt.mp hlt
      · rcases h2 with h | ⟨ha, hb, hc⟩
        · exact Or.inl h
        · exact Or.inr ⟨Nat.lt_succ_of_lt ha, hb, hc⟩

theorem node_with_minimum_neighbours_spec (imax : Nat) (graph : node_graph)
    (hn : 1 ≤ graph.nodes_count)
    (himax : ∀ v, v < graph.nodes_count → graph.neighbours_count v ≤ imax) :
    node_with_minimum_neighbours imax graph < graph.nodes_count ∧
    (∀ v, v < graph.nodes_count →
      graph.neighbours_count (node_with_minimum_neighbours imax graph) ≤
        graph.neighbours_count v) ∧
    (∀ v, v < graph.nodes_count →
      graph.neighbours_count v =
        graph.neighbours_count (node_with_minimum_neighbours imax graph) →
      node_with_minimum_neighbours imax graph ≤ v) := by
  obtain ⟨h1, h2⟩ := node_with_minimum_neighbours_fold imax graph (graph.shifts.length - 1)
  unfold node_with_minimum_neighbours
  unfold node_graph.nodes_count at hn himax ⊢
  generalize (List.range (graph.shifts.length - 1)).foldl
        (min_neighbours_step graph) (0, imax) = acc at h1 h2 ⊢
  rcases h2 with rfl | ⟨ha, hb, hc⟩
  · simp only at h1 ⊢
    have h0 : graph.neighbours_count 0 = imax := le_antisymm (himax 0 hn) (h1 0 hn)
    refine ⟨hn, ?_, ?_⟩
    · intro v hv
      rw [h0]
      exact h1 v hv
    · intro v _ _
      exact Nat.zero_le v
  · refine ⟨ha, ?_, ?_⟩
    · intro v hv
      rw [hb]
      exact h1 v hv
    · intro v _ hveq
      by_contra hnot
      have := hc v (not_le.mp hnot)
      omega

theorem row_eq_nil_of_le (graph : node_graph) (u : Nat) (hu : graph.shifts.length - 1 ≤ u) :
    graph.row u = [] := by
  unfold node_graph.row
  have : graph.shifts.getD (u + 1) 0 = 0 := by
    simp [List.getD_eq_getElem?_getD, List.getElem?_eq_none (by omega : graph.shifts.length ≤ u + 1)]
  rw [this]
  simp

theorem perm_range_of_mem (p : List Int) (n : Nat) (hlen : p.length = n)
    (hmem : ∀ i, i < n → (i : Int) ∈ p) : p.Perm ((List.range n).map Int.ofNat) := by
  have hnd : ((List.range n).map Int.ofNat).Nodup :=
    (List.nodup_range n).map (fun a b h => Int.ofNat.inj h)
  have hsub : (List.range n).map Int.ofNat ⊆ p := by
    intro x hx
    obtain ⟨i, hi, rfl⟩ := List.mem_map.mp hx
    exact hmem i (List.mem_range.mp hi)
  exact ((List.subperm_of_subset hnd hsub).perm_of_length_le (by simp [hlen])).symm

/-- The loop of `calculate_permutation` ends and every index below the number of nodes is
given to some node, when the rows are duplicate-free and every node is reachable. -/
theorem calculate_permutation_total (layer_order : Nat → List Nat → List Nat)
    (graph : node_graph) (init_node fuel : Nat)
    (horder : ∀ k s, (layer_order k s).Perm s)
    (hwf : graph.well_formed)
    (hinit : init_node < graph.nodes_count)
    (hnd : ∀ u, u < graph.nodes_count → (graph.row u).Nodup)
    (hreach : ∀ v, v < graph.nodes_count → graph.reachable init_node v)
    (hfuel : graph.nodes_count ≤ fuel) :
    ∃ p, calculate_permutation layer_order graph init_node fuel = some p ∧
      p.length = graph.nodes_count ∧ ∀ i, i < graph.nodes_count → (i : Int) ∈ p := by
  unfold node_graph.nodes_count at *
  have hinv := cm_inv_initial graph init_node hinit
  obtain ⟨p, hp, hlen, -⟩ := calculate_permutation_loop_some layer_order graph init_node
    horder hwf hreach fuel 0 _ 1 [init_node] hinv (by omega)
  have hnd' : ∀ u, (graph.row u).Nodup := by
    intro u
    by_cases hu : u < graph.shifts.length - 1
    · exact hnd u hu
    · rw [row_eq_nil_of_le graph u (not_lt.mp hu)]
      exact List.nodup_nil
  have hnum : numbered
      { permutation := (List.replicate (graph.shifts.length - 1) (-1 : Int)).set init_node 0
        curr_index := 1
        next_layer := [] } := by
    intro i hi
    have hi0 : i = 0 := by simpa using hi
    subst hi0
    rw [mem_iff_getD _ _ 0]
    exact ⟨init_node, by simpa using hinit, getD_set_eq _ _ _ _ (by simpa using hinit)⟩
  exact ⟨p, hp, hlen, calculate_permutation_loop_numbered layer_order graph hwf hnd' fuel 0 _ 1
    [init_node] hinv.len hnum p hp⟩

/-- C1.  On a well-formed CSR graph whose rows are duplicate-free and in which every node
is reachable from the start node, `calculate_permutation` returns (with `fuel` at least the
number of nodes, whatever the traversal order of the layer sets) a vector of length `n` that
is a rearrangement of `0, …, n-1`: no entry is left at `-1` and no index occurs twice. -/
theorem calculate_permutation_bijection (layer_order : Nat → List Nat → List Nat)
    (graph : node_graph) (init_node fuel : Nat)
    (horder : ∀ k s, (layer_order k s).Perm s)
    (hwf : graph.well_formed)
    (hinit : init_node < graph.nodes_count)
    (hnd : ∀ u, u < graph.nodes_count → (graph.row u).Nodup)
    (hreach : ∀ v, v < graph.nodes_count → graph.reachable init_node v)
    (hfuel : graph.nodes_count ≤ fuel) :
    ∃ p, calculate_permutation layer_order graph init_node fuel = some p ∧
      p.length = graph.nodes_count ∧
      p.Perm ((List.range graph.nodes_count).map Int.ofNat) ∧
      (-1 : Int) ∉ p ∧ p.Nodup := by
  obtain ⟨p, hp, hlen, hmem⟩ := calculate_permutation_total layer_order graph init_node fuel
    horder hwf hinit hnd hreach hfuel
  have hperm := perm_range_of_mem p _ hlen hmem
  refine ⟨p, hp, hlen, hperm, ?_, ?_⟩
  · intro h
    obtain ⟨i, -, hi⟩ := List.mem_map.mp (hperm.mem_iff.mp h)
    have : (0 : Int) ≤ Int.ofNat i := Int.ofNat_nonneg i
    omega
  · exact hperm.nodup_iff.mpr ((List.nodup_range _).map (fun a b h => Int.ofNat.inj h))

theorem triangle_graph_reachable (v : Nat) (hv : v < 3) :
    triangle_graph.reachable 0 v := by
  interval_cases v
  · exact node_graph.reachable.refl
  · exact node_graph.reachable.step node_graph.reachable.refl (by decide)
  · exact node_graph.reachable.step node_graph.reachable.refl (by decide)

theorem triangle_graph_well_formed : triangle_graph.well_formed := by
  unfold node_graph.well_formed
  decide

theorem calculate_permutation_bijection_witness :
    ∃ p, calculate_permutation (fun _ s => s) triangle_graph 0 3 = some p ∧
      p.length = triangle_graph.nodes_count ∧
      p.Perm ((List.range triangle_graph.nodes_count).map Int.ofNat) ∧
      (-1 : Int) ∉ p ∧ p.Nodup :=
  calculate_permutation_bijection (fun _ s => s) triangle_graph 0 3
    (fun _ s => List.Perm.refl s) triangle_graph_well_formed (by decide)
    (fun u hu => by
      have hu' : u < 3 := hu
      interval_cases u <;> decide)
    (fun v hv => triangle_graph_reachable v hv) (by decide)

/-- C2 (amended).  On a well-formed graph with at least one node
`node_with_minimum_neighbours` returns a node of minimal neighbour count, the one of lowest
index among those; if moreover every node is reachable from that node, `cuthill_mckee`
returns for every mesh with this graph a permutation that gives that node the index `0`. -/
theorem cuthill_mckee_start_node (layer_order : Nat → List Nat → List Nat) (imax : Nat)
    (graph : node_graph) (fuel : Nat)
    (horder : ∀ k s, (layer_order k s).Perm s)
    (hwf : graph.well_formed)
    (hn : 1 ≤ graph.nodes_count)
    (himax : ∀ v, v < graph.nodes_count → graph.neighbours_count v ≤ imax)
    (hreach : ∀ v, v < graph.nodes_count →
      graph.reachable (node_with_minimum_neighbours imax graph) v)
    (hfuel : graph.nodes_count ≤ fuel) :
    node_with_minimum_neighbours imax graph < graph.nodes_count ∧
    (∀ v, v < graph.nodes_count →
      graph.neighbours_count (node_with_minimum_neighbours imax graph) ≤
        graph.neighbours_count v) ∧
    (∀ v, v < graph.nodes_count →
      graph.neighbours_count v =
        graph.neighbours_count (node_with_minimum_neighbours imax graph) →
      node_with_minimum_neighbours imax graph ≤ v) ∧
    ∃ p, p.getD (node_with_minimum_neighbours imax graph) 0 = 0 ∧
      ∀ (mesh : mesh_proxy) (is_nonlocal : Bool), init_graph mesh is_nonlocal = graph →
        cuthill_mckee layer_order imax mesh is_nonlocal fuel = some p := by
  obtain ⟨h1, h2, h3⟩ := node_with_minimum_neighbours_spec imax graph hn himax
  refine ⟨h1, h2, h3, ?_⟩
  unfold node_graph.nodes_count at *
  have hinv := cm_inv_initial graph _ h1
  obtain ⟨p, hp, -, hp0⟩ := calculate_permutation_loop_some layer_order graph _
    horder hwf hreach fuel 0 _ 1 [_] hinv (by omega)
  refine ⟨p, hp0, ?_⟩
  intro mesh is_nonlocal hg
  unfold cuthill_mckee calculate_permutation
  rw [hg]
  exact hp

theorem cuthill_mckee_start_node_witness :
    node_with_minimum_neighbours 2147483647 triangle_graph < triangle_graph.nodes_count ∧
    (∀ v, v < triangle_graph.nodes_count →
      triangle_graph.neighbours_count (node_with_minimum_neighbours 2147483647 triangle_graph) ≤
        triangle_graph.neighbours_count v) ∧
    (∀ v, v < triangle_graph.nodes_count →
      triangle_graph.neighbours_count v =
        triangle_graph.neighbours_count
          (node_with_minimum_neighbours 2147483647 triangle_graph) →
      node_with_minimum_neighbours 2147483647 triangle_graph ≤ v) ∧
    ∃ p, p.getD (node_with_minimum_neighbours 2147483647 triangle_graph) 0 = 0 ∧
      ∀ (mesh : mesh_proxy) (is_nonlocal : Bool),
        init_graph mesh is_nonlocal = triangle_graph →
        cuthill_mckee (fun _ s => s) 2147483647 mesh is_nonlocal 3 = some p :=
  cuthill_mckee_start_node (fun _ s => s) 2147483647 triangle_graph 3
    (fun _ s => List.Perm.refl s) triangle_graph_well_formed (by decide)
    (fun v hv => by
      have hv' : v < 3 := hv
      interval_cases v <;> decide)
    (fun v hv => triangle_graph_reachable v hv) (by decide)

theorem two_triangles_visit (l : List Nat) (hl : ∀ x, x ∈ l → x < 3) :
    l.foldl (visit_node two_triangles_graph)
      { permutation := [0, 1, 2, -1, -1, -1], curr_index := 3, next_layer := [] } =
      { permutation := [0, 1, 2, -1, -1, -1], curr_index := 3, next_layer := [] } := by
  induction l with
  | nil => rfl
  | cons a t ih =>
    have ha : a < 3 := hl a (List.mem_cons_self _ _)
    have hstep : visit_node two_triangles_graph
        { permutation := [0, 1, 2, -1, -1, -1], curr_index := 3, next_layer := [] } a =
        { permutation := [0, 1, 2, -1, -1, -1], curr_index := 3, next_layer := [] } := by
      interval_cases a <;> rfl
    rw [List.foldl_cons, hstep]
    exact ih (fun x hx => hl x (List.mem_cons_of_mem _ hx))

theorem two_triangles_loop (layer_order : Nat → List Nat → List Nat)
    (horder : ∀ k s, (layer_order k s).Perm s) (fuel step : Nat) (curr_layer : List Nat)
    (hl : ∀ x, x ∈ curr_layer → x < 3) :
    calculate_permutation_loop layer_order two_triangles_graph fuel step
      [0, 1, 2, -1, -1, -1] 3 curr_layer = none := by
  induction fuel generalizing step curr_layer with
  | zero => rfl
  | succ fuel ih =>
    unfold calculate_permutation_loop
    rw [if_pos (by decide)]
    rw [two_triangles_visit _ (fun x hx => hl x ((horder step curr_layer).mem_iff.mp hx))]
    exact ih _ _ (fun x hx => absurd hx (List.not_mem_nil x))

/-- C2 (counterexample).  On the graph of two triangles without a common node, a
well-formed graph of six nodes, `calculate_permutation` started from the node of minimal
neighbour count returns no permutation, for no bound on the number of iterations and no
traversal order of the layer sets. -/
theorem cuthill_mckee_two_triangles_no_result :
    two_triangles_graph.well_formed ∧ 1 ≤ two_triangles_graph.nodes_count ∧
    ¬ ∃ (layer_order : Nat → List Nat → List Nat) (fuel : Nat) (p : List Int),
      (∀ k s, (layer_order k s).Perm s) ∧
      calculate_permutation layer_order two_triangles_graph
        (node_with_minimum_neighbours 2147483647 two_triangles_graph) fuel = some p := by
  refine ⟨by unfold node_graph.well_formed; decide, by decide, ?_⟩
  rintro ⟨layer_order, fuel, p, horder, hp⟩
  have h0 : node_with_minimum_neighbours 2147483647 two_triangles_graph = 0 := by decide
  rw [h0] at hp
  cases fuel with
  | zero => simp [calculate_permutation, calculate_permutation_loop] at hp
  | succ fuel =>
    unfold calculate_permutation calculate_permutation_loop at hp
    rw [if_pos (by decide), List.perm_singleton.mp (horder 0 [0])] at hp
    have hstep : ([0].foldl (visit_node two_triangles_graph)
        { permutation := (List.replicate (two_triangles_graph.shifts.length - 1) (-1 : Int)).set 0 0
          curr_index := 1
          next_layer := [] }) =
        { permutation := [0, 1, 2, -1, -1, -1], curr_index := 3, next_layer := [1, 2] } := by
      rfl
    rw [hstep] at hp
    rw [two_triangles_loop layer_order horder fuel 1 [1, 2]
      (by intro x hx; simp at hx; omega)] at hp
    cases hp

theorem reachable_trans {graph : node_graph} {a b c : Nat}
    (hab : graph.reachable a b) (hbc : graph.reachable b c) : graph.reachable a c := by
  induction hbc with
  | refl => exact hab
  | step _ hrow ih => exact node_graph.reachable.step ih hrow


theorem quad_triangle_quad_symmetric : quad_triangle_quad_graph.symmetric := by
  intro u v hu hv
  exact (by decide : ∀ u ∈ List.range 9, ∀ v ∈ quad_triangle_quad_graph.row u,
    u ∈ quad_triangle_quad_graph.row v) u (List.mem_range.mpr hu) v hv

theorem quad_triangle_quad_connected : quad_triangle_quad_graph.connected := by
  intro u v hu hv
  have h1 : quad_triangle_quad_graph.reachable u 3 := by
    have := (by decide : ∀ u ∈ List.range 9, u = 3 ∨ 3 ∈ quad_triangle_quad_graph.row u ∨
      (5 ∈ quad_triangle_quad_graph.row u ∧ 3 ∈ quad_triangle_quad_graph.row 5))
      u (List.mem_range.mpr hu)
    rcases this with rfl | h | ⟨h, h'⟩
    · exact node_graph.reachable.refl
    · exact node_graph.reachable.step node_graph.reachable.refl h
    · exact node_graph.reachable.step (node_graph.reachable.step node_graph.reachable.refl h) h'
  have h2 : quad_triangle_quad_graph.reachable 3 v := by
    have := (by decide : ∀ v ∈ List.range 9, v = 3 ∨ v ∈ quad_triangle_quad_graph.row 3 ∨
      (5 ∈ quad_triangle_quad_graph.row 3 ∧ v ∈ quad_triangle_quad_graph.row 5))
      v (List.mem_range.mpr hv)
    rcases this with rfl | h | ⟨h, h'⟩
    · exact node_graph.reachable.refl
    · exact node_graph.reachable.step node_graph.reachable.refl h
    · exact node_graph.reachable.step (node_graph.reachable.step node_graph.reachable.refl h) h'
  exact reachable_trans h1 h2

theorem perm_pair_cases {a b : Nat} {l : List Nat} (h : l.Perm [a, b]) :
    l = [a, b] ∨ l = [b, a] := by
  have hlen := h.length_eq
  match l, hlen, h with
  | [x, y], _, h =>
    have hx : x ∈ [a, b] := h.subset (List.mem_cons_self _ _)
    rcases List.mem_cons.mp hx with rfl | hx'
    · have := List.perm_singleton.mp ((List.perm_cons x).mp h)
      exact Or.inl (by rw [this])
    · have hxb : x = b := by simpa using hx'
      subst hxb
      have h' : [x, y].Perm [x, a] := h.trans (List.Perm.swap x a [])
      have := List.perm_singleton.mp ((List.perm_cons x).mp h')
      exact Or.inr (by rw [this])

theorem foldl_max_le (l : List Nat) (a b : Nat) (ha : a ≤ b) (hl : ∀ x, x ∈ l → x ≤ b) :
    l.foldl max a ≤ b := by
  induction l generalizing a with
  | nil => exact ha
  | cons x t ih =>
    rw [List.foldl_cons]
    exact ih _ (max_le ha (hl x (List.mem_cons_self _ _)))
      (fun y hy => hl y (List.mem_cons_of_mem _ hy))

theorem node_with_minimum_neighbours_lt (imax : Nat) (graph : node_graph)
    (hn : 1 ≤ graph.nodes_count) :
    node_with_minimum_neighbours imax graph < graph.nodes_count := by
  obtain ⟨-, h2⟩ := node_with_minimum_neighbours_fold imax graph (graph.shifts.length - 1)
  unfold node_with_minimum_neighbours
  unfold node_graph.nodes_count at hn ⊢
  rcases h2 with h | ⟨ha, -, -⟩
  · rw [h]; exact hn
  · exact ha

/-- C3 (amended).  On a connected well-formed graph with duplicate-free rows the
permutation of `cuthill_mckee` is returned, it is a bijection onto `0, …, n - 1` (a
rearrangement of these indices, without `-1` and without a repeated index), and the
bandwidth under it is at most `n - 1`. -/
theorem cuthill_mckee_bandwidth_le (layer_order : Nat → List Nat → List Nat) (imax : Nat)
    (graph : node_graph) (fuel : Nat)
    (horder : ∀ k s, (layer_order k s).Perm s)
    (hwf : graph.well_formed)
    (hn : 1 ≤ graph.nodes_count)
    (hnd : ∀ u, u < graph.nodes_count → (graph.row u).Nodup)
    (hconn : graph.connected)
    (hfuel : graph.nodes_count ≤ fuel) :
    ∃ p, calculate_permutation layer_order graph
        (node_with_minimum_neighbours imax graph) fuel = some p ∧
      p.length = graph.nodes_count ∧
      p.Perm ((List.range graph.nodes_count).map Int.ofNat) ∧
      (-1 : Int) ∉ p ∧ p.Nodup ∧
      graph.bandwidth (fun v => p.getD v 0) ≤ graph.nodes_count - 1 := by
  have hstart := node_with_minimum_neighbours_lt imax graph hn
  obtain ⟨p, hp, hlen, hmem⟩ := calculate_permutation_total layer_order graph
    (node_with_minimum_neighbours imax graph) fuel horder hwf hstart hnd
    (fun v hv => hconn _ v hstart hv) hfuel
  have hperm := perm_range_of_mem p _ hlen hmem
  refine ⟨p, hp, hlen, hperm, ?_, ?_, ?_⟩
  · intro h
    obtain ⟨i, -, hi⟩ := List.mem_map.mp (hperm.mem_iff.mp h)
    have : (0 : Int) ≤ Int.ofNat i := Int.ofNat_nonneg i
    omega
  · exact hperm.nodup_iff.mpr ((List.nodup_range _).map (fun a b h => Int.ofNat.inj h))
  have hrange : ∀ v, v < graph.nodes_count →
      0 ≤ p.getD v 0 ∧ p.getD v 0 ≤ ((graph.nodes_count - 1 : Nat) : Int) := by
    intro v hv
    have hmem : p.getD v 0 ∈ p := (mem_iff_getD p _ 0).mpr ⟨v, hlen ▸ hv, rfl⟩
    obtain ⟨i, hi, hie⟩ := List.mem_map.mp (hperm.mem_iff.mp hmem)
    have hi' := List.mem_range.mp hi
    rw [← hie]
    constructor
    · exact Int.ofNat_nonneg i
    · exact Int.ofNat_le.mpr (by omega)
  unfold node_graph.bandwidth
  apply foldl_max_le _ _ _ (Nat.zero_le _)
  intro x hx
  obtain ⟨e, he, rfl⟩ := List.mem_map.mp hx
  unfold node_graph.edges at he
  obtain ⟨u, hu, heu⟩ := List.mem_flatMap.mp he
  obtain ⟨v, hv, rfl⟩ := List.mem_map.mp heu
  have hu' := hrange u (List.mem_range.mp hu)
  have hv' := hrange v ((well_formed_row_lt hwf) u v hv)
  simp only
  omega

theorem cuthill_mckee_bandwidth_le_witness :
    ∃ p, calculate_permutation (fun _ s => s) triangle_graph
        (node_with_minimum_neighbours 2147483647 triangle_graph) 3 = some p ∧
      p.length = triangle_graph.nodes_count ∧
      p.Perm ((List.range triangle_graph.nodes_count).map Int.ofNat) ∧
      (-1 : Int) ∉ p ∧ p.Nodup ∧
      triangle_graph.bandwidth (fun v => p.getD v 0) ≤ triangle_graph.nodes_count - 1 :=
  cuthill_mckee_bandwidth_le (fun _ s => s) 2147483647 triangle_graph 3
    (fun _ s => List.Perm.refl s) triangle_graph_well_formed (by decide)
    (fun u hu => by
      have hu' : u < 3 := hu
      interval_cases u <;> decide)
    (fun u v hu hv => by
      have hu' : u < 3 := hu
      have hv' : v < 3 := hv
      have h := (by decide : ∀ u ∈ List.range 3, ∀ v ∈ List.range 3,
        u = v ∨ v ∈ triangle_graph.row u) u (List.mem_range.mpr hu') v (List.mem_range.mpr hv')
      rcases h with rfl | h
      · exact node_graph.reachable.refl
      · exact node_graph.reachable.step node_graph.reachable.refl h)
    (by decide)

set_option maxRecDepth 100000 in
/-- C3 (counterexample).  The mesh of two quadrilaterals joined by a triangle has a
connected symmetric node graph of bandwidth 3 in the original numbering, and under
every traversal order of the layer sets the permutation of `cuthill_mckee` has bandwidth at
least 6. -/
theorem cuthill_mckee_bandwidth_counterexample :
    init_graph quad_triangle_quad_mesh false = quad_triangle_quad_graph ∧
    quad_triangle_quad_graph.well_formed ∧
    quad_triangle_quad_graph.symmetric ∧
    quad_triangle_quad_graph.connected ∧
    quad_triangle_quad_graph.bandwidth (fun v => (v : Int)) = 3 ∧
    ∀ layer_order : Nat → List Nat → List Nat, (∀ k s, (layer_order k s).Perm s) →
      ∃ p, cuthill_mckee layer_order 2147483647 quad_triangle_quad_mesh false 3 = some p ∧
        6 ≤ quad_triangle_quad_graph.bandwidth (fun v => p.getD v 0) := by
  have hg : init_graph quad_triangle_quad_mesh false = quad_triangle_quad_graph := by decide
  refine ⟨hg, by unfold node_graph.well_formed; decide, quad_triangle_quad_symmetric,
    quad_triangle_quad_connected, by decide, ?_⟩
  intro layer_order horder
  have h0 : node_with_minimum_neighbours 2147483647 quad_triangle_quad_graph = 4 := by decide
  unfold cuthill_mckee calculate_permutation
  rw [hg, h0]
  unfold calculate_permutation_loop
  rw [if_pos (by decide), List.perm_singleton.mp (horder 0 [4])]
  have hstep : ([4].foldl (visit_node quad_triangle_quad_graph)
      { permutation :=
          (List.replicate (quad_triangle_quad_graph.shifts.length - 1) (-1 : Int)).set 4 0
        curr_index := 1
        next_layer := [] }) =
      { permutation := [-1, -1, -1, 1, 0, 2, -1, -1, -1], curr_index := 3,
        next_layer := [3, 5] } := by
    decide
  rw [hstep]
  simp only
  unfold calculate_permutation_loop
  rw [if_pos (by decide)]
  rcases perm_pair_cases (horder 1 [3, 5]) with h | h
  · rw [h]
    exact ⟨[3, 4, 5, 1, 0, 2, 6, 7, 8], rfl, by decide⟩
  · rw [h]
    exact ⟨[6, 7, 8, 1, 0, 2, 3, 4, 5], rfl, by decide⟩

/-! ## The graph of `init_graph` -/

theorem set_getD_self {α : Type} (l : List α) (i : Nat) (d : α) :
    l.set i (l.getD i d) = l := by
  apply List.ext_getElem
  · simp
  · intro j h1 h2
    rw [List.getElem_set]
    split
    · next h => subst h; exact List.getD_eq_getElem _ _ h2
    · rfl

theorem foldl_flatMap_eq {α β γ : Type} (f : α → List β) (g : γ → β → γ) (l : List α) (b : γ) :
    (l.flatMap f).foldl g b = l.foldl (fun b a => (f a).foldl g b) b := by
  induction l generalizing b with
  | nil => rfl
  | cons a t ih => rw [List.flatMap_cons, List.foldl_append, ih, List.foldl_cons]

theorem map_node_number (mesh : mesh_proxy) (e : Nat) :
    (List.range (mesh.element_nodes_count e)).map (mesh.node_number e) =
      mesh.elements.getD e [] := by
  unfold mesh_proxy.element_nodes_count mesh_proxy.node_number
  apply List.ext_getElem
  · simp
  · intro i h1 h2
    simp only [List.getElem_map, List.getElem_range]
    exact List.getD_eq_getElem _ _ h2

theorem init_vector_local_eq {σ : Type} (mesh : mesh_proxy) (reset : σ → σ)
    (add : σ → Nat → Nat → σ) (initializer : σ) :
    init_vector theory_t.LOCAL mesh reset add initializer =
      (List.range' mesh.first_node (mesh.last_node - mesh.first_node)).foldl
        (fun st node => (mesh.candidates node).foldl (fun st nb => add st node nb) (reset st))
        initializer := by
  unfold init_vector
  congr 1
  funext st node
  unfold mesh_proxy.candidates
  rw [foldl_flatMap_eq]
  congr 1
  funext st eL
  simp only
  rw [← map_node_number mesh eL, List.foldl_map]

theorem included_length (node : Nat) (is_include : List Bool) (l : List Nat) :
    (included node is_include l).length = is_include.length := by
  unfold included
  induction l generalizing is_include with
  | nil => rfl
  | cons x xs ih =>
    rw [List.foldl_cons, ih]
    unfold initializer_base.check_neighbour
    simp only
    split <;> simp

theorem shifts_add_fold (node : Nat) (l : List Nat) (s : shifts_initializer)
    (hnode : node + 1 < s.shifts.length) :
    l.foldl (fun st nb => shifts_initializer.add st node nb) s =
      { is_include := included node s.is_include l
        shifts := s.shifts.set (node + 1)
          (s.shifts.getD (node + 1) 0 + (accepted node s.is_include l).length) } := by
  induction l generalizing s with
  | nil =>
    simp only [List.foldl_nil, included, accepted, List.length_nil, Nat.add_zero]
    rw [set_getD_self]
  | cons x xs ih =>
    rw [List.foldl_cons]
    by_cases h : (initializer_base.check_neighbour s.is_include node x).1 = true
    · have hadd : shifts_initializer.add s node x =
          { is_include := (initializer_base.check_neighbour s.is_include node x).2
            shifts := s.shifts.set (node + 1) (s.shifts.getD (node + 1) 0 + 1) } := by
        unfold shifts_initializer.add
        simp only [h, if_true]
      rw [hadd, ih _ (by simpa using hnode)]
      simp only [accepted, h, if_true, included, List.foldl_cons, List.set_set,
        List.length_cons]
      rw [getD_set_eq _ _ _ _ hnode]
      congr 2
      omega
    · have hadd : shifts_initializer.add s node x =
          { is_include := (initializer_base.check_neighbour s.is_include node x).2
            shifts := s.shifts } := by
        unfold shifts_initializer.add
        simp only [h]
        rfl
      rw [hadd, ih { is_include := (initializer_base.check_neighbour s.is_include node x).2
                     shifts := s.shifts } hnode]
      simp only [accepted, h, included, List.foldl_cons]
      rfl

theorem indices_add_fold (shifts : List Nat) (node : Nat) (l : List Nat)
    (s : indices_initializer) :
    l.foldl (fun st nb => indices_initializer.add shifts st node nb) s =
      { is_include := included node s.is_include l
        indices := write_at s.indices (shifts.getD node 0 + s.node_shift)
          (accepted node s.is_include l)
        node_shift := s.node_shift + (accepted node s.is_include l).length } := by
  induction l generalizing s with
  | nil => rfl
  | cons x xs ih =>
    rw [List.foldl_cons]
    by_cases h : (initializer_base.check_neighbour s.is_include node x).1 = true
    · have hadd : indices_initializer.add shifts s node x =
          { is_include := (initializer_base.check_neighbour s.is_include node x).2
            indices := s.indices.set (shifts.getD node 0 + s.node_shift) x
            node_shift := s.node_shift + 1 } := by
        unfold indices_initializer.add
        simp only [h, if_true]
      rw [hadd, ih]
      simp only [accepted, h, if_true, included, List.foldl_cons, write_at, List.length_cons]
      congr 1
      omega
    · have hadd : indices_initializer.add shifts s node x =
          { is_include := (initializer_base.check_neighbour s.is_include node x).2
            indices := s.indices
            node_shift := s.node_shift } := by
        unfold indices_initializer.add
        simp only [h]
        rfl
      rw [hadd, ih]
      simp only [accepted, h, included, List.foldl_cons]
      rfl

theorem accepted_spec (node : Nat) (l : List Nat) (is_include : List Bool)
    (hl : ∀ x, x ∈ l → x < is_include.length) :
    (accepted node is_include l).Nodup ∧
      ∀ u, u ∈ accepted node is_include l ↔
        u ∈ l ∧ u ≠ node ∧ is_include.getD u false = false := by
  induction l generalizing is_include with
  | nil => simp [accepted]
  | cons x xs ih =>
    have hx : x < is_include.length := hl x (List.mem_cons_self _ _)
    by_cases h : (initializer_base.check_neighbour is_include node x).1 = true
    · have h2 : (initializer_base.check_neighbour is_include node x).2 =
          is_include.set x true := by
        unfold initializer_base.check_neighbour at h ⊢
        simp only at h ⊢
        rw [if_pos h]
      have hc : node ≠ x ∧ is_include.getD x false = false := by
        unfold initializer_base.check_neighbour at h
        simpa using h
      obtain ⟨ih1, ih2⟩ := ih (is_include.set x true)
        (fun y hy => by simpa using hl y (List.mem_cons_of_mem _ hy))
      have hset : ∀ u, (is_include.set x true).getD u false = false ↔
          u ≠ x ∧ is_include.getD u false = false := by
        intro u
        by_cases hux : u = x
        · subst hux
          rw [getD_set_eq _ _ _ _ hx]
          simp
        · rw [getD_set_ne _ _ _ _ _ (Ne.symm hux)]
          simp [hux]
      simp only [accepted, h, if_true, h2]
      refine ⟨List.nodup_cons.mpr ⟨?_, ih1⟩, ?_⟩
      · intro hin
        exact (((hset x).mp ((ih2 x).mp hin).2.2).1) rfl
      · intro u
        rw [List.mem_cons, ih2 u, hset u, List.mem_cons]
        constructor
        · rintro (rfl | ⟨h1, h3, -, h5⟩)
          · exact ⟨Or.inl rfl, Ne.symm hc.1, hc.2⟩
          · exact ⟨Or.inr h1, h3, h5⟩
        · rintro ⟨h1 | h1, h3, h5⟩
          · exact Or.inl h1
          · by_cases hux : u = x
            · exact Or.inl hux
            · exact Or.inr ⟨h1, h3, hux, h5⟩
    · have h2 : (initializer_base.check_neighbour is_include node x).2 = is_include := by
        unfold initializer_base.check_neighbour at h ⊢
        simp only at h ⊢
        rw [if_neg h]
      have hc : ¬ (node ≠ x ∧ is_include.getD x false = false) := by
        unfold initializer_base.check_neighbour at h
        simpa using h
      obtain ⟨ih1, ih2⟩ := ih is_include (fun y hy => hl y (List.mem_cons_of_mem _ hy))
      simp only [accepted, h, h2, Bool.false_eq_true, if_false]
      refine ⟨ih1, ?_⟩
      intro u
      rw [ih2 u, List.mem_cons]
      constructor
      · rintro ⟨h1, h3, h5⟩
        exact ⟨Or.inr h1, h3, h5⟩
      · rintro ⟨h1 | h1, h3, h5⟩
        · subst h1
          exact absurd ⟨Ne.symm h3, h5⟩ hc
        · exact ⟨h1, h3, h5⟩

theorem write_at_length (l : List Nat) (indices : List Nat) (pos : Nat) :
    (write_at indices pos l).length = indices.length := by
  induction l generalizing indices pos with
  | nil => rfl
  | cons x xs ih => rw [write_at, ih, List.length_set]

theorem write_at_getD_outside (l : List Nat) (indices : List Nat) (pos j : Nat)
    (hj : j < pos ∨ pos + l.length ≤ j) :
    (write_at indices pos l).getD j 0 = indices.getD j 0 := by
  induction l generalizing indices pos with
  | nil => rfl
  | cons x xs ih =>
    rw [write_at, ih _ _ (by simp only [List.length_cons] at hj; omega)]
    exact getD_set_ne _ _ _ _ _ (by simp only [List.length_cons] at hj; omega)

theorem write_at_getD_inside (l : List Nat) (indices : List Nat) (pos i : Nat)
    (hi : i < l.length) (hpos : pos + l.length ≤ indices.length) :
    (write_at indices pos l).getD (pos + i) 0 = l.getD i 0 := by
  induction l generalizing indices pos i with
  | nil => simp at hi
  | cons x xs ih =>
    rw [write_at]
    simp only [List.length_cons] at hi hpos
    cases i with
    | zero =>
      rw [write_at_getD_outside _ _ _ _ (Or.inl (by omega))]
      simpa using getD_set_eq indices pos x 0 (by omega)
    | succ k =>
      have := ih (indices.set pos x) (pos + 1) k (by omega) (by simp; omega)
      rw [show pos + (k + 1) = pos + 1 + k by omega, this]
      simp

theorem prepare_shifts_fold (l : List Nat) (k : Nat) (hk : k + 1 ≤ l.length) :
    ((List.range' 1 k).foldl (fun s i => s.set i (s.getD i 0 + s.getD (i - 1) 0)) l).length =
      l.length ∧
    ∀ i, ((List.range' 1 k).foldl
        (fun s i => s.set i (s.getD i 0 + s.getD (i - 1) 0)) l).getD i 0 =
      if i ≤ k then ((List.range (i + 1)).map (fun j => l.getD j 0)).sum else l.getD i 0 := by
  induction k with
  | zero =>
    refine ⟨rfl, ?_⟩
    intro i
    simp only [List.range'_zero, List.foldl_nil]
    split
    · next h =>
      have : i = 0 := by omega
      subst this
      simp [List.range_succ]
    · rfl
  | succ k ih =>
    obtain ⟨ih1, ih2⟩ := ih (by omega)
    rw [List.range'_concat, List.foldl_append]
    simp only [List.foldl_cons, List.foldl_nil, List.length_set, Nat.one_mul]
    refine ⟨ih1, ?_⟩
    intro i
    by_cases hik : i = 1 + k
    · subst hik
      rw [getD_set_eq _ _ _ _ (by omega), ih2, ih2, if_neg (by omega), if_pos (by omega),
        if_pos (by omega)]
      rw [show 1 + k - 1 + 1 = k + 1 by omega, show 1 + k + 1 = (k + 1) + 1 by omega,
        List.range_succ (n := k + 1), List.map_append, List.sum_append]
      simp only [List.map_cons, List.map_nil, List.sum_cons, List.sum_nil]
      rw [show 1 + k = k + 1 by omega]
      omega
    · rw [getD_set_ne _ _ _ _ _ (Ne.symm hik), ih2]
      by_cases h1 : i ≤ k
      · rw [if_pos h1, if_pos (by omega)]
      · rw [if_neg h1, if_neg (by omega)]

theorem prepare_shifts_getD (l : List Nat) (i : Nat) (hi : i < l.length) :
    (prepare_shifts l).getD i 0 = ((List.range (i + 1)).map (fun j => l.getD j 0)).sum := by
  unfold prepare_shifts
  rw [(prepare_shifts_fold l (l.length - 1) (by omega)).2 i, if_pos (by omega)]

theorem prepare_shifts_length (l : List Nat) : (prepare_shifts l).length = l.length := by
  unfold prepare_shifts
  cases l with
  | nil => rfl
  | cons a t => exact (prepare_shifts_fold (a :: t) ((a :: t).length - 1) (by simp)).1

theorem count_pass_fold (mesh : mesh_proxy) (ns : List Nat)
    (hns : ∀ v, v ∈ ns → v < mesh.nodes_count) (s : shifts_initializer)
    (h1 : s.is_include.length = mesh.nodes_count)
    (h2 : s.shifts.length = mesh.nodes_count + 1) :
    (ns.foldl (fun st node =>
        (mesh.candidates node).foldl (fun st nb => shifts_initializer.add st node nb)
          (shifts_initializer.reset_include st)) s).is_include.length = mesh.nodes_count ∧
    (ns.foldl (fun st node =>
        (mesh.candidates node).foldl (fun st nb => shifts_initializer.add st node nb)
          (shifts_initializer.reset_include st)) s).shifts =
      ns.foldl (fun sh v => sh.set (v + 1) (sh.getD (v + 1) 0 + (mesh.row_of v).length))
        s.shifts := by
  induction ns generalizing s with
  | nil => exact ⟨h1, rfl⟩
  | cons a t ih =>
    have ha := hns a (List.mem_cons_self _ _)
    simp only [List.foldl_cons]
    rw [shifts_add_fold a _ _ (by
      simp only [shifts_initializer.reset_include]
      omega)]
    have hreset : (shifts_initializer.reset_include s).is_include =
        List.replicate mesh.nodes_count false := by
      simp [shifts_initializer.reset_include, initializer_base.reset_include, h1]
    obtain ⟨ih1, ih2⟩ := ih (fun v hv => hns v (List.mem_cons_of_mem _ hv))
      { is_include := included a (shifts_initializer.reset_include s).is_include
          (mesh.candidates a)
        shifts := (shifts_initializer.reset_include s).shifts.set (a + 1)
          ((shifts_initializer.reset_include s).shifts.getD (a + 1) 0 +
            (accepted a (shifts_initializer.reset_include s).is_include
              (mesh.candidates a)).length) }
      (by rw [included_length, hreset]; simp)
      (by simp [shifts_initializer.reset_include, h2])
    refine ⟨ih1, ?_⟩
    rw [ih2, hreset]
    rfl

theorem fill_pass_fold (mesh : mesh_proxy) (shifts : List Nat) (ns : List Nat)
    (s : indices_initializer) (h1 : s.is_include.length = mesh.nodes_count) :
    (ns.foldl (fun st node =>
        (mesh.candidates node).foldl (fun st nb => indices_initializer.add shifts st node nb)
          (indices_initializer.reset_include st)) s).indices =
      ns.foldl (fun idx v => write_at idx (shifts.getD v 0) (mesh.row_of v)) s.indices := by
  induction ns generalizing s with
  | nil => rfl
  | cons a t ih =>
    simp only [List.foldl_cons]
    rw [indices_add_fold]
    have hreset : (indices_initializer.reset_include s).is_include =
        List.replicate mesh.nodes_count false := by
      simp [indices_initializer.reset_include, initializer_base.reset_include, h1]
    rw [ih _ (by rw [included_length, hreset]; simp), hreset]
    rfl

theorem counts_fold_getD (f : Nat → Nat) (ns : List Nat) (hnd : ns.Nodup) (sh : List Nat)
    (hns : ∀ v, v ∈ ns → v + 1 < sh.length) (i : Nat) :
    (ns.foldl (fun sh v => sh.set (v + 1) (sh.getD (v + 1) 0 + f v)) sh).getD i 0 =
      sh.getD i 0 + (if ∃ v, v ∈ ns ∧ v + 1 = i then f (i - 1) else 0) := by
  induction ns generalizing sh with
  | nil => simp
  | cons a t ih =>
    have hnd' := List.nodup_cons.mp hnd
    simp only [List.foldl_cons]
    rw [ih hnd'.2 _ (fun v hv => by simpa using hns v (List.mem_cons_of_mem _ hv))]
    have ha := hns a (List.mem_cons_self _ _)
    by_cases hia : a + 1 = i
    · subst hia
      rw [getD_set_eq _ _ _ _ ha]
      have h1 : ¬ ∃ v, v ∈ t ∧ v + 1 = a + 1 := by
        rintro ⟨v, hv, hva⟩
        have : v = a := by omega
        exact hnd'.1 (this ▸ hv)
      have h2 : ∃ v, v ∈ a :: t ∧ v + 1 = a + 1 := ⟨a, List.mem_cons_self _ _, rfl⟩
      rw [if_neg h1, if_pos h2]
      simp
    · rw [getD_set_ne _ _ _ _ _ hia]
      congr 1
      have : (∃ v, v ∈ t ∧ v + 1 = i) ↔ (∃ v, v ∈ a :: t ∧ v + 1 = i) := by
        constructor
        · rintro ⟨v, hv, hvi⟩
          exact ⟨v, List.mem_cons_of_mem _ hv, hvi⟩
        · rintro ⟨v, hv, hvi⟩
          rcases List.mem_cons.mp hv with rfl | hv'
          · exact absurd hvi hia
          · exact ⟨v, hv', hvi⟩
      simp only [this]

theorem counts_fold_length (f : Nat → Nat) (ns : List Nat) (sh : List Nat) :
    (ns.foldl (fun sh v => sh.set (v + 1) (sh.getD (v + 1) 0 + f v)) sh).length =
      sh.length := by
  induction ns generalizing sh with
  | nil => rfl
  | cons a t ih => rw [List.foldl_cons, ih, List.length_set]

theorem write_fold_length (off : Nat → Nat) (dat : Nat → List Nat) (ns : List Nat)
    (indices : List Nat) :
    (ns.foldl (fun idx v => write_at idx (off v) (dat v)) indices).length = indices.length := by
  induction ns generalizing indices with
  | nil => rfl
  | cons a t ih => rw [List.foldl_cons, ih, write_at_length]

theorem write_fold_outside (off : Nat → Nat) (dat : Nat → List Nat) (ns : List Nat)
    (indices : List Nat) (j : Nat)
    (hj : ∀ v, v ∈ ns → j < off v ∨ off v + (dat v).length ≤ j) :
    (ns.foldl (fun idx v => write_at idx (off v) (dat v)) indices).getD j 0 =
      indices.getD j 0 := by
  induction ns generalizing indices with
  | nil => rfl
  | cons a t ih =>
    rw [List.foldl_cons, ih _ (fun v hv => hj v (List.mem_cons_of_mem _ hv))]
    exact write_at_getD_outside _ _ _ _ (hj a (List.mem_cons_self _ _))

theorem write_fold_inside (off : Nat → Nat) (dat : Nat → List Nat) (ns : List Nat)
    (hnd : ns.Nodup) (indices : List Nat)
    (hdisj : ∀ u, u ∈ ns → ∀ v, v ∈ ns → u ≠ v →
      off u + (dat u).length ≤ off v ∨ off v + (dat v).length ≤ off u)
    (hin : ∀ v, v ∈ ns → off v + (dat v).length ≤ indices.length)
    (v : Nat) (hv : v ∈ ns) (i : Nat) (hi : i < (dat v).length) :
    (ns.foldl (fun idx v => write_at idx (off v) (dat v)) indices).getD (off v + i) 0 =
      (dat v).getD i 0 := by
  induction ns generalizing indices with
  | nil => exact absurd hv (List.not_mem_nil v)
  | cons a t ih =>
    have hnd' := List.nodup_cons.mp hnd
    rw [List.foldl_cons]
    rcases List.mem_cons.mp hv with rfl | hvt
    · rw [write_fold_outside off dat t _ _ (fun u hu => by
        have hne : u ≠ v := fun h => hnd'.1 (h ▸ hu)
        have := hdisj u (List.mem_cons_of_mem _ hu) v (List.mem_cons_self _ _) hne
        omega)]
      exact write_at_getD_inside _ _ _ _ hi (hin v (List.mem_cons_self _ _))
    · exact ih hnd'.2 _
        (fun u hu w hw => hdisj u (List.mem_cons_of_mem _ hu) w (List.mem_cons_of_mem _ hw))
        (fun w hw => by
          rw [write_at_length]
          exact hin w (List.mem_cons_of_mem _ hw))
        hvt

theorem mem_range'_nodes (mesh : mesh_proxy) (v : Nat) :
    v ∈ List.range' mesh.first_node (mesh.last_node - mesh.first_node) ↔
      mesh.first_node ≤ v ∧ v < mesh.last_node := by
  rw [List.mem_range'_1]
  omega

theorem raw_shifts_getD (mesh : mesh_proxy) (hlast : mesh.last_node ≤ mesh.nodes_count)
    (j : Nat) :
    ((List.range' mesh.first_node (mesh.last_node - mesh.first_node)).foldl
      (fun sh v => sh.set (v + 1) (sh.getD (v + 1) 0 + (mesh.row_of v).length))
      (List.replicate (mesh.nodes_count + 1) 0)).getD j 0 =
      if j = 0 then 0 else mesh.row_count (j - 1) := by
  rw [counts_fold_getD _ _ (List.nodup_range' _ _) _ (fun v hv => by
    have := (mem_range'_nodes mesh v).mp hv
    simp only [List.length_replicate]
    omega)]
  have h0 : (List.replicate (mesh.nodes_count + 1) 0).getD j 0 = 0 := by
    simp only [List.getD_eq_getElem?_getD, List.getElem?_replicate]
    split <;> rfl
  rw [h0, Nat.zero_add]
  by_cases hj : j = 0
  · subst hj
    simp
  · rw [if_neg hj]
    unfold mesh_proxy.row_count
    have hiff : (∃ v, v ∈ List.range' mesh.first_node (mesh.last_node - mesh.first_node) ∧
        v + 1 = j) ↔ (mesh.first_node ≤ j - 1 ∧ j - 1 < mesh.last_node) := by
      constructor
      · rintro ⟨v, hv, rfl⟩
        simpa using (mem_range'_nodes mesh v).mp hv
      · intro h
        exact ⟨j - 1, (mem_range'_nodes mesh (j - 1)).mpr h, by omega⟩
    simp only [hiff]

theorem sum_raw_shifts (f : Nat → Nat) (i : Nat) :
    ((List.range (i + 1)).map (fun j => if j = 0 then 0 else f (j - 1))).sum =
      ((List.range i).map f).sum := by
  rw [List.range_succ_eq_map, List.map_cons, List.sum_cons, List.map_map]
  simp only [if_true, Nat.zero_add]
  congr 1

theorem init_graph_local_shifts_length (mesh : mesh_proxy)
    (hlast : mesh.last_node ≤ mesh.nodes_count) :
    (init_graph mesh false).shifts.length = mesh.nodes_count + 1 := by
  simp only [init_graph, Bool.false_eq_true, if_false]
  rw [prepare_shifts_length, init_vector_local_eq]
  rw [(count_pass_fold mesh _ (fun v hv => by
    have := (mem_range'_nodes mesh v).mp hv
    omega) _ (by simp) (by simp)).2]
  rw [counts_fold_length]
  simp

theorem init_graph_local_shifts (mesh : mesh_proxy)
    (hlast : mesh.last_node ≤ mesh.nodes_count) (i : Nat) (hi : i ≤ mesh.nodes_count) :
    (init_graph mesh false).shifts.getD i 0 = mesh.row_offset i := by
  simp only [init_graph, Bool.false_eq_true, if_false]
  rw [init_vector_local_eq]
  rw [(count_pass_fold mesh _ (fun v hv => by
    have := (mem_range'_nodes mesh v).mp hv
    omega) _ (by simp) (by simp)).2]
  rw [prepare_shifts_getD _ _ (by rw [counts_fold_length]; simp; omega)]
  simp only [raw_shifts_getD mesh hlast]
  exact sum_raw_shifts _ _

theorem row_offset_succ (mesh : mesh_proxy) (v : Nat) :
    mesh.row_offset (v + 1) = mesh.row_offset v + mesh.row_count v := by
  unfold mesh_proxy.row_offset
  rw [List.range_succ, List.map_append, List.sum_append]
  simp

theorem row_offset_mono (mesh : mesh_proxy) (a b : Nat) (h : a ≤ b) :
    mesh.row_offset a ≤ mesh.row_offset b := by
  induction b with
  | zero =>
    have : a = 0 := by omega
    rw [this]
  | succ k ih =>
    rcases Nat.lt_or_ge a (k + 1) with h1 | h1
    · have := ih (by omega)
      rw [row_offset_succ]
      omega
    · have : a = k + 1 := by omega
      rw [this]

theorem getLastD_eq_getD (l : List Nat) : l.getLastD 0 = l.getD (l.length - 1) 0 := by
  cases l with
  | nil => rfl
  | cons a t =>
    have h1 : (a :: t).getLastD 0 = (a :: t).getLast (List.cons_ne_nil a t) := rfl
    rw [h1, List.getLast_eq_getElem, List.getD_eq_getElem _ _ (by simp)]

theorem init_graph_local_row_eq (mesh : mesh_proxy)
    (hlast : mesh.last_node ≤ mesh.nodes_count) (v : Nat)
    (hv1 : mesh.first_node ≤ v) (hv2 : v < mesh.last_node) :
    (init_graph mesh false).row v = mesh.row_of v := by
  have hlen := init_graph_local_shifts_length mesh hlast
  have hsh := init_graph_local_shifts mesh hlast
  have hcount : mesh.row_count v = (mesh.row_of v).length := by
    unfold mesh_proxy.row_count
    rw [if_pos ⟨hv1, hv2⟩]
  unfold node_graph.row
  rw [hsh v (by omega), hsh (v + 1) (by omega), row_offset_succ, Nat.add_sub_cancel_left, hcount]
  have hidx : (init_graph mesh false).indices =
      (List.range' mesh.first_node (mesh.last_node - mesh.first_node)).foldl
        (fun idx u => write_at idx ((init_graph mesh false).shifts.getD u 0) (mesh.row_of u))
        (List.replicate ((init_graph mesh false).shifts.getLastD 0) 0) := by
    have h := fill_pass_fold mesh (init_graph mesh false).shifts
      (List.range' mesh.first_node (mesh.last_node - mesh.first_node))
      { is_include := List.replicate ((init_graph mesh false).shifts.length - 1) false
        indices := List.replicate ((init_graph mesh false).shifts.getLastD 0) 0
        node_shift := 0 } (by simp [hlen])
    rw [← init_vector_local_eq] at h
    exact h
  have hlast' : (init_graph mesh false).shifts.getLastD 0 = mesh.row_offset mesh.nodes_count := by
    rw [getLastD_eq_getD, hlen, Nat.add_sub_cancel, hsh _ le_rfl]
  have hoff : ∀ u, u ∈ List.range' mesh.first_node (mesh.last_node - mesh.first_node) →
      (init_graph mesh false).shifts.getD u 0 = mesh.row_offset u ∧
      mesh.row_offset u + (mesh.row_of u).length = mesh.row_offset (u + 1) ∧
      u < mesh.nodes_count := by
    intro u hu
    have hu' := (mem_range'_nodes mesh u).mp hu
    refine ⟨hsh u (by omega), ?_, by omega⟩
    rw [row_offset_succ]
    unfold mesh_proxy.row_count
    rw [if_pos hu']
  apply List.ext_getElem
  · simp
  · intro i h1 h2
    simp only [List.getElem_map, List.getElem_range', Nat.one_mul]
    rw [hidx, ← (hoff v ((mem_range'_nodes mesh v).mpr ⟨hv1, hv2⟩)).1]
    rw [write_fold_inside (fun u => (init_graph mesh false).shifts.getD u 0) mesh.row_of _
      (List.nodup_range' _ _) _ ?_ ?_ v ((mem_range'_nodes mesh v).mpr ⟨hv1, hv2⟩) i h2]
    · exact List.getD_eq_getElem _ _ h2
    · intro u hu w hw hne
      obtain ⟨hu1, hu2, -⟩ := hoff u hu
      obtain ⟨hw1, hw2, -⟩ := hoff w hw
      simp only [hu1, hw1, hu2, hw2]
      rcases Nat.lt_or_gt_of_ne hne with h | h
      · exact Or.inl (row_offset_mono mesh _ _ h)
      · exact Or.inr (row_offset_mono mesh _ _ h)
    · intro u hu
      obtain ⟨hu1, hu2, hu3⟩ := hoff u hu
      simp only [hu1, hu2, List.length_replicate, hlast']
      exact row_offset_mono mesh _ _ hu3

/-- C4 (amended).  In the local theory, for a node `v` of the processed range whose
`nodes_elements_map(v)` lists exactly the elements containing `v`, the row
`indices[shifts[v] .. shifts[v+1])` of the graph of `init_graph` has no repetition, holds
exactly the nodes other than `v` that share an element with `v`, and
`shifts[v+1] - shifts[v]` is the number of these nodes. -/
theorem init_graph_local_rows (mesh : mesh_proxy)
    (hnodes : ∀ e, e ∈ mesh.elements → ∀ x, x ∈ e → x < mesh.nodes_count)
    (hlast : mesh.last_node ≤ mesh.nodes_count) (v : Nat)
    (hv1 : mesh.first_node ≤ v) (hv2 : v < mesh.last_node)
    (hmap : ∀ e, e ∈ mesh.nodes_elements_map v ↔
      e < mesh.elements.length ∧ v ∈ mesh.elements.getD e []) :
    ((init_graph mesh false).row v).Nodup ∧
    (∀ u, u ∈ (init_graph mesh false).row v ↔ u ≠ v ∧ mesh.share_element u v) ∧
    (init_graph mesh false).neighbours_count v =
      ((List.range mesh.nodes_count).filter
        (fun u => decide (u ≠ v ∧ mesh.share_element u v))).length := by
  have hrow := init_graph_local_row_eq mesh hlast v hv1 hv2
  have hcand : ∀ u, u ∈ mesh.candidates v ↔ mesh.share_element u v := by
    intro u
    unfold mesh_proxy.candidates mesh_proxy.share_element
    rw [List.mem_flatMap]
    constructor
    · rintro ⟨e, he, hu⟩
      obtain ⟨he1, he2⟩ := (hmap e).mp he
      rw [List.getD_eq_getElem _ _ he1] at hu he2
      exact ⟨_, List.getElem_mem he1, hu, he2⟩
    · rintro ⟨el, hel, hu, hv⟩
      obtain ⟨e, he, rfl⟩ := List.mem_iff_getElem.mp hel
      refine ⟨e, (hmap e).mpr ⟨he, ?_⟩, ?_⟩
      · rw [List.getD_eq_getElem _ _ he]; exact hv
      · rw [List.getD_eq_getElem _ _ he]; exact hu
  have hlt : ∀ u, u ∈ mesh.candidates v → u < mesh.nodes_count := by
    intro u hu
    obtain ⟨el, hel, hu', -⟩ := (hcand u).mp hu
    exact hnodes el hel u hu'
  obtain ⟨hnd, hmem⟩ := accepted_spec v (mesh.candidates v)
    (List.replicate mesh.nodes_count false) (fun x hx => by simpa using hlt x hx)
  have hnd' : (mesh.row_of v).Nodup := hnd
  have hmem' : ∀ u, u ∈ mesh.row_of v ↔ u ≠ v ∧ mesh.share_element u v := by
    intro u
    unfold mesh_proxy.row_of
    rw [hmem u, hcand u]
    constructor
    · rintro ⟨h1, h2, -⟩
      exact ⟨h2, h1⟩
    · rintro ⟨h1, h2⟩
      refine ⟨h2, h1, ?_⟩
      simp only [List.getD_eq_getElem?_getD, List.getElem?_replicate]
      split <;> rfl
  rw [hrow]
  refine ⟨hnd', hmem', ?_⟩
  have hcnt : (init_graph mesh false).neighbours_count v = (mesh.row_of v).length := by
    unfold node_graph.neighbours_count
    rw [init_graph_local_shifts mesh hlast v (by omega),
      init_graph_local_shifts mesh hlast (v + 1) (by omega), row_offset_succ,
      Nat.add_sub_cancel_left]
    unfold mesh_proxy.row_count
    rw [if_pos ⟨hv1, hv2⟩]
  rw [hcnt]
  apply List.Perm.length_eq
  apply (List.perm_ext_iff_of_nodup hnd' ((List.nodup_range _).filter _)).mpr
  intro u
  rw [hmem' u, List.mem_filter, List.mem_range]
  constructor
  · rintro ⟨h1, h2⟩
    have h3 := h2
    obtain ⟨el, hel, hu, -⟩ := h3
    exact ⟨hnodes el hel u hu, by simpa using ⟨h1, h2⟩⟩
  · rintro ⟨-, h⟩
    simpa using h

theorem init_graph_local_rows_witness :
    ((init_graph quad_triangle_quad_mesh false).row 3).Nodup ∧
    (∀ u, u ∈ (init_graph quad_triangle_quad_mesh false).row 3 ↔
      u ≠ 3 ∧ quad_triangle_quad_mesh.share_element u 3) ∧
    (init_graph quad_triangle_quad_mesh false).neighbours_count 3 =
      ((List.range quad_triangle_quad_mesh.nodes_count).filter
        (fun u => decide (u ≠ 3 ∧ quad_triangle_quad_mesh.share_element u 3))).length :=
  init_graph_local_rows quad_triangle_quad_mesh (by decide) (by decide) 3 (by decide)
    (by decide)
    (fun e => by
      simp only [quad_triangle_quad_mesh, List.mem_filter, List.mem_range, decide_eq_true_eq,
        List.length_cons, List.length_nil])

/-! ## The layers of `calculate_permutation` -/

theorem walk_zero_iff (graph : node_graph) (start v : Nat) :
    graph.walk start 0 v ↔ v = start := by
  constructor
  · intro h
    cases h
    rfl
  · rintro rfl
    exact node_graph.walk.zero

theorem walk_succ_iff (graph : node_graph) (start k v : Nat) :
    graph.walk start (k + 1) v ↔ ∃ u, graph.walk start k u ∧ v ∈ graph.row u := by
  constructor
  · intro h
    cases h with
    | step hu hv => exact ⟨_, hu, hv⟩
  · rintro ⟨u, hu, hv⟩
    exact node_graph.walk.step hu hv

theorem walk_lt {graph : node_graph} (hwf : graph.well_formed) {start : Nat}
    (hstart : start < graph.shifts.length - 1) {k v : Nat} (h : graph.walk start k v) :
    v < graph.shifts.length - 1 := by
  cases h with
  | zero => exact hstart
  | step _ hv => exact well_formed_row_lt hwf _ _ hv

theorem exists_distance_of_walk (graph : node_graph) (start : Nat) (k v : Nat)
    (h : graph.walk start k v) : ∃ d, d ≤ k ∧ graph.distance start v d := by
  induction k using Nat.strong_induction_on with
  | _ k ih =>
    by_cases hex : ∃ j, j < k ∧ graph.walk start j v
    · obtain ⟨j, hj, hw⟩ := hex
      obtain ⟨d, hd, hdist⟩ := ih j hj hw
      exact ⟨d, by omega, hdist⟩
    · exact ⟨k, le_rfl, h, fun j hj hw => hex ⟨j, hj, hw⟩⟩

theorem distance_unique {graph : node_graph} {start v d d' : Nat}
    (h : graph.distance start v d) (h' : graph.distance start v d') : d = d' := by
  rcases Nat.lt_trichotomy d d' with hlt | heq | hgt
  · exact absurd h.1 (h'.2 d hlt)
  · exact heq
  · exact absurd h'.1 (h.2 d' hgt)

theorem assign_fold_lt (l : List Nat) (st : cm_state) :
    ∀ v, v ∈ l → v < st.permutation.length →
      (l.foldl assign_index st).permutation.getD v 0 < ((st.curr_index + l.length : Nat) : Int) := by
  induction l generalizing st with
  | nil => intro v hv; cases hv
  | cons a t ih =>
    intro v hv hlt
    simp only [List.foldl_cons]
    have hlen : (assign_index st a).permutation.length = st.permutation.length := by
      simp [assign_index]
    by_cases hvt : v ∈ t
    · have := ih (assign_index st a) v hvt (by rw [hlen]; exact hlt)
      have hci : (assign_index st a).curr_index = st.curr_index + 1 := rfl
      rw [hci] at this
      simp only [List.length_cons]
      push_cast at this ⊢
      omega
    · rw [(assign_fold t (assign_index st a)).2.2.1 v hvt]
      have hva : v = a := by
        rcases List.mem_cons.mp hv with h | h
        · exact h
        · exact absurd h hvt
      subst hva
      simp only [assign_index, List.length_cons]
      rw [getD_set_eq _ _ _ _ hlt]
      push_cast
      omega

/-- The numbers that a visit gives lie between the old and the new `curr_index`. -/
theorem visit_node_bound (graph : node_graph) (st : cm_state) (node : Nat) :
    ∀ v, st.permutation.getD v 0 = -1 → (visit_node graph st node).permutation.getD v 0 ≠ -1 →
      (st.curr_index : Int) ≤ (visit_node graph st node).permutation.getD v 0 ∧
      (visit_node graph st node).permutation.getD v 0 <
        ((visit_node graph st node).curr_index : Int) := by
  intro v hv hv'
  obtain ⟨-, h2, h3, -, h5, -, -⟩ :=
    assign_fold ((collect_neighbours graph st.permutation node).map Prod.snd) st
  have hin : v ∈ (collect_neighbours graph st.permutation node).map Prod.snd := by
    by_contra hnot
    exact hv' ((h3 v hnot).trans hv)
  have hlt : v < st.permutation.length := by
    by_contra hge
    have : st.permutation.getD v 0 = 0 := by
      simp [List.getD_eq_getElem?_getD, List.getElem?_eq_none (Nat.le_of_not_lt hge)]
    rw [this] at hv
    cases hv
  refine ⟨h5 v hin hlt, ?_⟩
  have := assign_fold_lt _ st v hin hlt
  unfold visit_node
  rw [h2]
  exact this

theorem visit_fold_bound (graph : node_graph) (l : List Nat) (st : cm_state) :
    ∀ v, st.permutation.getD v 0 = -1 →
      (l.foldl (visit_node graph) st).permutation.getD v 0 ≠ -1 →
      (st.curr_index : Int) ≤ (l.foldl (visit_node graph) st).permutation.getD v 0 ∧
      (l.foldl (visit_node graph) st).permutation.getD v 0 <
        ((l.foldl (visit_node graph) st).curr_index : Int) := by
  induction l generalizing st with
  | nil =>
    intro v hv hv'
    exact absurd hv hv'
  | cons a t ih =>
    intro v hv hv'
    simp only [List.foldl_cons] at hv' ⊢
    have hstep := visit_node_rel graph st a
    have hrest : cm_rel (visit_node graph st a) (t.foldl (visit_node graph) (visit_node graph st a)) := by
      have key : ∀ (l : List Nat) (s : cm_state), cm_rel s (l.foldl (visit_node graph) s) := by
        intro l
        induction l with
        | nil => intro s; exact cm_rel_refl s
        | cons b r ihr =>
          intro s
          simp only [List.foldl_cons]
          exact cm_rel_trans (visit_node_rel graph s b) (ihr _)
      exact key t _
    by_cases h1 : (visit_node graph st a).permutation.getD v 0 = -1
    · obtain ⟨hb1, hb2⟩ := ih (visit_node graph st a) v h1 hv'
      have := hstep.idx
      exact ⟨by omega, hb2⟩
    · obtain ⟨hb1, hb2⟩ := visit_node_bound graph st a v hv h1
      rw [hrest.keep v h1]
      have := hrest.idx
      exact ⟨hb1, by omega⟩

/-- The members of `next_layer` after the visits of a list of nodes: the old members and
nodes that were not numbered and lie in the row of a visited node. -/
theorem visit_fold_next (graph : node_graph) (l : List Nat) (st : cm_state) :
    ∀ x, x ∈ (l.foldl (visit_node graph) st).next_layer →
      x ∈ st.next_layer ∨ (st.permutation.getD x 0 = -1 ∧ ∃ u, u ∈ l ∧ x ∈ graph.row u) := by
  induction l generalizing st with
  | nil =>
    intro x hx
    exact Or.inl hx
  | cons a t ih =>
    intro x hx
    simp only [List.foldl_cons] at hx
    have hstep := visit_node_rel graph st a
    obtain ⟨-, -, -, -, -, -, h7⟩ :=
      assign_fold ((collect_neighbours graph st.permutation a).map Prod.snd) st
    rcases ih (visit_node graph st a) x hx with h | ⟨h1, u, hu, hxu⟩
    · rcases (h7 x).mp h with h' | h'
      · exact Or.inl h'
      · have := (mem_collect_neighbours graph st.permutation a x).mp h'
        exact Or.inr ⟨this.2, a, List.mem_cons_self _ _, this.1⟩
    · refine Or.inr ⟨?_, u, List.mem_cons_of_mem _ hu, hxu⟩
      by_contra hne
      exact hne ((hstep.keep x hne).symm.trans h1)

theorem layer_inv_initial (graph : node_graph) (init_node : Nat)
    (hinit : init_node < graph.shifts.length - 1) :
    layer_inv graph init_node 0
      ((List.replicate (graph.shifts.length - 1) (-1 : Int)).set init_node 0) 1 [init_node] := by
  have hval : ∀ v, v < graph.shifts.length - 1 →
      (((List.replicate (graph.shifts.length - 1) (-1 : Int)).set init_node 0).getD v 0 ≠ -1 ↔
        v = init_node) := by
    intro v hv
    by_cases hvi : v = init_node
    · subst hvi
      rw [getD_set_eq _ _ _ _ (by simpa using hinit)]
      simp
    · rw [getD_set_ne _ _ _ _ _ (Ne.symm hvi)]
      simp [List.getD_eq_getElem?_getD, List.getElem?_replicate, hv, hvi]
  have hd0 : ∀ v, graph.distance init_node v 0 ↔ v = init_node := by
    intro v
    constructor
    · intro h
      exact (walk_zero_iff graph init_node v).mp h.1
    · rintro rfl
      exact ⟨node_graph.walk.zero, fun k hk => absurd hk (Nat.not_lt_zero k)⟩
  refine ⟨by simp, ?_, ?_, ?_, ?_⟩
  · intro v
    rw [hd0]
    simp
  · intro v hv
    rw [hval v (by simpa using hv)]
    constructor
    · rintro rfl
      exact ⟨0, le_rfl, (hd0 _).mpr rfl⟩
    · rintro ⟨d, hd, hdist⟩
      have : d = 0 := by omega
      subst this
      exact (hd0 v).mp hdist
  · intro v hv hne
    have hvi := (hval v (by simpa using hv)).mp hne
    subst hvi
    rw [getD_set_eq _ _ _ _ (by simpa using hinit)]
    decide
  · intro u v du dv _ _ h1 h2
    omega

theorem layer_inv_step {graph : node_graph} {init_node t : Nat} {permutation : List Int}
    {curr_index : Nat} {curr_layer : List Nat}
    (hinv : layer_inv graph init_node t permutation curr_index curr_layer)
    (hwf : graph.well_formed) (hinit : init_node < graph.shifts.length - 1)
    (l : List Nat) (hl : ∀ x, x ∈ l ↔ x ∈ curr_layer) :
    layer_inv graph init_node (t + 1)
      (l.foldl (visit_node graph)
        { permutation := permutation, curr_index := curr_index, next_layer := [] }).permutation
      (l.foldl (visit_node graph)
        { permutation := permutation, curr_index := curr_index, next_layer := [] }).curr_index
      (l.foldl (visit_node graph)
        { permutation := permutation, curr_index := curr_index, next_layer := [] }).next_layer := by
  obtain ⟨hrel, hvis⟩ := visit_fold_rel graph (graph.shifts.length - 1)
    (fun u w hw => well_formed_row_lt hwf u w hw) l
    { permutation := permutation, curr_index := curr_index, next_layer := [] } hinv.len
  have hnext := visit_fold_next graph l
    { permutation := permutation, curr_index := curr_index, next_layer := [] }
  have hbound := visit_fold_bound graph l
    { permutation := permutation, curr_index := curr_index, next_layer := [] }
  generalize l.foldl (visit_node graph)
    { permutation := permutation, curr_index := curr_index, next_layer := [] } = st'
    at hrel hvis hnext hbound
  have hlen' : st'.permutation.length = permutation.length := hrel.len
  have hkeep : ∀ v, permutation.getD v 0 ≠ -1 → st'.permutation.getD v 0 = permutation.getD v 0 :=
    hrel.keep
  have hfresh : ∀ v, permutation.getD v 0 = -1 → st'.permutation.getD v 0 ≠ -1 →
      v ∈ st'.next_layer := hrel.fresh
  have hidx : curr_index ≤ st'.curr_index := hrel.idx
  have hlt_of_dist : ∀ v d, graph.distance init_node v d → v < permutation.length := by
    intro v d hd
    rw [hinv.len]
    exact walk_lt hwf hinit hd.1
  -- a node of the next layer is at distance `t + 1`
  have hnew : ∀ v, v ∈ st'.next_layer →
      permutation.getD v 0 = -1 ∧ graph.distance init_node v (t + 1) := by
    intro v hv
    rcases hnext v hv with h | ⟨h1, u, hu, hvu⟩
    · cases h
    · have hud := (hinv.layer u).mp ((hl u).mp hu)
      have hw : graph.walk init_node (t + 1) v := node_graph.walk.step hud.1 hvu
      have hvlt : v < permutation.length := by
        rw [hinv.len]
        exact walk_lt hwf hinit hw
      refine ⟨h1, hw, ?_⟩
      intro k hk hwk
      obtain ⟨d, hd, hdist⟩ := exists_distance_of_walk graph init_node k v hwk
      exact ((hinv.done v hvlt).mpr ⟨d, by omega, hdist⟩) h1
  -- a node at distance `t + 1` is in the next layer
  have hfound : ∀ v, graph.distance init_node v (t + 1) →
      permutation.getD v 0 = -1 ∧ v ∈ st'.next_layer := by
    intro v hd
    obtain ⟨u, hu, hvu⟩ := (walk_succ_iff graph init_node t v).mp hd.1
    have hud : graph.distance init_node u t := by
      refine ⟨hu, ?_⟩
      intro k hk hwk
      exact hd.2 (k + 1) (by omega) (node_graph.walk.step hwk hvu)
    have hul : u ∈ l := (hl u).mpr ((hinv.layer u).mpr hud)
    have hvlt := hlt_of_dist v _ hd
    have hold : permutation.getD v 0 = -1 := by
      by_contra hne
      obtain ⟨d, hdle, hdist⟩ := (hinv.done v hvlt).mp hne
      have := distance_unique hd hdist
      omega
    exact ⟨hold, hfresh v hold (hvis u hul v hvu)⟩
  refine ⟨hlen'.trans hinv.len, ?_, ?_, ?_, ?_⟩
  · intro v
    exact ⟨fun hv => (hnew v hv).2, fun hd => (hfound v hd).2⟩
  · intro v hv
    rw [hlen'] at hv
    constructor
    · intro hne
      by_cases hold : permutation.getD v 0 = -1
      · exact ⟨t + 1, le_rfl, (hnew v (hfresh v hold hne)).2⟩
      · obtain ⟨d, hd, hdist⟩ := (hinv.done v hv).mp hold
        exact ⟨d, by omega, hdist⟩
    · rintro ⟨d, hd, hdist⟩
      rcases Nat.lt_or_ge d (t + 1) with h | h
      · have hold := (hinv.done v hv).mpr ⟨d, by omega, hdist⟩
        rw [hkeep v hold]
        exact hold
      · have hdt : d = t + 1 := by omega
        subst hdt
        obtain ⟨hold, hin⟩ := hfound v hdist
        rcases hnext v hin with h' | ⟨-, u, hu, hvu⟩
        · cases h'
        · exact hvis u hu v hvu
  · intro v hv hne
    rw [hlen'] at hv
    by_cases hold : permutation.getD v 0 = -1
    · exact (hbound v hold hne).2
    · rw [hkeep v hold]
      have := hinv.bound v hv hold
      omega
  · intro u v du dv hu hv hlt hle
    have hult := hlt_of_dist u du hu
    have hvlt := hlt_of_dist v dv hv
    have huold : permutation.getD u 0 ≠ -1 := (hinv.done u hult).mpr ⟨du, by omega, hu⟩
    rw [hkeep u huold]
    rcases Nat.lt_or_ge dv (t + 1) with h | h
    · have hvold : permutation.getD v 0 ≠ -1 := (hinv.done v hvlt).mpr ⟨dv, by omega, hv⟩
      rw [hkeep v hvold]
      exact hinv.order u v du dv hu hv hlt (by omega)
    · have hdt : dv = t + 1 := by omega
      subst hdt
      obtain ⟨hold, hin⟩ := hfound v hv
      have hne : st'.permutation.getD v 0 ≠ -1 := by
        rcases hnext v hin with h' | ⟨-, w, hw, hvw⟩
        · cases h'
        · exact hvis w hw v hvw
      have h1 : (curr_index : Int) ≤ st'.permutation.getD v 0 := (hbound v hold hne).1
      have h2 := hinv.bound u hult huold
      omega

theorem calculate_permutation_loop_layers (layer_order : Nat → List Nat → List Nat)
    (graph : node_graph) (init_node : Nat)
    (horder : ∀ k s, (layer_order k s).Perm s) (hwf : graph.well_formed)
    (hinit : init_node < graph.shifts.length - 1)
    (fuel step t : Nat) (permutation : List Int) (curr_index : Nat) (curr_layer : List Nat)
    (hinv : layer_inv graph init_node t permutation curr_index curr_layer)
    (p : List Int)
    (hp : calculate_permutation_loop layer_order graph fuel step permutation curr_index
      curr_layer = some p) :
    ∀ u v du dv, graph.distance init_node u du → graph.distance init_node v dv → du < dv →
      p.getD v 0 ≠ -1 → p.getD u 0 < p.getD v 0 := by
  induction fuel generalizing step t permutation curr_index curr_layer with
  | zero => simp [calculate_permutation_loop] at hp
  | succ fuel ih =>
    unfold calculate_permutation_loop at hp
    by_cases hlt : curr_index < permutation.length
    · rw [if_pos hlt] at hp
      exact ih _ _ _ _ _
        (layer_inv_step hinv hwf hinit (layer_order step curr_layer)
          (fun x => (horder step curr_layer).mem_iff)) hp
    · rw [if_neg hlt] at hp
      injection hp with hp
      subst hp
      intro u v du dv hu hv hlt' hne
      have hvlt : v < permutation.length := by
        rw [hinv.len]
        exact walk_lt hwf hinit hv.1
      obtain ⟨d, hd, hdist⟩ := (hinv.done v hvlt).mp hne
      have := distance_unique hv hdist
      exact hinv.order u v du dv hu hv hlt' (by omega)

/-- C27 (amended): on a well-formed graph with duplicate-free rows in which every node is
reachable from the start node, `calculate_permutation` returns a permutation that numbers
the nodes layer by layer, for every traversal order of the layer sets: whenever the
breadth-first distance from the start node to `u` is smaller than the distance to `v`,
`permutation[u] < permutation[v]`. -/
theorem calculate_permutation_layers (layer_order : Nat → List Nat → List Nat)
    (graph : node_graph) (init_node fuel : Nat)
    (horder : ∀ k s, (layer_order k s).Perm s)
    (hwf : graph.well_formed)
    (hinit : init_node < graph.nodes_count)
    (hnd : ∀ u, u < graph.nodes_count → (graph.row u).Nodup)
    (hreach : ∀ v, v < graph.nodes_count → graph.reachable init_node v)
    (hfuel : graph.nodes_count ≤ fuel) :
    ∃ p, calculate_permutation layer_order graph init_node fuel = some p ∧
      ∀ u v du dv, graph.distance init_node u du → graph.distance init_node v dv → du < dv →
        p.getD u 0 < p.getD v 0 := by
  obtain ⟨p, hp, hlen, hmem⟩ := calculate_permutation_total layer_order graph init_node fuel
    horder hwf hinit hnd hreach hfuel
  have hperm := perm_range_of_mem p _ hlen hmem
  refine ⟨p, hp, ?_⟩
  intro u v du dv hu hv hlt
  have hvlt : v < graph.nodes_count := walk_lt hwf hinit hv.1
  have hne : p.getD v 0 ≠ -1 := by
    have hin : p.getD v 0 ∈ p := (mem_iff_getD p _ 0).mpr ⟨v, hlen ▸ hvlt, rfl⟩
    obtain ⟨i, -, hie⟩ := List.mem_map.mp (hperm.mem_iff.mp hin)
    rw [← hie]
    exact fun h => absurd h (by
      have : (0 : Int) ≤ Int.ofNat i := Int.ofNat_nonneg i
      omega)
  exact calculate_permutation_loop_layers layer_order graph init_node horder hwf hinit fuel 0 0
    _ 1 [init_node] (layer_inv_initial graph init_node hinit) p hp u v du dv hu hv hlt hne

/-! ## The order within a layer -/

theorem mem_walk_ends (graph : node_graph) (start k v : Nat) :
    v ∈ graph.walk_ends start k ↔ graph.walk start k v := by
  induction k generalizing v with
  | zero =>
    rw [walk_zero_iff]
    simp [node_graph.walk_ends]
  | succ k ih =>
    rw [walk_succ_iff]
    simp only [node_graph.walk_ends, List.mem_flatMap]
    constructor
    · rintro ⟨u, hu, hv⟩
      exact ⟨u, (ih u).mp hu, hv⟩
    · rintro ⟨u, hu, hv⟩
      exact ⟨u, (ih u).mpr hu, hv⟩

theorem calculate_permutation_layers_witness :
    ∃ p, calculate_permutation (fun _ s => s) triangle_graph 0 3 = some p ∧
      p.getD 0 0 < p.getD 2 0 := by
  obtain ⟨p, hp, h⟩ := calculate_permutation_layers (fun _ s => s) triangle_graph 0 3
    (fun _ s => List.Perm.refl s) triangle_graph_well_formed (by decide)
    (fun u hu => by
      have hu' : u < 3 := hu
      interval_cases u <;> decide)
    (fun v hv => triangle_graph_reachable v hv) (by decide)
  refine ⟨p, hp, h 0 2 0 1 ⟨node_graph.walk.zero, fun k hk => absurd hk (Nat.not_lt_zero k)⟩
    ⟨node_graph.walk.step node_graph.walk.zero (by decide), ?_⟩ (by decide)⟩
  intro k hk hw
  have hk0 : k = 0 := by omega
  subst hk0
  have := (walk_zero_iff _ _ _).mp hw
  omega

/-! ## Count pass and fill pass of `init_graph` -/

theorem numbered_lt (st : cm_state) (hnum : numbered st) (h : (-1 : Int) ∈ st.permutation) :
    st.curr_index < st.permutation.length := by
  have hnd : (((List.range st.curr_index).map Int.ofNat) ++ [-1]).Nodup := by
    refine List.Nodup.append ((List.nodup_range _).map (fun a b h => Int.ofNat.inj h))
      (List.nodup_singleton _) ?_
    intro x hx hx'
    obtain ⟨i, -, rfl⟩ := List.mem_map.mp hx
    have h1 := List.mem_singleton.mp hx'
    have : (0 : Int) ≤ Int.ofNat i := Int.ofNat_nonneg i
    omega
  have hsub : ((List.range st.curr_index).map Int.ofNat) ++ [-1] ⊆ st.permutation := by
    intro x hx
    rcases List.mem_append.mp hx with hx | hx
    · obtain ⟨i, hi, rfl⟩ := List.mem_map.mp hx
      exact hnum i (List.mem_range.mp hi)
    · rw [List.mem_singleton.mp hx]
      exact h
  have := (List.subperm_of_subset hnd hsub).length_le
  simp at this
  omega

theorem reach_inv_initial (graph : node_graph) (init_node : Nat)
    (hinit : init_node < graph.shifts.length - 1) :
    reach_inv graph init_node
      ((List.replicate (graph.shifts.length - 1) (-1 : Int)).set init_node 0) 1 [init_node] := by
  refine ⟨by simp, ?_, ?_, ?_⟩
  · intro i hi
    have hi0 : i = 0 := by simpa using hi
    subst hi0
    rw [mem_iff_getD _ _ 0]
    exact ⟨init_node, by simpa using hinit, getD_set_eq _ _ _ _ (by simpa using hinit)⟩
  · intro v hv hne
    by_cases hvi : init_node = v
    · subst hvi
      exact node_graph.reachable.refl
    · exfalso
      apply hne
      rw [getD_set_ne _ _ _ _ _ hvi]
      have hv' : v < graph.shifts.length - 1 := by simpa using hv
      simp [List.getD_eq_getElem?_getD, hv']
  · intro x hx
    rw [List.mem_singleton.mp hx]
    exact node_graph.reachable.refl

theorem reach_inv_step {graph : node_graph} {init_node : Nat} {permutation : List Int}
    {curr_index : Nat} {curr_layer : List Nat}
    (hinv : reach_inv graph init_node permutation curr_index curr_layer)
    (hwf : graph.well_formed) (hnd : ∀ u, (graph.row u).Nodup)
    (l : List Nat) (hl : ∀ x, x ∈ l → x ∈ curr_layer) :
    reach_inv graph init_node
      (l.foldl (visit_node graph)
        { permutation := permutation, curr_index := curr_index, next_layer := [] }).permutation
      (l.foldl (visit_node graph)
        { permutation := permutation, curr_index := curr_index, next_layer := [] }).curr_index
      (l.foldl (visit_node graph)
        { permutation := permutation, curr_index := curr_index, next_layer := [] }).next_layer := by
  obtain ⟨hrel, -⟩ := visit_fold_rel graph _ (well_formed_row_lt hwf) l
    { permutation := permutation, curr_index := curr_index, next_layer := [] } hinv.len
  have hnext := visit_fold_next graph l
    { permutation := permutation, curr_index := curr_index, next_layer := [] }
  have hfresh : ∀ x, x ∈ (l.foldl (visit_node graph)
      { permutation := permutation, curr_index := curr_index,
        next_layer := [] }).next_layer → graph.reachable init_node x := by
    intro x hx
    rcases hnext x hx with h | ⟨-, u, hu, hxu⟩
    · exact absurd h (List.not_mem_nil x)
    · exact node_graph.reachable.step (hinv.layer u (hl u hu)) hxu
  refine ⟨hrel.len.trans hinv.len, ?_, ?_, hfresh⟩
  · exact visit_fold_numbered graph _ (well_formed_row_lt hwf) hnd l
      { permutation := permutation, curr_index := curr_index, next_layer := [] } hinv.len
      hinv.num
  · intro v hv hne
    by_cases hold : permutation.getD v 0 = -1
    · exact hfresh v (hrel.fresh v hold hne)
    · exact hinv.reach v (by rw [← hrel.len]; exact hv) hold

/-- While a node of the graph is not reachable from the start node, the condition of the
`while` loop holds. -/
theorem reach_inv_lt {graph : node_graph} {init_node : Nat} {permutation : List Int}
    {curr_index : Nat} {curr_layer : List Nat}
    (hinv : reach_inv graph init_node permutation curr_index curr_layer)
    (v : Nat) (hv : v < graph.shifts.length - 1) (hnot : ¬ graph.reachable init_node v) :
    curr_index < permutation.length := by
  have hlen := hinv.len
  have hm : (-1 : Int) ∈ permutation := by
    rw [mem_iff_getD _ _ 0]
    refine ⟨v, by omega, ?_⟩
    by_contra hne
    exact hnot (hinv.reach v (by omega) hne)
  exact numbered_lt { permutation := permutation, curr_index := curr_index, next_layer := [] }
    hinv.num hm

theorem calculate_permutation_loop_unreachable (layer_order : Nat → List Nat → List Nat)
    (graph : node_graph) (init_node : Nat)
    (horder : ∀ k s, (layer_order k s).Perm s) (hwf : graph.well_formed)
    (hnd : ∀ u, (graph.row u).Nodup)
    (v : Nat) (hv : v < graph.shifts.length - 1) (hnot : ¬ graph.reachable init_node v)
    (fuel step : Nat) (permutation : List Int) (curr_index : Nat) (curr_layer : List Nat)
    (hinv : reach_inv graph init_node permutation curr_index curr_layer) :
    calculate_permutation_loop layer_order graph fuel step permutation curr_index
      curr_layer = none := by
  induction fuel generalizing step permutation curr_index curr_layer with
  | zero => rfl
  | succ fuel ih =>
    unfold calculate_permutation_loop
    rw [if_pos (reach_inv_lt hinv v hv hnot)]
    exact ih _ _ _ _ (reach_inv_step hinv hwf hnd _
      (fun x hx => (horder step curr_layer).mem_iff.mp hx))

/-- Once the current layer is empty while the loop condition holds, no iteration changes
the state: the loop does not end. -/
theorem calculate_permutation_loop_empty_layer (layer_order : Nat → List Nat → List Nat)
    (graph : node_graph) (horder : ∀ k s, (layer_order k s).Perm s)
    (fuel step : Nat) (permutation : List Int) (curr_index : Nat)
    (hlt : curr_index < permutation.length) :
    calculate_permutation_loop layer_order graph fuel step permutation curr_index [] =
      none := by
  induction fuel generalizing step with
  | zero => rfl
  | succ fuel ih =>
    unfold calculate_permutation_loop
    rw [if_pos hlt, List.perm_nil.mp (horder step [])]
    exact ih (step + 1)

/-- C37 (amended).  On a well-formed graph with duplicate-free rows in which some node is
not reachable from the start node, `calculate_permutation` does not return: whatever the
traversal order of the layer sets and whatever the bound on the number of evaluations of the
loop condition, the bound is reached. -/
theorem calculate_permutation_unreachable (layer_order : Nat → List Nat → List Nat)
    (graph : node_graph) (init_node : Nat)
    (horder : ∀ k s, (layer_order k s).Perm s)
    (hwf : graph.well_formed)
    (hinit : init_node < graph.nodes_count)
    (hnd : ∀ u, u < graph.nodes_count → (graph.row u).Nodup)
    (v : Nat) (hv : v < graph.nodes_count) (hnot : ¬ graph.reachable init_node v) :
    ∀ fuel, calculate_permutation layer_order graph init_node fuel = none := by
  intro fuel
  unfold node_graph.nodes_count at *
  have hnd' : ∀ u, (graph.row u).Nodup := by
    intro u
    by_cases hu : u < graph.shifts.length - 1
    · exact hnd u hu
    · rw [row_eq_nil_of_le graph u (not_lt.mp hu)]
      exact List.nodup_nil
  exact calculate_permutation_loop_unreachable layer_order graph init_node horder hwf hnd'
    v hv hnot fuel 0 _ 1 [init_node] (reach_inv_initial graph init_node hinit)

theorem two_triangles_not_reachable (v : Nat) (h : two_triangles_graph.reachable 0 v) :
    v < 3 := by
  induction h with
  | refl => decide
  | @step u w _ hrow ih =>
    interval_cases u
    · have : w ∈ [1, 2] := hrow
      simp at this; omega
    · have : w ∈ [0, 2] := hrow
      simp at this; omega
    · have : w ∈ [0, 1] := hrow
      simp at this; omega

theorem calculate_permutation_unreachable_witness :
    ¬ two_triangles_graph.reachable 0 3 ∧
    calculate_permutation (fun _ s => s) two_triangles_graph 0 1000 = none :=
  ⟨fun h => absurd (two_triangles_not_reachable 3 h) (by decide),
    calculate_permutation_unreachable (fun _ s => s) two_triangles_graph 0
      (fun _ s => List.Perm.refl s) (by unfold node_graph.well_formed; decide) (by decide)
      (fun u hu => by
        have hu' : u < 6 := hu
        interval_cases u <;> decide)
      3 (by decide) (fun h => absurd (two_triangles_not_reachable 3 h) (by decide)) 1000⟩

theorem repeated_row_not_reachable (v : Nat) (h : repeated_row_graph.reachable 0 v) :
    v < 2 := by
  induction h with
  | refl => decide
  | @step u w _ hrow ih =>
    interval_cases u
    · have : w ∈ [1, 1] := hrow
      simp at this; omega
    · have : w ∈ [0, 0] := hrow
      simp at this; omega

/-- C37 (counterexample).  When a row repeats a neighbour the index runs ahead of the
numbered nodes: on `repeated_row_graph`, a well-formed graph whose node 2 is not reachable
from node 0, `calculate_permutation` started from node 0 returns `[0, 2, -1]` for every
traversal order of the layer sets, within two evaluations of the loop condition, and node 2
keeps the entry `-1`. -/
theorem calculate_permutation_repeated_row :
    repeated_row_graph.well_formed ∧ ¬ (repeated_row_graph.row 0).Nodup ∧
    2 < repeated_row_graph.nodes_count ∧ ¬ repeated_row_graph.reachable 0 2 ∧
    ∀ layer_order : Nat → List Nat → List Nat, (∀ k s, (layer_order k s).Perm s) →
      ∀ fuel, 2 ≤ fuel →
        calculate_permutation layer_order repeated_row_graph 0 fuel = some [0, 2, -1] := by
  refine ⟨?_, ?_, ?_, ?_, ?_⟩
  · unfold node_graph.well_formed
    decide
  · decide
  · decide
  · exact fun h => absurd (repeated_row_not_reachable 2 h) (by decide)
  · intro layer_order horder fuel hfuel
    obtain ⟨k, rfl⟩ : ∃ k, fuel = k + 2 := ⟨fuel - 2, by omega⟩
    unfold calculate_permutation calculate_permutation_loop
    rw [if_pos (by decide), List.perm_singleton.mp (horder 0 [0])]
    have hstep : ([0].foldl (visit_node repeated_row_graph)
        { permutation :=
            (List.replicate (repeated_row_graph.shifts.length - 1) (-1 : Int)).set 0 0
          curr_index := 1
          next_layer := [] }) =
        { permutation := [0, 2, -1], curr_index := 3, next_layer := [1] } := by
      decide
    rw [hstep]
    simp only
    unfold calculate_permutation_loop
    rw [if_neg (by decide)]

/-! ## Symmetry of the graph of `init_graph` -/

/-- The members of a row of the graph of `init_graph` in the local theory: the nodes other
than `v` that lie on a common element with `v`. -/
theorem init_graph_local_mem (mesh : mesh_proxy)
    (hnodes : ∀ e, e ∈ mesh.elements → ∀ x, x ∈ e → x < mesh.nodes_count)
    (hlast : mesh.last_node ≤ mesh.nodes_count) (v : Nat)
    (hv1 : mesh.first_node ≤ v) (hv2 : v < mesh.last_node)
    (hmap : ∀ e, e ∈ mesh.nodes_elements_map v ↔
      e < mesh.elements.length ∧ v ∈ mesh.elements.getD e []) :
    ∀ u, u ∈ (init_graph mesh false).row v ↔ u ≠ v ∧ mesh.share_element u v := by
  have hrow := init_graph_local_row_eq mesh hlast v hv1 hv2
  have hcand : ∀ u, u ∈ mesh.candidates v ↔ mesh.share_element u v := by
    intro u
    unfold mesh_proxy.candidates mesh_proxy.share_element
    rw [List.mem_flatMap]
    constructor
    · rintro ⟨e, he, hu⟩
      obtain ⟨he1, he2⟩ := (hmap e).mp he
      rw [List.getD_eq_getElem _ _ he1] at hu he2
      exact ⟨_, List.getElem_mem he1, hu, he2⟩
    · rintro ⟨el, hel, hu, hv⟩
      obtain ⟨e, he, rfl⟩ := List.mem_iff_getElem.mp hel
      refine ⟨e, (hmap e).mpr ⟨he, ?_⟩, ?_⟩
      · rw [List.getD_eq_getElem _ _ he]; exact hv
      · rw [List.getD_eq_getElem _ _ he]; exact hu
  have hlt : ∀ u, u ∈ mesh.candidates v → u < mesh.nodes_count := by
    intro u hu
    obtain ⟨el, hel, hu', -⟩ := (hcand u).mp hu
    exact hnodes el hel u hu'
  obtain ⟨-, hmem⟩ := accepted_spec v (mesh.candidates v)
    (List.replicate mesh.nodes_count false) (fun x hx => by simpa using hlt x hx)
  intro u
  rw [hrow]
  unfold mesh_proxy.row_of
  rw [hmem u, hcand u]
  constructor
  · rintro ⟨h1, h2, -⟩
    exact ⟨h2, h1⟩
  · rintro ⟨h1, h2⟩
    refine ⟨h2, h1, ?_⟩
    simp only [List.getD_eq_getElem?_getD, List.getElem?_replicate]
    split <;> rfl

theorem share_element_symm (mesh : mesh_proxy) (u v : Nat) (h : mesh.share_element u v) :
    mesh.share_element v u := by
  obtain ⟨e, he, hu, hv⟩ := h
  exact ⟨e, he, hv, hu⟩

/-- The rows of the graph of `init_graph` in the local theory hold nodes of the mesh only,
and a node outside the mesh has an empty row. -/
theorem init_graph_local_row_lt (mesh : mesh_proxy)
    (hnodes : ∀ e, e ∈ mesh.elements → ∀ x, x ∈ e → x < mesh.nodes_count)
    (hfirst : mesh.first_node = 0) (hlast : mesh.last_node = mesh.nodes_count)
    (hmap : ∀ v e, e ∈ mesh.nodes_elements_map v ↔
      e < mesh.elements.length ∧ v ∈ mesh.elements.getD e [])
    (u v : Nat) (h : u ∈ (init_graph mesh false).row v) :
    v < mesh.nodes_count ∧ u < mesh.nodes_count ∧ u ≠ v ∧ mesh.share_element u v := by
  have hlen := init_graph_local_shifts_length mesh (le_of_eq hlast)
  have hv : v < mesh.nodes_count := by
    by_contra hge
    rw [row_eq_nil_of_le _ v (by rw [hlen]; omega)] at h
    exact absurd h (List.not_mem_nil u)
  obtain ⟨h1, h2⟩ := (init_graph_local_mem mesh hnodes (le_of_eq hlast) v (by omega) (by omega)
    (hmap v) u).mp h
  have h3 := h2
  obtain ⟨e, he, hu, -⟩ := h3
  exact ⟨hv, hnodes e he u hu, h1, h2⟩

/-- C38.  In the local theory, when `nodes_elements_map` lists for every node exactly the
elements that contain it and the processed range holds all nodes, the graph of `init_graph`
is symmetric and has no loop: `u` is in the row of `v` if and only if `v` is in the row of
`u`, and no row holds its own node. -/
theorem init_graph_local_symmetric (mesh : mesh_proxy)
    (hnodes : ∀ e, e ∈ mesh.elements → ∀ x, x ∈ e → x < mesh.nodes_count)
    (hfirst : mesh.first_node = 0) (hlast : mesh.last_node = mesh.nodes_count)
    (hmap : ∀ v e, e ∈ mesh.nodes_elements_map v ↔
      e < mesh.elements.length ∧ v ∈ mesh.elements.getD e []) :
    (∀ u v, u ∈ (init_graph mesh false).row v ↔ v ∈ (init_graph mesh false).row u) ∧
    (∀ v, v ∉ (init_graph mesh false).row v) ∧
    (init_graph mesh false).symmetric := by
  have hdir : ∀ u v, u ∈ (init_graph mesh false).row v → v ∈ (init_graph mesh false).row u := by
    intro u v h
    obtain ⟨-, hu, hne, hsh⟩ := init_graph_local_row_lt mesh hnodes hfirst hlast hmap u v h
    exact (init_graph_local_mem mesh hnodes (le_of_eq hlast) u (by omega) (by omega)
      (hmap u) v).mpr ⟨fun h => hne h.symm, share_element_symm mesh u v hsh⟩
  refine ⟨fun u v => ⟨hdir u v, hdir v u⟩, ?_, fun u v _ h => hdir v u h⟩
  intro v h
  exact (init_graph_local_row_lt mesh hnodes hfirst hlast hmap v v h).2.2.1 rfl

theorem init_graph_local_symmetric_witness :
    (∀ u v, u ∈ (init_graph quad_triangle_quad_mesh false).row v ↔
      v ∈ (init_graph quad_triangle_quad_mesh false).row u) ∧
    (∀ v, v ∉ (init_graph quad_triangle_quad_mesh false).row v) ∧
    (init_graph quad_triangle_quad_mesh false).symmetric :=
  init_graph_local_symmetric quad_triangle_quad_mesh (by decide) rfl rfl
    (fun v e => by
      simp only [quad_triangle_quad_mesh, List.mem_filter, List.mem_range, decide_eq_true_eq,
        List.length_cons, List.length_nil])

/-- C27 (counterexample).  On `repeated_path_graph`, a well-formed graph in which every
node is reachable from node 0, node 1 is at distance 1 and node 2 at distance 2 from node 0,
and `calculate_permutation` started from node 0 returns `[0, 2, -1]` for every traversal
order of the layer sets: the nearer node 1 has the number 2 and the farther node 2 is left
at `-1`. -/
theorem calculate_permutation_layers_counterexample :
    repeated_path_graph.well_formed ∧
    (∀ v, v < repeated_path_graph.nodes_count → repeated_path_graph.reachable 0 v) ∧
    repeated_path_graph.distance 0 1 1 ∧ repeated_path_graph.distance 0 2 2 ∧
    ∀ layer_order : Nat → List Nat → List Nat, (∀ k s, (layer_order k s).Perm s) →
      ∀ fuel, 2 ≤ fuel →
        ∃ p, calculate_permutation layer_order repeated_path_graph 0 fuel = some p ∧
          ¬ p.getD 1 0 < p.getD 2 0 := by
  have h01 : repeated_path_graph.reachable 0 1 :=
    node_graph.reachable.step node_graph.reachable.refl (by decide)
  have hmem : ∀ k v, repeated_path_graph.walk 0 k v ↔ v ∈ repeated_path_graph.walk_ends 0 k :=
    fun k v => (mem_walk_ends repeated_path_graph 0 k v).symm
  refine ⟨by unfold node_graph.well_formed; decide, ?_, ?_, ?_, ?_⟩
  · intro v hv
    have hv' : v < 3 := hv
    interval_cases v
    · exact node_graph.reachable.refl
    · exact h01
    · exact node_graph.reachable.step h01 (by decide)
  · refine ⟨(hmem 1 1).mpr (by decide), ?_⟩
    intro k hk hw
    have hk0 : k = 0 := by omega
    subst hk0
    exact absurd ((hmem 0 1).mp hw) (by decide)
  · refine ⟨(hmem 2 2).mpr (by decide), ?_⟩
    intro k hk hw
    have hk' : k = 0 ∨ k = 1 := by omega
    rcases hk' with rfl | rfl
    · exact absurd ((hmem 0 2).mp hw) (by decide)
    · exact absurd ((hmem 1 2).mp hw) (by decide)
  · intro layer_order horder fuel hfuel
    obtain ⟨k, rfl⟩ : ∃ k, fuel = k + 2 := ⟨fuel - 2, by omega⟩
    refine ⟨[0, 2, -1], ?_, by decide⟩
    unfold calculate_permutation calculate_permutation_loop
    rw [if_pos (by decide), List.perm_singleton.mp (horder 0 [0])]
    have hstep : ([0].foldl (visit_node repeated_path_graph)
        { permutation :=
            (List.replicate (repeated_path_graph.shifts.length - 1) (-1 : Int)).set 0 0
          curr_index := 1
          next_layer := [] }) =
        { permutation := [0, 2, -1], curr_index := 3, next_layer := [1] } := by
      decide
    rw [hstep]
    simp only
    unfold calculate_permutation_loop
    rw [if_neg (by decide)]

/-- C4 (counterexample).  On `partial_range_mesh` the map `nodes_elements_map` lists for
every node exactly the elements that contain it, node 2 shares the triangle with the nodes
0 and 1, and `init_graph` gives node 2, which is outside the processed range, the empty
row: `shifts[3] - shifts[2] = 0` while two nodes share an element with node 2. -/
theorem init_graph_local_rows_counterexample :
    (∀ v e, e ∈ partial_range_mesh.nodes_elements_map v ↔
      e < partial_range_mesh.elements.length ∧ v ∈ partial_range_mesh.elements.getD e []) ∧
    init_graph partial_range_mesh false = { shifts := [0, 2, 4, 4], indices := [1, 2, 0, 2] } ∧
    (0 ≠ 2 ∧ partial_range_mesh.share_element 0 2) ∧
    0 ∉ (init_graph partial_range_mesh false).row 2 ∧
    (init_graph partial_range_mesh false).neighbours_count 2 = 0 ∧
    ((List.range partial_range_mesh.nodes_count).filter
      (fun u => decide (u ≠ 2 ∧ partial_range_mesh.share_element u 2))).length = 2 := by
  refine ⟨?_, by decide, by decide, by decide, by decide, by decide⟩
  intro v e
  simp only [partial_range_mesh, List.length_cons, List.length_nil]
  by_cases hv : v < 3
  · rw [if_pos hv]
    constructor
    · intro he
      have he0 : e = 0 := by simpa using he
      subst he0
      interval_cases v <;> simp
    · rintro ⟨he, -⟩
      have he0 : e = 0 := by omega
      subst he0
      simp
  · rw [if_neg hv]
    constructor
    · intro he
      simp at he
    · rintro ⟨he, hmem⟩
      have he0 : e = 0 := by omega
      subst he0
      simp at hmem
      omega

end CuthillMcKee

namespace statics_with_nonloc

/-! ## The filling rules as writes at a cursor -/

theorem free_bound_exclusive {F : Type} (mesh : mesh_2d F) (kinematic_nodes : List node_info)
    (node_i node_j : node_info) (el el' : Nat) (v : F)
    (h : (free_triplet mesh kinematic_nodes node_i node_j el el' v).isSome) :
    bound_triplet mesh kinematic_nodes node_i node_j el el' v = none := by
  unfold free_triplet at h
  unfold bound_triplet
  simp only at h ⊢
  split at h
  · next hc => rw [if_neg (fun hb => hb.2.1 hc.2)]
  · simp at h

theorem fill_branch_eq {F : Type} (st : fill_state F) (el : Nat) (c1 c2 : Prop)
    [Decidable c1] [Decidable c2] (c3 : Bool) (tf tb : Triplet F) :
    (if c1 then
      if c2 then
        { st with
          triplets := st.triplets.set (st.shifts.getD el 0) tf
          shifts := st.shifts.set el (st.shifts.getD el 0 + 1) }
      else if c3 then
        { st with
          triplets_bound := st.triplets_bound.set (st.shifts_bound.getD el 0) tb
          shifts_bound := st.shifts_bound.set el (st.shifts_bound.getD el 0 + 1) }
      else st
    else st) =
      { triplets := (push st.triplets st.shifts el (if c1 ∧ c2 then some tf else none)).1
        shifts := (push st.triplets st.shifts el (if c1 ∧ c2 then some tf else none)).2
        triplets_bound := (push st.triplets_bound st.shifts_bound el
          (if c1 ∧ ¬ c2 ∧ c3 = true then some tb else none)).1
        shifts_bound := (push st.triplets_bound st.shifts_bound el
          (if c1 ∧ ¬ c2 ∧ c3 = true then some tb else none)).2 } := by
  by_cases h1 : c1 <;> by_cases h2 : c2 <;> cases c3 <;> simp [h1, h2, push]

theorem filler_loc_eq {F : Type} [Field F] (mesh : mesh_2d F)
    (kinematic_nodes : List node_info) (quad : quadrature_tables F) (p1 : F)
    (coeffs : Fin 3 → F) (st : fill_state F) (node_i node_j : node_info) (el : Nat) :
    filler_loc mesh kinematic_nodes quad p1 coeffs st node_i node_j el =
      { triplets := (push st.triplets st.shifts el
          (free_triplet mesh kinematic_nodes node_i node_j el el
            (p1 * integrate_loc (mesh.element_2d (mesh.element_type el)) node_i node_j
              quad.all_jacobi_matrices (quad.shifts_quad.getD el 0) coeffs))).1
        shifts := (push st.triplets st.shifts el
          (free_triplet mesh kinematic_nodes node_i node_j el el
            (p1 * integrate_loc (mesh.element_2d (mesh.element_type el)) node_i node_j
              quad.all_jacobi_matrices (quad.shifts_quad.getD el 0) coeffs))).2
        triplets_bound := (push st.triplets_bound st.shifts_bound el
          (bound_triplet mesh kinematic_nodes node_i node_j el el
            (p1 * integrate_loc (mesh.element_2d (mesh.element_type el)) node_i node_j
              quad.all_jacobi_matrices (quad.shifts_quad.getD el 0) coeffs))).1
        shifts_bound := (push st.triplets_bound st.shifts_bound el
          (bound_triplet mesh kinematic_nodes node_i node_j el el
            (p1 * integrate_loc (mesh.element_2d (mesh.element_type el)) node_i node_j
              quad.all_jacobi_matrices (quad.shifts_quad.getD el 0) coeffs))).2 } :=
  fill_branch_eq st el _ _ _ _ _

theorem write_seg_append {α : Type} (l : List α) (A B C : List α) (h : B.length = l.length) :
    write_seg (A ++ B ++ C) A.length l = A ++ l ++ C := by
  induction l generalizing A B with
  | nil =>
    have : B = [] := List.eq_nil_of_length_eq_zero (by simpa using h)
    subst this
    rfl
  | cons x xs ih =>
    cases B with
    | nil => simp at h
    | cons b bs =>
      have hset : (A ++ b :: bs ++ C).set A.length x = (A ++ [x]) ++ bs ++ C := by
        rw [List.append_assoc, List.set_append_right _ _ (le_refl _)]
        simp
      rw [write_seg, hset]
      have := ih (A ++ [x]) bs (by simpa using h)
      rw [List.length_append, List.length_singleton] at this
      rw [this]
      simp

theorem push_fold {α ι : Type} (f : ι → Option α) (el : Nat) (ps : List ι) (arr : List α)
    (cursor : List Nat) (hel : el < cursor.length) :
    ps.foldl (fun (s : List α × List Nat) p => push s.1 s.2 el (f p)) (arr, cursor) =
      (write_seg arr (cursor.getD el 0) (ps.filterMap f),
        cursor.set el (cursor.getD el 0 + (ps.filterMap f).length)) := by
  induction ps generalizing arr cursor with
  | nil =>
    simp only [List.foldl_nil, List.filterMap_nil, write_seg, List.length_nil, Nat.add_zero]
    rw [CuthillMcKee.set_getD_self]
  | cons p t ih =>
    cases hf : f p with
    | none =>
      simp only [List.foldl_cons, hf]
      rw [show push arr cursor el (none : Option α) = (arr, cursor) from rfl,
        ih arr cursor hel, List.filterMap_cons, hf]
    | some x =>
      simp only [List.foldl_cons, hf]
      rw [show push arr cursor el (some x) =
          (arr.set (cursor.getD el 0) x, cursor.set el (cursor.getD el 0 + 1)) from rfl,
        ih _ _ (by simpa using hel), List.filterMap_cons, hf]
      simp only [write_seg, List.length_cons, List.set_set]
      rw [CuthillMcKee.getD_set_eq _ _ _ _ hel]
      congr 2
      omega

theorem offsets_ok_set (cursor : List Nat) (len : Nat → Nat) (a : Nat) (els : List Nat)
    (e x : Nat) (he : e ∉ els) (h : offsets_ok cursor len a els) :
    offsets_ok (cursor.set e x) len a els := by
  induction els generalizing a with
  | nil => trivial
  | cons b rest ih =>
    obtain ⟨h1, h2, h3⟩ := h
    have hne : e ≠ b := fun hb => he (hb ▸ List.mem_cons_self _ _)
    refine ⟨by simpa using h1, ?_, ih _ (fun hm => he (List.mem_cons_of_mem _ hm)) h3⟩
    rw [CuthillMcKee.getD_set_ne _ _ _ _ _ hne]
    exact h2

theorem bucket_fill {α : Type} (seg : Nat → List α) (d : α) (els : List Nat)
    (hnd : els.Nodup) (A C : List α) (cursor : List Nat)
    (hok : offsets_ok cursor (fun e => (seg e).length) A.length els) :
    (els.foldl
      (fun (s : List α × List Nat) e =>
        (write_seg s.1 (s.2.getD e 0) (seg e), s.2.set e (s.2.getD e 0 + (seg e).length)))
      (A ++ List.replicate ((els.map (fun e => (seg e).length)).sum) d ++ C, cursor)).1 =
      A ++ els.flatMap seg ++ C := by
  induction els generalizing A cursor with
  | nil => simp
  | cons b rest ih =>
    obtain ⟨h1, h2, h3⟩ := hok
    have hnd' := List.nodup_cons.mp hnd
    rw [List.foldl_cons]
    simp only [h2, List.map_cons, List.sum_cons]
    have harr : A ++ List.replicate ((seg b).length +
        (rest.map (fun e => (seg e).length)).sum) d ++ C =
        A ++ List.replicate (seg b).length d ++
          (List.replicate ((rest.map (fun e => (seg e).length)).sum) d ++ C) := by
      rw [List.replicate_add]
      simp only [List.append_assoc]
    rw [harr, write_seg_append (seg b) A _ _ (by simp)]
    have := ih hnd'.2 (A ++ seg b) (cursor.set b (A.length + (seg b).length)) (by
        rw [List.length_append]
        exact offsets_ok_set _ _ _ _ _ _ hnd'.1 h3)
    rw [List.flatMap_cons]
    simp only [List.append_assoc] at this ⊢
    exact this

theorem offsets_ok_range (cursor : List Nat) (len : Nat → Nat) (start : Nat → Nat)
    (hstart : ∀ e, start (e + 1) = start e + len e) (k n : Nat)
    (hcur : ∀ e, k ≤ e → e < k + n → e < cursor.length ∧ cursor.getD e 0 = start e) :
    offsets_ok cursor len (start k) (List.range' k n) := by
  induction n generalizing k with
  | zero => trivial
  | succ n ih =>
    rw [List.range'_succ]
    obtain ⟨h1, h2⟩ := hcur k le_rfl (by omega)
    refine ⟨h1, h2, ?_⟩
    rw [← hstart]
    exact ih (k + 1) (fun e he1 he2 => hcur e (by omega) (by omega))

theorem filler_nonloc_eq {F : Type} [Field F] (mesh : mesh_2d F)
    (kinematic_nodes : List node_info) (quad : quadrature_tables F)
    (influence_fun : F → F → F → F → F) (p2 : F)
    (coeffs : Fin 3 → F) (st : fill_state F) (node_iL node_jNL : node_info)
    (elL elNL : Nat) :
    filler_nonloc mesh kinematic_nodes quad influence_fun p2 coeffs st node_iL node_jNL
        elL elNL =
      { triplets := (push st.triplets st.shifts elL
          (free_triplet mesh kinematic_nodes node_iL node_jNL elL elNL
            (p2 * nonloc_value mesh quad influence_fun coeffs elL
              (node_iL, node_jNL, elNL)))).1
        shifts := (push st.triplets st.shifts elL
          (free_triplet mesh kinematic_nodes node_iL node_jNL elL elNL
            (p2 * nonloc_value mesh quad influence_fun coeffs elL
              (node_iL, node_jNL, elNL)))).2
        triplets_bound := (push st.triplets_bound st.shifts_bound elL
          (bound_triplet mesh kinematic_nodes node_iL node_jNL elL elNL
            (p2 * nonloc_value mesh quad influence_fun coeffs elL
              (node_iL, node_jNL, elNL)))).1
        shifts_bound := (push st.triplets_bound st.shifts_bound elL
          (bound_triplet mesh kinematic_nodes node_iL node_jNL elL elNL
            (p2 * nonloc_value mesh quad influence_fun coeffs elL
              (node_iL, node_jNL, elNL)))).2 } :=
  fill_branch_eq st elL _ _ _ _ _

/-- A fold of rules that push at most one triplet on each vector, all for the element `el`,
writes the pushed triplets one after the other from the two cursors of `el`. -/
theorem fill_fold {F ι : Type} (f g : ι → Option (Triplet F)) (el : Nat) (ps : List ι)
    (st : fill_state F) (h1 : el < st.shifts.length) (h2 : el < st.shifts_bound.length) :
    ps.foldl
      (fun (st : fill_state F) p =>
        { triplets := (push st.triplets st.shifts el (f p)).1
          shifts := (push st.triplets st.shifts el (f p)).2
          triplets_bound := (push st.triplets_bound st.shifts_bound el (g p)).1
          shifts_bound := (push st.triplets_bound st.shifts_bound el (g p)).2 }) st =
      { triplets := write_seg st.triplets (st.shifts.getD el 0) (ps.filterMap f)
        shifts := st.shifts.set el (st.shifts.getD el 0 + (ps.filterMap f).length)
        triplets_bound :=
          write_seg st.triplets_bound (st.shifts_bound.getD el 0) (ps.filterMap g)
        shifts_bound :=
          st.shifts_bound.set el (st.shifts_bound.getD el 0 + (ps.filterMap g).length) } := by
  have key : ∀ (ps : List ι) (st : fill_state F),
      ps.foldl
        (fun (st : fill_state F) p =>
          { triplets := (push st.triplets st.shifts el (f p)).1
            shifts := (push st.triplets st.shifts el (f p)).2
            triplets_bound := (push st.triplets_bound st.shifts_bound el (g p)).1
            shifts_bound := (push st.triplets_bound st.shifts_bound el (g p)).2 }) st =
        { triplets := (ps.foldl (fun (s : List (Triplet F) × List Nat) p =>
            push s.1 s.2 el (f p)) (st.triplets, st.shifts)).1
          shifts := (ps.foldl (fun (s : List (Triplet F) × List Nat) p =>
            push s.1 s.2 el (f p)) (st.triplets, st.shifts)).2
          triplets_bound := (ps.foldl (fun (s : List (Triplet F) × List Nat) p =>
            push s.1 s.2 el (g p)) (st.triplets_bound, st.shifts_bound)).1
          shifts_bound := (ps.foldl (fun (s : List (Triplet F) × List Nat) p =>
            push s.1 s.2 el (g p)) (st.triplets_bound, st.shifts_bound)).2 } := by
    intro ps
    induction ps with
    | nil => intro st; rfl
    | cons p t ih =>
      intro st
      rw [List.foldl_cons, ih]
      rfl
  rw [key, push_fold f el ps _ _ h1, push_fold g el ps _ _ h2]

/-! ## The counting rules of `mesh_analysis` -/

theorem node_number_lt {F : Type} (mesh : mesh_2d F) (h : mesh.small_numbers) (el k : Nat) :
    mesh.node_number el k < 2 ^ 30 := by
  unfold mesh_2d.node_number
  by_cases hel : el < mesh.elements.length
  · rw [List.getD_eq_getElem _ _ hel]
    by_cases hk : k < (mesh.elements[el]).length
    · rw [List.getD_eq_getElem _ _ hk]
      exact h _ (List.getElem_mem hel) _ (List.getElem_mem hk)
    · rw [List.getD_eq_default _ _ (Nat.le_of_not_lt hk)]
      decide
  · rw [List.getD_eq_default _ _ (Nat.le_of_not_lt hel)]
    simp

theorem make_number_of_lt (n : Nat) (c : component) (h : n < 2 ^ 31) :
    (node_info.make n c).number = n := by
  unfold node_info.make
  exact Nat.mod_eq_of_lt h

theorem dof_index_of_lt (n : Nat) (c : component) (h : n < 2 ^ 30) :
    (node_info.make (2 * (node_info.make n c).number + (node_info.make n c).comp.toNat)).index =
      2 * n + c.toNat := by
  rw [make_number_of_lt n c (by omega)]
  unfold node_info.index
  have hc : (node_info.make n c).comp = c := rfl
  rw [hc]
  apply make_number_of_lt
  cases c <;> simp [component.toNat] <;> omega

theorem free_isSome_iff {F : Type} (mesh : mesh_2d F) (hnum : mesh.small_numbers)
    (kinematic_nodes : List node_info) (node_i node_j : node_info) (el el' : Nat) (v : F) :
    (free_triplet mesh kinematic_nodes node_i node_j el el' v).isSome = true ↔
      (2 * (node_info.make (mesh.node_number el node_i.number) node_i.comp).number +
          (node_info.make (mesh.node_number el node_i.number) node_i.comp).comp.toNat ≥
        2 * (node_info.make (mesh.node_number el' node_j.number) node_j.comp).number +
          (node_info.make (mesh.node_number el' node_j.number) node_j.comp).comp.toNat) ∧
      (node_info.make (mesh.node_number el node_i.number) node_i.comp ∉ kinematic_nodes ∧
       node_info.make (mesh.node_number el' node_j.number) node_j.comp ∉ kinematic_nodes) := by
  unfold free_triplet
  simp only
  rw [dof_index_of_lt _ _ (node_number_lt mesh hnum el _),
    dof_index_of_lt _ _ (node_number_lt mesh hnum el' _),
    make_number_of_lt _ node_i.comp (by have := node_number_lt mesh hnum el node_i.number; omega),
    make_number_of_lt _ node_j.comp (by have := node_number_lt mesh hnum el' node_j.number; omega)]
  split
  · next h => simpa using h
  · next h => simpa using h

theorem bound_isSome_iff {F : Type} (mesh : mesh_2d F) (hnum : mesh.small_numbers)
    (kinematic_nodes : List node_info) (node_i node_j : node_info) (el el' : Nat) (v : F) :
    (bound_triplet mesh kinematic_nodes node_i node_j el el' v).isSome = true ↔
      (2 * (node_info.make (mesh.node_number el node_i.number) node_i.comp).number +
          (node_info.make (mesh.node_number el node_i.number) node_i.comp).comp.toNat ≥
        2 * (node_info.make (mesh.node_number el' node_j.number) node_j.comp).number +
          (node_info.make (mesh.node_number el' node_j.number) node_j.comp).comp.toNat) ∧
      ¬ (node_info.make (mesh.node_number el node_i.number) node_i.comp ∉ kinematic_nodes ∧
       node_info.make (mesh.node_number el' node_j.number) node_j.comp ∉ kinematic_nodes) ∧
      (node_info.make (mesh.node_number el node_i.number) node_i.comp).ne
        (node_info.make (mesh.node_number el' node_j.number) node_j.comp) = true := by
  unfold bound_triplet
  simp only
  rw [dof_index_of_lt _ _ (node_number_lt mesh hnum el _),
    dof_index_of_lt _ _ (node_number_lt mesh hnum el' _),
    make_number_of_lt _ node_i.comp (by have := node_number_lt mesh hnum el node_i.number; omega),
    make_number_of_lt _ node_j.comp (by have := node_number_lt mesh hnum el' node_j.number; omega)]
  split
  · next h => simpa using h
  · next h => simpa using h

theorem count_branch_eq (st : count_state) (el : Nat) (c1 c2 : Prop)
    [Decidable c1] [Decidable c2] (c3 : Bool) :
    (if c1 then
      if c2 then
        { st with shifts := st.shifts.set (el + 1) (st.shifts.getD (el + 1) 0 + 1) }
      else if c3 then
        { st with shifts_bound :=
            st.shifts_bound.set (el + 1) (st.shifts_bound.getD (el + 1) 0 + 1) }
      else st
    else st) =
      { shifts := if c1 ∧ c2 then st.shifts.set (el + 1) (st.shifts.getD (el + 1) 0 + 1)
          else st.shifts
        shifts_bound :=
          if c1 ∧ ¬ c2 ∧ c3 = true then
            st.shifts_bound.set (el + 1) (st.shifts_bound.getD (el + 1) 0 + 1)
          else st.shifts_bound } := by
  by_cases h1 : c1 <;> by_cases h2 : c2 <;> cases c3 <;> simp [h1, h2]

theorem counter_loc_eq {F : Type} (mesh : mesh_2d F) (hnum : mesh.small_numbers)
    (kinematic_nodes : List node_info) (st : count_state) (node_i node_j : node_info)
    (el : Nat) (v : F) :
    counter_loc mesh kinematic_nodes st node_i node_j el =
      { shifts :=
          if (free_triplet mesh kinematic_nodes node_i node_j el el v).isSome then
            st.shifts.set (el + 1) (st.shifts.getD (el + 1) 0 + 1)
          else st.shifts
        shifts_bound :=
          if (bound_triplet mesh kinematic_nodes node_i node_j el el v).isSome then
            st.shifts_bound.set (el + 1) (st.shifts_bound.getD (el + 1) 0 + 1)
          else st.shifts_bound } := by
  simp only [free_isSome_iff mesh hnum, bound_isSome_iff mesh hnum]
  exact count_branch_eq st el _ _ _

theorem counter_nonloc_eq {F : Type} (mesh : mesh_2d F) (hnum : mesh.small_numbers)
    (kinematic_nodes : List node_info) (st : count_state) (node_iL node_jNL : node_info)
    (elL elNL : Nat) (v : F) :
    counter_nonloc mesh kinematic_nodes st node_iL node_jNL elL elNL =
      { shifts :=
          if (free_triplet mesh kinematic_nodes node_iL node_jNL elL elNL v).isSome then
            st.shifts.set (elL + 1) (st.shifts.getD (elL + 1) 0 + 1)
          else st.shifts
        shifts_bound :=
          if (bound_triplet mesh kinematic_nodes node_iL node_jNL elL elNL v).isSome then
            st.shifts_bound.set (elL + 1) (st.shifts_bound.getD (elL + 1) 0 + 1)
          else st.shifts_bound } := by
  simp only [free_isSome_iff mesh hnum, bound_isSome_iff mesh hnum]
  exact count_branch_eq st elL _ _ _

theorem count_fold {α ι : Type} (f g : ι → Option α) (el : Nat) (ps : List ι)
    (st : count_state) (h1 : el + 1 < st.shifts.length)
    (h2 : el + 1 < st.shifts_bound.length) :
    ps.foldl
      (fun (st : count_state) p =>
        { shifts :=
            if (f p).isSome then st.shifts.set (el + 1) (st.shifts.getD (el + 1) 0 + 1)
            else st.shifts
          shifts_bound :=
            if (g p).isSome then
              st.shifts_bound.set (el + 1) (st.shifts_bound.getD (el + 1) 0 + 1)
            else st.shifts_bound }) st =
      { shifts := st.shifts.set (el + 1) (st.shifts.getD (el + 1) 0 + (ps.filterMap f).length)
        shifts_bound := st.shifts_bound.set (el + 1)
          (st.shifts_bound.getD (el + 1) 0 + (ps.filterMap g).length) } := by
  induction ps generalizing st with
  | nil =>
    simp only [List.foldl_nil, List.filterMap_nil, List.length_nil, Nat.add_zero,
      CuthillMcKee.set_getD_self]
  | cons p t ih =>
    rw [List.foldl_cons, ih _ (by simp only; split <;> simpa using h1)
      (by simp only; split <;> simpa using h2)]
    simp only [List.filterMap_cons]
    cases hf : f p <;> cases hg : g p <;>
      simp only [Option.isSome_none, Option.isSome_some, Bool.false_eq_true, if_false, if_true,
        List.set_set, CuthillMcKee.getD_set_eq _ _ _ _ h1, CuthillMcKee.getD_set_eq _ _ _ _ h2,
        List.length_cons, Nat.add_assoc, Nat.add_comm 1]

theorem count_outer (step : count_state → Nat → count_state) (cf cb : Nat → Nat)
    (hstep : ∀ st el, el + 1 < st.shifts.length → el + 1 < st.shifts_bound.length →
      step st el =
        { shifts := st.shifts.set (el + 1) (st.shifts.getD (el + 1) 0 + cf el)
          shifts_bound := st.shifts_bound.set (el + 1) (st.shifts_bound.getD (el + 1) 0 + cb el) })
    (els : List Nat) (st : count_state)
    (h : ∀ e, e ∈ els → e + 1 < st.shifts.length ∧ e + 1 < st.shifts_bound.length) :
    els.foldl step st =
      { shifts := els.foldl (fun sh v => sh.set (v + 1) (sh.getD (v + 1) 0 + cf v)) st.shifts
        shifts_bound :=
          els.foldl (fun sh v => sh.set (v + 1) (sh.getD (v + 1) 0 + cb v)) st.shifts_bound } := by
  induction els generalizing st with
  | nil => rfl
  | cons a t ih =>
    obtain ⟨h1, h2⟩ := h a (List.mem_cons_self _ _)
    rw [List.foldl_cons, hstep st a h1 h2, ih _ (fun e he => by
      simpa using h e (List.mem_cons_of_mem _ he))]
    rfl

theorem running_sum_closed (K base : Nat) (cf : Nat → Nat) :
    (running_sum (((List.range K).foldl
      (fun sh v => sh.set (v + 1) (sh.getD (v + 1) 0 + cf v))
      (List.replicate (K + 1) 0)).set 0 base)).length = K + 1 ∧
    ∀ e, e ≤ K →
      (running_sum (((List.range K).foldl
        (fun sh v => sh.set (v + 1) (sh.getD (v + 1) 0 + cf v))
        (List.replicate (K + 1) 0)).set 0 base)).getD e 0 =
      base + ((List.range e).map cf).sum := by
  have hlen : (((List.range K).foldl
      (fun sh v => sh.set (v + 1) (sh.getD (v + 1) 0 + cf v))
      (List.replicate (K + 1) 0)).set 0 base).length = K + 1 := by
    rw [List.length_set, CuthillMcKee.counts_fold_length]
    simp
  have hraw : ∀ j, j ≤ K → (((List.range K).foldl
      (fun sh v => sh.set (v + 1) (sh.getD (v + 1) 0 + cf v))
      (List.replicate (K + 1) 0)).set 0 base).getD j 0 =
      if j = 0 then base else cf (j - 1) := by
    intro j hj
    by_cases hj0 : j = 0
    · subst hj0
      rw [if_pos rfl]
      exact CuthillMcKee.getD_set_eq _ _ _ _ (by
        rw [CuthillMcKee.counts_fold_length]; simp)
    · rw [if_neg hj0, CuthillMcKee.getD_set_ne _ _ _ _ _ (Ne.symm hj0),
        CuthillMcKee.counts_fold_getD cf _ (List.nodup_range K) _ (fun v hv => by
          have := List.mem_range.mp hv
          simp only [List.length_replicate]
          omega)]
      have h0 : (List.replicate (K + 1) 0).getD j 0 = 0 := by
        simp only [List.getD_eq_getElem?_getD, List.getElem?_replicate]
        split <;> rfl
      rw [h0, Nat.zero_add, if_pos ⟨j - 1, List.mem_range.mpr (by omega), by omega⟩]
  refine ⟨?_, ?_⟩
  · exact (CuthillMcKee.prepare_shifts_length _).trans hlen
  · intro e he
    have h1 := CuthillMcKee.prepare_shifts_getD (((List.range K).foldl
      (fun sh v => sh.set (v + 1) (sh.getD (v + 1) 0 + cf v))
      (List.replicate (K + 1) 0)).set 0 base) e (by omega)
    have h2 : running_sum (((List.range K).foldl
      (fun sh v => sh.set (v + 1) (sh.getD (v + 1) 0 + cf v))
      (List.replicate (K + 1) 0)).set 0 base) = CuthillMcKee.prepare_shifts
        (((List.range K).foldl
      (fun sh v => sh.set (v + 1) (sh.getD (v + 1) 0 + cf v))
      (List.replicate (K + 1) 0)).set 0 base) := rfl
    rw [h2, h1, List.range_succ_eq_map, List.map_cons, List.sum_cons, List.map_map,
      hraw 0 (Nat.zero_le _), if_pos rfl]
    congr 1
    apply congrArg
    apply List.map_congr_left
    intro j hj
    have hj' := List.mem_range.mp hj
    simp only [Function.comp]
    rw [hraw (j + 1) (by omega), if_neg (by omega)]
    rfl

theorem set_zero_replicate_zero (K : Nat) (cf : Nat → Nat) :
    ((List.range K).foldl
      (fun sh v => sh.set (v + 1) (sh.getD (v + 1) 0 + cf v))
      (List.replicate (K + 1) 0)).set 0 0 =
    (List.range K).foldl
      (fun sh v => sh.set (v + 1) (sh.getD (v + 1) 0 + cf v))
      (List.replicate (K + 1) 0) := by
  have h0 : ((List.range K).foldl
      (fun sh v => sh.set (v + 1) (sh.getD (v + 1) 0 + cf v))
      (List.replicate (K + 1) 0)).getD 0 0 = 0 := by
    rw [CuthillMcKee.counts_fold_getD cf _ (List.nodup_range K) _ (fun v hv => by
      have := List.mem_range.mp hv
      simp only [List.length_replicate]
      omega)]
    simp
  have := CuthillMcKee.set_getD_self ((List.range K).foldl
      (fun sh v => sh.set (v + 1) (sh.getD (v + 1) 0 + cf v))
      (List.replicate (K + 1) 0)) 0 0
  rw [h0] at this
  exact this

theorem identity_prefix_eq {F : Type} [Field F] (kinematic_nodes : List node_info)
    (rest : List (Triplet F)) :
    identity_prefix kinematic_nodes
        (List.replicate kinematic_nodes.length (Triplet.default : Triplet F) ++ rest) =
      kinematic_nodes.map identity_triplet ++ rest := by
  unfold identity_prefix
  have key : ∀ (kn : List node_info) (A : List (Triplet F)),
      (kn.foldl
        (fun (acc : List (Triplet F) × Nat) it =>
          (acc.1.set acc.2
            { row := node_info.make ((2 * it.number + it.comp.toNat) % 2 ^ 32) it.comp
              col := node_info.make ((2 * it.number + it.comp.toNat) % 2 ^ 32) it.comp
              value := 1 },
           acc.2 + 1))
        (A ++ List.replicate kn.length (Triplet.default : Triplet F) ++ rest, A.length)).1 =
        A ++ kn.map identity_triplet ++ rest := by
    intro kn
    induction kn with
    | nil => intro A; simp
    | cons it t ih =>
      intro A
      rw [List.foldl_cons]
      have hset : (A ++ List.replicate (it :: t).length (Triplet.default : Triplet F) ++
          rest).set A.length (identity_triplet it) =
          (A ++ [identity_triplet it]) ++ List.replicate t.length Triplet.default ++ rest := by
        rw [List.length_cons, List.replicate_succ, List.append_assoc,
          List.set_append_right _ _ (le_refl _)]
        simp
      have := ih (A ++ [identity_triplet it])
      rw [List.length_append, List.length_singleton] at this
      simp only [identity_triplet] at hset this ⊢
      rw [hset, this]
      simp [identity_triplet]
  have := key kinematic_nodes []
  simpa using this

/-! ## The filling passes of `triplets_fill` -/

theorem offsets_ok_lt (cursor : List Nat) (len : Nat → Nat) (a : Nat) (els : List Nat)
    (h : offsets_ok cursor len a els) : ∀ e, e ∈ els → e < cursor.length := by
  induction els generalizing a with
  | nil => intro e he; exact absurd he (List.not_mem_nil e)
  | cons b rest ih =>
    intro e he
    rcases List.mem_cons.mp he with rfl | he'
    · exact h.1
    · exact ih _ h.2.2 e he'

theorem fill_outer {F : Type} (step : fill_state F → Nat → fill_state F)
    (fr bd : Nat → List (Triplet F))
    (hstep : ∀ st el, el < st.shifts.length → el < st.shifts_bound.length →
      step st el =
        { triplets := write_seg st.triplets (st.shifts.getD el 0) (fr el)
          shifts := st.shifts.set el (st.shifts.getD el 0 + (fr el).length)
          triplets_bound := write_seg st.triplets_bound (st.shifts_bound.getD el 0) (bd el)
          shifts_bound := st.shifts_bound.set el (st.shifts_bound.getD el 0 + (bd el).length) })
    (els : List Nat) (st : fill_state F)
    (h : ∀ e, e ∈ els → e < st.shifts.length ∧ e < st.shifts_bound.length) :
    els.foldl step st =
      { triplets := (els.foldl
          (fun (s : List (Triplet F) × List Nat) e =>
            (write_seg s.1 (s.2.getD e 0) (fr e), s.2.set e (s.2.getD e 0 + (fr e).length)))
          (st.triplets, st.shifts)).1
        shifts := (els.foldl
          (fun (s : List (Triplet F) × List Nat) e =>
            (write_seg s.1 (s.2.getD e 0) (fr e), s.2.set e (s.2.getD e 0 + (fr e).length)))
          (st.triplets, st.shifts)).2
        triplets_bound := (els.foldl
          (fun (s : List (Triplet F) × List Nat) e =>
            (write_seg s.1 (s.2.getD e 0) (bd e), s.2.set e (s.2.getD e 0 + (bd e).length)))
          (st.triplets_bound, st.shifts_bound)).1
        shifts_bound := (els.foldl
          (fun (s : List (Triplet F) × List Nat) e =>
            (write_seg s.1 (s.2.getD e 0) (bd e), s.2.set e (s.2.getD e 0 + (bd e).length)))
          (st.triplets_bound, st.shifts_bound)).2 } := by
  induction els generalizing st with
  | nil => rfl
  | cons a t ih =>
    obtain ⟨h1, h2⟩ := h a (List.mem_cons_self _ _)
    rw [List.foldl_cons, hstep st a h1 h2, ih _ (fun e he => by
      simpa using h e (List.mem_cons_of_mem _ he))]
    rfl

/-- The two vectors after a filling pass over the elements `0, …, K - 1`: when the cursors
of the elements point one after the other behind the prefixes `A` and `A'` and the slots
behind the prefixes are still unwritten, the pass puts the triplets of the elements, in
order, behind the prefixes. -/
theorem fill_run {F ι : Type} (pairs : Nat → List ι) (f g : Nat → ι → Option (Triplet F))
    (rule : fill_state F → ι → Nat → fill_state F)
    (hrule : ∀ st p el, rule st p el =
      { triplets := (push st.triplets st.shifts el (f el p)).1
        shifts := (push st.triplets st.shifts el (f el p)).2
        triplets_bound := (push st.triplets_bound st.shifts_bound el (g el p)).1
        shifts_bound := (push st.triplets_bound st.shifts_bound el (g el p)).2 })
    (K : Nat) (d : Triplet F) (A C A' C' : List (Triplet F)) (st : fill_state F)
    (h1 : st.triplets = A ++ List.replicate
      (((List.range K).map (fun e => ((pairs e).filterMap (f e)).length)).sum) d ++ C)
    (h2 : st.triplets_bound = A' ++ List.replicate
      (((List.range K).map (fun e => ((pairs e).filterMap (g e)).length)).sum) d ++ C')
    (hok : offsets_ok st.shifts (fun e => ((pairs e).filterMap (f e)).length) A.length
      (List.range K))
    (hok' : offsets_ok st.shifts_bound (fun e => ((pairs e).filterMap (g e)).length) A'.length
      (List.range K)) :
    ((List.range K).foldl (fun st el => (pairs el).foldl (fun st p => rule st p el) st)
        st).triplets =
      A ++ (List.range K).flatMap (fun e => (pairs e).filterMap (f e)) ++ C ∧
    ((List.range K).foldl (fun st el => (pairs el).foldl (fun st p => rule st p el) st)
        st).triplets_bound =
      A' ++ (List.range K).flatMap (fun e => (pairs e).filterMap (g e)) ++ C' := by
  have hstep : ∀ (st : fill_state F) el, el < st.shifts.length → el < st.shifts_bound.length →
      (pairs el).foldl (fun st p => rule st p el) st =
        { triplets := write_seg st.triplets (st.shifts.getD el 0) ((pairs el).filterMap (f el))
          shifts := st.shifts.set el (st.shifts.getD el 0 + ((pairs el).filterMap (f el)).length)
          triplets_bound :=
            write_seg st.triplets_bound (st.shifts_bound.getD el 0) ((pairs el).filterMap (g el))
          shifts_bound := st.shifts_bound.set el
            (st.shifts_bound.getD el 0 + ((pairs el).filterMap (g el)).length) } := by
    intro st el hl hl'
    have : (fun (st : fill_state F) p => rule st p el) = (fun (st : fill_state F) p =>
        { triplets := (push st.triplets st.shifts el (f el p)).1
          shifts := (push st.triplets st.shifts el (f el p)).2
          triplets_bound := (push st.triplets_bound st.shifts_bound el (g el p)).1
          shifts_bound := (push st.triplets_bound st.shifts_bound el (g el p)).2 }) := by
      funext st p
      exact hrule st p el
    rw [this]
    exact fill_fold (f el) (g el) el (pairs el) st hl hl'
  rw [fill_outer _ (fun e => (pairs e).filterMap (f e)) (fun e => (pairs e).filterMap (g e))
    hstep (List.range K) st (fun e he =>
      ⟨offsets_ok_lt _ _ _ _ hok e he, offsets_ok_lt _ _ _ _ hok' e he⟩)]
  simp only
  rw [h1, h2]
  exact ⟨bucket_fill _ d _ (List.nodup_range K) A C _ hok,
    bucket_fill _ d _ (List.nodup_range K) A' C' _ hok'⟩

theorem loc_pairs_fold {F σ : Type} (mesh : mesh_2d F) (el : Nat)
    (h : σ → node_info → node_info → σ) (st : σ) :
    (mesh_run_loc_calls mesh el).foldl
      (fun st c =>
        h (h (h (h st (node_info.make c.1 component.X) (node_info.make c.2 component.X))
          (node_info.make c.1 component.X) (node_info.make c.2 component.Y))
          (node_info.make c.1 component.Y) (node_info.make c.2 component.X))
          (node_info.make c.1 component.Y) (node_info.make c.2 component.Y)) st =
      (loc_pairs mesh el).foldl (fun st p => h st p.1 p.2) st := by
  unfold loc_pairs
  rw [CuthillMcKee.foldl_flatMap_eq]
  rfl

theorem nonloc_pairs_fold {F σ : Type} (mesh : mesh_2d F) (elL : Nat)
    (h : σ → node_info → node_info → Nat → σ) (st : σ) :
    (mesh_run_nonloc_calls mesh elL).foldl
      (fun st c =>
        h (h (h (h st (node_info.make c.1 component.X) (node_info.make c.2.1 component.X) c.2.2)
          (node_info.make c.1 component.X) (node_info.make c.2.1 component.Y) c.2.2)
          (node_info.make c.1 component.Y) (node_info.make c.2.1 component.X) c.2.2)
          (node_info.make c.1 component.Y) (node_info.make c.2.1 component.Y) c.2.2) st =
      (nonloc_pairs mesh elL).foldl (fun st p => h st p.1 p.2.1 p.2.2) st := by
  unfold nonloc_pairs
  rw [CuthillMcKee.foldl_flatMap_eq]
  rfl

theorem count_run {F ι : Type} (pairs : Nat → List ι) (f g : Nat → ι → Option (Triplet F))
    (rule : count_state → ι → Nat → count_state)
    (hrule : ∀ st p el, rule st p el =
      { shifts :=
          if (f el p).isSome then st.shifts.set (el + 1) (st.shifts.getD (el + 1) 0 + 1)
          else st.shifts
        shifts_bound :=
          if (g el p).isSome then
            st.shifts_bound.set (el + 1) (st.shifts_bound.getD (el + 1) 0 + 1)
          else st.shifts_bound })
    (K : Nat) :
    (List.range K).foldl (fun st el => (pairs el).foldl (fun st p => rule st p el) st)
        { shifts := List.replicate (K + 1) 0, shifts_bound := List.replicate (K + 1) 0 } =
      { shifts := (List.range K).foldl
          (fun sh v => sh.set (v + 1) (sh.getD (v + 1) 0 + ((pairs v).filterMap (f v)).length))
          (List.replicate (K + 1) 0)
        shifts_bound := (List.range K).foldl
          (fun sh v => sh.set (v + 1) (sh.getD (v + 1) 0 + ((pairs v).filterMap (g v)).length))
          (List.replicate (K + 1) 0) } := by
  have hstep : ∀ (st : count_state) el, el + 1 < st.shifts.length →
      el + 1 < st.shifts_bound.length →
      (pairs el).foldl (fun st p => rule st p el) st =
        { shifts := st.shifts.set (el + 1)
            (st.shifts.getD (el + 1) 0 + ((pairs el).filterMap (f el)).length)
          shifts_bound := st.shifts_bound.set (el + 1)
            (st.shifts_bound.getD (el + 1) 0 + ((pairs el).filterMap (g el)).length) } := by
    intro st el hl hl'
    have : (fun (st : count_state) p => rule st p el) = (fun (st : count_state) p =>
        { shifts :=
            if (f el p).isSome then st.shifts.set (el + 1) (st.shifts.getD (el + 1) 0 + 1)
            else st.shifts
          shifts_bound :=
            if (g el p).isSome then
              st.shifts_bound.set (el + 1) (st.shifts_bound.getD (el + 1) 0 + 1)
            else st.shifts_bound }) := by
      funext st p
      exact hrule st p el
    rw [this]
    exact count_fold (f el) (g el) el (pairs el) st hl hl'
  exact count_outer _ _ _ hstep (List.range K) _ (fun e he => by
    have := List.mem_range.mp he
    simp only [List.length_replicate]
    omega)

theorem mesh_analysis_loc {F : Type} (mesh : mesh_2d F) (hnum : mesh.small_numbers)
    (kinematic_nodes : List node_info) (nonlocal : Bool)
    (val : Nat → node_info × node_info → F) :
    (mesh_analysis mesh kinematic_nodes nonlocal).shifts_loc =
      count_shifts mesh.elements_count kinematic_nodes.length
        (fun e => ((loc_pairs mesh e).filterMap
          (fun p => free_triplet mesh kinematic_nodes p.1 p.2 e e (val e p))).length) ∧
    (mesh_analysis mesh kinematic_nodes nonlocal).shifts_bound_loc =
      count_shifts mesh.elements_count 0
        (fun e => ((loc_pairs mesh e).filterMap
          (fun p => bound_triplet mesh kinematic_nodes p.1 p.2 e e (val e p))).length) := by
  have hrun := count_run (loc_pairs mesh)
    (fun e p => free_triplet mesh kinematic_nodes p.1 p.2 e e (val e p))
    (fun e p => bound_triplet mesh kinematic_nodes p.1 p.2 e e (val e p))
    (fun st p el => counter_loc mesh kinematic_nodes st p.1 p.2 el)
    (fun st p el => counter_loc_eq mesh hnum kinematic_nodes st p.1 p.2 el (val el p))
    mesh.elements_count
  have hcounted : mesh_run_loc mesh
      (fun st i j el =>
        let st1 := counter_loc mesh kinematic_nodes st
          (node_info.make i component.X) (node_info.make j component.X) el
        let st2 := counter_loc mesh kinematic_nodes st1
          (node_info.make i component.X) (node_info.make j component.Y) el
        let st3 := counter_loc mesh kinematic_nodes st2
          (node_info.make i component.Y) (node_info.make j component.X) el
        counter_loc mesh kinematic_nodes st3
          (node_info.make i component.Y) (node_info.make j component.Y) el)
      { shifts := List.replicate (mesh.elements_count + 1) 0
        shifts_bound := List.replicate (mesh.elements_count + 1) 0 } =
      (List.range mesh.elements_count).foldl
        (fun st el => (loc_pairs mesh el).foldl
          (fun st p => counter_loc mesh kinematic_nodes st p.1 p.2 el) st)
        { shifts := List.replicate (mesh.elements_count + 1) 0
          shifts_bound := List.replicate (mesh.elements_count + 1) 0 } := by
    unfold mesh_run_loc
    congr 1
    funext st el
    exact loc_pairs_fold mesh el (fun st ni nj => counter_loc mesh kinematic_nodes st ni nj el) st
  have hloc : ∀ nl, (mesh_analysis mesh kinematic_nodes nl).shifts_loc =
      running_sum ((mesh_run_loc mesh
      (fun st i j el =>
        let st1 := counter_loc mesh kinematic_nodes st
          (node_info.make i component.X) (node_info.make j component.X) el
        let st2 := counter_loc mesh kinematic_nodes st1
          (node_info.make i component.X) (node_info.make j component.Y) el
        let st3 := counter_loc mesh kinematic_nodes st2
          (node_info.make i component.Y) (node_info.make j component.X) el
        counter_loc mesh kinematic_nodes st3
          (node_info.make i component.Y) (node_info.make j component.Y) el)
      { shifts := List.replicate (mesh.elements_count + 1) 0
        shifts_bound := List.replicate (mesh.elements_count + 1) 0 }).shifts.set 0
          kinematic_nodes.length) := by
    intro nl
    cases nl <;> rfl
  have hbnd : ∀ nl, (mesh_analysis mesh kinematic_nodes nl).shifts_bound_loc =
      running_sum ((mesh_run_loc mesh
      (fun st i j el =>
        let st1 := counter_loc mesh kinematic_nodes st
          (node_info.make i component.X) (node_info.make j component.X) el
        let st2 := counter_loc mesh kinematic_nodes st1
          (node_info.make i component.X) (node_info.make j component.Y) el
        let st3 := counter_loc mesh kinematic_nodes st2
          (node_info.make i component.Y) (node_info.make j component.X) el
        counter_loc mesh kinematic_nodes st3
          (node_info.make i component.Y) (node_info.make j component.Y) el)
      { shifts := List.replicate (mesh.elements_count + 1) 0
        shifts_bound := List.replicate (mesh.elements_count + 1) 0 }).shifts_bound) := by
    intro nl
    cases nl <;> rfl
  rw [hloc, hbnd, hcounted, hrun]
  refine ⟨rfl, ?_⟩
  unfold count_shifts
  rw [set_zero_replicate_zero]

theorem mesh_analysis_nonloc {F : Type} (mesh : mesh_2d F) (hnum : mesh.small_numbers)
    (kinematic_nodes : List node_info)
    (val : Nat → node_info × node_info × Nat → F) :
    (mesh_analysis mesh kinematic_nodes true).shifts_nonloc =
      count_shifts mesh.elements_count
        ((mesh_analysis mesh kinematic_nodes true).shifts_loc.getLastD 0)
        (fun e => ((nonloc_pairs mesh e).filterMap
          (fun p => free_triplet mesh kinematic_nodes p.1 p.2.1 e p.2.2 (val e p))).length) ∧
    (mesh_analysis mesh kinematic_nodes true).shifts_bound_nonloc =
      count_shifts mesh.elements_count
        ((mesh_analysis mesh kinematic_nodes true).shifts_bound_loc.getLastD 0)
        (fun e => ((nonloc_pairs mesh e).filterMap
          (fun p => bound_triplet mesh kinematic_nodes p.1 p.2.1 e p.2.2 (val e p))).length) := by
  have hrun := count_run (nonloc_pairs mesh)
    (fun e p => free_triplet mesh kinematic_nodes p.1 p.2.1 e p.2.2 (val e p))
    (fun e p => bound_triplet mesh kinematic_nodes p.1 p.2.1 e p.2.2 (val e p))
    (fun st p el => counter_nonloc mesh kinematic_nodes st p.1 p.2.1 el p.2.2)
    (fun st p el => counter_nonloc_eq mesh hnum kinematic_nodes st p.1 p.2.1 el p.2.2 (val el p))
    mesh.elements_count
  have hcounted : mesh_run_nonloc mesh
      (fun st iL jNL elL elNL =>
        let st1 := counter_nonloc mesh kinematic_nodes st
          (node_info.make iL component.X) (node_info.make jNL component.X) elL elNL
        let st2 := counter_nonloc mesh kinematic_nodes st1
          (node_info.make iL component.X) (node_info.make jNL component.Y) elL elNL
        let st3 := counter_nonloc mesh kinematic_nodes st2
          (node_info.make iL component.Y) (node_info.make jNL component.X) elL elNL
        counter_nonloc mesh kinematic_nodes st3
          (node_info.make iL component.Y) (node_info.make jNL component.Y) elL elNL)
      { shifts := List.replicate (mesh.elements_count + 1) 0
        shifts_bound := List.replicate (mesh.elements_count + 1) 0 } =
      (List.range mesh.elements_count).foldl
        (fun st el => (nonloc_pairs mesh el).foldl
          (fun st p => counter_nonloc mesh kinematic_nodes st p.1 p.2.1 el p.2.2) st)
        { shifts := List.replicate (mesh.elements_count + 1) 0
          shifts_bound := List.replicate (mesh.elements_count + 1) 0 } := by
    unfold mesh_run_nonloc
    congr 1
    funext st el
    exact nonloc_pairs_fold mesh el
      (fun st ni nj elNL => counter_nonloc mesh kinematic_nodes st ni nj el elNL) st
  have h1 : (mesh_analysis mesh kinematic_nodes true).shifts_nonloc =
      running_sum ((mesh_run_nonloc mesh
      (fun st iL jNL elL elNL =>
        let st1 := counter_nonloc mesh kinematic_nodes st
          (node_info.make iL component.X) (node_info.make jNL component.X) elL elNL
        let st2 := counter_nonloc mesh kinematic_nodes st1
          (node_info.make iL component.X) (node_info.make jNL component.Y) elL elNL
        let st3 := counter_nonloc mesh kinematic_nodes st2
          (node_info.make iL component.Y) (node_info.make jNL component.X) elL elNL
        counter_nonloc mesh kinematic_nodes st3
          (node_info.make iL component.Y) (node_info.make jNL component.Y) elL elNL)
      { shifts := List.replicate (mesh.elements_count + 1) 0
        shifts_bound := List.replicate (mesh.elements_count + 1) 0 }).shifts.set 0
          ((mesh_analysis mesh kinematic_nodes true).shifts_loc.getLastD 0)) := rfl
  have h2 : (mesh_analysis mesh kinematic_nodes true).shifts_bound_nonloc =
      running_sum ((mesh_run_nonloc mesh
      (fun st iL jNL elL elNL =>
        let st1 := counter_nonloc mesh kinematic_nodes st
          (node_info.make iL component.X) (node_info.make jNL component.X) elL elNL
        let st2 := counter_nonloc mesh kinematic_nodes st1
          (node_info.make iL component.X) (node_info.make jNL component.Y) elL elNL
        let st3 := counter_nonloc mesh kinematic_nodes st2
          (node_info.make iL component.Y) (node_info.make jNL component.X) elL elNL
        counter_nonloc mesh kinematic_nodes st3
          (node_info.make iL component.Y) (node_info.make jNL component.Y) elL elNL)
      { shifts := List.replicate (mesh.elements_count + 1) 0
        shifts_bound := List.replicate (mesh.elements_count + 1) 0 }).shifts_bound.set 0
          ((mesh_analysis mesh kinematic_nodes true).shifts_bound_loc.getLastD 0)) := rfl
  rw [h1, h2, hcounted, hrun]
  exact ⟨rfl, rfl⟩

theorem count_shifts_last (K base : Nat) (cf : Nat → Nat) :
    (count_shifts K base cf).getLastD 0 = base + ((List.range K).map cf).sum := by
  obtain ⟨h1, h2⟩ := running_sum_closed K base cf
  rw [CuthillMcKee.getLastD_eq_getD]
  unfold count_shifts
  rw [h1, Nat.add_sub_cancel]
  exact h2 K le_rfl

theorem count_shifts_offsets (K base : Nat) (cf : Nat → Nat) :
    offsets_ok (count_shifts K base cf) cf base (List.range K) := by
  obtain ⟨h1, h2⟩ := running_sum_closed K base cf
  rw [List.range_eq_range']
  have := offsets_ok_range (count_shifts K base cf) cf
    (fun e => base + ((List.range e).map cf).sum)
    (fun e => by
      simp only [List.range_succ, List.map_append, List.sum_append, List.map_cons,
        List.map_nil, List.sum_cons, List.sum_nil]
      omega) 0 K
    (fun e _ he => by
      unfold count_shifts
      exact ⟨by rw [h1]; omega, h2 e (by omega)⟩)
  simpa using this

theorem fill_loc_pass {F : Type} [Field F] (mesh : mesh_2d F)
    (kinematic_nodes : List node_info) (quad : quadrature_tables F) (p1 : F)
    (cs : Fin 3 → F) (A C A' C' : List (Triplet F)) (st : fill_state F)
    (h1 : st.triplets = A ++ List.replicate (((List.range mesh.elements_count).map
      (fun e => (loc_free mesh kinematic_nodes quad cs p1 e).length)).sum) Triplet.default ++ C)
    (h2 : st.triplets_bound = A' ++ List.replicate (((List.range mesh.elements_count).map
      (fun e => (loc_bound mesh kinematic_nodes quad cs p1 e).length)).sum) Triplet.default ++ C')
    (hok : offsets_ok st.shifts (fun e => (loc_free mesh kinematic_nodes quad cs p1 e).length)
      A.length (List.range mesh.elements_count))
    (hok' : offsets_ok st.shifts_bound
      (fun e => (loc_bound mesh kinematic_nodes quad cs p1 e).length)
      A'.length (List.range mesh.elements_count)) :
    (mesh_run_loc mesh
      (fun st i j el =>
        let st1 := filler_loc mesh kinematic_nodes quad p1 cs st
          (node_info.make i component.X) (node_info.make j component.X) el
        let st2 := filler_loc mesh kinematic_nodes quad p1 cs st1
          (node_info.make i component.X) (node_info.make j component.Y) el
        let st3 := filler_loc mesh kinematic_nodes quad p1 cs st2
          (node_info.make i component.Y) (node_info.make j component.X) el
        filler_loc mesh kinematic_nodes quad p1 cs st3
          (node_info.make i component.Y) (node_info.make j component.Y) el) st).triplets =
      A ++ (List.range mesh.elements_count).flatMap
        (loc_free mesh kinematic_nodes quad cs p1) ++ C ∧
    (mesh_run_loc mesh
      (fun st i j el =>
        let st1 := filler_loc mesh kinematic_nodes quad p1 cs st
          (node_info.make i component.X) (node_info.make j component.X) el
        let st2 := filler_loc mesh kinematic_nodes quad p1 cs st1
          (node_info.make i component.X) (node_info.make j component.Y) el
        let st3 := filler_loc mesh kinematic_nodes quad p1 cs st2
          (node_info.make i component.Y) (node_info.make j component.X) el
        filler_loc mesh kinematic_nodes quad p1 cs st3
          (node_info.make i component.Y) (node_info.make j component.Y) el) st).triplets_bound =
      A' ++ (List.range mesh.elements_count).flatMap
        (loc_bound mesh kinematic_nodes quad cs p1) ++ C' := by
  have hrun : mesh_run_loc mesh
      (fun st i j el =>
        let st1 := filler_loc mesh kinematic_nodes quad p1 cs st
          (node_info.make i component.X) (node_info.make j component.X) el
        let st2 := filler_loc mesh kinematic_nodes quad p1 cs st1
          (node_info.make i component.X) (node_info.make j component.Y) el
        let st3 := filler_loc mesh kinematic_nodes quad p1 cs st2
          (node_info.make i component.Y) (node_info.make j component.X) el
        filler_loc mesh kinematic_nodes quad p1 cs st3
          (node_info.make i component.Y) (node_info.make j component.Y) el) st =
      (List.range mesh.elements_count).foldl
        (fun st el => (loc_pairs mesh el).foldl
          (fun st p => filler_loc mesh kinematic_nodes quad p1 cs st p.1 p.2 el) st) st := by
    unfold mesh_run_loc
    congr 1
    funext st el
    exact loc_pairs_fold mesh el
      (fun st ni nj => filler_loc mesh kinematic_nodes quad p1 cs st ni nj el) st
  rw [hrun]
  exact fill_run (loc_pairs mesh)
    (fun e p => free_triplet mesh kinematic_nodes p.1 p.2 e e (p1 * loc_value mesh quad cs e p))
    (fun e p => bound_triplet mesh kinematic_nodes p.1 p.2 e e (p1 * loc_value mesh quad cs e p))
    (fun st p el => filler_loc mesh kinematic_nodes quad p1 cs st p.1 p.2 el)
    (fun st p el => filler_loc_eq mesh kinematic_nodes quad p1 cs st p.1 p.2 el)
    mesh.elements_count Triplet.default A C A' C' st h1 h2 hok hok'

theorem fill_nonloc_pass {F : Type} [Field F] (mesh : mesh_2d F)
    (kinematic_nodes : List node_info) (quad : quadrature_tables F)
    (influence_fun : F → F → F → F → F) (p2 : F)
    (cs : Fin 3 → F) (A C A' C' : List (Triplet F)) (st : fill_state F)
    (h1 : st.triplets = A ++ List.replicate (((List.range mesh.elements_count).map
      (fun e => (nonloc_free mesh kinematic_nodes quad influence_fun cs p2 e).length)).sum)
        Triplet.default ++ C)
    (h2 : st.triplets_bound = A' ++ List.replicate (((List.range mesh.elements_count).map
      (fun e => (nonloc_bound mesh kinematic_nodes quad influence_fun cs p2 e).length)).sum)
        Triplet.default ++ C')
    (hok : offsets_ok st.shifts
      (fun e => (nonloc_free mesh kinematic_nodes quad influence_fun cs p2 e).length)
      A.length (List.range mesh.elements_count))
    (hok' : offsets_ok st.shifts_bound
      (fun e => (nonloc_bound mesh kinematic_nodes quad influence_fun cs p2 e).length)
      A'.length (List.range mesh.elements_count)) :
    (mesh_run_nonloc mesh
      (fun st iL jNL elL elNL =>
        let st1 := filler_nonloc mesh kinematic_nodes quad influence_fun p2 cs st
          (node_info.make iL component.X) (node_info.make jNL component.X) elL elNL
        let st2 := filler_nonloc mesh kinematic_nodes quad influence_fun p2 cs st1
          (node_info.make iL component.X) (node_info.make jNL component.Y) elL elNL
        let st3 := filler_nonloc mesh kinematic_nodes quad influence_fun p2 cs st2
          (node_info.make iL component.Y) (node_info.make jNL component.X) elL elNL
        filler_nonloc mesh kinematic_nodes quad influence_fun p2 cs st3
          (node_info.make iL component.Y) (node_info.make jNL component.Y) elL elNL)
      st).triplets =
      A ++ (List.range mesh.elements_count).flatMap
        (nonloc_free mesh kinematic_nodes quad influence_fun cs p2) ++ C ∧
    (mesh_run_nonloc mesh
      (fun st iL jNL elL elNL =>
        let st1 := filler_nonloc mesh kinematic_nodes quad influence_fun p2 cs st
          (node_info.make iL component.X) (node_info.make jNL component.X) elL elNL
        let st2 := filler_nonloc mesh kinematic_nodes quad influence_fun p2 cs st1
          (node_info.make iL component.X) (node_info.make jNL component.Y) elL elNL
        let st3 := filler_nonloc mesh kinematic_nodes quad influence_fun p2 cs st2
          (node_info.make iL component.Y) (node_info.make jNL component.X) elL elNL
        filler_nonloc mesh kinematic_nodes quad influence_fun p2 cs st3
          (node_info.make iL component.Y) (node_info.make jNL component.Y) elL elNL)
      st).triplets_bound =
      A' ++ (List.range mesh.elements_count).flatMap
        (nonloc_bound mesh kinematic_nodes quad influence_fun cs p2) ++ C' := by
  have hrun : mesh_run_nonloc mesh
      (fun st iL jNL elL elNL =>
        let st1 := filler_nonloc mesh kinematic_nodes quad influence_fun p2 cs st
          (node_info.make iL component.X) (node_info.make jNL component.X) elL elNL
        let st2 := filler_nonloc mesh kinematic_nodes quad influence_fun p2 cs st1
          (node_info.make iL component.X) (node_info.make jNL component.Y) elL elNL
        let st3 := filler_nonloc mesh kinematic_nodes quad influence_fun p2 cs st2
          (node_info.make iL component.Y) (node_info.make jNL component.X) elL elNL
        filler_nonloc mesh kinematic_nodes quad influence_fun p2 cs st3
          (node_info.make iL component.Y) (node_info.make jNL component.Y) elL elNL) st =
      (List.range mesh.elements_count).foldl
        (fun st el => (nonloc_pairs mesh el).foldl
          (fun st p => filler_nonloc mesh kinematic_nodes quad influence_fun p2 cs st
            p.1 p.2.1 el p.2.2) st) st := by
    unfold mesh_run_nonloc
    congr 1
    funext st el
    exact nonloc_pairs_fold mesh el
      (fun st ni nj elNL =>
        filler_nonloc mesh kinematic_nodes quad influence_fun p2 cs st ni nj el elNL) st
  rw [hrun]
  exact fill_run (nonloc_pairs mesh)
    (fun e p => free_triplet mesh kinematic_nodes p.1 p.2.1 e p.2.2
      (p2 * nonloc_value mesh quad influence_fun cs e p))
    (fun e p => bound_triplet mesh kinematic_nodes p.1 p.2.1 e p.2.2
      (p2 * nonloc_value mesh quad influence_fun cs e p))
    (fun st p el => filler_nonloc mesh kinematic_nodes quad influence_fun p2 cs st
      p.1 p.2.1 el p.2.2)
    (fun st p el => filler_nonloc_eq mesh kinematic_nodes quad influence_fun p2 cs st
      p.1 p.2.1 el p.2.2)
    mesh.elements_count Triplet.default A C A' C' st h1 h2 hok hok'

/-! ## The two lists of `triplets_fill` -/

theorem length_flatMap_eq {α : Type} (seg : Nat → List α) (els : List Nat) :
    (els.flatMap seg).length = (els.map (fun e => (seg e).length)).sum := by
  induction els with
  | nil => rfl
  | cons a t ih => simp [List.flatMap_cons, ih]

/-- The two vectors that `triplets_fill` returns, as lists: the free block holds the
identity entries of the kinematic nodes, then the free triplets of the local pass element
by element, then (when the nonlocal pass runs) those of the nonlocal pass; the boundary
block holds the boundary triplets of the local pass and then those of the nonlocal pass. -/
theorem triplets_fill_eq {F : Type} [LinearOrderedField F] (mesh : mesh_2d F)
    (hnum : mesh.small_numbers) (params : parameters F) (bounds_cond : List (bound_cond F))
    (p1 : F) (influence_fun : F → F → F → F → F) (quad : quadrature_tables F) :
    triplets_fill mesh params bounds_cond p1 influence_fun quad =
      ((kinematic_nodes_set mesh bounds_cond).map identity_triplet ++
        (List.range mesh.elements_count).flatMap
          (loc_free mesh (kinematic_nodes_set mesh bounds_cond) quad (coeffs params) p1) ++
        (if p1 < MAX_LOCAL_WEIGHT then
          (List.range mesh.elements_count).flatMap
            (nonloc_free mesh (kinematic_nodes_set mesh bounds_cond) quad influence_fun
              (coeffs params) (1 - p1))
        else []),
       (List.range mesh.elements_count).flatMap
          (loc_bound mesh (kinematic_nodes_set mesh bounds_cond) quad (coeffs params) p1) ++
        (if p1 < MAX_LOCAL_WEIGHT then
          (List.range mesh.elements_count).flatMap
            (nonloc_bound mesh (kinematic_nodes_set mesh bounds_cond) quad influence_fun
              (coeffs params) (1 - p1))
        else [])) := by
  have hloc1 : ∀ nl, (mesh_analysis mesh (kinematic_nodes_set mesh bounds_cond) nl).shifts_loc =
      count_shifts mesh.elements_count (kinematic_nodes_set mesh bounds_cond).length
        (fun e => (loc_free mesh (kinematic_nodes_set mesh bounds_cond) quad
          (coeffs params) p1 e).length) :=
    fun nl => (mesh_analysis_loc mesh hnum (kinematic_nodes_set mesh bounds_cond) nl
      (fun e p => p1 * loc_value mesh quad (coeffs params) e p)).1
  have hloc2 : ∀ nl,
      (mesh_analysis mesh (kinematic_nodes_set mesh bounds_cond) nl).shifts_bound_loc =
      count_shifts mesh.elements_count 0
        (fun e => (loc_bound mesh (kinematic_nodes_set mesh bounds_cond) quad
          (coeffs params) p1 e).length) :=
    fun nl => (mesh_analysis_loc mesh hnum (kinematic_nodes_set mesh bounds_cond) nl
      (fun e p => p1 * loc_value mesh quad (coeffs params) e p)).2
  have hnl1 : (mesh_analysis mesh (kinematic_nodes_set mesh bounds_cond) true).shifts_nonloc =
      count_shifts mesh.elements_count
        ((mesh_analysis mesh (kinematic_nodes_set mesh bounds_cond) true).shifts_loc.getLastD 0)
        (fun e => (nonloc_free mesh (kinematic_nodes_set mesh bounds_cond) quad influence_fun
          (coeffs params) (1 - p1) e).length) :=
    (mesh_analysis_nonloc mesh hnum (kinematic_nodes_set mesh bounds_cond)
      (fun e p => (1 - p1) * nonloc_value mesh quad influence_fun (coeffs params) e p)).1
  have hnl2 :
      (mesh_analysis mesh (kinematic_nodes_set mesh bounds_cond) true).shifts_bound_nonloc =
      count_shifts mesh.elements_count
        ((mesh_analysis mesh (kinematic_nodes_set mesh bounds_cond) true).shifts_bound_loc.getLastD
          0)
        (fun e => (nonloc_bound mesh (kinematic_nodes_set mesh bounds_cond) quad influence_fun
          (coeffs params) (1 - p1) e).length) :=
    (mesh_analysis_nonloc mesh hnum (kinematic_nodes_set mesh bounds_cond)
      (fun e p => (1 - p1) * nonloc_value mesh quad influence_fun (coeffs params) e p)).2
  by_cases h : p1 < MAX_LOCAL_WEIGHT
  · have hd : decide (p1 < MAX_LOCAL_WEIGHT) = true := decide_eq_true h
    rw [if_pos h, if_pos h]
    unfold triplets_fill
    simp only [hd, ↓reduceIte]
    rw [hnl1, hnl2, hloc1 true, hloc2 true]
    simp only [count_shifts_last, Nat.zero_add]
    have hpass := fill_loc_pass mesh (kinematic_nodes_set mesh bounds_cond) quad p1 (coeffs params)
      ((kinematic_nodes_set mesh bounds_cond).map identity_triplet)
      (List.replicate (((List.range mesh.elements_count).map
        (fun e => (nonloc_free mesh (kinematic_nodes_set mesh bounds_cond) quad influence_fun
          (coeffs params) (1 - p1) e).length)).sum) Triplet.default)
      []
      (List.replicate (((List.range mesh.elements_count).map
        (fun e => (nonloc_bound mesh (kinematic_nodes_set mesh bounds_cond) quad influence_fun
          (coeffs params) (1 - p1) e).length)).sum) Triplet.default)
      { triplets := identity_prefix (kinematic_nodes_set mesh bounds_cond)
          (List.replicate ((kinematic_nodes_set mesh bounds_cond).length +
            ((List.range mesh.elements_count).map
              (fun e => (loc_free mesh (kinematic_nodes_set mesh bounds_cond) quad (coeffs params) p1 e).length)).sum +
            ((List.range mesh.elements_count).map
              (fun e => (nonloc_free mesh (kinematic_nodes_set mesh bounds_cond) quad
                influence_fun (coeffs params) (1 - p1) e).length)).sum) Triplet.default)
        triplets_bound := List.replicate (
            ((List.range mesh.elements_count).map
              (fun e => (loc_bound mesh (kinematic_nodes_set mesh bounds_cond) quad (coeffs params) p1 e).length)).sum +
            ((List.range mesh.elements_count).map
              (fun e => (nonloc_bound mesh (kinematic_nodes_set mesh bounds_cond) quad
                influence_fun (coeffs params) (1 - p1) e).length)).sum) Triplet.default
        shifts := count_shifts mesh.elements_count (kinematic_nodes_set mesh bounds_cond).length
          (fun e => (loc_free mesh (kinematic_nodes_set mesh bounds_cond) quad (coeffs params) p1 e).length)
        shifts_bound := count_shifts mesh.elements_count 0
          (fun e => (loc_bound mesh (kinematic_nodes_set mesh bounds_cond) quad (coeffs params) p1 e).length) }
      (by
        simp only
        rw [Nat.add_assoc, List.replicate_add, identity_prefix_eq, List.replicate_add]
        simp only [List.append_assoc])
      (by
        simp only
        rw [List.replicate_add]
        simp only [List.nil_append])
      (by
        simp only [List.length_map]
        exact count_shifts_offsets _ _ _)
      (by
        simp only [List.length_nil]
        exact count_shifts_offsets _ _ _)
    have hpass2 := fill_nonloc_pass mesh (kinematic_nodes_set mesh bounds_cond) quad
      influence_fun (1 - p1) (coeffs params)
      ((kinematic_nodes_set mesh bounds_cond).map identity_triplet ++
        (List.range mesh.elements_count).flatMap (loc_free mesh (kinematic_nodes_set mesh bounds_cond) quad (coeffs params) p1))
      []
      ((List.range mesh.elements_count).flatMap (loc_bound mesh (kinematic_nodes_set mesh bounds_cond) quad (coeffs params) p1))
      []
      { triplets := (mesh_run_loc mesh
          (fun st i j el =>
            let st1 := filler_loc mesh (kinematic_nodes_set mesh bounds_cond) quad p1 (coeffs params) st
              (node_info.make i component.X) (node_info.make j component.X) el
            let st2 := filler_loc mesh (kinematic_nodes_set mesh bounds_cond) quad p1 (coeffs params) st1
              (node_info.make i component.X) (node_info.make j component.Y) el
            let st3 := filler_loc mesh (kinematic_nodes_set mesh bounds_cond) quad p1 (coeffs params) st2
              (node_info.make i component.Y) (node_info.make j component.X) el
            filler_loc mesh (kinematic_nodes_set mesh bounds_cond) quad p1 (coeffs params) st3
              (node_info.make i component.Y) (node_info.make j component.Y) el)
          { triplets := identity_prefix (kinematic_nodes_set mesh bounds_cond)
              (List.replicate ((kinematic_nodes_set mesh bounds_cond).length +
                ((List.range mesh.elements_count).map
                  (fun e => (loc_free mesh (kinematic_nodes_set mesh bounds_cond) quad (coeffs params) p1 e).length)).sum +
                ((List.range mesh.elements_count).map
                  (fun e => (nonloc_free mesh (kinematic_nodes_set mesh bounds_cond) quad
                    influence_fun (coeffs params) (1 - p1) e).length)).sum) Triplet.default)
            triplets_bound := List.replicate (
                ((List.range mesh.elements_count).map
                  (fun e => (loc_bound mesh (kinematic_nodes_set mesh bounds_cond) quad (coeffs params) p1 e).length)).sum +
                ((List.range mesh.elements_count).map
                  (fun e => (nonloc_bound mesh (kinematic_nodes_set mesh bounds_cond) quad
                    influence_fun (coeffs params) (1 - p1) e).length)).sum) Triplet.default
            shifts := count_shifts mesh.elements_count (kinematic_nodes_set mesh bounds_cond).length
              (fun e => (loc_free mesh (kinematic_nodes_set mesh bounds_cond) quad (coeffs params) p1 e).length)
            shifts_bound := count_shifts mesh.elements_count 0
              (fun e => (loc_bound mesh (kinematic_nodes_set mesh bounds_cond) quad (coeffs params) p1 e).length) }).triplets
        triplets_bound := (mesh_run_loc mesh
          (fun st i j el =>
            let st1 := filler_loc mesh (kinematic_nodes_set mesh bounds_cond) quad p1 (coeffs params) st
              (node_info.make i component.X) (node_info.make j component.X) el
            let st2 := filler_loc mesh (kinematic_nodes_set mesh bounds_cond) quad p1 (coeffs params) st1
              (node_info.make i component.X) (node_info.make j component.Y) el
            let st3 := filler_loc mesh (kinematic_nodes_set mesh bounds_cond) quad p1 (coeffs params) st2
              (node_info.make i component.Y) (node_info.make j component.X) el
            filler_loc mesh (kinematic_nodes_set mesh bounds_cond) quad p1 (coeffs params) st3
              (node_info.make i component.Y) (node_info.make j component.Y) el)
          { triplets := identity_prefix (kinematic_nodes_set mesh bounds_cond)
              (List.replicate ((kinematic_nodes_set mesh bounds_cond).length +
                ((List.range mesh.elements_count).map
                  (fun e => (loc_free mesh (kinematic_nodes_set mesh bounds_cond) quad (coeffs params) p1 e).length)).sum +
                ((List.range mesh.elements_count).map
                  (fun e => (nonloc_free mesh (kinematic_nodes_set mesh bounds_cond) quad
                    influence_fun (coeffs params) (1 - p1) e).length)).sum) Triplet.default)
            triplets_bound := List.replicate (
                ((List.range mesh.elements_count).map
                  (fun e => (loc_bound mesh (kinematic_nodes_set mesh bounds_cond) quad (coeffs params) p1 e).length)).sum +
                ((List.range mesh.elements_count).map
                  (fun e => (nonloc_bound mesh (kinematic_nodes_set mesh bounds_cond) quad
                    influence_fun (coeffs params) (1 - p1) e).length)).sum) Triplet.default
            shifts := count_shifts mesh.elements_count (kinematic_nodes_set mesh bounds_cond).length
              (fun e => (loc_free mesh (kinematic_nodes_set mesh bounds_cond) quad (coeffs params) p1 e).length)
            shifts_bound := count_shifts mesh.elements_count 0
              (fun e => (loc_bound mesh (kinematic_nodes_set mesh bounds_cond) quad (coeffs params) p1 e).length) }).triplets_bound
        shifts := count_shifts mesh.elements_count
          ((kinematic_nodes_set mesh bounds_cond).length +
            ((List.range mesh.elements_count).map
              (fun e => (loc_free mesh (kinematic_nodes_set mesh bounds_cond) quad (coeffs params) p1 e).length)).sum)
          (fun e => (nonloc_free mesh (kinematic_nodes_set mesh bounds_cond) quad influence_fun (coeffs params) (1 - p1) e).length)
        shifts_bound := count_shifts mesh.elements_count
          (((List.range mesh.elements_count).map
              (fun e => (loc_bound mesh (kinematic_nodes_set mesh bounds_cond) quad (coeffs params) p1 e).length)).sum)
          (fun e => (nonloc_bound mesh (kinematic_nodes_set mesh bounds_cond) quad influence_fun (coeffs params) (1 - p1) e).length) }
      (by rw [List.append_nil]; exact hpass.1)
      (by rw [List.append_nil]; exact hpass.2)
      (by
        simp only [List.length_append, List.length_map, length_flatMap_eq]
        exact count_shifts_offsets _ _ _)
      (by
        simp only [length_flatMap_eq]
        exact count_shifts_offsets _ _ _)
    simp only [List.append_nil] at hpass2
    exact Prod.ext hpass2.1 hpass2.2
  · have hd : decide (p1 < MAX_LOCAL_WEIGHT) = false := decide_eq_false h
    rw [if_neg h, if_neg h]
    unfold triplets_fill
    simp only [hd, Bool.false_eq_true, ↓reduceIte]
    rw [hloc1 false, hloc2 false]
    simp only [count_shifts_last, Nat.zero_add]
    have hpass := fill_loc_pass mesh (kinematic_nodes_set mesh bounds_cond) quad p1 (coeffs params)
      ((kinematic_nodes_set mesh bounds_cond).map identity_triplet) [] [] []
      { triplets := identity_prefix (kinematic_nodes_set mesh bounds_cond)
          (List.replicate ((kinematic_nodes_set mesh bounds_cond).length +
            ((List.range mesh.elements_count).map
              (fun e => (loc_free mesh (kinematic_nodes_set mesh bounds_cond) quad (coeffs params) p1 e).length)).sum)
            Triplet.default)
        triplets_bound := List.replicate (
            ((List.range mesh.elements_count).map
              (fun e => (loc_bound mesh (kinematic_nodes_set mesh bounds_cond) quad (coeffs params) p1 e).length)).sum)
            Triplet.default
        shifts := count_shifts mesh.elements_count (kinematic_nodes_set mesh bounds_cond).length
          (fun e => (loc_free mesh (kinematic_nodes_set mesh bounds_cond) quad (coeffs params) p1 e).length)
        shifts_bound := count_shifts mesh.elements_count 0
          (fun e => (loc_bound mesh (kinematic_nodes_set mesh bounds_cond) quad (coeffs params) p1 e).length) }
      (by
        simp only
        rw [List.replicate_add, identity_prefix_eq]
        simp only [List.append_nil])
      (by simp only [List.nil_append, List.append_nil])
      (by
        simp only [List.length_map]
        exact count_shifts_offsets _ _ _)
      (by
        simp only [List.length_nil]
        exact count_shifts_offsets _ _ _)
    simp only [List.nil_append] at hpass
    exact Prod.ext hpass.1 hpass.2

/-! ## The indices of the degrees of freedom -/

theorem dof_injective (a b : node_info) (h : a.dof = b.dof) : a = b := by
  obtain ⟨n, c⟩ := a
  obtain ⟨m, d⟩ := b
  unfold node_info.dof at h
  cases c <;> cases d <;> simp only [component.toNat] at h <;>
    first
      | (have : n = m := by omega
         subst this
         rfl)
      | omega

theorem make_number_lt (n : Nat) (c : component) : (node_info.make n c).number < 2 ^ 31 :=
  Nat.mod_lt _ (by decide)

theorem ne_iff_of_lt (a b : node_info) (ha : a.number < 2 ^ 31) (hb : b.number < 2 ^ 31) :
    a.ne b = true ↔ a ≠ b := by
  obtain ⟨n, c⟩ := a
  obtain ⟨m, d⟩ := b
  unfold node_info.ne node_info.bits
  simp only [decide_eq_true_eq, ne_eq, node_info.mk.injEq]
  simp only at ha hb
  cases c <;> cases d <;> simp [component.toNat] <;> omega

theorem glob_dof_index {F : Type} (mesh : mesh_2d F) (hnum : mesh.small_numbers)
    (el : Nat) (node : node_info) :
    (dof_info (glob mesh el node)).index = (glob mesh el node).dof ∧
      (glob mesh el node).dof = 2 * mesh.node_number el node.number + node.comp.toNat := by
  have h := node_number_lt mesh hnum el node.number
  unfold dof_info glob node_info.dof
  rw [dof_index_of_lt _ _ h, make_number_of_lt _ _ (by omega)]
  exact ⟨rfl, rfl⟩

theorem free_triplet_spec {F : Type} (mesh : mesh_2d F) (hnum : mesh.small_numbers)
    (kinematic_nodes : List node_info) (node_i node_j : node_info) (el el' : Nat) (v : F)
    (t : Triplet F) (h : free_triplet mesh kinematic_nodes node_i node_j el el' v = some t) :
    t = { row := dof_info (glob mesh el node_i), col := dof_info (glob mesh el' node_j),
          value := v } ∧
      (glob mesh el' node_j).dof ≤ (glob mesh el node_i).dof ∧
      glob mesh el node_i ∉ kinematic_nodes ∧ glob mesh el' node_j ∉ kinematic_nodes := by
  have hs := (free_isSome_iff mesh hnum kinematic_nodes node_i node_j el el' v).1
    (by rw [h]; rfl)
  unfold free_triplet at h
  simp only at h
  split at h
  · exact ⟨(Option.some.inj h).symm, hs.1, hs.2.1, hs.2.2⟩
  · cases h

theorem bound_triplet_spec {F : Type} (mesh : mesh_2d F) (hnum : mesh.small_numbers)
    (kinematic_nodes : List node_info) (node_i node_j : node_info) (el el' : Nat) (v : F)
    (t : Triplet F) (h : bound_triplet mesh kinematic_nodes node_i node_j el el' v = some t) :
    t = (if glob mesh el' node_j ∉ kinematic_nodes then
          { row := dof_info (glob mesh el' node_j), col := dof_info (glob mesh el node_i),
            value := v }
        else
          { row := dof_info (glob mesh el node_i), col := dof_info (glob mesh el' node_j),
            value := v }) ∧
      (glob mesh el' node_j).dof ≤ (glob mesh el node_i).dof ∧
      ¬ (glob mesh el node_i ∉ kinematic_nodes ∧ glob mesh el' node_j ∉ kinematic_nodes) ∧
      glob mesh el node_i ≠ glob mesh el' node_j := by
  have hs := (bound_isSome_iff mesh hnum kinematic_nodes node_i node_j el el' v).1
    (by rw [h]; rfl)
  unfold bound_triplet at h
  simp only at h
  split at h
  · exact ⟨(Option.some.inj h).symm, hs.1, hs.2.1,
      (ne_iff_of_lt _ _ (make_number_lt _ _) (make_number_lt _ _)).1 hs.2.2⟩
  · cases h

theorem push_cases {α : Type} (arr : List α) (cursor : List Nat) (el : Nat) (o : Option α) :
    (o = none ∧ push arr cursor el o = (arr, cursor)) ∨
      (∃ t, o = some t ∧ push arr cursor el o =
        (arr.set (cursor.getD el 0) t, cursor.set el (cursor.getD el 0 + 1))) := by
  cases o with
  | none => exact Or.inl ⟨rfl, rfl⟩
  | some t => exact Or.inr ⟨t, rfl, rfl⟩

/-- C5: in `filler_loc`, called for element `el`, local nodes `i`, `j` and components `ci`,
`cj` on a mesh whose node numbers are below `2^30`, a triplet written to the free-block
vector has the row index `2 * node_number(el, i) + ci` and the column index
`2 * node_number(el, j) + cj`, and a triplet written to the boundary-block vector has these
two indices (in this or in the swapped position); both are taken from the same element
`el`.  The index that the rule computes for a (node, component) pair with node below
`2^30` is `2 * n + c` with `X = 0`, `Y = 1`, and distinct pairs get distinct indices. -/
theorem filler_loc_dof_indices {F : Type} [Field F] (mesh : mesh_2d F)
    (hnum : mesh.small_numbers) (kinematic_nodes : List node_info)
    (quad : quadrature_tables F) (p1 : F) (cs : Fin 3 → F) (st : fill_state F)
    (i j : Nat) (ci cj : component) (el : Nat) (hi : i < 2 ^ 31) (hj : j < 2 ^ 31) :
    ((filler_loc mesh kinematic_nodes quad p1 cs st (node_info.make i ci)
          (node_info.make j cj) el).triplets = st.triplets ∨
      ∃ t, (filler_loc mesh kinematic_nodes quad p1 cs st (node_info.make i ci)
          (node_info.make j cj) el).triplets = st.triplets.set (st.shifts.getD el 0) t ∧
        t.row.index = 2 * mesh.node_number el i + ci.toNat ∧
        t.col.index = 2 * mesh.node_number el j + cj.toNat) ∧
    ((filler_loc mesh kinematic_nodes quad p1 cs st (node_info.make i ci)
          (node_info.make j cj) el).triplets_bound = st.triplets_bound ∨
      ∃ t, (filler_loc mesh kinematic_nodes quad p1 cs st (node_info.make i ci)
          (node_info.make j cj) el).triplets_bound =
            st.triplets_bound.set (st.shifts_bound.getD el 0) t ∧
        ((t.row.index = 2 * mesh.node_number el i + ci.toNat ∧
            t.col.index = 2 * mesh.node_number el j + cj.toNat) ∨
          (t.row.index = 2 * mesh.node_number el j + cj.toNat ∧
            t.col.index = 2 * mesh.node_number el i + ci.toNat))) ∧
    (component.X.toNat = 0 ∧ component.Y.toNat = 1) ∧
    (∀ n c, n < 2 ^ 30 → (dof_info (node_info.make n c)).index = 2 * n + c.toNat) ∧
    (∀ n m c d, n < 2 ^ 30 → m < 2 ^ 30 →
      (dof_info (node_info.make n c)).index = (dof_info (node_info.make m d)).index →
      n = m ∧ c = d) := by
  have hidx : ∀ n c, n < 2 ^ 30 → (dof_info (node_info.make n c)).index = 2 * n + c.toNat :=
    fun n c hn => dof_index_of_lt n c hn
  have hgi := glob_dof_index mesh hnum el (node_info.make i ci)
  have hgj := glob_dof_index mesh hnum el (node_info.make j cj)
  rw [make_number_of_lt i ci hi] at hgi
  rw [make_number_of_lt j cj hj] at hgj
  have hci : (node_info.make i ci).comp = ci := rfl
  have hcj : (node_info.make j cj).comp = cj := rfl
  rw [hci] at hgi
  rw [hcj] at hgj
  refine ⟨?_, ?_, ⟨rfl, rfl⟩, hidx, ?_⟩
  · rw [filler_loc_eq]
    simp only
    rcases push_cases st.triplets st.shifts el
      (free_triplet mesh kinematic_nodes (node_info.make i ci) (node_info.make j cj) el el
        (p1 * integrate_loc (mesh.element_2d (mesh.element_type el)) (node_info.make i ci)
          (node_info.make j cj) quad.all_jacobi_matrices (quad.shifts_quad.getD el 0) cs))
      with ⟨_, h⟩ | ⟨t, ht, h⟩
    · left
      rw [h]
    · right
      refine ⟨t, by rw [h], ?_⟩
      have hs := (free_triplet_spec mesh hnum kinematic_nodes _ _ el el _ t ht).1
      rw [hs]
      exact ⟨hgi.1.trans hgi.2, hgj.1.trans hgj.2⟩
  · rw [filler_loc_eq]
    simp only
    rcases push_cases st.triplets_bound st.shifts_bound el
      (bound_triplet mesh kinematic_nodes (node_info.make i ci) (node_info.make j cj) el el
        (p1 * integrate_loc (mesh.element_2d (mesh.element_type el)) (node_info.make i ci)
          (node_info.make j cj) quad.all_jacobi_matrices (quad.shifts_quad.getD el 0) cs))
      with ⟨_, h⟩ | ⟨t, ht, h⟩
    · left
      rw [h]
    · right
      refine ⟨t, by rw [h], ?_⟩
      have hs := (bound_triplet_spec mesh hnum kinematic_nodes _ _ el el _ t ht).1
      rw [hs]
      split
      · exact Or.inr ⟨hgj.1.trans hgj.2, hgi.1.trans hgi.2⟩
      · exact Or.inl ⟨hgi.1.trans hgi.2, hgj.1.trans hgj.2⟩
  · intro n m c d hn hm h
    rw [hidx n c hn, hidx m d hm] at h
    cases c <;> cases d <;> simp only [component.toNat] at h <;>
      first
        | exact ⟨by omega, rfl⟩
        | omega

/-! ## Free block and boundary block -/

theorem dirichlet_dof_iff (kinematic_nodes : List node_info) (g : node_info) :
    dirichlet kinematic_nodes g.dof ↔ g ∈ kinematic_nodes := by
  constructor
  · rintro ⟨k, hk, h⟩
    rw [← dof_injective k g h]
    exact hk
  · intro h
    exact ⟨g, h, rfl⟩

theorem fill_branch_cases {F : Type} (st : fill_state F) (el : Nat) (c1 c2 : Prop)
    [Decidable c1] [Decidable c2] (c3 : Bool) (tf tb : Triplet F) (h1 : c1) :
    (c2 →
      (if c1 then
        if c2 then
          { st with
            triplets := st.triplets.set (st.shifts.getD el 0) tf
            shifts := st.shifts.set el (st.shifts.getD el 0 + 1) }
        else if c3 then
          { st with
            triplets_bound := st.triplets_bound.set (st.shifts_bound.getD el 0) tb
            shifts_bound := st.shifts_bound.set el (st.shifts_bound.getD el 0 + 1) }
        else st
      else st) =
        { st with
          triplets := st.triplets.set (st.shifts.getD el 0) tf
          shifts := st.shifts.set el (st.shifts.getD el 0 + 1) }) ∧
    (¬ c2 →
      (if c1 then
        if c2 then
          { st with
            triplets := st.triplets.set (st.shifts.getD el 0) tf
            shifts := st.shifts.set el (st.shifts.getD el 0 + 1) }
        else if c3 then
          { st with
            triplets_bound := st.triplets_bound.set (st.shifts_bound.getD el 0) tb
            shifts_bound := st.shifts_bound.set el (st.shifts_bound.getD el 0 + 1) }
        else st
      else st) =
        (if c3 then
          { st with
            triplets_bound := st.triplets_bound.set (st.shifts_bound.getD el 0) tb
            shifts_bound := st.shifts_bound.set el (st.shifts_bound.getD el 0 + 1) }
        else st)) := by
  constructor
  · intro h2
    rw [if_pos h1, if_pos h2]
  · intro h2
    rw [if_pos h1, if_neg h2]

/-- C9: in `filler_loc` and in `filler_nonloc`, on a mesh whose node numbers are below
`2^30`, a pair of degrees of freedom with `row >= col` is written to the free-block vector
(at the cursor of the element, which advances by one) when neither of the two is in the
Dirichlet set; when at least one of them is in the Dirichlet set the free-block vector and
its cursor stay as they are, and if moreover the two differ the triplet is written to the
boundary-block vector at its cursor, which advances by one. -/
theorem filler_free_or_bound {F : Type} [Field F] (mesh : mesh_2d F)
    (hnum : mesh.small_numbers) (kinematic_nodes : List node_info)
    (quad : quadrature_tables F) (influence_fun : F → F → F → F → F) (p1 p2 : F)
    (cs : Fin 3 → F) (st : fill_state F) (node_i node_j : node_info) (el elNL : Nat) :
    ((glob mesh el node_j).dof ≤ (glob mesh el node_i).dof →
      ((¬ dirichlet kinematic_nodes (glob mesh el node_i).dof ∧
          ¬ dirichlet kinematic_nodes (glob mesh el node_j).dof →
        filler_loc mesh kinematic_nodes quad p1 cs st node_i node_j el =
          { st with
            triplets := st.triplets.set (st.shifts.getD el 0)
              { row := dof_info (glob mesh el node_i), col := dof_info (glob mesh el node_j),
                value := p1 * integrate_loc (mesh.element_2d (mesh.element_type el))
                  node_i node_j quad.all_jacobi_matrices (quad.shifts_quad.getD el 0) cs }
            shifts := st.shifts.set el (st.shifts.getD el 0 + 1) }) ∧
       (dirichlet kinematic_nodes (glob mesh el node_i).dof ∨
          dirichlet kinematic_nodes (glob mesh el node_j).dof →
        (filler_loc mesh kinematic_nodes quad p1 cs st node_i node_j el).triplets =
            st.triplets ∧
          (filler_loc mesh kinematic_nodes quad p1 cs st node_i node_j el).shifts =
            st.shifts ∧
          ((glob mesh el node_i).dof ≠ (glob mesh el node_j).dof →
            (filler_loc mesh kinematic_nodes quad p1 cs st node_i node_j el).triplets_bound =
                st.triplets_bound.set (st.shifts_bound.getD el 0)
                  (if glob mesh el node_j ∉ kinematic_nodes then
                    { row := dof_info (glob mesh el node_j),
                      col := dof_info (glob mesh el node_i),
                      value := p1 * integrate_loc (mesh.element_2d (mesh.element_type el))
                        node_i node_j quad.all_jacobi_matrices (quad.shifts_quad.getD el 0)
                        cs }
                  else
                    { row := dof_info (glob mesh el node_i),
                      col := dof_info (glob mesh el node_j),
                      value := p1 * integrate_loc (mesh.element_2d (mesh.element_type el))
                        node_i node_j quad.all_jacobi_matrices (quad.shifts_quad.getD el 0)
                        cs }) ∧
              (filler_loc mesh kinematic_nodes quad p1 cs st node_i node_j el).shifts_bound =
                st.shifts_bound.set el (st.shifts_bound.getD el 0 + 1))))) ∧
    ((glob mesh elNL node_j).dof ≤ (glob mesh el node_i).dof →
      ((¬ dirichlet kinematic_nodes (glob mesh el node_i).dof ∧
          ¬ dirichlet kinematic_nodes (glob mesh elNL node_j).dof →
        filler_nonloc mesh kinematic_nodes quad influence_fun p2 cs st node_i node_j el elNL =
          { st with
            triplets := st.triplets.set (st.shifts.getD el 0)
              { row := dof_info (glob mesh el node_i),
                col := dof_info (glob mesh elNL node_j),
                value := p2 * integrate_nonloc (mesh.element_2d (mesh.element_type el))
                  (mesh.element_2d (mesh.element_type elNL)) node_i node_j
                  (quad.shifts_quad.getD el 0) (quad.shifts_quad.getD elNL 0)
                  quad.all_quad_coords quad.all_jacobi_matrices influence_fun cs }
            shifts := st.shifts.set el (st.shifts.getD el 0 + 1) }) ∧
       (dirichlet kinematic_nodes (glob mesh el node_i).dof ∨
          dirichlet kinematic_nodes (glob mesh elNL node_j).dof →
        (filler_nonloc mesh kinematic_nodes quad influence_fun p2 cs st node_i node_j el
            elNL).triplets = st.triplets ∧
          (filler_nonloc mesh kinematic_nodes quad influence_fun p2 cs st node_i node_j el
            elNL).shifts = st.shifts ∧
          ((glob mesh el node_i).dof ≠ (glob mesh elNL node_j).dof →
            (filler_nonloc mesh kinematic_nodes quad influence_fun p2 cs st node_i node_j el
                elNL).triplets_bound =
                st.triplets_bound.set (st.shifts_bound.getD el 0)
                  (if glob mesh elNL node_j ∉ kinematic_nodes then
                    { row := dof_info (glob mesh elNL node_j),
                      col := dof_info (glob mesh el node_i),
                      value := p2 * integrate_nonloc
                        (mesh.element_2d (mesh.element_type el))
                        (mesh.element_2d (mesh.element_type elNL)) node_i node_j
                        (quad.shifts_quad.getD el 0) (quad.shifts_quad.getD elNL 0)
                        quad.all_quad_coords quad.all_jacobi_matrices influence_fun cs }
                  else
                    { row := dof_info (glob mesh el node_i),
                      col := dof_info (glob mesh elNL node_j),
                      value := p2 * integrate_nonloc
                        (mesh.element_2d (mesh.element_type el))
                        (mesh.element_2d (mesh.element_type elNL)) node_i node_j
                        (quad.shifts_quad.getD el 0) (quad.shifts_quad.getD elNL 0)
                        quad.all_quad_coords quad.all_jacobi_matrices influence_fun cs }) ∧
              (filler_nonloc mesh kinematic_nodes quad influence_fun p2 cs st node_i node_j el
                elNL).shifts_bound =
                st.shifts_bound.set el (st.shifts_bound.getD el 0 + 1))))) := by
  have hrow : ∀ e, (glob mesh e node_j).dof ≤ (glob mesh el node_i).dof →
      (dof_info (glob mesh el node_i)).index ≥ (dof_info (glob mesh e node_j)).index := by
    intro e h
    rw [(glob_dof_index mesh hnum el node_i).1, (glob_dof_index mesh hnum e node_j).1]
    exact h
  have hne : ∀ e, (glob mesh el node_i).dof ≠ (glob mesh e node_j).dof →
      (glob mesh el node_i).ne (glob mesh e node_j) = true := by
    intro e h
    refine (ne_iff_of_lt _ _ (make_number_lt _ _) (make_number_lt _ _)).2 ?_
    intro heq
    exact h (congrArg node_info.dof heq)
  constructor
  · intro h
    obtain ⟨hA, hB⟩ := fill_branch_cases st el
      ((dof_info (glob mesh el node_i)).index ≥ (dof_info (glob mesh el node_j)).index)
      (glob mesh el node_i ∉ kinematic_nodes ∧ glob mesh el node_j ∉ kinematic_nodes)
      ((glob mesh el node_i).ne (glob mesh el node_j))
      { row := dof_info (glob mesh el node_i), col := dof_info (glob mesh el node_j),
        value := p1 * integrate_loc (mesh.element_2d (mesh.element_type el))
          node_i node_j quad.all_jacobi_matrices (quad.shifts_quad.getD el 0) cs }
      (if glob mesh el node_j ∉ kinematic_nodes then
        { row := dof_info (glob mesh el node_j), col := dof_info (glob mesh el node_i),
          value := p1 * integrate_loc (mesh.element_2d (mesh.element_type el))
            node_i node_j quad.all_jacobi_matrices (quad.shifts_quad.getD el 0) cs }
      else
        { row := dof_info (glob mesh el node_i), col := dof_info (glob mesh el node_j),
          value := p1 * integrate_loc (mesh.element_2d (mesh.element_type el))
            node_i node_j quad.all_jacobi_matrices (quad.shifts_quad.getD el 0) cs })
      (hrow el h)
    constructor
    · rintro ⟨h1, h2⟩
      exact hA ⟨fun hm => h1 ((dirichlet_dof_iff _ _).2 hm),
        fun hm => h2 ((dirichlet_dof_iff _ _).2 hm)⟩
    · intro hd
      have hB2 := hB (by
        rintro ⟨h1, h2⟩
        rcases hd with hd | hd
        · exact h1 ((dirichlet_dof_iff _ _).1 hd)
        · exact h2 ((dirichlet_dof_iff _ _).1 hd))
      have hB3 : filler_loc mesh kinematic_nodes quad p1 cs st node_i node_j el = _ := hB2
      rw [hB3]
      refine ⟨?_, ?_, ?_⟩
      · split <;> rfl
      · split <;> rfl
      · intro hdiff
        rw [if_pos (hne el hdiff)]
        exact ⟨rfl, rfl⟩
  · intro h
    obtain ⟨hA, hB⟩ := fill_branch_cases st el
      ((dof_info (glob mesh el node_i)).index ≥ (dof_info (glob mesh elNL node_j)).index)
      (glob mesh el node_i ∉ kinematic_nodes ∧ glob mesh elNL node_j ∉ kinematic_nodes)
      ((glob mesh el node_i).ne (glob mesh elNL node_j))
      { row := dof_info (glob mesh el node_i), col := dof_info (glob mesh elNL node_j),
        value := p2 * integrate_nonloc (mesh.element_2d (mesh.element_type el))
          (mesh.element_2d (mesh.element_type elNL)) node_i node_j
          (quad.shifts_quad.getD el 0) (quad.shifts_quad.getD elNL 0)
          quad.all_quad_coords quad.all_jacobi_matrices influence_fun cs }
      (if glob mesh elNL node_j ∉ kinematic_nodes then
        { row := dof_info (glob mesh elNL node_j), col := dof_info (glob mesh el node_i),
          value := p2 * integrate_nonloc (mesh.element_2d (mesh.element_type el))
            (mesh.element_2d (mesh.element_type elNL)) node_i node_j
            (quad.shifts_quad.getD el 0) (quad.shifts_quad.getD elNL 0)
            quad.all_quad_coords quad.all_jacobi_matrices influence_fun cs }
      else
        { row := dof_info (glob mesh el node_i), col := dof_info (glob mesh elNL node_j),
          value := p2 * integrate_nonloc (mesh.element_2d (mesh.element_type el))
            (mesh.element_2d (mesh.element_type elNL)) node_i node_j
            (quad.shifts_quad.getD el 0) (quad.shifts_quad.getD elNL 0)
            quad.all_quad_coords quad.all_jacobi_matrices influence_fun cs })
      (hrow elNL h)
    constructor
    · rintro ⟨h1, h2⟩
      exact hA ⟨fun hm => h1 ((dirichlet_dof_iff _ _).2 hm),
        fun hm => h2 ((dirichlet_dof_iff _ _).2 hm)⟩
    · intro hd
      have hB2 := hB (by
        rintro ⟨h1, h2⟩
        rcases hd with hd | hd
        · exact h1 ((dirichlet_dof_iff _ _).1 hd)
        · exact h2 ((dirichlet_dof_iff _ _).1 hd))
      have hB3 : filler_nonloc mesh kinematic_nodes quad influence_fun p2 cs st node_i node_j
          el elNL = _ := hB2
      rw [hB3]
      refine ⟨?_, ?_, ?_⟩
      · split <;> rfl
      · split <;> rfl
      · intro hdiff
        rw [if_pos (hne elNL hdiff)]
        exact ⟨rfl, rfl⟩

/-! ## The set of kinematic nodes -/

theorem mem_set_insert (s : List node_info) (x z : node_info) (h : z ∈ set_insert s x) :
    z ∈ s ∨ z = x := by
  induction s with
  | nil =>
    simp only [set_insert, List.mem_singleton] at h
    exact Or.inr h
  | cons y rest ih =>
    simp only [set_insert] at h
    split at h
    · rcases List.mem_cons.1 h with h | h
      · exact Or.inr h
      · exact Or.inl h
    · split at h
      · rcases List.mem_cons.1 h with h | h
        · exact Or.inl (by rw [h]; exact List.mem_cons_self _ _)
        · rcases ih h with h | h
          · exact Or.inl (List.mem_cons_of_mem _ h)
          · exact Or.inr h
      · exact Or.inl h

theorem set_insert_sorted (s : List node_info) (x : node_info)
    (h : s.Pairwise (fun a b => a.bits < b.bits)) :
    (set_insert s x).Pairwise (fun a b => a.bits < b.bits) := by
  induction s with
  | nil => simp [set_insert]
  | cons y rest ih =>
    have hy := (List.pairwise_cons.1 h).1
    have hrest := (List.pairwise_cons.1 h).2
    simp only [set_insert]
    split
    · next hlt =>
      have hxy : x.bits < y.bits := by simpa [node_info.lt] using hlt
      refine List.pairwise_cons.2 ⟨?_, h⟩
      intro z hz
      rcases List.mem_cons.1 hz with hz | hz
      · rw [hz]
        exact hxy
      · exact lt_trans hxy (hy z hz)
    · split
      · next hlt =>
        have hyx : y.bits < x.bits := by simpa [node_info.lt] using hlt
        refine List.pairwise_cons.2 ⟨?_, ih hrest⟩
        intro z hz
        rcases mem_set_insert rest x z hz with hz | hz
        · exact hy z hz
        · rw [hz]
          exact hyx
      · exact h

/-- An invariant of the set that holds for the empty set and is kept by the insertion of
every `(node, component)` of a boundary node holds for `kinematic_nodes_set`. -/
theorem kinematic_nodes_induction {F : Type} (mesh : mesh_2d F)
    (bounds_cond : List (bound_cond F)) (I : List node_info → Prop) (h0 : I [])
    (hstep : ∀ s b node c, b < bounds_cond.length → node ∈ mesh.boundary_nodes b → I s →
      I (set_insert s (node_info.make node c))) :
    I (kinematic_nodes_set mesh bounds_cond) := by
  unfold kinematic_nodes_set
  have hin : ∀ (b : Nat) (c : component) (nodes : List Nat) (s : List node_info),
      b < bounds_cond.length → (∀ x, x ∈ nodes → x ∈ mesh.boundary_nodes b) → I s →
      I (nodes.foldl (fun s node => set_insert s (node_info.make node c)) s) := by
    intro b c nodes
    induction nodes with
    | nil => intro s _ _ hs; exact hs
    | cons x xs ih =>
      intro s hb hx hs
      rw [List.foldl_cons]
      exact ih _ hb (fun y hy => hx y (List.mem_cons_of_mem _ hy))
        (hstep s b x c hb (hx x (List.mem_cons_self _ _)) hs)
  have hout : ∀ (bs : List Nat) (s : List node_info), (∀ b, b ∈ bs → b < bounds_cond.length) →
      I s →
      I (bs.foldl
        (fun kinematic_nodes b =>
          let after_x :=
            if translation_x bounds_cond b then
              (mesh.boundary_nodes b).foldl
                (fun s node => set_insert s (node_info.make node component.X)) kinematic_nodes
            else kinematic_nodes
          if translation_y bounds_cond b then
            (mesh.boundary_nodes b).foldl
              (fun s node => set_insert s (node_info.make node component.Y)) after_x
          else after_x) s) := by
    intro bs
    induction bs with
    | nil => intro s _ hs; exact hs
    | cons b bs ih =>
      intro s hb hs
      rw [List.foldl_cons]
      apply ih _ (fun b' hb' => hb b' (List.mem_cons_of_mem _ hb'))
      have hbb := hb b (List.mem_cons_self _ _)
      have hx : I (if translation_x bounds_cond b then
              (mesh.boundary_nodes b).foldl
                (fun s node => set_insert s (node_info.make node component.X)) s
            else s) := by
        split
        · exact hin b component.X _ s hbb (fun _ h => h) hs
        · exact hs
      simp only
      split
      · exact hin b component.Y _ _ hbb (fun _ h => h) hx
      · exact hx
  exact hout _ [] (fun b hb => List.mem_range.1 hb) h0

theorem kinematic_nodes_sorted {F : Type} (mesh : mesh_2d F)
    (bounds_cond : List (bound_cond F)) :
    (kinematic_nodes_set mesh bounds_cond).Pairwise (fun a b => a.bits < b.bits) :=
  kinematic_nodes_induction mesh bounds_cond
    (fun s => s.Pairwise (fun a b => a.bits < b.bits)) List.Pairwise.nil
    (fun s _ _ _ _ _ hs => set_insert_sorted s _ hs)

theorem kinematic_nodes_nodup {F : Type} (mesh : mesh_2d F)
    (bounds_cond : List (bound_cond F)) : (kinematic_nodes_set mesh bounds_cond).Nodup := by
  have h := kinematic_nodes_sorted mesh bounds_cond
  unfold List.Nodup
  exact h.imp (fun hab heq => by rw [heq] at hab; exact lt_irrefl _ hab)

theorem kinematic_nodes_mem {F : Type} (mesh : mesh_2d F)
    (bounds_cond : List (bound_cond F)) (z : node_info)
    (hz : z ∈ kinematic_nodes_set mesh bounds_cond) :
    ∃ b node c, b < bounds_cond.length ∧ node ∈ mesh.boundary_nodes b ∧
      z = node_info.make node c := by
  have h := kinematic_nodes_induction mesh bounds_cond
    (fun s => ∀ z, z ∈ s → ∃ b node c, b < bounds_cond.length ∧ node ∈ mesh.boundary_nodes b ∧
      z = node_info.make node c)
    (fun z hz => by cases hz)
    (fun s b node c hb hnode hs z hz => by
      rcases mem_set_insert s _ z hz with hz | hz
      · exact hs z hz
      · exact ⟨b, node, c, hb, hnode, hz⟩)
  exact h z hz

/-! ## The entries of the assembled matrix -/

theorem free_triplet_pos {F : Type} (mesh : mesh_2d F) (kinematic_nodes : List node_info)
    (node_i node_j : node_info) (el el' : Nat) (v : F) :
    free_triplet mesh kinematic_nodes node_i node_j el el' v =
      (free_pos mesh kinematic_nodes node_i node_j el el').map
        (fun rc => ({ row := rc.1, col := rc.2, value := v } : Triplet F)) := by
  unfold free_triplet free_pos
  simp only [glob, dof_info]
  split <;> rfl

theorem bound_triplet_pos {F : Type} (mesh : mesh_2d F) (kinematic_nodes : List node_info)
    (node_i node_j : node_info) (el el' : Nat) (v : F) :
    bound_triplet mesh kinematic_nodes node_i node_j el el' v =
      (bound_pos mesh kinematic_nodes node_i node_j el el').map
        (fun rc => ({ row := rc.1, col := rc.2, value := v } : Triplet F)) := by
  unfold bound_triplet bound_pos
  simp only [glob, dof_info]
  split
  · simp only [Option.map_some']
    split <;> rfl
  · rfl

theorem entry_sum_append {F : Type} [Field F] (a b : List (Triplet F)) (r c : Nat) :
    entry_sum (a ++ b) r c = entry_sum a r c + entry_sum b r c := by
  unfold entry_sum
  rw [List.filter_append, List.map_append, List.sum_append]

theorem entry_sum_nil {F : Type} [Field F] (r c : Nat) :
    entry_sum ([] : List (Triplet F)) r c = 0 := rfl

theorem entry_sum_flatMap {F ι : Type} [Field F] (f : ι → List (Triplet F)) (els : List ι)
    (r c : Nat) :
    entry_sum (els.flatMap f) r c = (els.map (fun e => entry_sum (f e) r c)).sum := by
  induction els with
  | nil => rfl
  | cons e es ih =>
    rw [List.flatMap_cons, entry_sum_append, ih, List.map_cons, List.sum_cons]

/-- The entry `(r, c)` of a list of triplets given by positions and values is the sum of
the values of the pairs whose position is `(r, c)`. -/
theorem entry_sum_filterMap {F ι : Type} [Field F] (pos : ι → Option (node_info × node_info))
    (v : ι → F) (ps : List ι) (r c : Nat) :
    entry_sum (ps.filterMap (fun p => (pos p).map
        (fun rc => ({ row := rc.1, col := rc.2, value := v p } : Triplet F)))) r c =
      ((ps.filter (fun p => at_pos (pos p) r c)).map v).sum := by
  induction ps with
  | nil => rfl
  | cons p ps ih =>
    unfold entry_sum at ih ⊢
    cases h : pos p with
    | none =>
      rw [List.filterMap_cons_none (by rw [h]; rfl), ih,
        List.filter_cons_of_neg (by rw [h]; simp [at_pos])]
    | some rc =>
      rw [List.filterMap_cons_some (by rw [h]; rfl)]
      by_cases hrc : rc.1.index = r ∧ rc.2.index = c
      · rw [List.filter_cons_of_pos (by simpa using hrc),
          List.filter_cons_of_pos (by rw [h]; simpa [at_pos] using hrc),
          List.map_cons, List.sum_cons, List.map_cons, List.sum_cons, ih]
      · rw [List.filter_cons_of_neg (by simpa using hrc),
          List.filter_cons_of_neg (by rw [h]; simpa [at_pos] using hrc), ih]

theorem entry_sum_loc_free {F : Type} [Field F] (mesh : mesh_2d F)
    (kinematic_nodes : List node_info) (quad : quadrature_tables F) (cs : Fin 3 → F)
    (w : F) (el r c : Nat) :
    entry_sum (loc_free mesh kinematic_nodes quad cs w el) r c =
      w * (((loc_pairs mesh el).filter
        (fun p => at_pos (free_pos mesh kinematic_nodes p.1 p.2 el el) r c)).map
          (loc_value mesh quad cs el)).sum := by
  unfold loc_free
  simp only [free_triplet_pos]
  rw [entry_sum_filterMap (fun p => free_pos mesh kinematic_nodes p.1 p.2 el el)
    (fun p => w * loc_value mesh quad cs el p), List.sum_map_mul_left]

theorem entry_sum_loc_bound {F : Type} [Field F] (mesh : mesh_2d F)
    (kinematic_nodes : List node_info) (quad : quadrature_tables F) (cs : Fin 3 → F)
    (w : F) (el r c : Nat) :
    entry_sum (loc_bound mesh kinematic_nodes quad cs w el) r c =
      w * (((loc_pairs mesh el).filter
        (fun p => at_pos (bound_pos mesh kinematic_nodes p.1 p.2 el el) r c)).map
          (loc_value mesh quad cs el)).sum := by
  unfold loc_bound
  simp only [bound_triplet_pos]
  rw [entry_sum_filterMap (fun p => bound_pos mesh kinematic_nodes p.1 p.2 el el)
    (fun p => w * loc_value mesh quad cs el p), List.sum_map_mul_left]

theorem entry_sum_nonloc_free {F : Type} [Field F] (mesh : mesh_2d F)
    (kinematic_nodes : List node_info) (quad : quadrature_tables F)
    (influence_fun : F → F → F → F → F) (cs : Fin 3 → F) (w : F) (el r c : Nat) :
    entry_sum (nonloc_free mesh kinematic_nodes quad influence_fun cs w el) r c =
      w * (((nonloc_pairs mesh el).filter
        (fun p => at_pos (free_pos mesh kinematic_nodes p.1 p.2.1 el p.2.2) r c)).map
          (nonloc_value mesh quad influence_fun cs el)).sum := by
  unfold nonloc_free
  simp only [free_triplet_pos]
  rw [entry_sum_filterMap (fun p => free_pos mesh kinematic_nodes p.1 p.2.1 el p.2.2)
    (fun p => w * nonloc_value mesh quad influence_fun cs el p), List.sum_map_mul_left]

theorem entry_sum_nonloc_bound {F : Type} [Field F] (mesh : mesh_2d F)
    (kinematic_nodes : List node_info) (quad : quadrature_tables F)
    (influence_fun : F → F → F → F → F) (cs : Fin 3 → F) (w : F) (el r c : Nat) :
    entry_sum (nonloc_bound mesh kinematic_nodes quad influence_fun cs w el) r c =
      w * (((nonloc_pairs mesh el).filter
        (fun p => at_pos (bound_pos mesh kinematic_nodes p.1 p.2.1 el p.2.2) r c)).map
          (nonloc_value mesh quad influence_fun cs el)).sum := by
  unfold nonloc_bound
  simp only [bound_triplet_pos]
  rw [entry_sum_filterMap (fun p => bound_pos mesh kinematic_nodes p.1 p.2.1 el p.2.2)
    (fun p => w * nonloc_value mesh quad influence_fun cs el p), List.sum_map_mul_left]

/-- The entry of a pass with weight `w` is `w` times the entry of the pass with weight 1,
whose values are the integrals themselves. -/
theorem entry_sum_weight {F : Type} [Field F] (f : F → Nat → List (Triplet F))
    (g : Nat → Nat → Nat → F) (hf : ∀ w el r c, entry_sum (f w el) r c = w * g el r c)
    (els : List Nat) (w : F) (r c : Nat) :
    entry_sum (els.flatMap (f w)) r c = w * entry_sum (els.flatMap (f 1)) r c := by
  rw [entry_sum_flatMap, entry_sum_flatMap]
  induction els with
  | nil => simp
  | cons e es ih =>
    rw [List.map_cons, List.sum_cons, List.map_cons, List.sum_cons, ih, hf w, hf 1, one_mul,
      mul_add]

theorem max_local_weight_le_one {F : Type} [LinearOrderedField F] :
    ¬ ((1 : F) < MAX_LOCAL_WEIGHT) := by
  unfold MAX_LOCAL_WEIGHT
  norm_num

theorem bound_triplet_columns {F : Type} (mesh : mesh_2d F) (hnum : mesh.small_numbers)
    (kinematic_nodes : List node_info) (node_i node_j : node_info) (el el' : Nat) (v : F)
    (t : Triplet F) (h : bound_triplet mesh kinematic_nodes node_i node_j el el' v = some t) :
    dirichlet kinematic_nodes t.col.index ∧ t.row.index ≠ t.col.index := by
  obtain ⟨ht, -, hnot, hne⟩ := bound_triplet_spec mesh hnum kinematic_nodes node_i node_j
    el el' v t h
  have hi := (glob_dof_index mesh hnum el node_i).1
  have hj := (glob_dof_index mesh hnum el' node_j).1
  have hdof : (glob mesh el node_i).dof ≠ (glob mesh el' node_j).dof :=
    fun heq => hne (dof_injective _ _ heq)
  by_cases hjk : glob mesh el' node_j ∉ kinematic_nodes
  · rw [if_pos hjk] at ht
    have hik : glob mesh el node_i ∈ kinematic_nodes := by
      by_contra hik
      exact hnot ⟨hik, hjk⟩
    rw [ht]
    simp only
    rw [hi, hj]
    exact ⟨⟨_, hik, rfl⟩, fun heq => hdof heq.symm⟩
  · rw [if_neg hjk] at ht
    rw [ht]
    simp only
    rw [hi, hj]
    exact ⟨⟨_, not_not.1 hjk, rfl⟩, hdof⟩

/-- C6: for every local weight `p1` and every position `(r, c)`, on a mesh whose node
numbers are below `2^30`: when `p1 < 0.999` the sum of the values of the free-block
triplets of `triplets_fill` at `(r, c)` is the sum of the identity entries there plus
`p1` times the sum of the `integrate_loc` values plus `(1 - p1)` times the sum of the
`integrate_nonloc` values of the pairs at `(r, c)`, and the sum of the boundary-block
triplets is `p1` times the local sum plus `(1 - p1)` times the nonlocal sum; when
`p1 >= 0.999` the nonlocal term is absent from both.  The sums of the integrals are the
entries of the lists of weight 1. -/
theorem triplets_fill_entry_sum {F : Type} [LinearOrderedField F] (mesh : mesh_2d F)
    (hnum : mesh.small_numbers) (params : parameters F) (bounds_cond : List (bound_cond F))
    (p1 : F) (influence_fun : F → F → F → F → F) (quad : quadrature_tables F) (r c : Nat) :
    (p1 < MAX_LOCAL_WEIGHT →
      entry_sum (triplets_fill mesh params bounds_cond p1 influence_fun quad).1 r c =
        entry_sum ((kinematic_nodes_set mesh bounds_cond).map identity_triplet) r c +
          (p1 * entry_sum ((List.range mesh.elements_count).flatMap
              (loc_free mesh (kinematic_nodes_set mesh bounds_cond) quad (coeffs params) 1))
              r c +
            (1 - p1) * entry_sum ((List.range mesh.elements_count).flatMap
              (nonloc_free mesh (kinematic_nodes_set mesh bounds_cond) quad influence_fun
                (coeffs params) 1)) r c) ∧
      entry_sum (triplets_fill mesh params bounds_cond p1 influence_fun quad).2 r c =
        p1 * entry_sum ((List.range mesh.elements_count).flatMap
            (loc_bound mesh (kinematic_nodes_set mesh bounds_cond) quad (coeffs params) 1))
            r c +
          (1 - p1) * entry_sum ((List.range mesh.elements_count).flatMap
            (nonloc_bound mesh (kinematic_nodes_set mesh bounds_cond) quad influence_fun
              (coeffs params) 1)) r c) ∧
    (MAX_LOCAL_WEIGHT ≤ p1 →
      entry_sum (triplets_fill mesh params bounds_cond p1 influence_fun quad).1 r c =
        entry_sum ((kinematic_nodes_set mesh bounds_cond).map identity_triplet) r c +
          p1 * entry_sum ((List.range mesh.elements_count).flatMap
            (loc_free mesh (kinematic_nodes_set mesh bounds_cond) quad (coeffs params) 1))
            r c ∧
      entry_sum (triplets_fill mesh params bounds_cond p1 influence_fun quad).2 r c =
        p1 * entry_sum ((List.range mesh.elements_count).flatMap
          (loc_bound mesh (kinematic_nodes_set mesh bounds_cond) quad (coeffs params) 1))
          r c) := by
  have hlf := entry_sum_weight
    (fun w => loc_free mesh (kinematic_nodes_set mesh bounds_cond) quad (coeffs params) w) _
    (fun w el r c => entry_sum_loc_free mesh _ quad (coeffs params) w el r c)
    (List.range mesh.elements_count) p1 r c
  have hlb := entry_sum_weight
    (fun w => loc_bound mesh (kinematic_nodes_set mesh bounds_cond) quad (coeffs params) w) _
    (fun w el r c => entry_sum_loc_bound mesh _ quad (coeffs params) w el r c)
    (List.range mesh.elements_count) p1 r c
  have hnf := entry_sum_weight
    (fun w => nonloc_free mesh (kinematic_nodes_set mesh bounds_cond) quad influence_fun
      (coeffs params) w) _
    (fun w el r c => entry_sum_nonloc_free mesh _ quad influence_fun (coeffs params) w el r c)
    (List.range mesh.elements_count) (1 - p1) r c
  have hnb := entry_sum_weight
    (fun w => nonloc_bound mesh (kinematic_nodes_set mesh bounds_cond) quad influence_fun
      (coeffs params) w) _
    (fun w el r c => entry_sum_nonloc_bound mesh _ quad influence_fun (coeffs params) w el r c)
    (List.range mesh.elements_count) (1 - p1) r c
  simp only at hlf hlb hnf hnb
  rw [triplets_fill_eq mesh hnum]
  constructor
  · intro h
    rw [if_pos h, if_pos h]
    simp only
    rw [entry_sum_append, entry_sum_append, entry_sum_append, hlf, hlb, hnf, hnb, add_assoc]
    exact ⟨rfl, rfl⟩
  · intro h
    rw [if_neg (not_lt.2 h), if_neg (not_lt.2 h)]
    simp only [List.append_nil]
    rw [entry_sum_append, hlf, hlb]
    exact ⟨rfl, rfl⟩

/-- C7: for `p1 = 1`, on a mesh whose node numbers are below `2^30`, `triplets_fill` gives
the same two lists for every influence function; the free-block list is the identity
entries of the kinematic nodes followed by the free-block triplets of the local pass, the
boundary-block list is the boundary-block triplets of the local pass, and the value of
each of these triplets is `integrate_loc` of its pair of (node, component). -/
theorem triplets_fill_local_only {F : Type} [LinearOrderedField F] (mesh : mesh_2d F)
    (hnum : mesh.small_numbers) (params : parameters F) (bounds_cond : List (bound_cond F))
    (influence_fun : F → F → F → F → F) (quad : quadrature_tables F) :
    (∀ other_fun : F → F → F → F → F,
      triplets_fill mesh params bounds_cond 1 other_fun quad =
        triplets_fill mesh params bounds_cond 1 influence_fun quad) ∧
    (triplets_fill mesh params bounds_cond 1 influence_fun quad).1 =
      (kinematic_nodes_set mesh bounds_cond).map identity_triplet ++
        (List.range mesh.elements_count).flatMap
          (fun el => (loc_pairs mesh el).filterMap
            (fun p => free_triplet mesh (kinematic_nodes_set mesh bounds_cond) p.1 p.2 el el
              (integrate_loc (mesh.element_2d (mesh.element_type el)) p.1 p.2
                quad.all_jacobi_matrices (quad.shifts_quad.getD el 0) (coeffs params)))) ∧
    (triplets_fill mesh params bounds_cond 1 influence_fun quad).2 =
      (List.range mesh.elements_count).flatMap
        (fun el => (loc_pairs mesh el).filterMap
          (fun p => bound_triplet mesh (kinematic_nodes_set mesh bounds_cond) p.1 p.2 el el
            (integrate_loc (mesh.element_2d (mesh.element_type el)) p.1 p.2
              quad.all_jacobi_matrices (quad.shifts_quad.getD el 0) (coeffs params)))) := by
  have h : ∀ f : F → F → F → F → F,
      triplets_fill mesh params bounds_cond 1 f quad =
        ((kinematic_nodes_set mesh bounds_cond).map identity_triplet ++
          (List.range mesh.elements_count).flatMap
            (fun el => (loc_pairs mesh el).filterMap
              (fun p => free_triplet mesh (kinematic_nodes_set mesh bounds_cond) p.1 p.2 el el
                (integrate_loc (mesh.element_2d (mesh.element_type el)) p.1 p.2
                  quad.all_jacobi_matrices (quad.shifts_quad.getD el 0) (coeffs params)))),
         (List.range mesh.elements_count).flatMap
          (fun el => (loc_pairs mesh el).filterMap
            (fun p => bound_triplet mesh (kinematic_nodes_set mesh bounds_cond) p.1 p.2 el el
              (integrate_loc (mesh.element_2d (mesh.element_type el)) p.1 p.2
                quad.all_jacobi_matrices (quad.shifts_quad.getD el 0) (coeffs params))))) := by
    intro f
    rw [triplets_fill_eq mesh hnum, if_neg max_local_weight_le_one,
      if_neg max_local_weight_le_one]
    have e1 : loc_free mesh (kinematic_nodes_set mesh bounds_cond) quad (coeffs params) 1 =
        fun el => (loc_pairs mesh el).filterMap
          (fun p => free_triplet mesh (kinematic_nodes_set mesh bounds_cond) p.1 p.2 el el
            (integrate_loc (mesh.element_2d (mesh.element_type el)) p.1 p.2
              quad.all_jacobi_matrices (quad.shifts_quad.getD el 0) (coeffs params))) := by
      funext el
      simp only [loc_free, loc_value, one_mul]
    have e2 : loc_bound mesh (kinematic_nodes_set mesh bounds_cond) quad (coeffs params) 1 =
        fun el => (loc_pairs mesh el).filterMap
          (fun p => bound_triplet mesh (kinematic_nodes_set mesh bounds_cond) p.1 p.2 el el
            (integrate_loc (mesh.element_2d (mesh.element_type el)) p.1 p.2
              quad.all_jacobi_matrices (quad.shifts_quad.getD el 0) (coeffs params))) := by
      funext el
      simp only [loc_bound, loc_value, one_mul]
    rw [e1, e2, List.append_nil, List.append_nil]
  refine ⟨fun other_fun => ?_, ?_, ?_⟩
  · rw [h other_fun, h influence_fun]
  · rw [h influence_fun]
  · rw [h influence_fun]

/-- C10: on a mesh whose node numbers are below `2^30`, every entry of the boundary-block
list of `triplets_fill` has a Dirichlet degree of freedom as its column index and a row
index different from its column index. -/
theorem triplets_bound_columns {F : Type} [LinearOrderedField F] (mesh : mesh_2d F)
    (hnum : mesh.small_numbers) (params : parameters F) (bounds_cond : List (bound_cond F))
    (p1 : F) (influence_fun : F → F → F → F → F) (quad : quadrature_tables F)
    (t : Triplet F)
    (ht : t ∈ (triplets_fill mesh params bounds_cond p1 influence_fun quad).2) :
    dirichlet (kinematic_nodes_set mesh bounds_cond) t.col.index ∧
      t.row.index ≠ t.col.index := by
  rw [triplets_fill_eq mesh hnum] at ht
  simp only at ht
  rcases List.mem_append.1 ht with h | h
  · obtain ⟨el, -, hel⟩ := List.mem_flatMap.1 h
    unfold loc_bound at hel
    obtain ⟨p, -, hp⟩ := List.mem_filterMap.1 hel
    exact bound_triplet_columns mesh hnum _ _ _ _ _ _ t hp
  · split at h
    · obtain ⟨el, -, hel⟩ := List.mem_flatMap.1 h
      unfold nonloc_bound at hel
      obtain ⟨p, -, hp⟩ := List.mem_filterMap.1 hel
      exact bound_triplet_columns mesh hnum _ _ _ _ _ _ t hp
    · cases h

/-! ## The identity rows of the Dirichlet degrees of freedom -/

theorem identity_triplet_index {F : Type} [Field F] (node : Nat) (c : component)
    (h : node < 2 ^ 30) :
    (identity_triplet (node_info.make node c) : Triplet F).row.index =
        (node_info.make node c).dof ∧
      (identity_triplet (node_info.make node c) : Triplet F).col.index =
        (node_info.make node c).dof ∧
      (identity_triplet (node_info.make node c) : Triplet F).value = 1 := by
  have hn : (node_info.make node c).number = node := make_number_of_lt node c (by omega)
  have hc : (node_info.make node c).comp = c := rfl
  have hd : ((2 * node + c.toNat) % 2 ^ 32) % 2 ^ 31 = 2 * node + c.toNat := by
    have : c.toNat ≤ 1 := by cases c <;> simp [component.toNat]
    omega
  refine ⟨?_, ?_, rfl⟩
  · show ((2 * (node_info.make node c).number + (node_info.make node c).comp.toNat) % 2 ^ 32) %
      2 ^ 31 = 2 * (node_info.make node c).number + (node_info.make node c).comp.toNat
    rw [hn, hc]
    exact hd
  · show ((2 * (node_info.make node c).number + (node_info.make node c).comp.toNat) % 2 ^ 32) %
      2 ^ 31 = 2 * (node_info.make node c).number + (node_info.make node c).comp.toNat
    rw [hn, hc]
    exact hd

theorem filter_eq_singleton {α : Type} (l : List α) (k : α) (p : α → Bool) (hnd : l.Nodup)
    (hk : k ∈ l) (hp : ∀ x, x ∈ l → (p x = true ↔ x = k)) : l.filter p = [k] := by
  induction l with
  | nil => cases hk
  | cons y ys ih =>
    have hy := (List.nodup_cons.1 hnd).1
    have hys := (List.nodup_cons.1 hnd).2
    rcases List.mem_cons.1 hk with h | h
    · subst h
      rw [List.filter_cons_of_pos ((hp k (List.mem_cons_self _ _)).2 rfl)]
      congr 1
      apply List.filter_eq_nil_iff.2
      intro x hx hpx
      have := (hp x (List.mem_cons_of_mem _ hx)).1 hpx
      exact hy (this ▸ hx)
    · have hyk : y ≠ k := fun e => hy (e ▸ h)
      rw [List.filter_cons_of_neg (fun hpy => hyk ((hp y (List.mem_cons_self _ _)).1 hpy))]
      exact ih hys h (fun x hx => hp x (List.mem_cons_of_mem _ hx))

theorem free_triplet_not_dirichlet {F : Type} (mesh : mesh_2d F) (hnum : mesh.small_numbers)
    (kinematic_nodes : List node_info) (node_i node_j : node_info) (el el' : Nat) (v : F)
    (t : Triplet F) (h : free_triplet mesh kinematic_nodes node_i node_j el el' v = some t) :
    ¬ dirichlet kinematic_nodes t.row.index ∧ ¬ dirichlet kinematic_nodes t.col.index := by
  obtain ⟨ht, -, hi, hj⟩ := free_triplet_spec mesh hnum kinematic_nodes node_i node_j
    el el' v t h
  rw [ht]
  simp only
  rw [(glob_dof_index mesh hnum el node_i).1, (glob_dof_index mesh hnum el' node_j).1]
  exact ⟨fun hd => hi ((dirichlet_dof_iff _ _).1 hd), fun hd => hj ((dirichlet_dof_iff _ _).1 hd)⟩

/-- C8: on a mesh whose element and boundary node numbers are below `2^30`, for every
member `k = (n, c)` of `kinematic_nodes_set`, with `d = 2 * n + c` its degree of freedom,
the entries of the free-block list of `triplets_fill` whose row or column is `d` are a
single entry, and this entry has row `d`, column `d` and value 1. -/
theorem triplets_fill_identity_rows {F : Type} [LinearOrderedField F] (mesh : mesh_2d F)
    (hnum : mesh.small_numbers) (params : parameters F) (bounds_cond : List (bound_cond F))
    (hbound : mesh.small_boundary bounds_cond.length)
    (p1 : F) (influence_fun : F → F → F → F → F) (quad : quadrature_tables F)
    (k : node_info) (hk : k ∈ kinematic_nodes_set mesh bounds_cond) :
    ∃ t, (triplets_fill mesh params bounds_cond p1 influence_fun quad).1.filter
          (fun t => decide (t.row.index = 2 * k.number + k.comp.toNat ∨
            t.col.index = 2 * k.number + k.comp.toNat)) = [t] ∧
      t.row.index = 2 * k.number + k.comp.toNat ∧
      t.col.index = 2 * k.number + k.comp.toNat ∧ t.value = 1 := by
  have hform : ∀ x, x ∈ kinematic_nodes_set mesh bounds_cond →
      (identity_triplet x : Triplet F).row.index = x.dof ∧
        (identity_triplet x : Triplet F).col.index = x.dof ∧
        (identity_triplet x : Triplet F).value = 1 := by
    intro x hx
    obtain ⟨b, node, c, hb, hnode, rfl⟩ := kinematic_nodes_mem mesh bounds_cond x hx
    exact identity_triplet_index node c (hbound b hb node hnode)
  have hkd : 2 * k.number + k.comp.toNat = k.dof := rfl
  have hdk : dirichlet (kinematic_nodes_set mesh bounds_cond) k.dof := ⟨k, hk, rfl⟩
  refine ⟨identity_triplet k, ?_, (hform k hk).1, (hform k hk).2.1, (hform k hk).2.2⟩
  rw [triplets_fill_eq mesh hnum]
  simp only
  rw [hkd, List.filter_append, List.filter_append]
  have h1 : ((kinematic_nodes_set mesh bounds_cond).map identity_triplet).filter
      (fun t : Triplet F => decide (t.row.index = k.dof ∨ t.col.index = k.dof)) =
        [identity_triplet k] := by
    rw [List.filter_map, filter_eq_singleton _ k _ (kinematic_nodes_nodup mesh bounds_cond) hk]
    · rfl
    · intro x hx
      simp only [Function.comp_apply, decide_eq_true_eq]
      rw [(hform x hx).1, (hform x hx).2.1, or_self]
      exact ⟨fun h => dof_injective _ _ h, fun h => by rw [h]⟩
  have h2 : ((List.range mesh.elements_count).flatMap
      (loc_free mesh (kinematic_nodes_set mesh bounds_cond) quad (coeffs params) p1)).filter
      (fun t : Triplet F => decide (t.row.index = k.dof ∨ t.col.index = k.dof)) = [] := by
    apply List.filter_eq_nil_iff.2
    intro t ht
    obtain ⟨el, -, hel⟩ := List.mem_flatMap.1 ht
    unfold loc_free at hel
    obtain ⟨p, -, hp⟩ := List.mem_filterMap.1 hel
    obtain ⟨hr, hc⟩ := free_triplet_not_dirichlet mesh hnum _ _ _ _ _ _ t hp
    simp only [decide_eq_true_eq]
    rintro (h | h)
    · exact hr (h ▸ hdk)
    · exact hc (h ▸ hdk)
  have h3 : (if p1 < MAX_LOCAL_WEIGHT then (List.range mesh.elements_count).flatMap
        (nonloc_free mesh (kinematic_nodes_set mesh bounds_cond) quad influence_fun
          (coeffs params) (1 - p1)) else []).filter
      (fun t : Triplet F => decide (t.row.index = k.dof ∨ t.col.index = k.dof)) = [] := by
    apply List.filter_eq_nil_iff.2
    intro t ht
    split at ht
    · obtain ⟨el, -, hel⟩ := List.mem_flatMap.1 ht
      unfold nonloc_free at hel
      obtain ⟨p, -, hp⟩ := List.mem_filterMap.1 hel
      obtain ⟨hr, hc⟩ := free_triplet_not_dirichlet mesh hnum _ _ _ _ _ _ t hp
      simp only [decide_eq_true_eq]
      rintro (h | h)
      · exact hr (h ▸ hdk)
      · exact hc (h ▸ hdk)
    · cases ht
  rw [h1, h2, h3]
  rfl

/-! ## The example mesh -/

theorem plate_small : plate_mesh.small_numbers := by decide

theorem plate_kinematic_nodes :
    kinematic_nodes_set plate_mesh plate_bounds =
      [node_info.make 0 component.X, node_info.make 1 component.X] := by decide

theorem plate_bound_entry :
    ({ row := dof_info (node_info.make 1 component.X)
       col := dof_info (node_info.make 0 component.X)
       value := 1 * loc_value plate_mesh plate_quad (coeffs plate_params) 0
         (node_info.make 1 component.X, node_info.make 0 component.X) } : Triplet ℚ) ∈
      (triplets_fill plate_mesh plate_params plate_bounds 1 constant_influence plate_quad).2 := by
  rw [triplets_fill_eq plate_mesh plate_small]
  apply List.mem_append_left
  refine List.mem_flatMap.2 ⟨0, by decide, ?_⟩
  unfold loc_bound
  refine List.mem_filterMap.2
    ⟨(node_info.make 1 component.X, node_info.make 0 component.X), by decide, ?_⟩
  rw [bound_triplet_pos]
  have hp : bound_pos plate_mesh (kinematic_nodes_set plate_mesh plate_bounds)
      (node_info.make 1 component.X) (node_info.make 0 component.X) 0 0 =
        some (dof_info (node_info.make 1 component.X),
          dof_info (node_info.make 0 component.X)) := by decide
  rw [hp]
  rfl

theorem filler_loc_dof_indices_witness :
    (filler_loc plate_mesh (kinematic_nodes_set plate_mesh plate_bounds) plate_quad 1
        (coeffs plate_params) plate_state (node_info.make 2 component.Y)
        (node_info.make 2 component.X) 0).triplets = plate_state.triplets ∨
      ∃ t, (filler_loc plate_mesh (kinematic_nodes_set plate_mesh plate_bounds) plate_quad 1
          (coeffs plate_params) plate_state (node_info.make 2 component.Y)
          (node_info.make 2 component.X) 0).triplets =
            plate_state.triplets.set (plate_state.shifts.getD 0 0) t ∧
        t.row.index = 2 * plate_mesh.node_number 0 2 + component.Y.toNat ∧
        t.col.index = 2 * plate_mesh.node_number 0 2 + component.X.toNat :=
  (filler_loc_dof_indices plate_mesh (by decide)
    (kinematic_nodes_set plate_mesh plate_bounds) plate_quad 1 (coeffs plate_params)
    plate_state 2 2 component.Y component.X 0 (by decide) (by decide)).1

theorem filler_free_or_bound_witness :
    (filler_loc plate_mesh (kinematic_nodes_set plate_mesh plate_bounds) plate_quad (1 / 2)
        (coeffs plate_params) plate_state (node_info.make 2 component.X)
        (node_info.make 1 component.X) 0).triplets = plate_state.triplets ∧
      (filler_loc plate_mesh (kinematic_nodes_set plate_mesh plate_bounds) plate_quad (1 / 2)
        (coeffs plate_params) plate_state (node_info.make 2 component.X)
        (node_info.make 1 component.X) 0).shifts = plate_state.shifts ∧
      (filler_loc plate_mesh (kinematic_nodes_set plate_mesh plate_bounds) plate_quad (1 / 2)
        (coeffs plate_params) plate_state (node_info.make 2 component.X)
        (node_info.make 1 component.X) 0).shifts_bound = [1, 1, 2] := by
  have h := ((filler_free_or_bound plate_mesh (by decide)
    (kinematic_nodes_set plate_mesh plate_bounds) plate_quad constant_influence (1 / 2)
    (1 / 2) (coeffs plate_params) plate_state (node_info.make 2 component.X)
    (node_info.make 1 component.X) 0 1).1 (by decide)).2 (Or.inr (by decide))
  exact ⟨h.1, h.2.1, (h.2.2 (by decide)).2⟩

theorem plate_nonloc_entry :
    entry_sum ((List.range plate_mesh.elements_count).flatMap
      (nonloc_free plate_mesh (kinematic_nodes_set plate_mesh plate_bounds) plate_quad
        constant_influence (coeffs plate_params) 1)) 7 7 = 11 / 30 := by
  rw [entry_sum_flatMap]
  have hr : List.range plate_mesh.elements_count = [0, 1] := by decide
  rw [hr]
  simp only [List.map_cons, List.map_nil, List.sum_cons, List.sum_nil, entry_sum_nonloc_free]
  have h0 : (nonloc_pairs plate_mesh 0).filter
      (fun p => at_pos (free_pos plate_mesh (kinematic_nodes_set plate_mesh plate_bounds)
        p.1 p.2.1 0 p.2.2) 7 7) = [] := by decide
  have h1 : (nonloc_pairs plate_mesh 1).filter
      (fun p => at_pos (free_pos plate_mesh (kinematic_nodes_set plate_mesh plate_bounds)
        p.1 p.2.1 1 p.2.2) 7 7) =
        [(node_info.make 2 component.Y, node_info.make 2 component.Y, 1)] := by decide
  rw [h0, h1]
  simp only [List.map_cons, List.map_nil, List.sum_cons, List.sum_nil]
  have hv : nonloc_value plate_mesh plate_quad constant_influence (coeffs plate_params) 1
      (node_info.make 2 component.Y, node_info.make 2 component.Y, 1) = 11 / 30 := by
    simp [nonloc_value, integrate_nonloc, finit, node_info.make, node_info.index, plate_mesh,
      plate_quad, triangle_element, constant_influence, coeffs, plate_params,
      List.range_succ]
    norm_num
  rw [hv]
  norm_num

theorem triplets_fill_entry_sum_witness :
    entry_sum (triplets_fill plate_mesh plate_params plate_bounds (1 / 2) constant_influence
        plate_quad).1 7 7 =
      entry_sum ((kinematic_nodes_set plate_mesh plate_bounds).map identity_triplet) 7 7 +
        (1 / 2 * entry_sum ((List.range plate_mesh.elements_count).flatMap
            (loc_free plate_mesh (kinematic_nodes_set plate_mesh plate_bounds) plate_quad
              (coeffs plate_params) 1)) 7 7 +
          (1 - 1 / 2) * entry_sum ((List.range plate_mesh.elements_count).flatMap
            (nonloc_free plate_mesh (kinematic_nodes_set plate_mesh plate_bounds) plate_quad
              constant_influence (coeffs plate_params) 1)) 7 7) ∧
    entry_sum (triplets_fill plate_mesh plate_params plate_bounds (1 / 2) constant_influence
        plate_quad).2 7 7 =
      1 / 2 * entry_sum ((List.range plate_mesh.elements_count).flatMap
          (loc_bound plate_mesh (kinematic_nodes_set plate_mesh plate_bounds) plate_quad
            (coeffs plate_params) 1)) 7 7 +
        (1 - 1 / 2) * entry_sum ((List.range plate_mesh.elements_count).flatMap
          (nonloc_bound plate_mesh (kinematic_nodes_set plate_mesh plate_bounds) plate_quad
            constant_influence (coeffs plate_params) 1)) 7 7 :=
  (triplets_fill_entry_sum plate_mesh (by decide) plate_params plate_bounds (1 / 2)
    constant_influence plate_quad 7 7).1 (by unfold MAX_LOCAL_WEIGHT; norm_num)

/-- C6, as stated, fails for a local weight between 0.999 and 1, and at the diagonal
position of a Dirichlet degree of freedom.  On `plate_mesh` with `p1 = 1999/2000` the
nonlocal pass does not run, so the entry `(7, 7)` of the free block is `p1` times the local
sum alone, while the nonlocal sum there is `11/30`.  With `p1 = 1/2` the entry `(0, 0)`,
the held X component of node 0, is the identity entry 1, while no pair contributes an
integral there. -/
theorem triplets_fill_entry_sum_counterexample :
    ((0 : ℚ) ≤ 1999 / 2000 ∧ (1999 / 2000 : ℚ) ≤ 1 ∧
      entry_sum (triplets_fill plate_mesh plate_params plate_bounds (1999 / 2000)
          constant_influence plate_quad).1 7 7 ≠
        1999 / 2000 * entry_sum ((List.range plate_mesh.elements_count).flatMap
            (loc_free plate_mesh (kinematic_nodes_set plate_mesh plate_bounds) plate_quad
              (coeffs plate_params) 1)) 7 7 +
          (1 - 1999 / 2000) * entry_sum ((List.range plate_mesh.elements_count).flatMap
            (nonloc_free plate_mesh (kinematic_nodes_set plate_mesh plate_bounds) plate_quad
              constant_influence (coeffs plate_params) 1)) 7 7) ∧
    ((0 : ℚ) ≤ 1 / 2 ∧ (1 / 2 : ℚ) ≤ 1 ∧
      entry_sum (triplets_fill plate_mesh plate_params plate_bounds (1 / 2)
          constant_influence plate_quad).1 0 0 ≠
        1 / 2 * entry_sum ((List.range plate_mesh.elements_count).flatMap
            (loc_free plate_mesh (kinematic_nodes_set plate_mesh plate_bounds) plate_quad
              (coeffs plate_params) 1)) 0 0 +
          (1 - 1 / 2) * entry_sum ((List.range plate_mesh.elements_count).flatMap
            (nonloc_free plate_mesh (kinematic_nodes_set plate_mesh plate_bounds) plate_quad
              constant_influence (coeffs plate_params) 1)) 0 0) := by
  have hr : List.range plate_mesh.elements_count = [0, 1] := by decide
  constructor
  · refine ⟨by norm_num, by norm_num, ?_⟩
    have hw : ¬ ((1999 / 2000 : ℚ) < MAX_LOCAL_WEIGHT) := by
      unfold MAX_LOCAL_WEIGHT
      norm_num
    have hid : entry_sum (((kinematic_nodes_set plate_mesh plate_bounds).map identity_triplet) :
        List (Triplet ℚ)) 7 7 = 0 := by
      rw [plate_kinematic_nodes]
      unfold entry_sum
      have hf : (([node_info.make 0 component.X, node_info.make 1 component.X].map
          identity_triplet : List (Triplet ℚ)).filter
          (fun t => decide (t.row.index = 7 ∧ t.col.index = 7))) = [] := by
        apply List.filter_eq_nil_iff.2
        intro t ht
        simp only [List.map_cons, List.map_nil, List.mem_cons, List.mem_singleton,
          List.not_mem_nil, or_false] at ht
        rcases ht with rfl | rfl <;> decide
      rw [hf]
      rfl
    have hl := entry_sum_weight
      (fun w => loc_free plate_mesh (kinematic_nodes_set plate_mesh plate_bounds) plate_quad
        (coeffs plate_params) w) _
      (fun w el r c =>
        entry_sum_loc_free plate_mesh _ plate_quad (coeffs plate_params) w el r c)
      (List.range plate_mesh.elements_count) (1999 / 2000) 7 7
    simp only at hl
    rw [triplets_fill_eq plate_mesh plate_small, if_neg hw]
    simp only [List.append_nil]
    rw [entry_sum_append, hid, hl, plate_nonloc_entry]
    intro h
    norm_num at h
  · refine ⟨by norm_num, by norm_num, ?_⟩
    have hw : (1 / 2 : ℚ) < MAX_LOCAL_WEIGHT := by
      unfold MAX_LOCAL_WEIGHT
      norm_num
    have hid : entry_sum (((kinematic_nodes_set plate_mesh plate_bounds).map identity_triplet) :
        List (Triplet ℚ)) 0 0 = 1 := by
      rw [plate_kinematic_nodes]
      unfold entry_sum
      have hf : (([node_info.make 0 component.X, node_info.make 1 component.X].map
          identity_triplet : List (Triplet ℚ)).filter
          (fun t => decide (t.row.index = 0 ∧ t.col.index = 0))) =
            [identity_triplet (node_info.make 0 component.X)] := by
        rw [List.map_cons, List.map_cons, List.map_nil,
          List.filter_cons_of_pos (by decide), List.filter_cons_of_neg (by decide),
          List.filter_nil]
      rw [hf]
      simp [identity_triplet]
    have hl0 : entry_sum ((List.range plate_mesh.elements_count).flatMap
        (loc_free plate_mesh (kinematic_nodes_set plate_mesh plate_bounds) plate_quad
          (coeffs plate_params) 1)) 0 0 = 0 := by
      rw [entry_sum_flatMap, hr]
      simp only [List.map_cons, List.map_nil, List.sum_cons, List.sum_nil, entry_sum_loc_free]
      have h0 : (loc_pairs plate_mesh 0).filter
          (fun p => at_pos (free_pos plate_mesh (kinematic_nodes_set plate_mesh plate_bounds)
            p.1 p.2 0 0) 0 0) = [] := by decide
      have h1 : (loc_pairs plate_mesh 1).filter
          (fun p => at_pos (free_pos plate_mesh (kinematic_nodes_set plate_mesh plate_bounds)
            p.1 p.2 1 1) 0 0) = [] := by decide
      rw [h0, h1]
      simp
    have hn0 : entry_sum ((List.range plate_mesh.elements_count).flatMap
        (nonloc_free plate_mesh (kinematic_nodes_set plate_mesh plate_bounds) plate_quad
          constant_influence (coeffs plate_params) 1)) 0 0 = 0 := by
      rw [entry_sum_flatMap, hr]
      simp only [List.map_cons, List.map_nil, List.sum_cons, List.sum_nil,
        entry_sum_nonloc_free]
      have h0 : (nonloc_pairs plate_mesh 0).filter
          (fun p => at_pos (free_pos plate_mesh (kinematic_nodes_set plate_mesh plate_bounds)
            p.1 p.2.1 0 p.2.2) 0 0) = [] := by decide
      have h1 : (nonloc_pairs plate_mesh 1).filter
          (fun p => at_pos (free_pos plate_mesh (kinematic_nodes_set plate_mesh plate_bounds)
            p.1 p.2.1 1 p.2.2) 0 0) = [] := by decide
      rw [h0, h1]
      simp
    have hl := entry_sum_weight
      (fun w => loc_free plate_mesh (kinematic_nodes_set plate_mesh plate_bounds) plate_quad
        (coeffs plate_params) w) _
      (fun w el r c =>
        entry_sum_loc_free plate_mesh _ plate_quad (coeffs plate_params) w el r c)
      (List.range plate_mesh.elements_count) (1 / 2) 0 0
    have hn := entry_sum_weight
      (fun w => nonloc_free plate_mesh (kinematic_nodes_set plate_mesh plate_bounds)
        plate_quad constant_influence (coeffs plate_params) w) _
      (fun w el r c => entry_sum_nonloc_free plate_mesh _ plate_quad constant_influence
        (coeffs plate_params) w el r c)
      (List.range plate_mesh.elements_count) (1 - 1 / 2) 0 0
    simp only at hl hn
    rw [triplets_fill_eq plate_mesh plate_small, if_pos hw]
    simp only
    rw [entry_sum_append, entry_sum_append, hid, hl, hn, hl0, hn0]
    norm_num

theorem triplets_fill_local_only_witness :
    (∀ other_fun : ℚ → ℚ → ℚ → ℚ → ℚ,
      triplets_fill plate_mesh plate_params plate_bounds 1 other_fun plate_quad =
        triplets_fill plate_mesh plate_params plate_bounds 1 constant_influence plate_quad) ∧
    (triplets_fill plate_mesh plate_params plate_bounds 1 constant_influence plate_quad).1 =
      (kinematic_nodes_set plate_mesh plate_bounds).map identity_triplet ++
        (List.range plate_mesh.elements_count).flatMap
          (fun el => (loc_pairs plate_mesh el).filterMap
            (fun p => free_triplet plate_mesh (kinematic_nodes_set plate_mesh plate_bounds)
              p.1 p.2 el el
              (integrate_loc (plate_mesh.element_2d (plate_mesh.element_type el)) p.1 p.2
                plate_quad.all_jacobi_matrices (plate_quad.shifts_quad.getD el 0)
                (coeffs plate_params)))) ∧
    (triplets_fill plate_mesh plate_params plate_bounds 1 constant_influence plate_quad).2 =
      (List.range plate_mesh.elements_count).flatMap
        (fun el => (loc_pairs plate_mesh el).filterMap
          (fun p => bound_triplet plate_mesh (kinematic_nodes_set plate_mesh plate_bounds)
            p.1 p.2 el el
            (integrate_loc (plate_mesh.element_2d (plate_mesh.element_type el)) p.1 p.2
              plate_quad.all_jacobi_matrices (plate_quad.shifts_quad.getD el 0)
              (coeffs plate_params)))) :=
  triplets_fill_local_only plate_mesh (by decide) plate_params plate_bounds
    constant_influence plate_quad

theorem triplets_fill_identity_rows_witness :
    ∃ t, (triplets_fill plate_mesh plate_params plate_bounds (1 / 2) constant_influence
          plate_quad).1.filter
          (fun t => decide
            (t.row.index = 2 * (node_info.make 1 component.X).number +
                (node_info.make 1 component.X).comp.toNat ∨
              t.col.index = 2 * (node_info.make 1 component.X).number +
                (node_info.make 1 component.X).comp.toNat)) = [t] ∧
      t.row.index = 2 * (node_info.make 1 component.X).number +
        (node_info.make 1 component.X).comp.toNat ∧
      t.col.index = 2 * (node_info.make 1 component.X).number +
        (node_info.make 1 component.X).comp.toNat ∧ t.value = 1 :=
  triplets_fill_identity_rows plate_mesh (by decide) plate_params plate_bounds (by decide)
    (1 / 2) constant_influence plate_quad (node_info.make 1 component.X) (by decide)

theorem triplets_bound_columns_witness :
    dirichlet (kinematic_nodes_set plate_mesh plate_bounds)
        (dof_info (node_info.make 0 component.X)).index ∧
      (dof_info (node_info.make 1 component.X)).index ≠
        (dof_info (node_info.make 0 component.X)).index :=
  triplets_bound_columns plate_mesh (by decide) plate_params plate_bounds 1
    constant_influence plate_quad _ plate_bound_entry

/-- C10, as stated, fails for a pair of two Dirichlet degrees of freedom: on `plate_mesh`,
where the X components of the nodes 0 and 1 are held, the boundary-block list has an entry
with row 2 and column 0, and 2, the X component of node 1, is a Dirichlet degree of
freedom. -/
theorem triplets_bound_row_counterexample :
    ∃ t, t ∈ (triplets_fill plate_mesh plate_params plate_bounds 1 constant_influence
        plate_quad).2 ∧
      t.row.index = 2 ∧ t.col.index = 0 ∧
      dirichlet (kinematic_nodes_set plate_mesh plate_bounds) t.row.index :=
  ⟨_, plate_bound_entry, by decide, by decide, by decide⟩

/-! ## The lower triangle -/

theorem free_triplet_lower {F : Type} (mesh : mesh_2d F) (kinematic_nodes : List node_info)
    (node_i node_j : node_info) (el el' : Nat) (v : F) (t : Triplet F)
    (h : free_triplet mesh kinematic_nodes node_i node_j el el' v = some t) :
    t.col.index ≤ t.row.index := by
  unfold free_triplet at h
  simp only at h
  split at h
  · next hc =>
    rw [← Option.some.inj h]
    exact hc.1
  · cases h

/-- C11: on a mesh whose node numbers are below `2^30`, every entry of the free-block list
that `triplets_fill` returns (identity entries, entries of the local pass and entries of the
nonlocal pass) has a row index that is at least its column index. -/
theorem triplets_fill_lower_triangular {F : Type} [LinearOrderedField F] (mesh : mesh_2d F)
    (hnum : mesh.small_numbers) (params : parameters F) (bounds_cond : List (bound_cond F))
    (p1 : F) (influence_fun : F → F → F → F → F) (quad : quadrature_tables F)
    (t : Triplet F)
    (ht : t ∈ (triplets_fill mesh params bounds_cond p1 influence_fun quad).1) :
    t.col.index ≤ t.row.index := by
  rw [triplets_fill_eq mesh hnum] at ht
  simp only at ht
  rcases List.mem_append.1 ht with h | h
  · rcases List.mem_append.1 h with h | h
    · obtain ⟨k, -, rfl⟩ := List.mem_map.1 h
      exact le_rfl
    · obtain ⟨el, -, hel⟩ := List.mem_flatMap.1 h
      unfold loc_free at hel
      obtain ⟨p, -, hp⟩ := List.mem_filterMap.1 hel
      exact free_triplet_lower mesh _ _ _ _ _ _ t hp
  · split at h
    · obtain ⟨el, -, hel⟩ := List.mem_flatMap.1 h
      unfold nonloc_free at hel
      obtain ⟨p, -, hp⟩ := List.mem_filterMap.1 hel
      exact free_triplet_lower mesh _ _ _ _ _ _ t hp
    · cases h

theorem plate_free_entry :
    ({ row := dof_info (node_info.make 2 component.Y)
       col := dof_info (node_info.make 2 component.X)
       value := 1 / 2 * loc_value plate_mesh plate_quad (coeffs plate_params) 0
         (node_info.make 2 component.Y, node_info.make 2 component.X) } : Triplet ℚ) ∈
      (triplets_fill plate_mesh plate_params plate_bounds (1 / 2) constant_influence
        plate_quad).1 := by
  rw [triplets_fill_eq plate_mesh plate_small]
  apply List.mem_append_left
  apply List.mem_append_right
  refine List.mem_flatMap.2 ⟨0, by decide, ?_⟩
  unfold loc_free
  refine List.mem_filterMap.2
    ⟨(node_info.make 2 component.Y, node_info.make 2 component.X), by decide, ?_⟩
  rw [free_triplet_pos]
  have hp : free_pos plate_mesh (kinematic_nodes_set plate_mesh plate_bounds)
      (node_info.make 2 component.Y) (node_info.make 2 component.X) 0 0 =
        some (dof_info (node_info.make 2 component.Y),
          dof_info (node_info.make 2 component.X)) := by decide
  rw [hp]
  rfl

theorem triplets_fill_lower_triangular_witness :
    (dof_info (node_info.make 2 component.X)).index ≤
      (dof_info (node_info.make 2 component.Y)).index :=
  triplets_fill_lower_triangular plate_mesh (by decide) plate_params plate_bounds (1 / 2)
    constant_influence plate_quad _ plate_free_entry

/-! ## Symmetry of the integrals -/

/-- C12: the local element integral is symmetric: exchanging the two (node, component)
arguments of `integrate_loc` does not change its value, for every element, all
coefficients and all Jacobi matrices (over an exact field). -/
theorem integrate_loc_symmetric {F : Type} [Field F] (e : element_2d_integrate_base F)
    (i j : node_info) (jacobi_matrices : Nat → Nat → F) (shift : Nat) (coeff : Fin 3 → F) :
    integrate_loc e i j jacobi_matrices shift coeff =
      integrate_loc e j i jacobi_matrices shift coeff := by
  obtain ⟨ni, ci⟩ := i
  obtain ⟨nj, cj⟩ := j
  cases ci <;> cases cj <;> simp only [integrate_loc] <;> congr 1 <;> funext integral q <;>
    ring

theorem foldl_add_eq_sum {F : Type} [Field F] (g : Nat → F) (n : Nat) :
    (List.range n).foldl (fun acc q => acc + g q) 0 = ∑ q in Finset.range n, g q := by
  induction n with
  | zero => rfl
  | succ n ih =>
    rw [List.range_succ, List.foldl_append, ih, Finset.sum_range_succ]
    rfl

theorem foldl_pair_eq_sum {F : Type} [Field F] (g1 g2 : Nat → F) (n : Nat) :
    (List.range n).foldl (fun (w : F × F) q => (w.1 + g1 q, w.2 + g2 q)) (0, 0) =
      (∑ q in Finset.range n, g1 q, ∑ q in Finset.range n, g2 q) := by
  induction n with
  | zero => rfl
  | succ n ih =>
    rw [List.range_succ, List.foldl_append, ih, Finset.sum_range_succ, Finset.sum_range_succ]
    rfl

/-- Exchange of the two quadrature sums of `integrate_nonloc`. -/
theorem double_sum_exchange {F : Type} [Field F] (n m : Nat) (a b : Nat → F)
    (phi psi : Nat → Nat → F) (hphi : ∀ p q, psi q p = phi p q) (c d : F)
    (P Q R S : Nat → F) :
    ∑ p in Finset.range n, a p *
        (c * (∑ q in Finset.range m, b q * phi p q * R q) * P p +
         d * (∑ q in Finset.range m, b q * phi p q * S q) * Q p) =
      ∑ q in Finset.range m, b q *
        (c * (∑ p in Finset.range n, a p * psi q p * P p) * R q +
         d * (∑ p in Finset.range n, a p * psi q p * Q p) * S q) := by
  have hl : ∀ p, a p *
        (c * (∑ q in Finset.range m, b q * phi p q * R q) * P p +
         d * (∑ q in Finset.range m, b q * phi p q * S q) * Q p) =
      ∑ q in Finset.range m, a p * b q * phi p q * (c * R q * P p + d * S q * Q p) := by
    intro p
    rw [mul_add, mul_assoc c, mul_assoc d, Finset.sum_mul, Finset.sum_mul, Finset.mul_sum,
      Finset.mul_sum, Finset.mul_sum, Finset.mul_sum, ← Finset.sum_add_distrib]
    apply Finset.sum_congr rfl
    intro q _
    ring
  have hr : ∀ q, b q *
        (c * (∑ p in Finset.range n, a p * psi q p * P p) * R q +
         d * (∑ p in Finset.range n, a p * psi q p * Q p) * S q) =
      ∑ p in Finset.range n, a p * b q * phi p q * (c * R q * P p + d * S q * Q p) := by
    intro q
    rw [mul_add, mul_assoc c, mul_assoc d, Finset.sum_mul, Finset.sum_mul, Finset.mul_sum,
      Finset.mul_sum, Finset.mul_sum, Finset.mul_sum, ← Finset.sum_add_distrib]
    apply Finset.sum_congr rfl
    intro p _
    rw [hphi p q]
    ring
  simp only [hl, hr]
  exact Finset.sum_comm

/-- C13: the nonlocal element-pair integral is symmetric under the exchange of the two
sides: for an influence function with
`influence(xL, xNL, yL, yNL) = influence(xNL, xL, yNL, yL)`, exchanging the two elements
together with their quadrature shifts and their (node, component) arguments does not change
the value of `integrate_nonloc` (over an exact field). -/
theorem integrate_nonloc_symmetric {F : Type} [Field F] (eL eNL : element_2d_integrate_base F)
    (iL jNL : node_info) (shiftL shiftNL : Nat) (coords jacobi_matrices : Nat → Nat → F)
    (influence_fun : F → F → F → F → F) (coeff : Fin 3 → F)
    (hsym : ∀ xL xNL yL yNL, influence_fun xL xNL yL yNL = influence_fun xNL xL yNL yL) :
    integrate_nonloc eL eNL iL jNL shiftL shiftNL coords jacobi_matrices influence_fun coeff =
      integrate_nonloc eNL eL jNL iL shiftNL shiftL coords jacobi_matrices influence_fun
        coeff := by
  obtain ⟨ni, ci⟩ := iL
  obtain ⟨nj, cj⟩ := jNL
  have hphi : ∀ p q,
      influence_fun (coords (shiftNL + q) 0) (coords (shiftL + p) 0)
          (coords (shiftNL + q) 1) (coords (shiftL + p) 1) =
        influence_fun (coords (shiftL + p) 0) (coords (shiftNL + q) 0)
          (coords (shiftL + p) 1) (coords (shiftNL + q) 1) :=
    fun p q => (hsym _ _ _ _).symm
  cases ci <;> cases cj <;>
    simp only [integrate_nonloc, finit, foldl_pair_eq_sum, foldl_add_eq_sum] <;>
    exact double_sum_exchange eL.qnodes_count eNL.qnodes_count eL.weight eNL.weight
      (fun p q => influence_fun (coords (shiftL + p) 0) (coords (shiftNL + q) 0)
        (coords (shiftL + p) 1) (coords (shiftNL + q) 1))
      (fun q p => influence_fun (coords (shiftNL + q) 0) (coords (shiftL + p) 0)
        (coords (shiftNL + q) 1) (coords (shiftL + p) 1)) hphi _ _ _ _ _ _

theorem integrate_nonloc_symmetric_witness :
    integrate_nonloc triangle_element triangle_element (node_info.make 1 component.X)
        (node_info.make 2 component.Y) 0 1 plate_quad.all_quad_coords
        plate_quad.all_jacobi_matrices constant_influence (coeffs plate_params) =
      integrate_nonloc triangle_element triangle_element (node_info.make 2 component.Y)
        (node_info.make 1 component.X) 1 0 plate_quad.all_quad_coords
        plate_quad.all_jacobi_matrices constant_influence (coeffs plate_params) :=
  integrate_nonloc_symmetric triangle_element triangle_element _ _ 0 1 _ _
    constant_influence _ (fun _ _ _ _ => rfl)

/-! ## The quadratic form of the local element matrix -/

/-- C14 fails on `integrate_loc`: for the linear triangle with weight `1/2` and the Jacobi
matrix `(1, 1, 0, 1)` of determinant 1, Young's modulus 1 and Poisson's ratio `1/2`, the
quadratic form of the local element matrix at `shear_vector` is `-1/3`.  The entries
involved are `A[(2,X),(2,X)] = A[(0,Y),(0,Y)] = 1/6` and
`A[(2,X),(0,Y)] = A[(0,Y),(2,X)] = -1/3`: in the mixed branches `coeff[1]` multiplies the
y-derivative of the first function and the x-derivative of the second. -/
theorem integrate_loc_form_negative :
    (0 : ℚ) < rubber_params.E ∧ -1 < rubber_params.nu ∧ rubber_params.nu < 1 ∧
    (∀ q, 0 < triangle_element.weight q) ∧
    (0 : ℚ) < plate_quad.all_jacobi_matrices 0 0 * plate_quad.all_jacobi_matrices 0 3 -
      plate_quad.all_jacobi_matrices 0 1 * plate_quad.all_jacobi_matrices 0 2 ∧
    integrate_loc triangle_element (node_info.make 2 component.X)
      (node_info.make 0 component.Y) plate_quad.all_jacobi_matrices 0
      (coeffs rubber_params) = -1 / 3 ∧
    local_form triangle_element plate_quad.all_jacobi_matrices 0 (coeffs rubber_params)
      shear_vector = -1 / 3 ∧
    local_form triangle_element plate_quad.all_jacobi_matrices 0 (coeffs rubber_params)
      shear_vector < 0 := by
  have hform : local_form triangle_element plate_quad.all_jacobi_matrices 0
      (coeffs rubber_params) shear_vector = -1 / 3 := by
    simp [local_form, element_dofs, triangle_element, List.range_succ, shear_vector,
      integrate_loc, node_info.make, node_info.index, plate_quad, coeffs, rubber_params]
    norm_num
  refine ⟨by norm_num [rubber_params], by norm_num [rubber_params],
    by norm_num [rubber_params], fun q => by norm_num [triangle_element],
    by norm_num [plate_quad], ?_, hform, ?_⟩
  · simp [triangle_element, integrate_loc, node_info.make, node_info.index, plate_quad, coeffs,
      rubber_params, List.range_succ]
    norm_num
  · rw [hform]
    norm_num

/-! ## `translation` -/

theorem sub_fold_length {F : Type} [Field F] (temp : F) (es : List (Nat × F)) (f : List F) :
    (es.foldl (fun f it => f.set it.1 (f.getD it.1 0 - temp * it.2)) f).length = f.length := by
  induction es generalizing f with
  | nil => rfl
  | cons e es ih => rw [List.foldl_cons, ih, List.length_set]

theorem sub_fold_getD {F : Type} [Field F] (temp : F) (es : List (Nat × F)) (f : List F)
    (i : Nat) (hi : i < f.length) :
    (es.foldl (fun f it => f.set it.1 (f.getD it.1 0 - temp * it.2)) f).getD i 0 =
      f.getD i 0 - temp * ((es.filter (fun it => decide (it.1 = i))).map Prod.snd).sum := by
  induction es generalizing f with
  | nil => simp
  | cons e es ih =>
    rw [List.foldl_cons, ih _ (by rw [List.length_set]; exact hi)]
    by_cases he : e.1 = i
    · rw [List.filter_cons_of_pos (by simpa using he), List.map_cons, List.sum_cons, he,
        CuthillMcKee.getD_set_eq _ _ _ _ hi]
      ring
    · rw [List.filter_cons_of_neg (by simpa using he), CuthillMcKee.getD_set_ne _ _ _ _ _ he]

theorem sub_fold_outside {F : Type} [Field F] (temp : F) (es : List (Nat × F)) (f : List F)
    (i : Nat) (hi : ∀ e, e ∈ es → e.1 ≠ i) :
    (es.foldl (fun f it => f.set it.1 (f.getD it.1 0 - temp * it.2)) f).getD i 0 =
      f.getD i 0 := by
  induction es generalizing f with
  | nil => rfl
  | cons e es ih =>
    rw [List.foldl_cons, ih _ (fun e' he' => hi e' (List.mem_cons_of_mem _ he')),
      CuthillMcKee.getD_set_ne _ _ _ _ _ (hi e (List.mem_cons_self _ _))]

theorem filter_row_of_nodup {F : Type} (es : List (Nat × F)) (i : Nat) (v : F)
    (hnd : (es.map Prod.fst).Nodup) (hmem : (i, v) ∈ es) :
    es.filter (fun it => decide (it.1 = i)) = [(i, v)] := by
  induction es with
  | nil => cases hmem
  | cons e es ih =>
    rw [List.map_cons, List.nodup_cons] at hnd
    rcases List.mem_cons.1 hmem with h | h
    · subst h
      rw [List.filter_cons_of_pos (by simp)]
      congr 1
      apply List.filter_eq_nil_iff.2
      intro e' he' hrow
      exact hnd.1 (List.mem_map.2 ⟨e', he', by simpa using hrow⟩)
    · have hne : e.1 ≠ i := fun heq =>
        hnd.1 (List.mem_map.2 ⟨(i, v), h, heq.symm⟩)
      rw [List.filter_cons_of_neg (by simpa using hne)]
      exact ih hnd.2 h

/-- C17: `translation(mesh, K_bound, f, boundaryFun, dof)` keeps the size of `f`; with `u`
the value of `boundaryFun` at the coordinates of the node `dof / 2`, it subtracts from
`f[i]` the product of `u` and the sum of the stored values of column `dof` in row `i`; when
the stored entries of the column have different rows (as they have in a compressed matrix)
it subtracts `u * K_bound[i, dof]` from `f[i]` for every stored entry `(i, dof)`; and it
leaves every entry of `f` whose row has no stored entry in column `dof` as it is. -/
theorem translation_column {F : Type} [Field F] (mesh : mesh_2d F) (K_bound : SparseMatrix F)
    (f : List F) (boundaryFun : F → F → F) (dof : Nat) :
    (translation mesh K_bound f boundaryFun dof).length = f.length ∧
    (∀ i, i < f.length →
      (translation mesh K_bound f boundaryFun dof).getD i 0 =
        f.getD i 0 - boundaryFun (mesh.coord (dof / 2) 0) (mesh.coord (dof / 2) 1) *
          (((K_bound.column dof).filter (fun it => decide (it.1 = i))).map Prod.snd).sum) ∧
    (((K_bound.column dof).map Prod.fst).Nodup →
      ∀ i v, (i, v) ∈ K_bound.column dof → i < f.length →
        (translation mesh K_bound f boundaryFun dof).getD i 0 =
          f.getD i 0 - boundaryFun (mesh.coord (dof / 2) 0) (mesh.coord (dof / 2) 1) * v) ∧
    (∀ i, (∀ e, e ∈ K_bound.column dof → e.1 ≠ i) →
      (translation mesh K_bound f boundaryFun dof).getD i 0 = f.getD i 0) := by
  refine ⟨sub_fold_length _ _ _, fun i hi => sub_fold_getD _ _ _ i hi, ?_,
    fun i hi => sub_fold_outside _ _ _ i hi⟩
  intro hnd i v hmem hi
  have h := sub_fold_getD
    (boundaryFun (mesh.coord (dof / 2) 0) (mesh.coord (dof / 2) 1)) (K_bound.column dof) f i hi
  rw [filter_row_of_nodup _ i v hnd hmem, List.map_cons, List.map_nil, List.sum_cons,
    List.sum_nil, add_zero] at h
  exact h

/-! ## The passes of `boundary_condition` -/

theorem pin_pass_eq {F : Type} [Field F] (mesh : mesh_2d F)
    (temperature_nodes : List (List Nat)) (bounds_cond : List (bound_cond F)) (f : List F) :
    pin_pass mesh temperature_nodes bounds_cond f =
      (pin_writes mesh temperature_nodes bounds_cond).foldl (fun f w => f.set w.1 w.2) f := by
  unfold pin_pass pin_writes
  rw [CuthillMcKee.foldl_flatMap_eq]
  congr 1
  funext f b
  rw [List.foldl_append]
  by_cases hx : translation_x bounds_cond b = true <;>
    by_cases hy : translation_y bounds_cond b = true <;>
    simp only [hx, hy, if_true, if_false, List.foldl_map, List.foldl_nil, Bool.false_eq_true]

theorem pin_fold_length {α : Type} (ws : List (Nat × α)) (f : List α) :
    (ws.foldl (fun f w => f.set w.1 w.2) f).length = f.length := by
  induction ws generalizing f with
  | nil => rfl
  | cons w ws ih => rw [List.foldl_cons, ih, List.length_set]

theorem write_fold_untouched {α : Type} (ws : List (Nat × α)) (f : List α) (d : Nat) (x : α)
    (h : ∀ w, w ∈ ws → w.1 ≠ d) :
    (ws.foldl (fun f w => f.set w.1 w.2) f).getD d x = f.getD d x := by
  induction ws generalizing f with
  | nil => rfl
  | cons w ws ih =>
    rw [List.foldl_cons, ih _ (fun w' hw' => h w' (List.mem_cons_of_mem _ hw')),
      CuthillMcKee.getD_set_ne _ _ _ _ _ (h w (List.mem_cons_self _ _))]

/-- After a sequence of writes, an index that is written, always with the same value, holds
that value. -/
theorem write_fold_getD {α : Type} (ws : List (Nat × α)) (f : List α) (d : Nat) (v x : α)
    (hd : d < f.length) (hex : ∃ w, w ∈ ws ∧ w.1 = d)
    (hall : ∀ w, w ∈ ws → w.1 = d → w.2 = v) :
    (ws.foldl (fun f w => f.set w.1 w.2) f).getD d x = v := by
  induction ws generalizing f with
  | nil =>
    obtain ⟨w, hw, -⟩ := hex
    cases hw
  | cons w ws ih =>
    rw [List.foldl_cons]
    by_cases hlater : ∃ w', w' ∈ ws ∧ w'.1 = d
    · exact ih _ (by rw [List.length_set]; exact hd) hlater
        (fun w' hw' => hall w' (List.mem_cons_of_mem _ hw'))
    · have hw : w.1 = d := by
        obtain ⟨w', hw', hwd⟩ := hex
        rcases List.mem_cons.1 hw' with h | h
        · rw [← h]
          exact hwd
        · exact absurd ⟨w', h, hwd⟩ hlater
      rw [write_fold_untouched ws _ d x (fun w' hw' hwd => hlater ⟨w', hw', hwd⟩), hw,
        CuthillMcKee.getD_set_eq _ _ _ _ hd, ← hall w (List.mem_cons_self _ _) hw]

theorem force_loop_length {F : Type} [Field F] (sqrt : F → F) (mesh : mesh_2d F)
    (tables : boundary_tables F) (tau : F) (b : Nat) (func : F → F → F) (f : List F) :
    (force_loop sqrt mesh tables tau b func f).length = f.length := by
  unfold force_loop
  generalize List.range (mesh.boundary b).length = els
  induction els generalizing f with
  | nil => rfl
  | cons el els ih =>
    rw [List.foldl_cons, ih]
    generalize List.range ((mesh.boundary b).getD el []).length = is
    induction is generalizing f with
    | nil => rfl
    | cons i is ih2 => rw [List.foldl_cons, ih2, List.length_set]

theorem force_pass_length {F : Type} [Field F] (sqrt : F → F) (mesh : mesh_2d F)
    (tables : boundary_tables F) (bounds_cond : List (bound_cond F)) (tau : F)
    (f : List F) :
    (force_pass sqrt mesh tables bounds_cond tau f).length = f.length := by
  unfold force_pass
  generalize List.range bounds_cond.length = bs
  induction bs generalizing f with
  | nil => rfl
  | cons b bs ih =>
    rw [List.foldl_cons, ih]
    simp only
    split <;> split <;> simp only [force_loop_length]

theorem translation_fold_length {F : Type} [Field F] (mesh : mesh_2d F)
    (K_bound : SparseMatrix F) (func : F → F → F) (g : Nat → Nat) (nodes : List Nat)
    (f : List F) :
    (nodes.foldl (fun f node => translation mesh K_bound f func (g node)) f).length =
      f.length := by
  induction nodes generalizing f with
  | nil => rfl
  | cons n ns ih =>
    rw [List.foldl_cons, ih]
    exact sub_fold_length _ _ _

theorem translation_pass_length {F : Type} [Field F] (mesh : mesh_2d F)
    (temperature_nodes : List (List Nat)) (bounds_cond : List (bound_cond F))
    (K_bound : SparseMatrix F) (f : List F) :
    (translation_pass mesh temperature_nodes bounds_cond K_bound f).length = f.length := by
  unfold translation_pass
  generalize List.range temperature_nodes.length = bs
  induction bs generalizing f with
  | nil => rfl
  | cons b bs ih =>
    rw [List.foldl_cons, ih]
    simp only
    split <;> split <;>
      simp only [translation_fold_length mesh K_bound _ (fun node => (2 * node) % 2 ^ 32),
        translation_fold_length mesh K_bound _ (fun node => (2 * node + 1) % 2 ^ 32)]

theorem mem_pin_writes {F : Type} [Field F] (mesh : mesh_2d F)
    (temperature_nodes : List (List Nat)) (bounds_cond : List (bound_cond F))
    (w : Nat × F) (hw : w ∈ pin_writes mesh temperature_nodes bounds_cond) :
    ∃ b node, b < temperature_nodes.length ∧ node ∈ temperature_nodes.getD b [] ∧
      ((translation_x bounds_cond b = true ∧
          w = ((2 * node) % 2 ^ 32,
            func_x bounds_cond b (mesh.coord node 0) (mesh.coord node 1))) ∨
        (translation_y bounds_cond b = true ∧
          w = ((2 * node + 1) % 2 ^ 32,
            func_y bounds_cond b (mesh.coord node 0) (mesh.coord node 1)))) := by
  unfold pin_writes at hw
  obtain ⟨b, hb, hwb⟩ := List.mem_flatMap.1 hw
  rcases List.mem_append.1 hwb with h | h
  · split at h
    · next hx =>
      obtain ⟨node, hnode, rfl⟩ := List.mem_map.1 h
      exact ⟨b, node, List.mem_range.1 hb, hnode, Or.inl ⟨hx, rfl⟩⟩
    · cases h
  · split at h
    · next hy =>
      obtain ⟨node, hnode, rfl⟩ := List.mem_map.1 h
      exact ⟨b, node, List.mem_range.1 hb, hnode, Or.inr ⟨hy, rfl⟩⟩
    · cases h

theorem translation_x_iff {F : Type} (bounds_cond : List (bound_cond F)) (b : Nat) :
    translation_x bounds_cond b = true ↔
      ∃ c, bounds_cond[b]? = some c ∧ c.type_x = boundary_type.TRANSLATION := by
  unfold translation_x
  cases h : bounds_cond[b]? with
  | none => simp
  | some c => simp

theorem translation_y_iff {F : Type} (bounds_cond : List (bound_cond F)) (b : Nat) :
    translation_y bounds_cond b = true ↔
      ∃ c, bounds_cond[b]? = some c ∧ c.type_y = boundary_type.TRANSLATION := by
  unfold translation_y
  cases h : bounds_cond[b]? with
  | none => simp
  | some c => simp

/-- C15 (amended): after `boundary_condition`, for a vector `f` of at most `2^32` entries
that has the entries `2n` and `2n + 1` of every listed node `n`, for every boundary `b`
whose X (resp. Y) condition is `TRANSLATION` and every node `n` of `temperature_nodes[b]`,
the entry `f[2n]` (resp. `f[2n + 1]`) is the prescribed function at the coordinates of `n`,
for every initial `f`, every `tau`, every `K_bound` and all edge data, provided that the
boundaries that list `n` with the same kind of condition prescribe the same value at `n`
(each node is in one list only when the lists come from `kinematic_nodes_vectors`). -/
theorem boundary_condition_pins {F : Type} [Field F] (sqrt : F → F) (mesh : mesh_2d F)
    (tables : boundary_tables F) (temperature_nodes : List (List Nat))
    (bounds_cond : List (bound_cond F)) (tau : F) (K_bound : SparseMatrix F) (f : List F)
    (hlen : f.length ≤ 2 ^ 32)
    (hsize : ∀ b n, n ∈ temperature_nodes.getD b [] → 2 * n + 1 < f.length)
    (b n : Nat) (c : bound_cond F) (hb : b < temperature_nodes.length)
    (hc : bounds_cond[b]? = some c) (hn : n ∈ temperature_nodes.getD b []) :
    (c.type_x = boundary_type.TRANSLATION →
      (∀ b' c', bounds_cond[b']? = some c' → c'.type_x = boundary_type.TRANSLATION →
        n ∈ temperature_nodes.getD b' [] →
        c'.func_x (mesh.coord n 0) (mesh.coord n 1) =
          c.func_x (mesh.coord n 0) (mesh.coord n 1)) →
      (boundary_condition sqrt mesh tables temperature_nodes bounds_cond tau K_bound f).getD
          (2 * n) 0 = c.func_x (mesh.coord n 0) (mesh.coord n 1)) ∧
    (c.type_y = boundary_type.TRANSLATION →
      (∀ b' c', bounds_cond[b']? = some c' → c'.type_y = boundary_type.TRANSLATION →
        n ∈ temperature_nodes.getD b' [] →
        c'.func_y (mesh.coord n 0) (mesh.coord n 1) =
          c.func_y (mesh.coord n 0) (mesh.coord n 1)) →
      (boundary_condition sqrt mesh tables temperature_nodes bounds_cond tau K_bound f).getD
          (2 * n + 1) 0 = c.func_y (mesh.coord n 0) (mesh.coord n 1)) := by
  have hlen' : (translation_pass mesh temperature_nodes bounds_cond K_bound
      (force_pass sqrt mesh tables bounds_cond tau f)).length = f.length := by
    rw [translation_pass_length, force_pass_length]
  have hmod : ∀ b' n', n' ∈ temperature_nodes.getD b' [] →
      (2 * n') % 2 ^ 32 = 2 * n' ∧ (2 * n' + 1) % 2 ^ 32 = 2 * n' + 1 := by
    intro b' n' hn'
    have := hsize b' n' hn'
    exact ⟨Nat.mod_eq_of_lt (by omega), Nat.mod_eq_of_lt (by omega)⟩
  have hfx : ∀ b' c', bounds_cond[b']? = some c' → func_x bounds_cond b' = c'.func_x := by
    intro b' c' h
    unfold func_x
    rw [h]
  have hfy : ∀ b' c', bounds_cond[b']? = some c' → func_y bounds_cond b' = c'.func_y := by
    intro b' c' h
    unfold func_y
    rw [h]
  unfold boundary_condition
  rw [pin_pass_eq]
  constructor
  · intro hx hcons
    apply write_fold_getD
    · rw [hlen']
      have := hsize b n hn
      omega
    · refine ⟨((2 * n) % 2 ^ 32, func_x bounds_cond b (mesh.coord n 0) (mesh.coord n 1)),
        ?_, (hmod b n hn).1⟩
      unfold pin_writes
      refine List.mem_flatMap.2 ⟨b, List.mem_range.2 hb, List.mem_append_left _ ?_⟩
      rw [if_pos ((translation_x_iff _ _).2 ⟨c, hc, hx⟩)]
      exact List.mem_map.2 ⟨n, hn, rfl⟩
    · intro w hw hwd
      obtain ⟨b', n', -, hn', h | h⟩ := mem_pin_writes mesh temperature_nodes bounds_cond w hw
      · obtain ⟨hx', rfl⟩ := h
        obtain ⟨c', hc', hcx'⟩ := (translation_x_iff _ _).1 hx'
        simp only at hwd ⊢
        rw [(hmod b' n' hn').1] at hwd
        have hnn : n' = n := by omega
        subst hnn
        rw [hfx b' c' hc']
        exact hcons b' c' hc' hcx' hn'
      · obtain ⟨-, rfl⟩ := h
        simp only at hwd
        rw [(hmod b' n' hn').2] at hwd
        omega
  · intro hy hcons
    apply write_fold_getD
    · rw [hlen']
      exact hsize b n hn
    · refine ⟨((2 * n + 1) % 2 ^ 32,
        func_y bounds_cond b (mesh.coord n 0) (mesh.coord n 1)), ?_, (hmod b n hn).2⟩
      unfold pin_writes
      refine List.mem_flatMap.2 ⟨b, List.mem_range.2 hb, List.mem_append_right _ ?_⟩
      rw [if_pos ((translation_y_iff _ _).2 ⟨c, hc, hy⟩)]
      exact List.mem_map.2 ⟨n, hn, rfl⟩
    · intro w hw hwd
      obtain ⟨b', n', -, hn', h | h⟩ := mem_pin_writes mesh temperature_nodes bounds_cond w hw
      · obtain ⟨-, rfl⟩ := h
        simp only at hwd
        rw [(hmod b' n' hn').1] at hwd
        omega
      · obtain ⟨hy', rfl⟩ := h
        obtain ⟨c', hc', hcy'⟩ := (translation_y_iff _ _).1 hy'
        simp only at hwd ⊢
        rw [(hmod b' n' hn').2] at hwd
        have hnn : n' = n := by omega
        subst hnn
        rw [hfy b' c' hc']
        exact hcons b' c' hc' hcy' hn'

theorem translation_zero {F : Type} [Field F] (mesh : mesh_2d F) (K_bound : SparseMatrix F)
    (f : List F) (boundaryFun : F → F → F) (node : Nat)
    (h : boundaryFun (mesh.coord (node / 2) 0) (mesh.coord (node / 2) 1) = 0) :
    translation mesh K_bound f boundaryFun node = f := by
  unfold translation
  simp only [h, zero_mul, sub_zero]
  generalize K_bound.column node = es
  induction es generalizing f with
  | nil => rfl
  | cons e es ih => rw [List.foldl_cons, CuthillMcKee.set_getD_self, ih]

theorem integrate_force_bound_zero {F : Type} [Field F] (sqrt : F → F)
    (be : element_1d_integrate_base F) (i : Nat) (coords jacobi_matrices : Nat → Nat → F) :
    integrate_force_bound sqrt be i coords jacobi_matrices (fun _ _ => 0) = 0 := by
  unfold integrate_force_bound
  simp only [zero_mul, add_zero]
  generalize List.range be.qnodes_count = qs
  induction qs with
  | nil => rfl
  | cons q qs ih => rw [List.foldl_cons, ih]

theorem force_loop_zero {F : Type} [Field F] (sqrt : F → F) (mesh : mesh_2d F)
    (tables : boundary_tables F) (tau : F) (b : Nat) (f : List F) :
    force_loop sqrt mesh tables tau b (fun _ _ => 0) f = f := by
  unfold force_loop
  simp only [integrate_force_bound_zero, mul_zero, add_zero, CuthillMcKee.set_getD_self]
  generalize List.range (mesh.boundary b).length = els
  induction els generalizing f with
  | nil => rfl
  | cons el els ih =>
    rw [List.foldl_cons]
    have h : ∀ (is : List Nat) (f : List F), is.foldl (fun f _ => f) f = f := by
      intro is
      induction is with
      | nil => intro f; rfl
      | cons i is ih2 => intro f; rw [List.foldl_cons, ih2]
    rw [h, ih]

theorem corner_vectors :
    kinematic_nodes_vectors corner_mesh corner_bounds = [[0, 1], [2]] := by decide

theorem corner_force_pass (sqrt : ℚ → ℚ) (tables : boundary_tables ℚ) (tau : ℚ)
    (f : List ℚ) : force_pass sqrt corner_mesh tables corner_bounds tau f = f := by
  have h0 : func_y corner_bounds 0 = fun _ _ => 0 := rfl
  have h1 : func_x corner_bounds 1 = fun _ _ => 0 := rfl
  have hr : List.range corner_bounds.length = [0, 1] := rfl
  unfold force_pass
  rw [hr]
  simp only [List.foldl_cons, List.foldl_nil]
  rw [show force_x corner_bounds 0 = false from rfl, show force_y corner_bounds 0 = true from rfl,
    show force_x corner_bounds 1 = true from rfl, show force_y corner_bounds 1 = false from rfl]
  simp only [if_true, Bool.false_eq_true, if_false, h0, h1, force_loop_zero]

theorem corner_translation_pass (K_bound : SparseMatrix ℚ) (f : List ℚ) :
    translation_pass corner_mesh [[0, 1], [2]] corner_bounds K_bound f = f := by
  have hr : List.range ([[0, 1], [2]] : List (List Nat)).length = [0, 1] := rfl
  unfold translation_pass
  rw [hr]
  simp only [List.foldl_cons, List.foldl_nil]
  rw [show translation_x corner_bounds 0 = true from rfl,
    show translation_y corner_bounds 0 = false from rfl,
    show translation_x corner_bounds 1 = false from rfl,
    show translation_y corner_bounds 1 = true from rfl]
  simp only [if_true, Bool.false_eq_true, if_false]
  have g0 : ([[0, 1], [2]] : List (List Nat)).getD 0 [] = [0, 1] := rfl
  have g1 : ([[0, 1], [2]] : List (List Nat)).getD 1 [] = [2] := rfl
  rw [g0, g1]
  simp only [List.foldl_cons, List.foldl_nil]
  rw [translation_zero corner_mesh K_bound f _ _ rfl,
    translation_zero corner_mesh K_bound f _ _ rfl,
    translation_zero corner_mesh K_bound f _ _ (by
      show (5 : ℚ) * (1 - corner_mesh.coord (((2 * 2 + 1) % 2 ^ 32) / 2) 1) = 0
      norm_num [corner_mesh, plate_mesh])]

/-- C16 fails on the code: on `corner_mesh` the node 1 belongs to group 0, which prescribes
`TRANSLATION` in X only, and to group 1, which prescribes `TRANSLATION` in Y only.
`kinematic_nodes_set` has `(1, Y)`, so `K` gets an identity row at the index 3, while
`kinematic_nodes_vectors` lists node 1 for group 0 only; `boundary_condition` then leaves
`f[3]` at 0 although the value prescribed for the Y component at node 1 is 5. -/
theorem boundary_condition_misses_pin :
    node_info.make 1 component.Y ∈ kinematic_nodes_set corner_mesh corner_bounds ∧
    (node_info.make 1 component.Y).dof = 3 ∧
    kinematic_nodes_vectors corner_mesh corner_bounds = [[0, 1], [2]] ∧
    1 ∈ corner_mesh.boundary_nodes 1 ∧
    translation_y corner_bounds 1 = true ∧
    func_y corner_bounds 1 (corner_mesh.coord 1 0) (corner_mesh.coord 1 1) = 5 ∧
    ∀ (sqrt : ℚ → ℚ) (tables : boundary_tables ℚ) (tau : ℚ) (K_bound : SparseMatrix ℚ),
      (boundary_condition sqrt corner_mesh tables
        (kinematic_nodes_vectors corner_mesh corner_bounds) corner_bounds tau K_bound
        (List.replicate 8 0)).getD 3 0 = 0 := by
  refine ⟨by decide, rfl, corner_vectors, by decide, rfl, ?_, ?_⟩
  · show (5 : ℚ) * (1 - corner_mesh.coord 1 1) = 5
    norm_num [corner_mesh, plate_mesh]
  · intro sqrt tables tau K_bound
    unfold boundary_condition
    rw [corner_vectors, corner_force_pass, corner_translation_pass, pin_pass_eq]
    apply write_fold_untouched
    intro w hw
    obtain ⟨b, node, hb, hnode, h | h⟩ := mem_pin_writes corner_mesh _ corner_bounds w hw
    · obtain ⟨hx, rfl⟩ := h
      have hb2 : b < 2 := hb
      interval_cases b
      · have hn : node = 0 ∨ node = 1 := by simpa using hnode
        rcases hn with rfl | rfl <;> decide
      · cases hx
    · obtain ⟨hy, rfl⟩ := h
      have hb2 : b < 2 := hb
      interval_cases b
      · cases hy
      · have hn : node = 2 := by simpa using hnode
        subst hn
        decide

theorem pinned_vectors : kinematic_nodes_vectors plate_mesh pinned_bounds = [[0, 1]] := by
  decide

/-- The right-hand side of the example `pinned_bounds` before the third loop of
`boundary_condition`: the load has been added at the indices 0 and 1 and the two columns
of `plate_K_bound` have been eliminated. -/
theorem pinned_before_pin :
    translation_pass plate_mesh [[0, 1]] pinned_bounds plate_K_bound
      (force_pass unit_sqrt plate_mesh plate_tables pinned_bounds 1 [1, 2, 3, 4, 5, 6, 7, 8]) =
      [2, 3 / 2, 3, 21 / 5, 5, 6, 7, 8] := by
  simp [translation_pass, force_pass, force_loop, translation, pinned_bounds, plate_mesh,
    plate_tables, plate_K_bound, unit_sqrt, integrate_force_bound, translation_x,
    translation_y, force_x, force_y, func_x, func_y, List.range_succ]
  norm_num

/-- C15 (counterexample).  When node 0 is in the lists of two boundaries that prescribe the
displacements 1 and 2 in the X direction, the third loop of `boundary_condition` writes
`f[0]` twice and the value of the later boundary stays: `f[0]` is 2 and not the value 1 that
boundary 0 prescribes. -/
theorem boundary_condition_pins_counterexample :
    0 ∈ ([[0], [0]] : List (List Nat)).getD 0 [] ∧
    translation_x double_pin_bounds 0 = true ∧
    func_x double_pin_bounds 0 (plate_mesh.coord 0 0) (plate_mesh.coord 0 1) = 1 ∧
    boundary_condition unit_sqrt plate_mesh plate_tables [[0], [0]] double_pin_bounds 1
      plate_K_bound [1, 2, 3, 4, 5, 6, 7, 8] = [2, 1 / 2, 3, 5, 5, 6, 7, 8] ∧
    (boundary_condition unit_sqrt plate_mesh plate_tables [[0], [0]] double_pin_bounds 1
      plate_K_bound [1, 2, 3, 4, 5, 6, 7, 8]).getD (2 * 0) 0 ≠
      func_x double_pin_bounds 0 (plate_mesh.coord 0 0) (plate_mesh.coord 0 1) := by
  have hres : boundary_condition unit_sqrt plate_mesh plate_tables [[0], [0]]
      double_pin_bounds 1 plate_K_bound [1, 2, 3, 4, 5, 6, 7, 8] =
      [2, 1 / 2, 3, 5, 5, 6, 7, 8] := by
    simp [boundary_condition, pin_pass, translation_pass, force_pass, force_loop, translation,
      double_pin_bounds, plate_mesh, plate_tables, plate_K_bound, unit_sqrt,
      integrate_force_bound, translation_x, translation_y, force_x, force_y, func_x, func_y,
      List.range_succ]
    norm_num
  refine ⟨by decide, rfl, rfl, hres, ?_⟩
  rw [hres]
  show (2 : ℚ) ≠ 1
  norm_num

theorem mem_getD_mem {α : Type} (l : List (List α)) (b : Nat) (x : α)
    (h : x ∈ l.getD b []) : l.getD b [] ∈ l ∧ b < l.length := by
  by_cases hb : b < l.length
  · rw [List.getD_eq_getElem _ _ hb]
    exact ⟨List.getElem_mem hb, hb⟩
  · rw [List.getD_eq_default _ _ (Nat.le_of_not_lt hb)] at h
    cases h

/-- Every node is in at most one of the lists that `kinematic_nodes_vectors` returns. -/
theorem kinematic_nodes_vectors_disjoint {F : Type} (mesh : mesh_2d F)
    (bounds_cond : List (bound_cond F)) (b b' n : Nat)
    (h : n ∈ (kinematic_nodes_vectors mesh bounds_cond).getD b [])
    (h' : n ∈ (kinematic_nodes_vectors mesh bounds_cond).getD b' []) : b = b' := by
  have hstep : ∀ (kn : List (List Nat)) (b0 node : Nat),
      (∀ b b' n, n ∈ kn.getD b [] → n ∈ kn.getD b' [] → b = b') →
      ∀ b b' n,
        n ∈ (if kn.all (fun l => !l.contains node) then
            kn.set b0 (kn.getD b0 [] ++ [node]) else kn).getD b [] →
        n ∈ (if kn.all (fun l => !l.contains node) then
            kn.set b0 (kn.getD b0 [] ++ [node]) else kn).getD b' [] → b = b' := by
    intro kn b0 node hI b b' n
    split
    · next hall =>
      have hfresh : ∀ c, node ∉ kn.getD c [] := by
        intro c hc
        have hm := (mem_getD_mem kn c node hc).1
        have hnot := List.all_eq_true.1 hall _ hm
        have hcont : (kn.getD c []).contains node = true := by simpa using hc
        rw [hcont] at hnot
        cases hnot
      have hget : ∀ c, n ∈ (kn.set b0 (kn.getD b0 [] ++ [node])).getD c [] →
          n ∈ kn.getD c [] ∨ (c = b0 ∧ n = node) := by
        intro c hc
        by_cases hcb : b0 = c
        · subst hcb
          by_cases hlt : b0 < kn.length
          · rw [CuthillMcKee.getD_set_eq _ _ _ _ hlt] at hc
            rcases List.mem_append.1 hc with hc | hc
            · exact Or.inl hc
            · exact Or.inr ⟨rfl, List.mem_singleton.1 hc⟩
          · rw [List.getD_eq_default _ _ (by rw [List.length_set]; omega)] at hc
            cases hc
        · rw [CuthillMcKee.getD_set_ne _ _ _ _ _ hcb] at hc
          exact Or.inl hc
      intro h1 h2
      rcases hget b h1 with g1 | ⟨e1, e2⟩ <;> rcases hget b' h2 with g2 | ⟨e3, e4⟩
      · exact hI b b' n g1 g2
      · rw [e4] at g1
        exact absurd g1 (hfresh b)
      · rw [e2] at g2
        exact absurd g2 (hfresh b')
      · rw [e1, e3]
    · exact hI b b' n
  have hinner : ∀ (nodes : List Nat) (kn : List (List Nat)) (b0 : Nat),
      (∀ b b' n, n ∈ kn.getD b [] → n ∈ kn.getD b' [] → b = b') →
      ∀ b b' n,
        n ∈ (nodes.foldl (fun kn node =>
          if kn.all (fun l => !l.contains node) then
            kn.set b0 (kn.getD b0 [] ++ [node]) else kn) kn).getD b [] →
        n ∈ (nodes.foldl (fun kn node =>
          if kn.all (fun l => !l.contains node) then
            kn.set b0 (kn.getD b0 [] ++ [node]) else kn) kn).getD b' [] → b = b' := by
    intro nodes
    induction nodes with
    | nil => intro kn b0 hI; exact hI
    | cons x xs ih =>
      intro kn b0 hI
      rw [List.foldl_cons]
      exact ih _ b0 (hstep kn b0 x hI)
  have houter : ∀ (bs : List Nat) (kn : List (List Nat)),
      (∀ b b' n, n ∈ kn.getD b [] → n ∈ kn.getD b' [] → b = b') →
      ∀ b b' n,
        n ∈ (bs.foldl (fun kinematic_nodes b =>
          if translation_x bounds_cond b || translation_y bounds_cond b then
            (mesh.boundary_nodes b).foldl
              (fun kinematic_nodes node =>
                if kinematic_nodes.all (fun l => !l.contains node) then
                  kinematic_nodes.set b (kinematic_nodes.getD b [] ++ [node])
                else kinematic_nodes)
              kinematic_nodes
          else kinematic_nodes) kn).getD b [] →
        n ∈ (bs.foldl (fun kinematic_nodes b =>
          if translation_x bounds_cond b || translation_y bounds_cond b then
            (mesh.boundary_nodes b).foldl
              (fun kinematic_nodes node =>
                if kinematic_nodes.all (fun l => !l.contains node) then
                  kinematic_nodes.set b (kinematic_nodes.getD b [] ++ [node])
                else kinematic_nodes)
              kinematic_nodes
          else kinematic_nodes) kn).getD b' [] → b = b' := by
    intro bs
    induction bs with
    | nil => intro kn hI; exact hI
    | cons b0 bs ih =>
      intro kn hI
      rw [List.foldl_cons]
      apply ih
      split
      · exact hinner _ kn b0 hI
      · exact hI
  refine houter _ _ ?_ b b' n h h'
  intro c c' m hm
  have := (mem_getD_mem _ c m hm).1
  rw [List.mem_replicate] at this
  rw [this.2] at hm
  cases hm

/-- C18 fails on the code: on `traction_mesh`, whose boundary group 0 is the edge of the
nodes 2 and 3 with a `FORCE` condition in X and in Y, `boundary_condition` applied to the
zero vector of 8 entries adds the X integral and the Y integral of the local node 0 both to
`f[2]` and those of the local node 1 both to `f[3]`: the index is the node number.  The
entries 4, 5 (node 2) and 6, 7 (node 3), the degrees of freedom `2 * n + component` of the
two nodes, stay 0. -/
theorem boundary_condition_force_index (sqrt : ℚ → ℚ) (tables : boundary_tables ℚ) (tau : ℚ)
    (K_bound : SparseMatrix ℚ) :
    traction_mesh.boundary 0 = [[2, 3]] ∧
    force_x traction_bounds 0 = true ∧ force_y traction_bounds 0 = true ∧
    boundary_condition sqrt traction_mesh tables
        (kinematic_nodes_vectors traction_mesh traction_bounds) traction_bounds tau K_bound
        (List.replicate 8 0) =
      [0, 0,
       0 + tau * integrate_force_bound sqrt (tables.element_1d 0 0) 0 (tables.coords 0 0)
           (tables.jacobi_matrices 0 0) (fun _ _ => 1) +
         tau * integrate_force_bound sqrt (tables.element_1d 0 0) 0 (tables.coords 0 0)
           (tables.jacobi_matrices 0 0) (fun _ _ => 2),
       0 + tau * integrate_force_bound sqrt (tables.element_1d 0 0) 1 (tables.coords 0 0)
           (tables.jacobi_matrices 0 0) (fun _ _ => 1) +
         tau * integrate_force_bound sqrt (tables.element_1d 0 0) 1 (tables.coords 0 0)
           (tables.jacobi_matrices 0 0) (fun _ _ => 2),
       0, 0, 0, 0] := by
  refine ⟨rfl, rfl, rfl, ?_⟩
  have hv : kinematic_nodes_vectors traction_mesh traction_bounds = [[]] := by decide
  have hpin : ∀ f : List ℚ, pin_pass traction_mesh [[]] traction_bounds f = f := fun _ => rfl
  have htr : ∀ f : List ℚ, translation_pass traction_mesh [[]] traction_bounds K_bound f = f :=
    fun _ => rfl
  unfold boundary_condition
  rw [hv, hpin, htr]
  rfl

theorem boundary_condition_pins_witness :
    (translation_pass plate_mesh (kinematic_nodes_vectors plate_mesh pinned_bounds)
        pinned_bounds plate_K_bound
        (force_pass unit_sqrt plate_mesh plate_tables pinned_bounds 1
          [1, 2, 3, 4, 5, 6, 7, 8])).getD (2 * 1) 0 = 3 ∧
    (fun (x y : ℚ) => x + y + 3) (plate_mesh.coord 1 0) (plate_mesh.coord 1 1) = 4 ∧
    (boundary_condition unit_sqrt plate_mesh plate_tables
        (kinematic_nodes_vectors plate_mesh pinned_bounds) pinned_bounds 1 plate_K_bound
        [1, 2, 3, 4, 5, 6, 7, 8]).getD (2 * 1) 0 =
      (fun (x y : ℚ) => x + y + 3) (plate_mesh.coord 1 0) (plate_mesh.coord 1 1) :=
  ⟨by rw [pinned_vectors, pinned_before_pin]; rfl,
    by norm_num [plate_mesh],
    (boundary_condition_pins unit_sqrt plate_mesh plate_tables
      (kinematic_nodes_vectors plate_mesh pinned_bounds) pinned_bounds 1 plate_K_bound
      [1, 2, 3, 4, 5, 6, 7, 8] (by decide)
      (by
        rw [pinned_vectors]
        intro b n hn
        rcases b with _ | b
        · have h : n = 0 ∨ n = 1 := by simpa using hn
          rcases h with rfl | rfl <;> decide
        · simp at hn)
      0 1 _ (by decide) rfl (by decide)).1 rfl
      (by
        intro b' c' hc' _ _
        rcases b' with _ | b'
        · cases hc'
          rfl
        · simp [pinned_bounds] at hc')⟩

theorem translation_column_witness :
    (translation plate_mesh plate_K_bound [1, 2, 3, 4] (fun x y => x + y + 2) 0).getD 3 0 =
      (4 : ℚ) - ((fun x y => x + y + 2) (plate_mesh.coord (0 / 2) 0)
        (plate_mesh.coord (0 / 2) 1)) * (-1 / 3) :=
  (translation_column plate_mesh plate_K_bound [1, 2, 3, 4] (fun x y => x + y + 2) 0).2.2.1
    (by decide) 3 (-1 / 3) (by simp [plate_K_bound]) (by decide)

/-! ## The integrators and the bilinear forms -/

theorem strain_entry_XX {F : Type} [Field F] (coeff : Fin 3 → F) (gxi gyi gxj gyj : F) :
    strain_entry coeff component.X component.X gxi gyi gxj gyj =
      coeff 0 * gxi * gxj + coeff 2 * gyi * gyj := by
  simp only [strain_entry, component.toFin, Matrix.mul_apply, Fin.sum_univ_three,
    Matrix.transpose_apply]
  simp [strain_displacement, elasticity]
  ring

theorem strain_entry_YY {F : Type} [Field F] (coeff : Fin 3 → F) (gxi gyi gxj gyj : F) :
    strain_entry coeff component.Y component.Y gxi gyi gxj gyj =
      coeff 0 * gyi * gyj + coeff 2 * gxi * gxj := by
  simp only [strain_entry, component.toFin, Matrix.mul_apply, Fin.sum_univ_three,
    Matrix.transpose_apply]
  simp [strain_displacement, elasticity]
  ring

theorem strain_entry_XY {F : Type} [Field F] (coeff : Fin 3 → F) (gxi gyi gxj gyj : F) :
    strain_entry coeff component.X component.Y gxi gyi gxj gyj =
      coeff 1 * gxi * gyj + coeff 2 * gyi * gxj := by
  simp only [strain_entry, component.toFin, Matrix.mul_apply, Fin.sum_univ_three,
    Matrix.transpose_apply]
  simp [strain_displacement, elasticity]
  ring

theorem strain_entry_YX {F : Type} [Field F] (coeff : Fin 3 → F) (gxi gyi gxj gyj : F) :
    strain_entry coeff component.Y component.X gxi gyi gxj gyj =
      coeff 1 * gyi * gxj + coeff 2 * gxi * gyj := by
  simp only [strain_entry, component.toFin, Matrix.mul_apply, Fin.sum_univ_three,
    Matrix.transpose_apply]
  simp [strain_displacement, elasticity]
  ring

theorem factored_sum_eq {F : Type} [Field F] (m : Nat) (a c d P Q : F) (f R S : Nat → F) :
    a * (c * (∑ q in Finset.range m, f q * R q) * P +
         d * (∑ q in Finset.range m, f q * S q) * Q) =
      ∑ q in Finset.range m, a * f q * (c * P * R q + d * Q * S q) := by
  rw [mul_add, mul_assoc c, mul_assoc d, Finset.sum_mul, Finset.sum_mul, Finset.mul_sum,
    Finset.mul_sum, Finset.mul_sum, Finset.mul_sum, ← Finset.sum_add_distrib]
  apply Finset.sum_congr rfl
  intro q _
  ring

/-- C26: for the component pairs XX and YY the factored loop of `integrate_nonloc` equals
the unfactored double sum of the specification, `integrate_nonloc_spec`, whenever the
determinant of the Jacobi matrix does not vanish (in particular when it is positive) at the
quadrature nodes of both elements. -/
theorem integrate_nonloc_diagonal {F : Type} [Field F] (eL eNL : element_2d_integrate_base F)
    (iL jNL : node_info) (shiftL shiftNL : Nat) (coords jacobi_matrices : Nat → Nat → F)
    (influence_fun : F → F → F → F → F) (coeff : Fin 3 → F)
    (hcomp : iL.comp = jNL.comp)
    (hL : ∀ qL, qL < eL.qnodes_count → jacobian jacobi_matrices (shiftL + qL) ≠ 0)
    (hNL : ∀ qNL, qNL < eNL.qnodes_count → jacobian jacobi_matrices (shiftNL + qNL) ≠ 0) :
    integrate_nonloc eL eNL iL jNL shiftL shiftNL coords jacobi_matrices influence_fun coeff =
      integrate_nonloc_spec eL eNL iL jNL shiftL shiftNL coords jacobi_matrices influence_fun
        coeff := by
  obtain ⟨ni, ci⟩ := iL
  obtain ⟨nj, cj⟩ := jNL
  have hcomp' : ci = cj := hcomp
  subst hcomp'
  cases ci <;>
    simp only [integrate_nonloc, finit, foldl_pair_eq_sum, foldl_add_eq_sum,
      integrate_nonloc_spec, strain_entry_XX, strain_entry_YY, gradient_x, gradient_y,
      node_info.index, factored_sum_eq] <;>
    refine Finset.sum_congr rfl (fun qL hqL => Finset.sum_congr rfl (fun qNL hqNL => ?_)) <;>
    have h1 := hL qL (Finset.mem_range.mp hqL) <;>
    have h2 := hNL qNL (Finset.mem_range.mp hqNL) <;>
    field_simp <;>
    ring

theorem integrate_nonloc_diagonal_witness :
    integrate_nonloc triangle_element triangle_element (node_info.make 1 component.X)
        (node_info.make 0 component.X) 0 1 plate_quad.all_quad_coords
        plate_quad.all_jacobi_matrices constant_influence (coeffs plate_params) =
      integrate_nonloc_spec triangle_element triangle_element (node_info.make 1 component.X)
        (node_info.make 0 component.X) 0 1 plate_quad.all_quad_coords
        plate_quad.all_jacobi_matrices constant_influence (coeffs plate_params) :=
  integrate_nonloc_diagonal triangle_element triangle_element _ _ 0 1 _ _
    constant_influence _ rfl
    (fun qL hqL => by
      have h : qL = 0 := by
        have : qL < 1 := hqL
        omega
      subst h
      norm_num [jacobian, plate_quad])
    (fun qNL hqNL => by
      have h : qNL = 0 := by
        have : qNL < 1 := hqNL
        omega
      subst h
      norm_num [jacobian, plate_quad])

/-- C24 fails on `integrate_loc`: for the linear triangle with weight `1/2` and the Jacobi
matrix `(1, 1, 0, 1)` of determinant 1, Young's modulus 1 and Poisson's ratio `1/2`, the
value of `integrate_loc` for the pair `((2, X), (0, Y))` is `-1/3` while the sum of the
specification `w * det * (B_2^T C B_0)[X, Y]` is `-1/6`; for the pair `((0, Y), (2, X))` the
values are `-1/3` and `-1/6` as well.  The gradients are `(gx_2, gy_2) = (0, 1)` and
`(gx_0, gy_0) = (-1, 0)`: `integrate_loc` returns `w * det * c1 * gy_2 * gx_0` where the
specification has `w * det * c2 * gy_2 * gx_0`. -/
theorem integrate_loc_mixed_value :
    (0 : ℚ) < jacobian plate_quad.all_jacobi_matrices 0 ∧
    integrate_loc triangle_element (node_info.make 2 component.X)
      (node_info.make 0 component.Y) plate_quad.all_jacobi_matrices 0
      (coeffs rubber_params) = -1 / 3 ∧
    integrate_loc_spec triangle_element (node_info.make 2 component.X)
      (node_info.make 0 component.Y) plate_quad.all_jacobi_matrices 0
      (coeffs rubber_params) = -1 / 6 ∧
    integrate_loc triangle_element (node_info.make 0 component.Y)
      (node_info.make 2 component.X) plate_quad.all_jacobi_matrices 0
      (coeffs rubber_params) = -1 / 3 ∧
    integrate_loc_spec triangle_element (node_info.make 0 component.Y)
      (node_info.make 2 component.X) plate_quad.all_jacobi_matrices 0
      (coeffs rubber_params) = -1 / 6 := by
  refine ⟨by norm_num [jacobian, plate_quad], ?_, ?_, ?_, ?_⟩
  · simp [triangle_element, integrate_loc, node_info.make, node_info.index, plate_quad, coeffs,
      rubber_params, List.range_succ]
    norm_num
  · simp [integrate_loc_spec, strain_entry_XY, gradient_x, gradient_y, jacobian,
      triangle_element, node_info.make, node_info.index, plate_quad, coeffs, rubber_params]
    norm_num
  · simp [triangle_element, integrate_loc, node_info.make, node_info.index, plate_quad, coeffs,
      rubber_params, List.range_succ]
    norm_num
  · simp [integrate_loc_spec, strain_entry_YX, gradient_x, gradient_y, jacobian,
      triangle_element, node_info.make, node_info.index, plate_quad, coeffs, rubber_params]
    norm_num

/-- C25 fails on `integrate_nonloc`: for the two triangles of `plate_mesh` (weight `1/2`,
Jacobi matrices `(1, 1, 0, 1)` and `(1, 0, 1, 1)` of determinant 1), the constant influence
function 1, Young's modulus 1 and Poisson's ratio `1/4`, the value of `integrate_nonloc` for
the pair `((1, X), (0, Y))` is `1/15` while the entry of the nonlocal bilinear form,
`integrate_nonloc_spec`, is `-1/15`; for the pair `((0, Y), (1, X))` with the elements
exchanged the values are `1/15` and `-1/15` as well. -/
theorem integrate_nonloc_mixed_value :
    (0 : ℚ) < jacobian plate_quad.all_jacobi_matrices 0 ∧
    (0 : ℚ) < jacobian plate_quad.all_jacobi_matrices 1 ∧
    integrate_nonloc triangle_element triangle_element (node_info.make 1 component.X)
      (node_info.make 0 component.Y) 0 1 plate_quad.all_quad_coords
      plate_quad.all_jacobi_matrices constant_influence (coeffs plate_params) = 1 / 15 ∧
    integrate_nonloc_spec triangle_element triangle_element (node_info.make 1 component.X)
      (node_info.make 0 component.Y) 0 1 plate_quad.all_quad_coords
      plate_quad.all_jacobi_matrices constant_influence (coeffs plate_params) = -1 / 15 ∧
    integrate_nonloc triangle_element triangle_element (node_info.make 0 component.Y)
      (node_info.make 1 component.X) 1 0 plate_quad.all_quad_coords
      plate_quad.all_jacobi_matrices constant_influence (coeffs plate_params) = 1 / 15 ∧
    integrate_nonloc_spec triangle_element triangle_element (node_info.make 0 component.Y)
      (node_info.make 1 component.X) 1 0 plate_quad.all_quad_coords
      plate_quad.all_jacobi_matrices constant_influence (coeffs plate_params) = -1 / 15 := by
  refine ⟨by norm_num [jacobian, plate_quad], by norm_num [jacobian, plate_quad],
    ?_, ?_, ?_, ?_⟩
  · simp [triangle_element, integrate_nonloc, finit, node_info.make, node_info.index,
      plate_quad, coeffs, plate_params, constant_influence, List.range_succ]
    norm_num
  · simp [integrate_nonloc_spec, strain_entry_XY, gradient_x, gradient_y, jacobian,
      triangle_element, node_info.make, node_info.index, plate_quad, coeffs, plate_params,
      constant_influence]
    norm_num
  · simp [triangle_element, integrate_nonloc, finit, node_info.make, node_info.index,
      plate_quad, coeffs, plate_params, constant_influence, List.range_succ]
    norm_num
  · simp [integrate_nonloc_spec, strain_entry_YX, gradient_x, gradient_y, jacobian,
      triangle_element, node_info.make, node_info.index, plate_quad, coeffs, plate_params,
      constant_influence]
    norm_num

/-- For the component pairs XX and YY `integrate_loc` is the sum of the specification,
`integrate_loc_spec`, when the determinants do not vanish. -/
theorem integrate_loc_diagonal {F : Type} [Field F] (e : element_2d_integrate_base F)
    (i j : node_info) (jacobi_matrices : Nat → Nat → F) (shift : Nat) (coeff : Fin 3 → F)
    (hcomp : i.comp = j.comp)
    (hdet : ∀ q, q < e.qnodes_count → jacobian jacobi_matrices (shift + q) ≠ 0) :
    integrate_loc e i j jacobi_matrices shift coeff =
      integrate_loc_spec e i j jacobi_matrices shift coeff := by
  obtain ⟨ni, ci⟩ := i
  obtain ⟨nj, cj⟩ := j
  have hcomp' : ci = cj := hcomp
  subst hcomp'
  cases ci <;>
    simp only [integrate_loc, foldl_add_eq_sum, integrate_loc_spec, strain_entry_XX,
      strain_entry_YY, gradient_x, gradient_y, node_info.index] <;>
    refine Finset.sum_congr rfl (fun q hq => ?_) <;>
    have h1 := hdet q (Finset.mem_range.mp hq) <;>
    have h2 : jacobi_matrices (shift + q) 0 * jacobi_matrices (shift + q) 3 -
        jacobi_matrices (shift + q) 1 * jacobi_matrices (shift + q) 2 ≠ 0 := h1 <;>
    simp only [jacobian] <;>
    field_simp <;>
    ring

/-- For the component pairs XY and YX `integrate_loc` is the sum of the specification with
`coeff[1]` and `coeff[2]` exchanged, when the determinants do not vanish. -/
theorem integrate_loc_mixed {F : Type} [Field F] (e : element_2d_integrate_base F)
    (i j : node_info) (jacobi_matrices : Nat → Nat → F) (shift : Nat) (coeff : Fin 3 → F)
    (hcomp : i.comp ≠ j.comp)
    (hdet : ∀ q, q < e.qnodes_count → jacobian jacobi_matrices (shift + q) ≠ 0) :
    integrate_loc e i j jacobi_matrices shift coeff =
      integrate_loc_spec e i j jacobi_matrices shift ![coeff 0, coeff 2, coeff 1] := by
  obtain ⟨ni, ci⟩ := i
  obtain ⟨nj, cj⟩ := j
  cases ci <;> cases cj <;>
    first
    | exact absurd rfl hcomp
    | (simp only [integrate_loc, foldl_add_eq_sum, integrate_loc_spec, strain_entry_XY,
        strain_entry_YX, gradient_x, gradient_y, node_info.index]
       refine Finset.sum_congr rfl (fun q hq => ?_)
       have h1 := hdet q (Finset.mem_range.mp hq)
       have h2 : jacobi_matrices (shift + q) 0 * jacobi_matrices (shift + q) 3 -
          jacobi_matrices (shift + q) 1 * jacobi_matrices (shift + q) 2 ≠ 0 := h1
       simp only [jacobian, Matrix.cons_val_one, Matrix.head_cons, Matrix.cons_val_two,
        Matrix.tail_cons]
       field_simp
       ring)

/-- For the component pairs XY and YX `integrate_nonloc` is the negative of the double sum
of the specification, `integrate_nonloc_spec`, when the determinants do not vanish. -/
theorem integrate_nonloc_mixed {F : Type} [Field F] (eL eNL : element_2d_integrate_base F)
    (iL jNL : node_info) (shiftL shiftNL : Nat) (coords jacobi_matrices : Nat → Nat → F)
    (influence_fun : F → F → F → F → F) (coeff : Fin 3 → F)
    (hcomp : iL.comp ≠ jNL.comp)
    (hL : ∀ qL, qL < eL.qnodes_count → jacobian jacobi_matrices (shiftL + qL) ≠ 0)
    (hNL : ∀ qNL, qNL < eNL.qnodes_count → jacobian jacobi_matrices (shiftNL + qNL) ≠ 0) :
    integrate_nonloc eL eNL iL jNL shiftL shiftNL coords jacobi_matrices influence_fun coeff =
      -integrate_nonloc_spec eL eNL iL jNL shiftL shiftNL coords jacobi_matrices influence_fun
        coeff := by
  obtain ⟨ni, ci⟩ := iL
  obtain ⟨nj, cj⟩ := jNL
  cases ci <;> cases cj <;>
    first
    | exact absurd rfl hcomp
    | (simp only [integrate_nonloc, finit, foldl_pair_eq_sum, foldl_add_eq_sum,
        integrate_nonloc_spec, strain_entry_XY, strain_entry_YX, gradient_x, gradient_y,
        node_info.index, factored_sum_eq, ← Finset.sum_neg_distrib]
       refine Finset.sum_congr rfl (fun qL hqL => Finset.sum_congr rfl (fun qNL hqNL => ?_))
       have h1 := hL qL (Finset.mem_range.mp hqL)
       have h2 := hNL qNL (Finset.mem_range.mp hqNL)
       field_simp
       ring)

/-! ## The record of the writes of `triplets_fill` -/

end statics_with_nonloc

namespace config

/-! ## `model_data` -/

theorem as_floating_of_is_floating {F : Type} [Field F] (v : Json F)
    (h : v.is_floating = true) : ∃ r, v.as_floating = Except.ok r := by
  cases v <;> first | exact ⟨_, rfl⟩ | cases h

theorem read_items_ok {F : Type} [Field F] (arr : Json F) (is : List Nat)
    (h : ∀ i, i ∈ is → (arr.item i).is_floating = true) :
    ∃ rs, read_items arr is = Except.ok rs ∧ rs.length = is.length ∧
      ∀ k, k < is.length → (arr.item (is.getD k 0)).as_floating = Except.ok (rs.getD k 0) := by
  induction is with
  | nil => exact ⟨[], rfl, rfl, fun k hk => absurd hk (Nat.not_lt_zero k)⟩
  | cons i rest ih =>
    obtain ⟨r, hr⟩ := as_floating_of_is_floating (arr.item i) (h i (List.mem_cons_self _ _))
    obtain ⟨rs, hrs, hlen, hall⟩ := ih (fun j hj => h j (List.mem_cons_of_mem _ hj))
    refine ⟨r :: rs, ?_, by simp [hlen], ?_⟩
    · simp only [read_items, hr, hrs]
    · intro k hk
      cases k with
      | zero => simpa using hr
      | succ k =>
        have := hall k (by simpa using hk)
        simpa using this

/-- C20: `read_radius` returns the radius with every component equal to `r` when the JSON
value is the number `r` (real, signed or unsigned integer); when the value is an array of
exactly `Dimension` numbers it returns `Dimension` components, the `i`-th being the `i`-th
item; and when the value is not a number and not an array of length `Dimension` it fails
with a `domain_error` whose message has the name of the field in it. -/
theorem read_radius_cases {F : Type} [Field F] (Dimension : Nat) (arr : Json F)
    (field : String) :
    (∀ x : F, arr = Json.realValue x →
      read_radius Dimension arr field = Except.ok (List.replicate Dimension x)) ∧
    (∀ n : Int, arr = Json.intValue n →
      read_radius Dimension arr field = Except.ok (List.replicate Dimension (n : F))) ∧
    (∀ n : Nat, arr = Json.uintValue n →
      read_radius Dimension arr field = Except.ok (List.replicate Dimension (n : F))) ∧
    (∀ items, arr = Json.arrayValue items → items.length = Dimension →
      (∀ it, it ∈ items → it.is_floating = true) →
      ∃ rs, read_radius Dimension arr field = Except.ok rs ∧ rs.length = Dimension ∧
        ∀ i, i < Dimension →
          (items.getD i Json.nullValue).as_floating = Except.ok (rs.getD i 0)) ∧
    (arr.is_floating = false → ¬ (arr.isArray = true ∧ arr.size = Dimension) →
      ∃ msg, read_radius Dimension arr field =
          Except.error (config_error.domain_error msg) ∧
        ∃ before after, msg = before ++ field ++ after) := by
  refine ⟨?_, ?_, ?_, ?_, ?_⟩
  · rintro x rfl
    rfl
  · rintro n rfl
    rfl
  · rintro n rfl
    rfl
  · rintro items rfl hlen hnum
    have hitem : ∀ i, i ∈ List.range Dimension →
        ((Json.arrayValue items : Json F).item i).is_floating = true := by
      intro i hi
      have hi' : i < items.length := by
        rw [hlen]
        exact List.mem_range.1 hi
      show (items.getD i Json.nullValue).is_floating = true
      rw [List.getD_eq_getElem _ _ hi']
      exact hnum _ (List.getElem_mem hi')
    obtain ⟨rs, hrs, hl, hall⟩ := read_items_ok (Json.arrayValue items) (List.range Dimension)
      hitem
    refine ⟨rs, ?_, by rw [hl, List.length_range], ?_⟩
    · unfold read_radius
      rw [if_neg (by simp [Json.is_floating]), if_pos (by simp [Json.isArray, Json.size, hlen])]
      exact hrs
    · intro i hi
      have := hall i (by rw [List.length_range]; exact hi)
      rw [List.getD_eq_getElem _ _ (by rw [List.length_range]; exact hi),
        List.getElem_range] at this
      exact this
  · intro hnum harr
    refine ⟨_, ?_, "Field \"", "\" must be an array with length " ++ toString Dimension, rfl⟩
    unfold read_radius
    rw [if_neg (by simp [hnum]), if_neg (by simpa using harr)]
    simp only [String.append_assoc]

/-- C19: a `model_data` built from a JSON object without the member `search_radius` has
`search_radius` equal to `nonlocal_radius`; when the member is present, `search_radius` is
the value that `read_radius` reads from it. -/
theorem model_data_search_radius {F : Type} [Field F] (Dimension : Nat) (model : Json F)
    (d : model_data F) (h : model_data.make Dimension model = Except.ok d) :
    (model.isMember "search_radius" = false → d.search_radius = d.nonlocal_radius) ∧
    (model.isMember "search_radius" = true →
      read_radius Dimension (model.member "search_radius") "search_radius" =
        Except.ok d.search_radius) ∧
    read_radius Dimension (model.member "nonlocal_radius") "nonlocal_radius" =
      Except.ok d.nonlocal_radius := by
  unfold model_data.make at h
  split at h
  · cases h
  · split at h
    · cases h
    · split at h
      · cases h
      · next nonlocal_radius hnl =>
        split at h
        · next hmem =>
          cases h
          refine ⟨fun _ => rfl, fun hm => ?_, hnl⟩
          rw [hm] at hmem
          cases hmem
        · next hmem =>
          split at h
          · cases h
          · next search_radius hs =>
            cases h
            refine ⟨fun hm => ?_, fun _ => hs, hnl⟩
            rw [hm] at hmem
            exact absurd rfl hmem

theorem model_data_search_radius_witness :
    (model_without_search.isMember "search_radius" = false →
      ([1 / 10, ((2 : Nat) : ℚ)] : List ℚ) = [1 / 10, ((2 : Nat) : ℚ)]) ∧
    (model_without_search.isMember "search_radius" = true →
      read_radius 2 (model_without_search.member "search_radius") "search_radius" =
        Except.ok [1 / 10, ((2 : Nat) : ℚ)]) ∧
    read_radius 2 (model_without_search.member "nonlocal_radius") "nonlocal_radius" =
      Except.ok [1 / 10, ((2 : Nat) : ℚ)] :=
  model_data_search_radius 2 model_without_search
    { local_weight := 1 / 2
      nonlocal_radius := [1 / 10, ((2 : Nat) : ℚ)]
      search_radius := [1 / 10, ((2 : Nat) : ℚ)] } rfl

theorem read_radius_cases_witness :
    ∃ msg, read_radius 2 (Json.arrayValue [Json.realValue (1 : ℚ)]) "nonlocal_radius" =
        Except.error (config_error.domain_error msg) ∧
      ∃ before after, msg = before ++ "nonlocal_radius" ++ after :=
  (read_radius_cases 2 (Json.arrayValue [Json.realValue (1 : ℚ)]) "nonlocal_radius").2.2.2.2
    rfl (by decide)

/-- C31 (amended): a `model_data` built from a JSON object has as `local_weight` the value
that `as<T>()` gives for the member `local_weight`; the constructor compares it with
nothing. -/
theorem model_data_local_weight {F : Type} [Field F] (Dimension : Nat) (model : Json F)
    (d : model_data F) (h : model_data.make Dimension model = Except.ok d) :
    (model.member "local_weight").as_floating = Except.ok d.local_weight := by
  unfold model_data.make at h
  split at h
  · cases h
  · split at h
    · cases h
    · next local_weight hw =>
      split at h
      · cases h
      · split at h
        · cases h
          exact hw
        · split at h
          · cases h
          · cases h
            exact hw

theorem model_data_local_weight_witness :
    (model_without_search.member "local_weight").as_floating = Except.ok (1 / 2 : ℚ) :=
  model_data_local_weight 2 model_without_search
    { local_weight := 1 / 2
      nonlocal_radius := [1 / 10, ((2 : Nat) : ℚ)]
      search_radius := [1 / 10, ((2 : Nat) : ℚ)] } rfl

/-- C31 (counterexample): the constructor accepts the object `model_weight_two`; the
`model_data` it gives has the local weight 2, which is not in [0, 1]. -/
theorem model_data_local_weight_counterexample :
    ∃ d : model_data ℚ, model_data.make 1 model_weight_two = Except.ok d ∧
      d.local_weight = 2 ∧ ¬ (0 ≤ d.local_weight ∧ d.local_weight ≤ 1) :=
  ⟨{ local_weight := 2, nonlocal_radius := [1 / 10], search_radius := [1 / 10] }, rfl, rfl,
    by norm_num⟩

end config

namespace thermal

/-! ## The member function `calc_flux` -/

theorem segment_step_rod_local : segment_step rod_solution [1, 1] 0 = Except.ok [-2, 1] := by
  simp [segment_step, rod_solution, rod_mesh, heat_equation_solution_1d.parameter,
    theory_type, List.range'_succ]
  norm_num

theorem segment_step_rod_nonlocal :
    segment_step rod_solution [-2, 1] 1 = Except.ok [-2, 0] := by
  simp [segment_step, rod_solution, rod_mesh, heat_equation_solution_1d.parameter,
    theory_type, List.range'_succ, gradient_nonlocal, nonlocal_update, mesh_1d.elements,
    mesh_1d.elements_count, nonlocal_weight, show List.range 1 = [0] from rfl]
  norm_num

theorem flux_in_qnodes_rod : flux_in_qnodes rod_solution [1, 1] = Except.ok [-2, 0] := by
  show List.foldlM (segment_step rod_solution) [1, 1] (List.range 2) = _
  rw [show List.range 2 = [0, 1] from rfl, List.foldlM_cons, segment_step_rod_local]
  show List.foldlM (segment_step rod_solution) [-2, 1] [1] = _
  rw [List.foldlM_cons, segment_step_rod_nonlocal]
  rfl

/-- C21 fails on `calc_flux`: on `rod_solution` (two segments of one element with one
quadrature node of weight 1; segment 0 local with `p1 = 1`, `k = 2`; segment 1 nonlocal
with `p1 = 1/2`, `k = 1`, `J = 1`, influence 1, and element 0 in the neighbourhood of
element 1) and the temperature gradient `g = [1, 1]`, the quadrature-node vector that
`calc_flux` hands to the nodal projection is `[-2, 0]`, while the flux of the specification
at the quadrature node of element 1 is `-3/2`.  When segment 1 is processed, the entry of
element 0 in `gradient` already holds the flux `-2` of segment 0 in place of the gradient
1. -/
theorem calc_flux_crossing_value :
    theory_type (rod_solution.model 0).local_weight = theory_t.LOCAL ∧
    theory_type (rod_solution.model 1).local_weight = theory_t.NONLOCAL ∧
    1 ∈ rod_solution.mesh.elements 1 ∧
    0 ∈ rod_solution.mesh.neighbours 1 ∧
    flux_in_qnodes rod_solution [1, 1] = Except.ok [-2, 0] ∧
    flux_spec rod_solution [1, 1] 0 0 0 = -2 ∧
    flux_spec rod_solution [1, 1] 1 1 0 = -3 / 2 := by
  refine ⟨?_, ?_, by decide, by decide, flux_in_qnodes_rod, ?_, ?_⟩
  · simp [theory_type, rod_solution]
    norm_num
  · simp [theory_type, rod_solution]
    norm_num
  · simp [flux_spec, rod_solution, rod_mesh, heat_equation_solution_1d.parameter,
      theory_type, qnode_value]
    norm_num
  · simp [flux_spec, rod_solution, rod_mesh, heat_equation_solution_1d.parameter,
      theory_type, qnode_value]
    norm_num

theorem segments_fold_error {F : Type} [LinearOrderedField F]
    (sol : heat_equation_solution_1d F) (l : List Nat) (gradient : List F)
    (h : ∃ segment, segment ∈ l ∧
      ((sol.parameter segment).type = coefficients_t.SPACE_DEPENDENT ∨
       (sol.parameter segment).type = coefficients_t.SOLUTION_DEPENDENT)) :
    l.foldlM (segment_step sol) gradient = Except.error exception.domain_error := by
  induction l generalizing gradient with
  | nil =>
    obtain ⟨s, hs, -⟩ := h
    cases hs
  | cons a t ih =>
    rw [List.foldlM_cons]
    by_cases ha : (sol.parameter a).type = coefficients_t.SPACE_DEPENDENT ∨
        (sol.parameter a).type = coefficients_t.SOLUTION_DEPENDENT
    · have hstep : segment_step sol gradient a = Except.error exception.domain_error := by
        unfold segment_step
        rw [if_pos ha]
      rw [hstep]
      rfl
    · have hstep : ∃ g, segment_step sol gradient a = Except.ok g := by
        unfold segment_step
        rw [if_neg ha]
        exact ⟨_, rfl⟩
      obtain ⟨g, hg⟩ := hstep
      rw [hg]
      show List.foldlM (segment_step sol) g t = _
      apply ih
      obtain ⟨s, hs, hbad⟩ := h
      rcases List.mem_cons.mp hs with rfl | hs'
      · exact absurd hbad ha
      · exact ⟨s, hs', hbad⟩

theorem segments_fold_ok {F : Type} [LinearOrderedField F]
    (sol : heat_equation_solution_1d F) (l : List Nat) (gradient : List F)
    (h : ∀ segment, segment ∈ l → (sol.parameter segment).type = coefficients_t.CONSTANTS) :
    ∃ g, l.foldlM (segment_step sol) gradient = Except.ok g := by
  induction l generalizing gradient with
  | nil => exact ⟨gradient, rfl⟩
  | cons a t ih =>
    rw [List.foldlM_cons]
    have ha : ¬ ((sol.parameter a).type = coefficients_t.SPACE_DEPENDENT ∨
        (sol.parameter a).type = coefficients_t.SOLUTION_DEPENDENT) := by
      rw [h a (List.mem_cons_self _ _)]
      decide
    have hstep : ∃ g, segment_step sol gradient a = Except.ok g := by
      unfold segment_step
      rw [if_neg ha]
      exact ⟨_, rfl⟩
    obtain ⟨g, hg⟩ := hstep
    rw [hg]
    exact ih g (fun s hs => h s (List.mem_cons_of_mem _ hs))

/-- C22: if the conductivity of some segment is of type `SPACE_DEPENDENT` or
`SOLUTION_DEPENDENT`, `calc_flux` ends with the exception `domain_error` and leaves the
object as it was, so `is_flux_calculated()` keeps its value; if the conductivity of every
segment is of type `CONSTANTS`, `calc_flux` returns a vector. -/
theorem calc_flux_domain_error {F : Type} [LinearOrderedField F]
    (gradient_in_qnodes from_qnodes_to_nodes : mesh_1d F → List F → List F)
    (sol : heat_equation_solution_1d F) :
    ((∃ segment, segment < sol.mesh.segments_count ∧
        ((sol.parameter segment).type = coefficients_t.SPACE_DEPENDENT ∨
         (sol.parameter segment).type = coefficients_t.SOLUTION_DEPENDENT)) →
      (calc_flux gradient_in_qnodes from_qnodes_to_nodes sol).1 =
          Except.error exception.domain_error ∧
        (calc_flux gradient_in_qnodes from_qnodes_to_nodes sol).2 = sol ∧
        (calc_flux gradient_in_qnodes from_qnodes_to_nodes sol).2.is_flux_calculated =
          sol.is_flux_calculated) ∧
    ((∀ segment, segment < sol.mesh.segments_count →
        (sol.parameter segment).type = coefficients_t.CONSTANTS) →
      ∃ flux, (calc_flux gradient_in_qnodes from_qnodes_to_nodes sol).1 = Except.ok flux) := by
  constructor
  · rintro ⟨s, hs, hbad⟩
    have h := segments_fold_error sol (List.range sol.mesh.segments_count)
      (gradient_in_qnodes sol.mesh sol.temperature) ⟨s, List.mem_range.mpr hs, hbad⟩
    have hc : calc_flux gradient_in_qnodes from_qnodes_to_nodes sol =
        (Except.error exception.domain_error, sol) := by
      unfold calc_flux flux_in_qnodes
      rw [h]
    rw [hc]
    exact ⟨rfl, rfl, rfl⟩
  · intro hall
    obtain ⟨g, hg⟩ := segments_fold_ok sol (List.range sol.mesh.segments_count)
      (gradient_in_qnodes sol.mesh sol.temperature)
      (fun s hs => hall s (List.mem_range.mp hs))
    refine ⟨from_qnodes_to_nodes sol.mesh g, ?_⟩
    unfold calc_flux flux_in_qnodes
    rw [hg]

theorem calc_flux_domain_error_witness :
    ((calc_flux (fun _ _ => [1, 1]) (fun _ g => g) rod_solution_space_dependent).1 =
        Except.error exception.domain_error ∧
      (calc_flux (fun _ _ => [1, 1]) (fun _ g => g) rod_solution_space_dependent).2 =
        rod_solution_space_dependent ∧
      (calc_flux (fun _ _ => [1, 1])
          (fun _ g => g) rod_solution_space_dependent).2.is_flux_calculated =
        rod_solution_space_dependent.is_flux_calculated) ∧
    ∃ flux, (calc_flux (fun _ _ => [1, 1]) (fun _ g => g) rod_solution).1 = Except.ok flux :=
  ⟨(calc_flux_domain_error (fun _ _ => [1, 1]) (fun _ g => g)
      rod_solution_space_dependent).1 ⟨1, by decide, Or.inl rfl⟩,
    (calc_flux_domain_error (fun _ _ => [1, 1]) (fun _ g => g) rod_solution).2
      (fun _ _ => rfl)⟩

theorem flux_in_qnodes_state {F : Type} [LinearOrderedField F]
    (sol : heat_equation_solution_1d F) (flux : Option (List F)) (gradient : List F) :
    flux_in_qnodes { sol with _flux := flux } gradient = flux_in_qnodes sol gradient := rfl

/-- C23: `calc_flux` is idempotent.  A second call returns what the first call returned and
leaves the object in the state that the first call left; `temperature()` is not changed;
after a call that returned the vector `v`, `is_flux_calculated()` is true and `flux()` is
`v`. -/
theorem calc_flux_idempotent {F : Type} [LinearOrderedField F]
    (gradient_in_qnodes from_qnodes_to_nodes : mesh_1d F → List F → List F)
    (sol : heat_equation_solution_1d F) :
    calc_flux gradient_in_qnodes from_qnodes_to_nodes
        (calc_flux gradient_in_qnodes from_qnodes_to_nodes sol).2 =
      calc_flux gradient_in_qnodes from_qnodes_to_nodes sol ∧
    (calc_flux gradient_in_qnodes from_qnodes_to_nodes sol).2.temperature = sol.temperature ∧
    ∀ v, (calc_flux gradient_in_qnodes from_qnodes_to_nodes sol).1 = Except.ok v →
      (calc_flux gradient_in_qnodes from_qnodes_to_nodes sol).2.is_flux_calculated = true ∧
      (calc_flux gradient_in_qnodes from_qnodes_to_nodes sol).2.flux = some v := by
  cases hq : flux_in_qnodes sol (gradient_in_qnodes sol.mesh sol.temperature) with
  | error e =>
    have hc : calc_flux gradient_in_qnodes from_qnodes_to_nodes sol = (Except.error e, sol) := by
      unfold calc_flux
      rw [hq]
    rw [hc]
    refine ⟨hc, rfl, ?_⟩
    intro v hv
    cases hv
  | ok g =>
    have hc : calc_flux gradient_in_qnodes from_qnodes_to_nodes sol =
        (Except.ok (from_qnodes_to_nodes sol.mesh g),
          { sol with _flux := some (from_qnodes_to_nodes sol.mesh g) }) := by
      unfold calc_flux
      rw [hq]
    rw [hc]
    refine ⟨?_, rfl, ?_⟩
    · unfold calc_flux
      have hq' : flux_in_qnodes { sol with _flux := some (from_qnodes_to_nodes sol.mesh g) }
          (gradient_in_qnodes sol.mesh sol.temperature) = Except.ok g := hq
      simp only [heat_equation_solution_1d.temperature] at hq' ⊢
      rw [hq']
    · intro v hv
      have hv' : from_qnodes_to_nodes sol.mesh g = v := by
        injection hv
      subst hv'
      exact ⟨rfl, rfl⟩

theorem calc_flux_idempotent_witness :
    calc_flux (fun _ _ => [1, 1]) (fun _ g => g)
        (calc_flux (fun _ _ => [1, 1]) (fun _ g => g) rod_solution).2 =
      calc_flux (fun _ _ => [1, 1]) (fun _ g => g) rod_solution ∧
    (calc_flux (fun _ _ => [1, 1]) (fun _ g => g) rod_solution).2.temperature =
      rod_solution.temperature ∧
    (calc_flux (fun _ _ => [1, 1]) (fun _ g => g) rod_solution).2.is_flux_calculated = true ∧
    (calc_flux (fun _ _ => [1, 1]) (fun _ g => g) rod_solution).2.flux = some [-2, 0] := by
  have h := calc_flux_idempotent (fun _ _ => [1, 1]) (fun _ g => g) rod_solution
  have hv : (calc_flux (fun _ _ => [1, 1]) (fun _ g => g) rod_solution).1 =
      Except.ok [-2, 0] := by
    unfold calc_flux
    rw [show flux_in_qnodes rod_solution
      ((fun (_ : mesh_1d ℚ) (_ : List ℚ) => ([1, 1] : List ℚ)) rod_solution.mesh
        rod_solution.temperature) = Except.ok [-2, 0] from flux_in_qnodes_rod]
  exact ⟨h.1, h.2.1, (h.2.2 _ hv).1, (h.2.2 _ hv).2⟩

/-! ## The segment loop without neighbours in earlier segments -/

theorem list_sum_range {F : Type} [Field F] (f : Nat → F) (n : Nat) :
    ((List.range n).map f).sum = ∑ i in Finset.range n, f i := by
  induction n with
  | zero => rfl
  | succ n ih =>
    rw [List.range_succ, List.map_append, List.sum_append, ih, Finset.sum_range_succ]
    simp

theorem sum_filter_flatMap {F α : Type} [Field F] (l : List α) (f : α → List (Nat × F))
    (i : Nat) :
    (((l.flatMap f).filter (fun it => decide (it.1 = i))).map Prod.snd).sum =
      (l.map (fun a => (((f a).filter (fun it => decide (it.1 = i))).map Prod.snd).sum)).sum := by
  induction l with
  | nil => rfl
  | cons a t ih =>
    rw [List.flatMap_cons, List.filter_append, List.map_append, List.sum_append, ih,
      List.map_cons, List.sum_cons]

theorem sum_filter_map_slot {F α : Type} [Field F] (l : List α) (slot : Nat) (t : α → F)
    (i : Nat) :
    (((l.map (fun a => (slot, t a))).filter (fun it => decide (it.1 = i))).map Prod.snd).sum =
      if slot = i then (l.map t).sum else 0 := by
  by_cases h : slot = i
  · rw [if_pos h, List.filter_eq_self.mpr (fun it hit => by
      obtain ⟨a, -, rfl⟩ := List.mem_map.mp hit
      simpa using h), List.map_map]
    rfl
  · rw [if_neg h, List.filter_eq_nil_iff.mpr (fun it hit => by
      obtain ⟨a, -, rfl⟩ := List.mem_map.mp hit
      simpa using h)]
    rfl

theorem sum_map_indicator {F : Type} [Field F] (l : List Nat) (hnd : l.Nodup) (q : Nat)
    (hq : q ∈ l) (p : Nat → Prop) [DecidablePred p] (hp : ∀ x, x ∈ l → (p x ↔ x = q))
    (t : Nat → F) :
    (l.map (fun x => if p x then t x else 0)).sum = t q := by
  induction l with
  | nil => cases hq
  | cons a r ih =>
    have hnd' := List.nodup_cons.mp hnd
    rw [List.map_cons, List.sum_cons]
    rcases List.mem_cons.mp hq with rfl | hq'
    · rw [if_pos ((hp q (List.mem_cons_self _ _)).mpr rfl)]
      have hz : (r.map (fun x => if p x then t x else 0)).sum = 0 := by
        have : r.map (fun x => if p x then t x else 0) = r.map (fun _ => (0 : F)) := by
          apply List.map_congr_left
          intro x hx
          have hne : x ≠ q := fun h => hnd'.1 (h ▸ hx)
          rw [if_neg (fun hpx => hne ((hp x (List.mem_cons_of_mem _ hx)).mp hpx))]
        rw [this]
        simp
      rw [hz, add_zero]
    · have hne : a ≠ q := fun h => hnd'.1 (h ▸ hq')
      rw [if_neg (fun hpa => hne ((hp a (List.mem_cons_self _ _)).mp hpa)), zero_add]
      exact ih hnd'.2 hq' (fun x hx => hp x (List.mem_cons_of_mem _ hx))

theorem sum_map_zero {F α : Type} [Field F] (l : List α) (f : α → F)
    (h : ∀ a, a ∈ l → f a = 0) : (l.map f).sum = 0 := by
  induction l with
  | nil => rfl
  | cons a t ih =>
    rw [List.map_cons, List.sum_cons, h a (List.mem_cons_self _ _),
      ih (fun b hb => h b (List.mem_cons_of_mem _ hb)), add_zero]

theorem slot_injective (qn a b q q' : Nat) (hq : q < qn) (hq' : q' < qn)
    (h : a * qn + q = b * qn + q') : a = b ∧ q = q' := by
  have hpos : 0 < qn := by omega
  have h1 : (a * qn + q) / qn = a := by
    rw [Nat.add_comm, Nat.add_mul_div_right _ _ hpos, Nat.div_eq_of_lt hq, Nat.zero_add]
  have h2 : (b * qn + q') / qn = b := by
    rw [Nat.add_comm, Nat.add_mul_div_right _ _ hpos, Nat.div_eq_of_lt hq', Nat.zero_add]
  have hab : a = b := by rw [← h1, ← h2, h]
  subst hab
  exact ⟨rfl, by omega⟩

theorem getD_map_zero {F : Type} [Field F] (l : List F) (c : F) (i : Nat) :
    (l.map (fun x => x * c)).getD i 0 = l.getD i 0 * c := by
  by_cases h : i < l.length
  · rw [List.getD_eq_getElem _ _ (by simpa using h), List.getD_eq_getElem _ _ h,
      List.getElem_map]
  · have h1 : (l.map (fun x => x * c)).getD i 0 = 0 := by
      simp [List.getD_eq_getElem?_getD, List.getElem?_eq_none (Nat.le_of_not_lt h)]
    have h2 : l.getD i 0 = 0 := by
      simp [List.getD_eq_getElem?_getD, List.getElem?_eq_none (Nat.le_of_not_lt h)]
    rw [h1, h2, zero_mul]

theorem slot_sum_nested {F : Type} [Field F] (els : List Nat) (hnd : els.Nodup)
    (nb : Nat → List Nat) (qn : Nat) (base : Nat → Nat) (t : Nat → Nat → Nat → Nat → F)
    (e q : Nat) (he : e ∈ els) (hq : q < qn)
    (hinj : ∀ eL, eL ∈ els → ∀ qL, qL < qn → base eL + qL = base e + q → eL = e ∧ qL = q) :
    (((els.flatMap (fun eL => (nb eL).flatMap (fun eNL => (List.range qn).flatMap (fun qL =>
        (List.range qn).map (fun qNL => (base eL + qL, t eL eNL qL qNL)))))).filter
      (fun it => decide (it.1 = base e + q))).map Prod.snd).sum =
      ((nb e).map (fun eNL => ∑ qNL in Finset.range qn, t e eNL q qNL)).sum := by
  rw [sum_filter_flatMap]
  have hkey : ∀ eL, eL ∈ els →
      ((((nb eL).flatMap (fun eNL => (List.range qn).flatMap (fun qL =>
        (List.range qn).map (fun qNL => (base eL + qL, t eL eNL qL qNL))))).filter
        (fun it => decide (it.1 = base e + q))).map Prod.snd).sum =
      if eL = e then ((nb e).map (fun eNL => ∑ qNL in Finset.range qn, t e eNL q qNL)).sum
      else 0 := by
    intro eL heL
    rw [sum_filter_flatMap]
    by_cases hee : eL = e
    · subst hee
      rw [if_pos rfl]
      apply congrArg List.sum
      apply List.map_congr_left
      intro eNL _
      rw [sum_filter_flatMap]
      simp only [sum_filter_map_slot]
      rw [sum_map_indicator (List.range qn) (List.nodup_range _) q (List.mem_range.mpr hq)
        (fun qL => base eL + qL = base eL + q) (fun x _ => by omega)
        (fun qL => ((List.range qn).map (fun qNL => t eL eNL qL qNL)).sum)]
      exact list_sum_range _ _
    · rw [if_neg hee]
      apply sum_map_zero
      intro eNL _
      rw [sum_filter_flatMap]
      apply sum_map_zero
      intro qL hqL
      rw [sum_filter_map_slot, if_neg]
      intro hs
      exact hee (hinj eL heL qL (List.mem_range.mp hqL) hs).1
  rw [List.map_congr_left hkey]
  exact sum_map_indicator els hnd e he (fun eL => eL = e) (fun x _ => Iff.rfl) _

/-- The entry of `gradient_nonlocal` for the quadrature node `q` of the element `e` of the
segment: the negative of the sum over the neighbours and their quadrature nodes of
`w * influence * gradient`, times `nonlocal_weight * conductivity * jacobian`. -/
theorem gradient_nonlocal_getD {F : Type} [LinearOrderedField F]
    (sol : heat_equation_solution_1d F) (segment : Nat) (gradient : List F) (e q : Nat)
    (he1 : sol.mesh.segment_front segment ≤ e) (he2 : e < sol.mesh.segment_end segment)
    (hq : q < sol.mesh.qnodes_count) :
    (gradient_nonlocal sol segment gradient).getD
        ((e - sol.mesh.segment_front segment) * sol.mesh.qnodes_count + q) 0 =
      -(((sol.mesh.neighbours e).map (fun eNL =>
          ∑ qNL in Finset.range sol.mesh.qnodes_count,
            sol.mesh.weight qNL *
              (sol.model segment).influence (sol.mesh.qnode_coord e q)
                (sol.mesh.qnode_coord eNL qNL) *
              gradient.getD (eNL * sol.mesh.qnodes_count + qNL) 0)).sum) *
        (nonlocal_weight (sol.model segment).local_weight *
          (sol.parameter segment).conductivity * sol.mesh.jacobian segment) := by
  have hfold : ∀ init : List F,
      (sol.mesh.elements segment).foldl
        (fun gn eL => (sol.mesh.neighbours eL).foldl
          (fun gn eNL => (List.range sol.mesh.qnodes_count).foldl
            (fun gn qL => (List.range sol.mesh.qnodes_count).foldl
              (nonlocal_update sol segment gradient eL eNL qL) gn) gn) gn) init =
      ((sol.mesh.elements segment).flatMap (fun eL =>
        (sol.mesh.neighbours eL).flatMap (fun eNL =>
          (List.range sol.mesh.qnodes_count).flatMap (fun qL =>
            (List.range sol.mesh.qnodes_count).map (fun qNL =>
              ((eL - sol.mesh.segment_front segment) * sol.mesh.qnodes_count + qL,
                sol.mesh.weight qNL *
                  (sol.model segment).influence (sol.mesh.qnode_coord eL qL)
                    (sol.mesh.qnode_coord eNL qNL) *
                  gradient.getD (eNL * sol.mesh.qnodes_count + qNL) 0)))))).foldl
        (fun f it => f.set it.1 (f.getD it.1 0 - 1 * it.2)) init := by
    intro init
    rw [CuthillMcKee.foldl_flatMap_eq]
    congr 1
    funext gn eL
    rw [CuthillMcKee.foldl_flatMap_eq]
    congr 1
    funext gn eNL
    rw [CuthillMcKee.foldl_flatMap_eq]
    congr 1
    funext gn qL
    rw [List.foldl_map]
    congr 1
    funext gn qNL
    simp only [nonlocal_update, one_mul]
  unfold gradient_nonlocal
  rw [getD_map_zero, hfold]
  have hslot : (e - sol.mesh.segment_front segment) * sol.mesh.qnodes_count + q <
      (List.replicate (sol.mesh.elements_count segment * sol.mesh.qnodes_count) (0 : F)).length := by
    rw [List.length_replicate]
    unfold mesh_1d.elements_count
    have h1 : e - sol.mesh.segment_front segment + 1 ≤
        sol.mesh.segment_end segment - sol.mesh.segment_front segment := by omega
    calc (e - sol.mesh.segment_front segment) * sol.mesh.qnodes_count + q
        < (e - sol.mesh.segment_front segment) * sol.mesh.qnodes_count +
            sol.mesh.qnodes_count := by omega
      _ = (e - sol.mesh.segment_front segment + 1) * sol.mesh.qnodes_count := by ring
      _ ≤ _ := Nat.mul_le_mul_right _ h1
  rw [statics_with_nonloc.sub_fold_getD 1 _ _ _ hslot]
  have h0 : (List.replicate (sol.mesh.elements_count segment * sol.mesh.qnodes_count)
      (0 : F)).getD ((e - sol.mesh.segment_front segment) * sol.mesh.qnodes_count + q) 0 = 0 := by
    simp only [List.getD_eq_getElem?_getD, List.getElem?_replicate]
    split <;> rfl
  rw [h0, zero_sub, one_mul]
  congr 2
  have hel : e ∈ sol.mesh.elements segment := by
    unfold mesh_1d.elements
    rw [List.mem_range'_1]
    omega
  exact slot_sum_nested (sol.mesh.elements segment) (List.nodup_range' _ _)
    sol.mesh.neighbours sol.mesh.qnodes_count
    (fun eL => (eL - sol.mesh.segment_front segment) * sol.mesh.qnodes_count)
    (fun eL eNL qL qNL => sol.mesh.weight qNL *
      (sol.model segment).influence (sol.mesh.qnode_coord eL qL)
        (sol.mesh.qnode_coord eNL qNL) *
      gradient.getD (eNL * sol.mesh.qnodes_count + qNL) 0)
    e q hel hq
    (fun eL heL qL hqL hs => by
      have heL' : sol.mesh.segment_front segment ≤ eL := by
        unfold mesh_1d.elements at heL
        rw [List.mem_range'_1] at heL
        exact heL.1
      have := slot_injective _ _ _ _ _ hqL hq hs
      exact ⟨by omega, this.2⟩)

theorem rows_fold_getD {F : Type} [Field F] (h : Nat → F → F) (l : List Nat) (hnd : l.Nodup)
    (G : List F) (hlt : ∀ r, r ∈ l → r < G.length) :
    (l.foldl (fun G r => G.set r (h r (G.getD r 0))) G).length = G.length ∧
    ∀ i, (l.foldl (fun G r => G.set r (h r (G.getD r 0))) G).getD i 0 =
      if i ∈ l then h i (G.getD i 0) else G.getD i 0 := by
  induction l generalizing G with
  | nil => exact ⟨rfl, fun i => by simp⟩
  | cons a t ih =>
    have hnd' := List.nodup_cons.mp hnd
    have ha := hlt a (List.mem_cons_self _ _)
    obtain ⟨ih1, ih2⟩ := ih hnd'.2 (G.set a (h a (G.getD a 0)))
      (fun r hr => by simpa using hlt r (List.mem_cons_of_mem _ hr))
    rw [List.foldl_cons]
    refine ⟨by rw [ih1, List.length_set], ?_⟩
    intro i
    rw [ih2 i]
    by_cases hia : i = a
    · subst hia
      rw [if_neg hnd'.1, if_pos (List.mem_cons_self _ _), CuthillMcKee.getD_set_eq _ _ _ _ ha]
    · rw [CuthillMcKee.getD_set_ne _ _ _ _ _ (Ne.symm hia)]
      by_cases hit : i ∈ t
      · rw [if_pos hit, if_pos (List.mem_cons_of_mem _ hit)]
      · rw [if_neg hit, if_neg (fun hm => by
          rcases List.mem_cons.mp hm with h' | h'
          · exact hia h'
          · exact hit h')]

/-- The vector after the body of the loop over the segments, for a segment of constant
conductivity whose quadrature rows lie inside the vector: the rows of the segment are
multiplied with `-local_weight * conductivity` and, in the nonlocal theory, the entry of
`gradient_nonlocal` is added; the other rows are kept. -/
theorem segment_step_ok {F : Type} [LinearOrderedField F] (sol : heat_equation_solution_1d F)
    (G : List F) (segment : Nat)
    (hconst : (sol.parameter segment).type = coefficients_t.CONSTANTS)
    (hrows : sol.mesh.qnodes_count * sol.mesh.segment_end segment ≤ G.length) :
    ∃ G', segment_step sol G segment = Except.ok G' ∧ G'.length = G.length ∧
      ∀ i, G'.getD i 0 =
        if sol.mesh.qnodes_count * sol.mesh.segment_front segment ≤ i ∧
            i < sol.mesh.qnodes_count * sol.mesh.segment_end segment then
          G.getD i 0 * (-(sol.model segment).local_weight * (sol.parameter segment).conductivity) +
            (if theory_type (sol.model segment).local_weight = theory_t.NONLOCAL then
              (gradient_nonlocal sol segment G).getD
                (i - sol.mesh.qnodes_count * sol.mesh.segment_front segment) 0
            else 0)
        else G.getD i 0 := by
  have hbad : ¬ ((sol.parameter segment).type = coefficients_t.SPACE_DEPENDENT ∨
      (sol.parameter segment).type = coefficients_t.SOLUTION_DEPENDENT) := by
    rw [hconst]
    decide
  have hlt : ∀ r, r ∈ List.range' (sol.mesh.qnodes_count * sol.mesh.segment_front segment)
      (sol.mesh.qnodes_count * sol.mesh.segment_end segment -
        sol.mesh.qnodes_count * sol.mesh.segment_front segment) → r < G.length := by
    intro r hr
    rw [List.mem_range'_1] at hr
    omega
  have hbody : ∀ (gn : List F) (theory : theory_t) (l : List Nat) (G : List F),
      (∀ r, r ∈ l → r < G.length) →
      l.foldl (fun gradient qshiftL =>
        let scaled := gradient.set qshiftL (gradient.getD qshiftL 0 *
          (-(sol.model segment).local_weight * (sol.parameter segment).conductivity))
        if theory = theory_t.NONLOCAL then
          scaled.set qshiftL (scaled.getD qshiftL 0 +
            gn.getD (qshiftL - sol.mesh.qnodes_count * sol.mesh.segment_front segment) 0)
        else scaled) G =
      l.foldl (fun G r => G.set r ((fun r x =>
        x * (-(sol.model segment).local_weight * (sol.parameter segment).conductivity) +
          (if theory = theory_t.NONLOCAL then
            gn.getD (r - sol.mesh.qnodes_count * sol.mesh.segment_front segment) 0
          else 0)) r (G.getD r 0))) G := by
    intro gn theory l
    induction l with
    | nil => intro G _; rfl
    | cons a t ih =>
      intro G hG
      have ha := hG a (List.mem_cons_self _ _)
      rw [List.foldl_cons, List.foldl_cons]
      have hstep : (let scaled := G.set a (G.getD a 0 *
            (-(sol.model segment).local_weight * (sol.parameter segment).conductivity))
          if theory = theory_t.NONLOCAL then
            scaled.set a (scaled.getD a 0 +
              gn.getD (a - sol.mesh.qnodes_count * sol.mesh.segment_front segment) 0)
          else scaled) =
          G.set a (G.getD a 0 *
            (-(sol.model segment).local_weight * (sol.parameter segment).conductivity) +
            (if theory = theory_t.NONLOCAL then
              gn.getD (a - sol.mesh.qnodes_count * sol.mesh.segment_front segment) 0
            else 0)) := by
        simp only
        by_cases hth : theory = theory_t.NONLOCAL
        · rw [if_pos hth, if_pos hth, List.set_set, CuthillMcKee.getD_set_eq _ _ _ _ ha]
        · rw [if_neg hth, if_neg hth, add_zero]
      rw [hstep]
      exact ih _ (fun r hr => by simpa using hG r (List.mem_cons_of_mem _ hr))
  obtain ⟨hr1, hr2⟩ := rows_fold_getD (fun r x =>
      x * (-(sol.model segment).local_weight * (sol.parameter segment).conductivity) +
        (if theory_type (sol.model segment).local_weight = theory_t.NONLOCAL then
          (if theory_type (sol.model segment).local_weight = theory_t.NONLOCAL then
            gradient_nonlocal sol segment G else []).getD
            (r - sol.mesh.qnodes_count * sol.mesh.segment_front segment) 0
        else 0))
    (List.range' (sol.mesh.qnodes_count * sol.mesh.segment_front segment)
      (sol.mesh.qnodes_count * sol.mesh.segment_end segment -
        sol.mesh.qnodes_count * sol.mesh.segment_front segment)) (List.nodup_range' _ _) G hlt
  refine ⟨_, ?_, hr1, ?_⟩
  · unfold segment_step
    rw [if_neg hbad]
    simp only
    rw [hbody _ _ _ G hlt]
  · intro i
    rw [hr2 i]
    have hmem : i ∈ List.range' (sol.mesh.qnodes_count * sol.mesh.segment_front segment)
        (sol.mesh.qnodes_count * sol.mesh.segment_end segment -
          sol.mesh.qnodes_count * sol.mesh.segment_front segment) ↔
        (sol.mesh.qnodes_count * sol.mesh.segment_front segment ≤ i ∧
          i < sol.mesh.qnodes_count * sol.mesh.segment_end segment) := by
      rw [List.mem_range'_1]
      omega
    simp only [hmem]
    by_cases hth : theory_type (sol.model segment).local_weight = theory_t.NONLOCAL
    · simp only [hth, if_true]
    · simp only [hth, if_false]

/-- The segment loop of `calc_flux` gives the flux of the specification when the segments
are disjoint ranges of elements in ascending order, every segment has constant
conductivity, the quadrature rows lie inside the vector, and no element of a segment of the
nonlocal theory has a neighbour in an earlier segment. -/
theorem flux_in_qnodes_forward {F : Type} [LinearOrderedField F]
    (sol : heat_equation_solution_1d F) (g : List F)
    (hconst : ∀ s, s < sol.mesh.segments_count →
      (sol.parameter s).type = coefficients_t.CONSTANTS)
    (hdisj : ∀ t s, t < s → s < sol.mesh.segments_count →
      sol.mesh.segment_end t ≤ sol.mesh.segment_front s)
    (hrows : ∀ s, s < sol.mesh.segments_count →
      sol.mesh.qnodes_count * sol.mesh.segment_end s ≤ g.length)
    (hfwd : ∀ s, s < sol.mesh.segments_count →
      theory_type (sol.model s).local_weight = theory_t.NONLOCAL →
      ∀ eL, sol.mesh.segment_front s ≤ eL → eL < sol.mesh.segment_end s →
      ∀ eNL, eNL ∈ sol.mesh.neighbours eL → sol.mesh.segment_front s ≤ eNL) :
    ∃ v, flux_in_qnodes sol g = Except.ok v ∧ v.length = g.length ∧
      ∀ s, s < sol.mesh.segments_count →
        ∀ e, sol.mesh.segment_front s ≤ e → e < sol.mesh.segment_end s →
        ∀ q, q < sol.mesh.qnodes_count →
          v.getD (e * sol.mesh.qnodes_count + q) 0 = flux_spec sol g s e q := by
  have hrow : ∀ s e q, sol.mesh.segment_front s ≤ e → e < sol.mesh.segment_end s →
      q < sol.mesh.qnodes_count →
      sol.mesh.qnodes_count * sol.mesh.segment_front s ≤ e * sol.mesh.qnodes_count + q ∧
      e * sol.mesh.qnodes_count + q < sol.mesh.qnodes_count * sol.mesh.segment_end s ∧
      e * sol.mesh.qnodes_count + q - sol.mesh.qnodes_count * sol.mesh.segment_front s =
        (e - sol.mesh.segment_front s) * sol.mesh.qnodes_count + q := by
    intro s e q h1 h2 h3
    have e1 : sol.mesh.qnodes_count * sol.mesh.segment_front s ≤ e * sol.mesh.qnodes_count := by
      rw [Nat.mul_comm]
      exact Nat.mul_le_mul_right _ h1
    have e2 : (e + 1) * sol.mesh.qnodes_count ≤
        sol.mesh.qnodes_count * sol.mesh.segment_end s := by
      rw [Nat.mul_comm sol.mesh.qnodes_count]
      exact Nat.mul_le_mul_right _ h2
    have e3 : (e + 1) * sol.mesh.qnodes_count =
        e * sol.mesh.qnodes_count + sol.mesh.qnodes_count := by ring
    have e4 : (e - sol.mesh.segment_front s) * sol.mesh.qnodes_count =
        e * sol.mesh.qnodes_count - sol.mesh.qnodes_count * sol.mesh.segment_front s := by
      rw [Nat.sub_mul, Nat.mul_comm sol.mesh.qnodes_count]
    refine ⟨by omega, by omega, by omega⟩
  have key : ∀ k, k ≤ sol.mesh.segments_count →
      ∃ G, (List.range k).foldlM (segment_step sol) g = Except.ok G ∧
        G.length = g.length ∧
        (∀ t, t < k → ∀ e, sol.mesh.segment_front t ≤ e → e < sol.mesh.segment_end t →
          ∀ q, q < sol.mesh.qnodes_count →
            G.getD (e * sol.mesh.qnodes_count + q) 0 = flux_spec sol g t e q) ∧
        (∀ i, (∀ t, t < k → ¬ (sol.mesh.qnodes_count * sol.mesh.segment_front t ≤ i ∧
            i < sol.mesh.qnodes_count * sol.mesh.segment_end t)) →
          G.getD i 0 = g.getD i 0) := by
    intro k
    induction k with
    | zero =>
      intro _
      exact ⟨g, rfl, rfl, fun t ht => absurd ht (Nat.not_lt_zero t), fun i _ => rfl⟩
    | succ k ih =>
      intro hk
      obtain ⟨G, hG, hlen, hdone, hraw⟩ := ih (by omega)
      obtain ⟨G', hstep, hlen', hval⟩ := segment_step_ok sol G k (hconst k (by omega))
        (by rw [hlen]; exact hrows k (by omega))
      have hearlier : ∀ i, sol.mesh.qnodes_count * sol.mesh.segment_front k ≤ i →
          G.getD i 0 = g.getD i 0 := by
        intro i hi
        apply hraw
        intro t ht hin
        have := hdisj t k ht (by omega)
        have := Nat.mul_le_mul_left sol.mesh.qnodes_count this
        omega
      refine ⟨G', ?_, hlen'.trans hlen, ?_, ?_⟩
      · rw [List.range_succ, List.foldlM_append, hG]
        show List.foldlM (segment_step sol) G [k] = _
        rw [List.foldlM_cons, hstep]
        rfl
      · intro t ht e he1 he2 q hq
        obtain ⟨r1, r2, r3⟩ := hrow t e q he1 he2 hq
        rw [hval]
        rcases Nat.lt_or_ge t k with htk | htk
        · have hd := hdisj t k htk (by omega)
          have := Nat.mul_le_mul_left sol.mesh.qnodes_count hd
          rw [if_neg (by omega)]
          exact hdone t htk e he1 he2 q hq
        · have htk' : t = k := by omega
          subst htk'
          rw [if_pos ⟨r1, r2⟩, hearlier _ r1]
          unfold flux_spec qnode_value
          cases hth : theory_type (sol.model t).local_weight with
          | LOCAL =>
            simp only [reduceCtorEq, if_false, add_zero]
            ring
          | NONLOCAL =>
            simp only [if_true]
            rw [r3, gradient_nonlocal_getD sol t G e q he1 he2 hq]
            have hsum : ((sol.mesh.neighbours e).map (fun eNL =>
                ∑ qNL in Finset.range sol.mesh.qnodes_count,
                  sol.mesh.weight qNL *
                    (sol.model t).influence (sol.mesh.qnode_coord e q)
                      (sol.mesh.qnode_coord eNL qNL) *
                    G.getD (eNL * sol.mesh.qnodes_count + qNL) 0)) =
                ((sol.mesh.neighbours e).map (fun eNL =>
                ∑ qNL in Finset.range sol.mesh.qnodes_count,
                  sol.mesh.weight qNL *
                    (sol.model t).influence (sol.mesh.qnode_coord e q)
                      (sol.mesh.qnode_coord eNL qNL) *
                    g.getD (eNL * sol.mesh.qnodes_count + qNL) 0)) := by
              apply List.map_congr_left
              intro eNL heNL
              apply Finset.sum_congr rfl
              intro qNL _
              have hf := hfwd t (by omega) hth e he1 he2 eNL heNL
              have : sol.mesh.qnodes_count * sol.mesh.segment_front t ≤
                  eNL * sol.mesh.qnodes_count + qNL := by
                have := Nat.mul_le_mul_left sol.mesh.qnodes_count hf
                rw [Nat.mul_comm sol.mesh.qnodes_count eNL] at this
                omega
              rw [hearlier _ this]
            rw [hsum]
            unfold nonlocal_weight
            ring
      · intro i hi
        rw [hval, if_neg (hi k (Nat.lt_succ_self k))]
        exact hraw i (fun t ht => hi t (by omega))
  obtain ⟨G, hG, hlen, hdone, -⟩ := key sol.mesh.segments_count le_rfl
  exact ⟨G, hG, hlen, hdone⟩

end thermal

namespace finite_element

/-! ## The expressions of the basis -/

theorem neg_def {F : Type} (a : expression F) : -a = expression.neg a := rfl

theorem add_def {F : Type} (a b : expression F) : a + b = expression.add a b := rfl

theorem sub_def {F : Type} (a b : expression F) : a - b = expression.sub a b := rfl

theorem mul_def {F : Type} (a b : expression F) : a * b = expression.mul a b := rfl

/-- The expression `derivative k e` evaluates to the derivative of the value of `e` with
respect to the variable `k`. -/
theorem derivative_hasDerivAt (e : expression ℝ) (k : Nat) (x : List ℝ) (hk : k < x.length)
    (t : ℝ) :
    HasDerivAt (fun s => e.eval (x.set k s)) ((e.derivative k).eval (x.set k t)) t := by
  induction e with
  | constant a => exact hasDerivAt_const t a
  | var j =>
    by_cases hj : j = k
    · subst hj
      have h : (fun s => (expression.var j : expression ℝ).eval (x.set j s)) = fun s => s := by
        funext s
        simp [expression.eval, List.getD_eq_getElem?_getD, List.getElem?_set, hk]
      rw [h]
      simp only [expression.derivative, if_true, expression.eval]
      exact hasDerivAt_id t
    · have h : (fun s => (expression.var j : expression ℝ).eval (x.set k s)) =
          fun _ => x.getD j 0 := by
        funext s
        simp [expression.eval, List.getD_eq_getElem?_getD, List.getElem?_set, Ne.symm hj]
      rw [h]
      simp only [expression.derivative, if_neg hj, expression.eval]
      exact hasDerivAt_const t _
  | neg a iha => exact iha.neg
  | add a b iha ihb => exact iha.add ihb
  | sub a b iha ihb => exact iha.sub ihb
  | mul a b iha ihb => exact iha.mul ihb

/-! ## The classical basis -/

/-- C32.  With the default value `-1/2` of the parameter, each of the twelve basis
functions of `qubic_serendipity` is the classical cubic serendipity function of its node,
at every point `(xi, eta)`. -/
theorem N_default_classical {F : Type} [LinearOrderedField F] (i : Nat) (hi : i < 12)
    (xi eta : F) : N i [xi, eta, default_parameter] = classical_basis i xi eta := by
  interval_cases i <;>
    simp only [N, basis, c, finite_element.xi, finite_element.eta, finite_element.p, neg_def, add_def, sub_def, mul_def,
      expression.eval, List.getD_cons_succ, List.getD_cons_zero, classical_basis, nodes, default_parameter] <;>
    norm_num <;>
    ring

theorem N_default_classical_witness :
    N 4 [(1 / 2 : ℚ), 1 / 3, default_parameter] = classical_basis 4 (1 / 2) (1 / 3) :=
  N_default_classical 4 (by decide) (1 / 2) (1 / 3)

/-! ## Integrals over the reference square -/

/-- The integral of a polynomial of degree at most three over `[-1, 1]`. -/
theorem integral_cubic (a0 a1 a2 a3 : ℝ) :
    ∫ x in (-1:ℝ)..1, (a0 + a1 * x + a2 * x ^ 2 + a3 * x ^ 3) = 2 * a0 + 2 / 3 * a2 := by
  have h : ∀ x ∈ Set.uIcc (-1:ℝ) 1,
      HasDerivAt (fun x : ℝ => a0 * x + a1 * (x ^ 2 / 2) + a2 * (x ^ 3 / 3) + a3 * (x ^ 4 / 4))
        (a0 + a1 * x + a2 * x ^ 2 + a3 * x ^ 3) x := by
    intro x _
    have h1 := (hasDerivAt_id x).const_mul a0
    have h2 := ((hasDerivAt_pow 2 x).div_const 2).const_mul a1
    have h3 := ((hasDerivAt_pow 3 x).div_const 3).const_mul a2
    have h4 := ((hasDerivAt_pow 4 x).div_const 4).const_mul a3
    convert ((h1.add h2).add h3).add h4 using 1
    simp
  rw [intervalIntegral.integral_eq_sub_of_hasDerivAt h
    ((by fun_prop : Continuous fun x : ℝ => a0 + a1 * x + a2 * x ^ 2 + a3 * x ^ 3).intervalIntegrable _ _)]
  ring

/-- Simpson's rule is exact on polynomials of degree at most three. -/
theorem integral_of_cubic (f : ℝ → ℝ) (h : is_cubic f) :
    ∫ x in (-1:ℝ)..1, f x = (f (-1) + 4 * f 0 + f 1) / 3 := by
  have hf : f = fun x => f 0 +
      ((f 1 - f (-1)) / 2 - (f 2 - 2 * f 1 + 2 * f (-1) - f (-2)) / 12) * x +
      ((f 1 + f (-1)) / 2 - f 0) * x ^ 2 +
      (f 2 - 2 * f 1 + 2 * f (-1) - f (-2)) / 12 * x ^ 3 := funext h
  rw [hf, integral_cubic]
  simp only
  ring

/-- The integral over the reference square of a function that is a polynomial of degree at
most three in each variable. -/
theorem integral_square_of_cubic (g : ℝ → ℝ → ℝ) (h1 : ∀ x, is_cubic (g x))
    (h2 : is_cubic (fun x => (g x (-1) + 4 * g x 0 + g x 1) / 3)) :
    ∫ x in (-1:ℝ)..1, ∫ y in (-1:ℝ)..1, g x y =
      ((g (-1) (-1) + 4 * g (-1) 0 + g (-1) 1) / 3 + 4 * ((g 0 (-1) + 4 * g 0 0 + g 0 1) / 3) +
        (g 1 (-1) + 4 * g 1 0 + g 1 1) / 3) / 3 := by
  have hin : (fun x => ∫ y in (-1:ℝ)..1, g x y) =
      fun x => (g x (-1) + 4 * g x 0 + g x 1) / 3 :=
    funext fun x => integral_of_cubic (g x) (h1 x)
  rw [hin, integral_of_cubic _ h2]

/-- C33.  For every value of the parameter `p`, the integral over the reference square
`[-1, 1] × [-1, 1]` of each corner basis function (`i = 0, 3, 6, 9`) is `p`. -/
theorem N_corner_integral (p : ℝ) (i : Nat) (hi : i ∈ [0, 3, 6, 9]) :
    ∫ xi in (-1 : ℝ)..1, ∫ eta in (-1 : ℝ)..1, N i [xi, eta, p] = p := by
  have h : i = 0 ∨ i = 3 ∨ i = 6 ∨ i = 9 := by simpa using hi
  rcases h with rfl | rfl | rfl | rfl <;>
    rw [integral_square_of_cubic (fun xi eta => N _ [xi, eta, p])
      (by
        intro x y
        simp only [N, basis, c, finite_element.xi, finite_element.eta, finite_element.p, neg_def, add_def, sub_def, mul_def,
      expression.eval, List.getD_cons_succ, List.getD_cons_zero]
        ring)
      (by
        intro x
        simp only [N, basis, c, finite_element.xi, finite_element.eta, finite_element.p, neg_def, add_def, sub_def, mul_def,
      expression.eval, List.getD_cons_succ, List.getD_cons_zero]
        ring)] <;>
    simp only [N, basis, c, finite_element.xi, finite_element.eta, finite_element.p, neg_def, add_def, sub_def, mul_def,
      expression.eval, List.getD_cons_succ, List.getD_cons_zero] <;>
    ring

theorem N_corner_integral_witness :
    ∫ xi in (-1 : ℝ)..1, ∫ eta in (-1 : ℝ)..1, N 6 [xi, eta, -(1 / 2)] = -(1 / 2) :=
  N_corner_integral (-(1 / 2)) 6 (by decide)

/-- C34 (amended).  For every value of the parameter `p`, the integral over the reference
square `[-1, 1] × [-1, 1]` of each basis function of a node inside a side
(`i = 1, 2, 4, 5, 7, 8, 10, 11`) is `(1 - p) / 2`. -/
theorem N_side_integral (p : ℝ) (i : Nat) (hi : i ∈ [1, 2, 4, 5, 7, 8, 10, 11]) :
    ∫ xi in (-1 : ℝ)..1, ∫ eta in (-1 : ℝ)..1, N i [xi, eta, p] = (1 - p) / 2 := by
  have h : i = 1 ∨ i = 2 ∨ i = 4 ∨ i = 5 ∨ i = 7 ∨ i = 8 ∨ i = 10 ∨ i = 11 := by
    simpa using hi
  rcases h with rfl | rfl | rfl | rfl | rfl | rfl | rfl | rfl <;>
    rw [integral_square_of_cubic (fun xi eta => N _ [xi, eta, p])
      (by
        intro x y
        simp only [N, basis, c, finite_element.xi, finite_element.eta, finite_element.p, neg_def, add_def, sub_def, mul_def,
      expression.eval, List.getD_cons_succ, List.getD_cons_zero]
        ring)
      (by
        intro x
        simp only [N, basis, c, finite_element.xi, finite_element.eta, finite_element.p, neg_def, add_def, sub_def, mul_def,
      expression.eval, List.getD_cons_succ, List.getD_cons_zero]
        ring)] <;>
    simp only [N, basis, c, finite_element.xi, finite_element.eta, finite_element.p, neg_def, add_def, sub_def, mul_def,
      expression.eval, List.getD_cons_succ, List.getD_cons_zero] <;>
    ring

theorem N_side_integral_witness :
    ∫ xi in (-1 : ℝ)..1, ∫ eta in (-1 : ℝ)..1, N 5 [xi, eta, -(1 / 2)] = (1 - -(1 / 2)) / 2 :=
  N_side_integral (-(1 / 2)) 5 (by decide)

/-- C34 (counterexample).  With the default value `-1/2` of the parameter the integral of
the basis function of node 1 over the reference square is `3/4`, while `(1 - 4p) / 2` is
`3/2`. -/
theorem N_side_integral_counterexample :
    ∫ xi in (-1 : ℝ)..1, ∫ eta in (-1 : ℝ)..1, N 1 [xi, eta, default_parameter] = 3 / 4 ∧
    (1 - 4 * (default_parameter : ℝ)) / 2 = 3 / 2 ∧
    ¬ ∀ (p : ℝ) (i : Nat), i ∈ [1, 2, 4, 5, 7, 8, 10, 11] →
      ∫ xi in (-1 : ℝ)..1, ∫ eta in (-1 : ℝ)..1, N i [xi, eta, p] = (1 - 4 * p) / 2 := by
  have h1 : ∫ xi in (-1 : ℝ)..1, ∫ eta in (-1 : ℝ)..1, N 1 [xi, eta, default_parameter] =
      3 / 4 := by
    rw [integral_square_of_cubic (fun xi eta => N 1 [xi, eta, default_parameter])
      (by
        intro x y
        simp only [N, basis, c, finite_element.xi, finite_element.eta, finite_element.p, neg_def, add_def, sub_def, mul_def,
      expression.eval, List.getD_cons_succ, List.getD_cons_zero]
        ring)
      (by
        intro x
        simp only [N, basis, c, finite_element.xi, finite_element.eta, finite_element.p, neg_def, add_def, sub_def, mul_def,
      expression.eval, List.getD_cons_succ, List.getD_cons_zero]
        ring)]
    simp only [N, basis, c, finite_element.xi, finite_element.eta, finite_element.p, neg_def, add_def, sub_def, mul_def,
      expression.eval, List.getD_cons_succ, List.getD_cons_zero, default_parameter]
    ring
  have h2 : (1 - 4 * (default_parameter : ℝ)) / 2 = 3 / 2 := by
    unfold default_parameter
    norm_num
  refine ⟨h1, h2, fun h => ?_⟩
  have h3 := h default_parameter 1 (by decide)
  rw [h1, h2] at h3
  norm_num at h3

/-! ## Interpolation and partition of unity -/

/-- C35.  For every value of the parameter `p` the basis interpolates at the nodes: the
basis function `i` at the node `j` is 1 if `i = j` and 0 otherwise. -/
theorem N_nodes {F : Type} [LinearOrderedField F] (p : F) (i j : Nat) (hi : i < 12)
    (hj : j < 12) :
    N i [(nodes.getD j (0, 0)).1, (nodes.getD j (0, 0)).2, p] = if i = j then 1 else 0 := by
  interval_cases i <;> interval_cases j <;>
    simp only [N, basis, c, finite_element.xi, finite_element.eta, finite_element.p, neg_def, add_def, sub_def, mul_def,
      expression.eval, List.getD_cons_succ, List.getD_cons_zero, nodes, reduceIte, Nat.reduceEqDiff, OfNat.ofNat_ne_zero,
      OfNat.zero_ne_ofNat, OfNat.ofNat_ne_one, OfNat.one_ne_ofNat, one_ne_zero,
      zero_ne_one] <;>
    ring

theorem N_nodes_witness :
    N 7 [((nodes.getD 2 (0, 0)).1 : ℚ), (nodes.getD 2 (0, 0)).2, 3] = if 7 = 2 then 1 else 0 :=
  N_nodes 3 7 2 (by decide) (by decide)

/-- C36.  For every value of the parameter `p` and every point `(xi, eta)` the twelve basis
functions sum to 1, and their derivatives with respect to `xi` and with respect to `eta` sum
to 0. -/
theorem N_partition_of_unity {F : Type} [LinearOrderedField F] (xi eta p : F) :
    ((List.range 12).map (fun i => N i [xi, eta, p])).sum = 1 ∧
    ((List.range 12).map (fun i => Nxi i [xi, eta, p])).sum = 0 ∧
    ((List.range 12).map (fun i => Neta i [xi, eta, p])).sum = 0 := by
  have h : List.range 12 = [0, 1, 2, 3, 4, 5, 6, 7, 8, 9, 10, 11] := by decide
  rw [h]
  refine ⟨?_, ?_, ?_⟩
  · simp only [N, basis, c, finite_element.xi, finite_element.eta, finite_element.p, neg_def, add_def, sub_def, mul_def,
      expression.eval, List.getD_cons_succ, List.getD_cons_zero, List.map_cons, List.map_nil,
      List.sum_cons, List.sum_nil]
    ring
  · simp only [Nxi, N, basis, c, finite_element.xi, finite_element.eta, finite_element.p, neg_def, add_def, sub_def, mul_def,
      expression.eval, List.getD_cons_succ, List.getD_cons_zero, expression.derivative,
      List.map_cons, List.map_nil, List.sum_cons, List.sum_nil]
    simp
    ring
  · simp only [Neta, N, basis, c, finite_element.xi, finite_element.eta, finite_element.p, neg_def, add_def, sub_def, mul_def,
      expression.eval, List.getD_cons_succ, List.getD_cons_zero, expression.derivative,
      List.map_cons, List.map_nil, List.sum_cons, List.sum_nil]
    simp
    ring

end finite_element

namespace mesh_2d

/-! ## The member function `save_as_vtk` -/

theorem write_element_grows {F : Type} (Ind : Nat) (I : List Nat) (mesh_file : List (item F))
    (element : List Nat) : mesh_file <+: write_element Ind I mesh_file element := by
  unfold write_element
  have h : ∀ (I : List Nat) (file : List (item F)),
      file <+: I.foldl
        (fun file i => file ++ [item.text " ", item.number (element.getD i 0)]) file := by
    intro I
    induction I with
    | nil => intro file; exact List.prefix_refl _
    | cons i rest ih =>
      intro file
      exact (List.prefix_append _ _).trans (ih _)
  exact (List.prefix_append _ _).trans (h I _)

theorem write_cell_outcome {F : Type} (m : mesh F) (mesh_file : List (item F)) (el : Nat) :
    (m.element_2d_type el ∈ vtk_kinds → (write_cell m mesh_file el).1 = Except.ok ()) ∧
    (m.element_2d_type el ∉ vtk_kinds →
      (write_cell m mesh_file el).1 =
        Except.error (exception.domain_error "Unknown element.")) ∧
    mesh_file <+: (write_cell m mesh_file el).2 := by
  have hp : ∀ (n : Nat) (I : List Nat), mesh_file <+:
      write_element 0 I (mesh_file ++ [item.number n, item.text " "])
        (m.elements.getD el []) ++ [item.text "\n"] :=
    fun n I => ((List.prefix_append _ _).trans (write_element_grows _ _ _ _)).trans
      (List.prefix_append _ _)
  unfold write_cell
  cases h : m.element_2d_type el <;> simp only [h] <;> refine ⟨?_, ?_, ?_⟩
  all_goals
    first
    | exact hp _ _
    | exact List.prefix_append _ _
    | exact fun _ => trivial
    | exact fun hn => absurd (by decide) hn
    | exact fun hm => absurd hm (by decide)

theorem write_cell_type_outcome {F : Type} (m : mesh F) (mesh_file : List (item F))
    (el : Nat) :
    (m.element_2d_type el ∈ vtk_kinds → (write_cell_type m mesh_file el).1 = Except.ok ()) ∧
    (m.element_2d_type el ∉ vtk_kinds →
      (write_cell_type m mesh_file el).1 =
        Except.error (exception.domain_error "Unknown element.")) ∧
    mesh_file <+: (write_cell_type m mesh_file el).2 := by
  unfold write_cell_type
  cases h : m.element_2d_type el <;> simp only [h] <;> refine ⟨?_, ?_, ?_⟩
  all_goals
    first
    | exact List.prefix_append _ _
    | exact List.prefix_refl _
    | exact fun _ => trivial
    | exact fun hn => absurd (by decide) hn
    | exact fun hm => absurd hm (by decide)

/-- A loop whose body throws exactly on the elements that are not `good`: the loop returns
normally if and only if every element is good, it throws the exception of the body
otherwise, and the stream only grows. -/
theorem for_elements_outcome {F : Type}
    (body : List (item F) → Nat → Except exception Unit × List (item F))
    (good : Nat → Prop) (e : exception)
    (hok : ∀ file el, good el → (body file el).1 = Except.ok ())
    (herr : ∀ file el, ¬ good el → (body file el).1 = Except.error e)
    (hpre : ∀ file el, file <+: (body file el).2)
    (l : List Nat) (mesh_file : List (item F)) :
    ((∀ el, el ∈ l → good el) → (for_elements body l mesh_file).1 = Except.ok ()) ∧
    ((∃ el, el ∈ l ∧ ¬ good el) → (for_elements body l mesh_file).1 = Except.error e) ∧
    mesh_file <+: (for_elements body l mesh_file).2 := by
  induction l generalizing mesh_file with
  | nil =>
    refine ⟨fun _ => rfl, ?_, List.prefix_refl _⟩
    rintro ⟨el, hel, -⟩
    cases hel
  | cons a rest ih =>
    unfold for_elements
    have hp := hpre mesh_file a
    by_cases ha : good a
    · have h1 := hok mesh_file a ha
      rcases hb : body mesh_file a with ⟨r, file⟩
      rw [hb] at h1 hp
      simp only at h1 hp
      subst h1
      simp only
      obtain ⟨i1, i2, i3⟩ := ih file
      refine ⟨fun h => i1 (fun el hel => h el (List.mem_cons_of_mem _ hel)), ?_, hp.trans i3⟩
      rintro ⟨el, hel, hng⟩
      rcases List.mem_cons.mp hel with rfl | hel'
      · exact absurd ha hng
      · exact i2 ⟨el, hel', hng⟩
    · have h1 := herr mesh_file a ha
      rcases hb : body mesh_file a with ⟨r, file⟩
      rw [hb] at h1 hp
      simp only at h1 hp
      subst h1
      simp only
      exact ⟨fun h => absurd (h a (List.mem_cons_self _ _)) ha, fun _ => trivial, hp⟩

/-- C39.  `save_as_vtk` returns without an exception if and only if every element of the
mesh has one of the kinds `TRIANGLE`, `QUADRATIC_TRIANGLE`, `BILINEAR`,
`QUADRATIC_SERENDIPITY` and `QUADRATIC_LAGRANGE`; when some element has another kind it
throws `domain_error` with the message "Unknown element.", and the stream then begins with
what was in it before, the header and the section `POINTS`. -/
theorem save_as_vtk_unknown_element {F : Type} [Field F] (data_type : String) (m : mesh F)
    (mesh_file : List (item F)) :
    ((save_as_vtk data_type m mesh_file).1 = Except.ok () ↔
      ∀ el, el < m.elements_count → m.element_2d_type el ∈ vtk_kinds) ∧
    ((∃ el, el < m.elements_count ∧ m.element_2d_type el ∉ vtk_kinds) →
      (save_as_vtk data_type m mesh_file).1 =
        Except.error (exception.domain_error "Unknown element.") ∧
      write_points data_type m (write_header mesh_file) <+:
        (save_as_vtk data_type m mesh_file).2) := by
  have hcells := for_elements_outcome (write_cell m)
    (fun el => m.element_2d_type el ∈ vtk_kinds) (exception.domain_error "Unknown element.")
    (fun file el => (write_cell_outcome m file el).1)
    (fun file el => (write_cell_outcome m file el).2.1)
    (fun file el => (write_cell_outcome m file el).2.2)
    (List.range m.elements_count)
    (write_points data_type m (write_header mesh_file) ++
      [item.text "CELLS ", item.number m.elements_count, item.text " ",
       item.number (list_size m), item.text "\n"])
  have htypes := fun file => for_elements_outcome (write_cell_type m)
    (fun el => m.element_2d_type el ∈ vtk_kinds) (exception.domain_error "Unknown element.")
    (fun file el => (write_cell_type_outcome m file el).1)
    (fun file el => (write_cell_type_outcome m file el).2.1)
    (fun file el => (write_cell_type_outcome m file el).2.2)
    (List.range m.elements_count) file
  obtain ⟨c1, c2, c3⟩ := hcells
  by_cases hall : ∀ el, el < m.elements_count → m.element_2d_type el ∈ vtk_kinds
  · have hall' : ∀ el, el ∈ List.range m.elements_count → m.element_2d_type el ∈ vtk_kinds :=
      fun el hel => hall el (List.mem_range.mp hel)
    have hc := c1 hall'
    have hres : (save_as_vtk data_type m mesh_file).1 = Except.ok () := by
      unfold save_as_vtk
      simp only
      rcases hb : for_elements (write_cell m) (List.range m.elements_count) _ with ⟨r, file⟩
      rw [hb] at hc
      simp only at hc
      subst hc
      simp only
      exact (htypes _).1 hall'
    refine ⟨⟨fun _ => hall, fun _ => hres⟩, ?_⟩
    rintro ⟨el, hel, hng⟩
    exact absurd (hall el hel) hng
  · have hex : ∃ el, el ∈ List.range m.elements_count ∧ m.element_2d_type el ∉ vtk_kinds := by
      by_contra hno
      apply hall
      intro el hel
      by_contra hng
      exact hno ⟨el, List.mem_range.mpr hel, hng⟩
    have hc := c2 hex
    have hres : (save_as_vtk data_type m mesh_file).1 =
          Except.error (exception.domain_error "Unknown element.") ∧
        write_points data_type m (write_header mesh_file) <+:
          (save_as_vtk data_type m mesh_file).2 := by
      unfold save_as_vtk
      simp only
      rcases hb : for_elements (write_cell m) (List.range m.elements_count) _ with ⟨r, file⟩
      rw [hb] at hc c3
      simp only at hc c3
      subst hc
      simp only
      exact ⟨trivial, (List.prefix_append _ _).trans c3⟩
    refine ⟨⟨fun h => ?_, fun h => absurd h hall⟩, fun _ => hres⟩
    rw [hres.1] at h
    cases h

/-- On the mesh of a triangle and a cubic serendipity element `save_as_vtk` throws after it
has written the header, the section `POINTS`, the head line of the section `CELLS`, the
line of the triangle and the number of nodes of the cubic element. -/
theorem save_as_vtk_cubic :
    save_as_vtk "double" triangle_cubic_mesh [] =
      (Except.error (exception.domain_error "Unknown element."),
        write_points "double" triangle_cubic_mesh (write_header []) ++
          [item.text "CELLS ", item.number 2, item.text " ", item.number 17, item.text "\n",
           item.number 3, item.text " ", item.number 3, item.text " ", item.number 12,
           item.text " ", item.number 4, item.text "\n", item.number 12, item.text " "]) := by
  rfl

theorem save_as_vtk_unknown_element_witness :
    (save_as_vtk "double" triangle_quad_mesh []).1 = Except.ok () ∧
    (save_as_vtk "double" triangle_cubic_mesh []).1 =
      Except.error (exception.domain_error "Unknown element.") ∧
    write_points "double" triangle_cubic_mesh (write_header []) <+:
      (save_as_vtk "double" triangle_cubic_mesh []).2 :=
  ⟨(save_as_vtk_unknown_element "double" triangle_quad_mesh []).1.mpr
      (fun el hel => by
        have h : el < 2 := hel
        interval_cases el <;> decide),
    (save_as_vtk_unknown_element "double" triangle_cubic_mesh []).2 ⟨1, by decide, by decide⟩⟩

end mesh_2d

namespace mechanical

/-! ## The function `temperature_condition` -/

theorem foldl_add_pair {α F : Type} [Field F] (g : α → F × F) (l : List α) (a : F × F) :
    l.foldl (fun acc x => acc + g x) a = a + (l.map g).sum := by
  induction l generalizing a with
  | nil => simp
  | cons x t ih =>
    rw [List.foldl_cons, ih, List.map_cons, List.sum_cons, add_assoc]

/-- The loop over the elements of a node computes the sum of the specification. -/
theorem node_integral_eq {F : Type} [LinearOrderedField F] (mesh : mesh_2d F)
    (parameters : mechanical_parameters_2d F) (n : Nat) :
    node_integral (temperature_integrator.make mesh parameters) mesh parameters n =
      temperature_sum mesh parameters n := by
  unfold node_integral temperature_sum
  have h := foldl_add_pair
    (fun eL =>
      (parameters.materials (mesh.group eL)).model.local_weight •
        (temperature_integrator.make mesh parameters).apply_loc eL (mesh.global_to_local eL n) +
      (if thermal.theory_type (parameters.materials (mesh.group eL)).model.local_weight =
          thermal.theory_t.NONLOCAL then
        thermal.nonlocal_weight (parameters.materials (mesh.group eL)).model.local_weight •
          ((mesh.neighbours eL).map
            (fun eNL =>
              (temperature_integrator.make mesh parameters).apply_nonloc eL eNL
                (mesh.global_to_local eL n)
                (parameters.materials (mesh.group eL)).model.influence)).sum
      else 0)) (mesh.elements n) (0, 0)
  rw [show ((0 : F), (0 : F)) = (0 : F × F) from rfl, zero_add] at h
  rw [← h]
  congr 1
  funext integral eL
  simp only
  split
  · rw [foldl_add_pair, List.smul_sum, List.map_map]
    rw [add_assoc, add_comm (List.sum _)]
    rfl
  · rw [add_zero]

/-- The loop over the nodes with the two writes `f[2 * node + X] += …` and
`f[2 * node + Y] += …`. -/
theorem node_fold_getD {F : Type} [Field F] (g : Nat → F × F) (ns : List Nat)
    (hnd : ns.Nodup) (f : List F) (hlen : ∀ n, n ∈ ns → 2 * n + 1 < f.length) :
    (ns.foldl (fun f node =>
        (f.set (2 * node + X) (f.getD (2 * node + X) 0 + (g node).1)).set (2 * node + Y)
          ((f.set (2 * node + X) (f.getD (2 * node + X) 0 + (g node).1)).getD
            (2 * node + Y) 0 + (g node).2)) f).length = f.length ∧
    (∀ n, n ∈ ns →
      (ns.foldl (fun f node =>
        (f.set (2 * node + X) (f.getD (2 * node + X) 0 + (g node).1)).set (2 * node + Y)
          ((f.set (2 * node + X) (f.getD (2 * node + X) 0 + (g node).1)).getD
            (2 * node + Y) 0 + (g node).2)) f).getD (2 * n + X) 0 =
          f.getD (2 * n + X) 0 + (g n).1 ∧
      (ns.foldl (fun f node =>
        (f.set (2 * node + X) (f.getD (2 * node + X) 0 + (g node).1)).set (2 * node + Y)
          ((f.set (2 * node + X) (f.getD (2 * node + X) 0 + (g node).1)).getD
            (2 * node + Y) 0 + (g node).2)) f).getD (2 * n + Y) 0 =
          f.getD (2 * n + Y) 0 + (g n).2) ∧
    (∀ k, (∀ n, n ∈ ns → k ≠ 2 * n + X ∧ k ≠ 2 * n + Y) →
      (ns.foldl (fun f node =>
        (f.set (2 * node + X) (f.getD (2 * node + X) 0 + (g node).1)).set (2 * node + Y)
          ((f.set (2 * node + X) (f.getD (2 * node + X) 0 + (g node).1)).getD
            (2 * node + Y) 0 + (g node).2)) f).getD k 0 = f.getD k 0) := by
  induction ns generalizing f with
  | nil =>
    refine ⟨rfl, ?_, fun _ _ => rfl⟩
    intro n hn
    cases hn
  | cons a t ih =>
    have hat : a ∉ t := (List.nodup_cons.mp hnd).1
    have hlen' : ∀ n, n ∈ t → 2 * n + 1 <
        ((f.set (2 * a + X) (f.getD (2 * a + X) 0 + (g a).1)).set (2 * a + Y)
          ((f.set (2 * a + X) (f.getD (2 * a + X) 0 + (g a).1)).getD
            (2 * a + Y) 0 + (g a).2)).length := by
      intro n hn
      simpa using hlen n (List.mem_cons_of_mem _ hn)
    obtain ⟨i1, i2, i3⟩ := ih (List.nodup_cons.mp hnd).2 _ hlen'
    have ha := hlen a (List.mem_cons_self _ _)
    simp only [List.foldl_cons]
    refine ⟨by rw [i1]; simp, ?_, ?_⟩
    · intro n hn
      rcases List.mem_cons.mp hn with rfl | hn'
      · have hk : ∀ m, m ∈ t → 2 * n + X ≠ 2 * m + X ∧ 2 * n + X ≠ 2 * m + Y ∧
            2 * n + Y ≠ 2 * m + X ∧ 2 * n + Y ≠ 2 * m + Y := by
          intro m hm
          have : n ≠ m := fun h => hat (h ▸ hm)
          unfold X Y
          omega
        rw [i3 _ (fun m hm => ⟨(hk m hm).1, (hk m hm).2.1⟩),
          i3 _ (fun m hm => ⟨(hk m hm).2.2.1, (hk m hm).2.2.2⟩)]
        have hxy : 2 * n + X ≠ 2 * n + Y := by unfold X Y; omega
        constructor
        · rw [CuthillMcKee.getD_set_ne _ _ _ _ _ (Ne.symm hxy),
            CuthillMcKee.getD_set_eq _ _ _ _ (by unfold X; omega)]
        · rw [CuthillMcKee.getD_set_eq _ _ _ _ (by rw [List.length_set]; unfold Y; omega),
            CuthillMcKee.getD_set_ne _ _ _ _ _ hxy]
      · obtain ⟨j1, j2⟩ := i2 n hn'
        have hne : a ≠ n := fun h => hat (h ▸ hn')
        rw [j1, j2]
        constructor
        · rw [CuthillMcKee.getD_set_ne _ _ _ _ _ (by unfold X Y; omega),
            CuthillMcKee.getD_set_ne _ _ _ _ _ (by unfold X; omega)]
        · rw [CuthillMcKee.getD_set_ne _ _ _ _ _ (by unfold Y; omega),
            CuthillMcKee.getD_set_ne _ _ _ _ _ (by unfold X Y; omega)]
    · intro k hk
      rw [i3 k (fun n hn => hk n (List.mem_cons_of_mem _ hn))]
      obtain ⟨h1, h2⟩ := hk a (List.mem_cons_self _ _)
      rw [CuthillMcKee.getD_set_ne _ _ _ _ _ (Ne.symm h2),
        CuthillMcKee.getD_set_ne _ _ _ _ _ (Ne.symm h1)]

/-- C40.  `temperature_condition` adds to `f[2n + X]` and `f[2n + Y]`, for each node `n` of
the processed range, the two components of the sum of the specification over the elements
of `n`, it leaves every other entry of `f` as it is and it keeps the length of `f`. -/
theorem temperature_condition_entries {F : Type} [LinearOrderedField F] (f : List F)
    (mesh : mesh_2d F) (parameters : mechanical_parameters_2d F)
    (hlen : 2 * mesh.process_nodes_end ≤ f.length) :
    (temperature_condition f mesh parameters).length = f.length ∧
    (∀ n, mesh.process_nodes_front ≤ n → n < mesh.process_nodes_end →
      (temperature_condition f mesh parameters).getD (2 * n + X) 0 =
        f.getD (2 * n + X) 0 + (temperature_sum mesh parameters n).1 ∧
      (temperature_condition f mesh parameters).getD (2 * n + Y) 0 =
        f.getD (2 * n + Y) 0 + (temperature_sum mesh parameters n).2) ∧
    (∀ k, (∀ n, mesh.process_nodes_front ≤ n → n < mesh.process_nodes_end →
        k ≠ 2 * n + X ∧ k ≠ 2 * n + Y) →
      (temperature_condition f mesh parameters).getD k 0 = f.getD k 0) := by
  have hmem : ∀ n, n ∈ List.range' mesh.process_nodes_front
      (mesh.process_nodes_end - mesh.process_nodes_front) ↔
      mesh.process_nodes_front ≤ n ∧ n < mesh.process_nodes_end := by
    intro n
    rw [List.mem_range'_1]
    omega
  obtain ⟨h1, h2, h3⟩ := node_fold_getD
    (fun n => node_integral (temperature_integrator.make mesh parameters) mesh parameters n)
    (List.range' mesh.process_nodes_front (mesh.process_nodes_end - mesh.process_nodes_front))
    (List.nodup_range' _ _) f
    (fun n hn => by
      have := (hmem n).mp hn
      omega)
  unfold temperature_condition
  refine ⟨h1, ?_, ?_⟩
  · intro n hn1 hn2
    have := h2 n ((hmem n).mpr ⟨hn1, hn2⟩)
    rw [node_integral_eq] at this
    exact this
  · intro k hk
    exact h3 k (fun n hn => hk n ((hmem n).mp hn).1 ((hmem n).mp hn).2)

theorem temperature_condition_entries_witness :
    2 * two_triangles_mesh.process_nodes_end ≤ (List.replicate 8 (0 : ℚ)).length ∧
    (temperature_condition (List.replicate 8 (0 : ℚ)) two_triangles_mesh
      two_triangles_parameters).length = (List.replicate 8 (0 : ℚ)).length ∧
    (∀ n, two_triangles_mesh.process_nodes_front ≤ n → n < two_triangles_mesh.process_nodes_end →
      (temperature_condition (List.replicate 8 (0 : ℚ)) two_triangles_mesh
        two_triangles_parameters).getD (2 * n + X) 0 =
        (List.replicate 8 (0 : ℚ)).getD (2 * n + X) 0 +
          (temperature_sum two_triangles_mesh two_triangles_parameters n).1 ∧
      (temperature_condition (List.replicate 8 (0 : ℚ)) two_triangles_mesh
        two_triangles_parameters).getD (2 * n + Y) 0 =
        (List.replicate 8 (0 : ℚ)).getD (2 * n + Y) 0 +
          (temperature_sum two_triangles_mesh two_triangles_parameters n).2) ∧
    (∀ k, (∀ n, two_triangles_mesh.process_nodes_front ≤ n →
        n < two_triangles_mesh.process_nodes_end → k ≠ 2 * n + X ∧ k ≠ 2 * n + Y) →
      (temperature_condition (List.replicate 8 (0 : ℚ)) two_triangles_mesh
        two_triangles_parameters).getD k 0 = (List.replicate 8 (0 : ℚ)).getD k 0) :=
  ⟨by decide, temperature_condition_entries (List.replicate 8 (0 : ℚ)) two_triangles_mesh
    two_triangles_parameters (by decide)⟩

/-- The sum of the specification at node 1 of `two_triangles_mesh`: the local triangle 0
gives `(3, 0)`, the nonlocal triangle 1 gives `(0, -3/2)` as its local part and as much as
its nonlocal part. -/
theorem temperature_sum_two_triangles :
    temperature_sum two_triangles_mesh two_triangles_parameters 1 = (3, -3) := by
  simp [temperature_sum, two_triangles_mesh, two_triangles_parameters,
    temperature_integrator.make, temperature_integrator.apply_loc,
    temperature_integrator.apply_nonloc, approximate_delta_temperature_in_qnodes,
    thermal.theory_type, thermal.nonlocal_weight, jacobian, List.range_succ, List.indexOf_cons]
  norm_num

end mechanical
